import Mathlib

/-!
# Activity tree engine

A shallow embedding of `pkg/security/security_profile/activity_tree/activity_tree.go`.

* A `*ProcessNode` is a number (`NodePtr`, `none` is the nil pointer); every node of the forest
  carries the number it was allocated with, and `nextPtr` is the allocator.
* The forest is an inductive tree: the root list and every `Children` slice are lists of nodes.
  A state is therefore always a finite forest in which a node has one parent.
* The fields of a node that the insertion of an event rewrites without touching the shape of the
  forest (`MatchedRules`, `Files`, `DNSNames`, `Sockets`, `Syscalls`, `Process.ExitTime`) are kept
  in `ActivityTree.payload`, indexed by the pointer of the node.
* A `*model.ProcessCacheEntry` is an `Option ProcessCacheEntry`; the `Ancestor` links of an entry
  are the list `Ancestors`, nearest ancestor first.
* What a function of another package answers on an entry (`IsBusybox`, `GetProcessArgv0`,
  `IsFileless`, `IsExecChild`, `HasCompleteLineage`, `ExecTime.IsZero`, `ExecTime.UnixNano`) is a
  field of the entry.
* The event counters are `atomic.Uint64` and the node counters `int64`; a counter moves by one
  per event or per node, so it stays far from its 64-bit bound and is a `Nat` or an `Int`.
* The recursion of `CreateProcessNode` and the loop of `findProcessCacheEntryInChildExecedNodes`
  carry a bound and answer `none` when it is reached; `createProcessNodeRec_fuel` and
  `execedNodesLoop_fuel` show that the bounds the callers give are never reached.
* The methods of `ProcessNode` defined in other files of the package (`Matches`, the `Insert…`
  methods) are the fields of `Collaborators`, a parameter of every function that calls them.
* A map is the list of its entries in the order the iteration gives them, which is not
  specified: `SyscallsMask`, and the `Files` and `Children` of the file tries. The keys of
  `SyscallsMask` are `int` and `ComputeSyscallsList` converts them to `uint32`, modulo `2^32`.
* The two loops of `ComputeActivityTreeStats` carry a bound as well;
  `ComputeActivityTreeStats_adds` shows that it is never reached.
-/

namespace SecurityProfile

/-! ## Data model -/

/-- The reasons to drop a node (`NodeDroppedReason`). -/
inductive NodeDroppedReason where
  | eventTypeReason
  | invalidRootNodeReason
  | bindFamilyReason
  | brokenEventReason
deriving DecidableEq, Repr

/-- The type `NodeGenerationType` is a byte. -/
abbrev NodeGenerationType := Nat

/-- A node that was added at an unknown time. -/
def Unknown : NodeGenerationType := 0
/-- A node that was added at runtime. -/
def Runtime : NodeGenerationType := 1
/-- A node that was added during the snapshot. -/
def Snapshot : NodeGenerationType := 2
/-- A node that was added because of a drift from a security profile. -/
def ProfileDrift : NodeGenerationType := 3
/-- A node that was added because of a drift in a warming up profile. -/
def WorkloadWarmup : NodeGenerationType := 4
/-- The maximum node type. -/
def MaxNodeGenerationType : NodeGenerationType := 4

/-- The event types the tree dispatches on; every other `model.EventType` is `Other`. -/
inductive EventType where
  | ExecEventType
  | FileOpenEventType
  | DNSEventType
  | BindEventType
  | SyscallsEventType
  | ExitEventType
  | Other (code : Nat)
deriving DecidableEq, Repr

/-- The errors of the package: the three exported values and the values built in place with
`fmt.Errorf` and `errors.New`. -/
inductive Error where
  | ErrBrokenLineage
  | ErrContainerIDNotEqual
  | ErrNotValidRootNode
  | invalidGenerationType (generationType : NodeGenerationType)
  | eventTypeNotValid (evtType : EventType)
  | invalidBindFamily
  | invalidEvent (cause : Error)
  | invalidEventNoCause
  | noProcessNode
  | eventError (msg : String)
deriving DecidableEq, Repr

/-- The fields of `model.FileEvent` the tree reads. `IsFileless` is the answer of the method of
that name, `IsBusybox` the answer of `process.IsBusybox` on `PathnameStr`. -/
structure FileEvent where
  Inode : Nat
  PathnameStr : String
  BasenameStr : String
  IsFileless : Bool
  IsBusybox : Bool
deriving DecidableEq, Repr

/-- The fields of `model.Process` the tree reads. `Argv0` is the string `process.GetProcessArgv0`
returns, `ExecTimeIsZero` and `ExecTimeUnixNano` what `ExecTime.IsZero()` and
`ExecTime.UnixNano()` return. -/
structure Process where
  FileEvent : FileEvent
  Argv0 : String
  ExecTimeIsZero : Bool
  ExecTimeUnixNano : Int
  Cookie : Nat
deriving DecidableEq, Repr

/-- One process cache entry without its `Ancestor` link. `IsExecChild` and `HasCompleteLineage`
are the answers of the methods of those names. -/
structure EntryInfo where
  Process : Process
  IsExecChild : Bool
  HasCompleteLineage : Bool
deriving DecidableEq, Repr

/-- A non-nil `*model.ProcessCacheEntry` (and the `ProcessContext` it embeds): the entry and the
chain of its `Ancestor` links, nearest first. -/
structure ProcessCacheEntry where
  info : EntryInfo
  Ancestors : List EntryInfo
deriving DecidableEq, Repr

/-- The field `entry.Ancestor`; `none` is nil. -/
def ProcessCacheEntry.Ancestor (entry : ProcessCacheEntry) : Option ProcessCacheEntry :=
  match entry.Ancestors with
  | [] => none
  | a :: rest => some ⟨a, rest⟩

/-- A `*ProcessNode`; `none` is nil. -/
abbrev NodePtr := Option Nat

/-- A process node: its pointer, the fields fixed at creation and its `Children`. -/
inductive ProcessNode where
  | mk (ptr : Nat) (Process : Process) (GenerationType : NodeGenerationType)
      (IsExecChild : Bool) (Children : List ProcessNode) : ProcessNode
deriving Repr

namespace ProcessNode

/-- The pointer of the node. -/
def ptr : ProcessNode → Nat
  | mk p _ _ _ _ => p

/-- The field `Process`. -/
def Process : ProcessNode → SecurityProfile.Process
  | mk _ p _ _ _ => p

/-- The field `GenerationType`. -/
def GenerationType : ProcessNode → NodeGenerationType
  | mk _ _ g _ _ => g

/-- The field `IsExecChild`. -/
def IsExecChild : ProcessNode → Bool
  | mk _ _ _ e _ => e

/-- The field `Children`. -/
def Children : ProcessNode → List ProcessNode
  | mk _ _ _ _ c => c

end ProcessNode

/-- A file node of the trie of a process node: whether `File` is not nil, and its `Children`. -/
inductive FileNode where
  | mk (Name : String) (HasFile : Bool) (Children : List FileNode) : FileNode
deriving Repr

/-- The fields of a process node that events rewrite. -/
structure NodePayload where
  MatchedRules : List Nat
  ExitTime : Nat
  Files : List FileNode
  DNSNames : List String
  Sockets : List (Nat × Nat × Nat)
  Syscalls : List Int

/-- The payload of a node that has just been created. -/
def NodePayload.empty : NodePayload := ⟨[], 0, [], [], [], []⟩

/-- The statistics block (`ActivityTreeStats`). -/
structure ActivityTreeStats where
  ProcessNodes : Int
  FileNodes : Int
  DNSNodes : Int
  SocketNodes : Int
  processedCount : EventType → Nat
  addedCount : EventType → NodeGenerationType → Nat
  droppedCount : EventType → NodeDroppedReason → Nat

/-- The result of `NewActivityTreeNodeStats`: every counter is zero. -/
def NewActivityTreeNodeStats : ActivityTreeStats :=
  ⟨0, 0, 0, 0, fun _ => 0, fun _ _ => 0, fun _ _ => 0⟩

/-- The key of the cookie cache. -/
structure cookieSelector where
  execTime : Int
  cookie : Nat
deriving DecidableEq, Repr

/-- A selector is set when both fields are non-zero. -/
def cookieSelector.isSet (cs : cookieSelector) : Bool :=
  cs.execTime != 0 && cs.cookie != 0

/-- The owner of the tree (`ActivityTreeOwner`). `NewProcessNodeCallback` is recorded in
`ActivityTree.callbacks`. -/
structure ActivityTreeOwner where
  MatchesSelector : ProcessCacheEntry → Bool
  IsEventTypeValid : EventType → Bool

/-- The fields of `model.Event` the tree reads. `Error` is the field of that name once
`ResolveFieldsForAD` has run. -/
structure Event where
  EventType : EventType
  ProcessCacheEntry : Option ProcessCacheEntry
  BindAddrFamily : Nat
  Error : Option Error
  Rules : List Nat
  Timestamp : Nat
  OpenPath : String
  DNSName : String
  BindPort : Nat
  Syscalls : List Int

/-- The address family `unix.AF_INET`. -/
def AF_INET : Nat := 2
/-- The address family `unix.AF_INET6`. -/
def AF_INET6 : Nat := 10

/-- The tree. `payload`, `nextPtr` and `callbacks` are the heap of node payloads, the allocator
of node pointers and the trace of the calls of `NewProcessNodeCallback`. -/
structure ActivityTree where
  Stats : ActivityTreeStats
  differentiateArgs : Bool
  DNSMatchMaxDepth : Nat
  validator : ActivityTreeOwner
  CookieToProcessNode : cookieSelector → Option NodePtr
  ProcessNodes : List ProcessNode
  DNSNames : List String
  SyscallsMask : List (Int × Int)
  payload : Nat → NodePayload
  nextPtr : Nat
  callbacks : List Nat

/-- Modelled from the spec: the methods of `ProcessNode` and of `model` that the tree calls and
that are defined outside the embedded file. `Matches` compares the `Process` of a node with the
process of an entry; the `Insert…` methods rewrite the payload of the node, the statistics and
the top level summaries they are handed, and answer whether an entry was added. -/
structure Collaborators where
  Matches : Process → Process → Bool → Bool
  AppendMatchedRule : List Nat → List Nat → List Nat
  InsertFileEvent : Event → NodeGenerationType → Bool → NodePayload → ActivityTreeStats →
    NodePayload × ActivityTreeStats × Bool
  InsertDNSEvent : Event → NodeGenerationType → Bool → Nat → NodePayload → ActivityTreeStats →
    List String → NodePayload × ActivityTreeStats × List String × Bool
  InsertBindEvent : Event → NodeGenerationType → Bool → NodePayload → ActivityTreeStats →
    NodePayload × ActivityTreeStats × Bool
  InsertSyscalls : Event → NodePayload → List (Int × Int) → NodePayload × List (Int × Int) × Bool

/-- The result of `NewActivityTree`. -/
def NewActivityTree (validator : ActivityTreeOwner) : ActivityTree :=
  { Stats := NewActivityTreeNodeStats
    differentiateArgs := false
    DNSMatchMaxDepth := 0
    validator := validator
    CookieToProcessNode := fun _ => none
    ProcessNodes := []
    DNSNames := []
    SyscallsMask := []
    payload := fun _ => NodePayload.empty
    nextPtr := 0
    callbacks := [] }

/-- Modelled from the spec: `NewProcessNode` (defined outside the embedded file) allocates a node
for the entry: the process identity of the entry, the generation type, the exec-child mark of the
entry, and no child. -/
def NewProcessNode (entry : ProcessCacheEntry) (generationType : NodeGenerationType)
    (ptr : Nat) : ProcessNode :=
  ProcessNode.mk ptr entry.info.Process generationType entry.info.IsExecChild []

/-! ## The forest -/

mutual
/-- The number of process nodes of a tree. -/
def ProcessNode.count : ProcessNode → Nat
  | .mk _ _ _ _ cs => 1 + countNodes cs
/-- The number of process nodes of a forest. -/
def countNodes : List ProcessNode → Nat
  | [] => 0
  | n :: rest => n.count + countNodes rest
end

mutual
/-- The pointers of the nodes of a tree, in depth-first order. -/
def ProcessNode.ptrs : ProcessNode → List Nat
  | .mk p _ _ _ cs => p :: forestPtrs cs
/-- The pointers of the nodes of a forest, in depth-first order. -/
def forestPtrs : List ProcessNode → List Nat
  | [] => []
  | n :: rest => n.ptrs ++ forestPtrs rest
end

mutual
/-- The node a pointer designates in a tree. -/
def ProcessNode.find (p : Nat) : ProcessNode → Option ProcessNode
  | .mk q pr g e cs => if q = p then some (.mk q pr g e cs) else findNode p cs
/-- The node a pointer designates in a forest. -/
def findNode (p : Nat) : List ProcessNode → Option ProcessNode
  | [] => none
  | n :: rest =>
    match n.find p with
    | some r => some r
    | none => findNode p rest
end

mutual
/-- Rewrites the `Children` of the node a pointer designates in a tree; `none` when the pointer
designates no node of the tree. -/
def ProcessNode.modifyChildren (p : Nat) (f : List ProcessNode → List ProcessNode) :
    ProcessNode → Option ProcessNode
  | .mk q pr g e cs =>
    if q = p then some (.mk q pr g e (f cs))
    else
      match modifyChildrenIn p f cs with
      | some cs' => some (.mk q pr g e cs')
      | none => none
/-- Rewrites the `Children` of the node a pointer designates in a forest. -/
def modifyChildrenIn (p : Nat) (f : List ProcessNode → List ProcessNode) :
    List ProcessNode → Option (List ProcessNode)
  | [] => none
  | n :: rest =>
    match n.modifyChildren p f with
    | some n' => some (n' :: rest)
    | none =>
      match modifyChildrenIn p f rest with
      | some rest' => some (n :: rest')
      | none => none
end

/-- A `*[]*ProcessNode`: the root list of the tree or the `Children` of a node. -/
inductive SiblingsRef where
  | roots
  | childrenOf (parent : Nat)
deriving DecidableEq, Repr

/-- Reads `*tree`. -/
def getSiblings (tree : SiblingsRef) (at_ : ActivityTree) : List ProcessNode :=
  match tree with
  | .roots => at_.ProcessNodes
  | .childrenOf p =>
    match findNode p at_.ProcessNodes with
    | some n => n.Children
    | none => []

/-- Rewrites `*tree` in place: `*tree = f(*tree)`. -/
def updateSiblings (tree : SiblingsRef) (f : List ProcessNode → List ProcessNode)
    (at_ : ActivityTree) : ActivityTree :=
  match tree with
  | .roots => { at_ with ProcessNodes := f at_.ProcessNodes }
  | .childrenOf p =>
    match modifyChildrenIn p f at_.ProcessNodes with
    | some forest => { at_ with ProcessNodes := forest }
    | none => at_

/-! ## Ancestors and root nodes -/

/-- Whether the basename is the one of a container runtime. -/
def isContainerRuntimePrefix (basename : String) : Bool :=
  "runc".toList.isPrefixOf basename.toList || "containerd-shim".toList.isPrefixOf basename.toList

/-- The loop of `GetNextAncestorBinaryOrArgv0`: `current` and the chain starting at `ancestor`. -/
def nextAncestorLoop (current : EntryInfo) : List EntryInfo → Option ProcessCacheEntry
  | [] => none
  | ancestor :: rest =>
    if ancestor.Process.FileEvent.Inode = 0 then none
    else if current.Process.FileEvent.Inode ≠ ancestor.Process.FileEvent.Inode then
      some ⟨ancestor, rest⟩
    else if current.Process.FileEvent.IsBusybox && ancestor.Process.FileEvent.IsBusybox then
      if current.Process.Argv0.length = 0 then none
      else if ancestor.Process.Argv0.length = 0 then none
      else if current.Process.Argv0 ≠ ancestor.Process.Argv0 then some ⟨ancestor, rest⟩
      else nextAncestorLoop ancestor rest
    else nextAncestorLoop ancestor rest

/-- The first ancestor with a different binary, or a different argv0 in the case of busybox
processes. -/
def GetNextAncestorBinaryOrArgv0 (entry : Option ProcessCacheEntry) : Option ProcessCacheEntry :=
  match entry with
  | none => none
  | some e => nextAncestorLoop e.info e.Ancestors

/-- Whether the process entry is allowed to become a root node. -/
def isValidRootNode (entry : ProcessCacheEntry) : Bool :=
  match GetNextAncestorBinaryOrArgv0 (some entry) with
  | none => false
  | some ancestor =>
    if entry.info.Process.FileEvent.IsFileless then
      !( isContainerRuntimePrefix ancestor.info.Process.FileEvent.BasenameStr
        || isContainerRuntimePrefix entry.info.Process.FileEvent.BasenameStr)
    else
      !( isContainerRuntimePrefix entry.info.Process.FileEvent.BasenameStr)

/-- Whether the entry carries a cookie. -/
def eventHaveValidCookie (entry : ProcessCacheEntry) : Bool :=
  !entry.info.Process.ExecTimeIsZero && entry.info.Process.Cookie != 0


/-! ## Statistics -/

/-- The call `Stats.processedCount[evtType].Inc()`. -/
def ActivityTreeStats.incProcessed (st : ActivityTreeStats) (evtType : EventType) :
    ActivityTreeStats :=
  { st with processedCount := fun t =>
      if t = evtType then st.processedCount t + 1 else st.processedCount t }

/-- The call `Stats.addedCount[evtType][generationType].Inc()`, `n` times. -/
def ActivityTreeStats.incAdded (st : ActivityTreeStats) (evtType : EventType)
    (generationType : NodeGenerationType) (n : Nat) : ActivityTreeStats :=
  { st with addedCount := fun t g =>
      if t = evtType ∧ g = generationType then st.addedCount t g + n else st.addedCount t g }

/-- The call `Stats.droppedCount[evtType][reason].Inc()`. -/
def ActivityTreeStats.incDropped (st : ActivityTreeStats) (evtType : EventType)
    (reason : NodeDroppedReason) : ActivityTreeStats :=
  { st with droppedCount := fun t r =>
      if t = evtType ∧ r = reason then st.droppedCount t r + 1 else st.droppedCount t r }

/-- The statement `Stats.ProcessNodes++`, `n` times. -/
def ActivityTreeStats.addProcessNodes (st : ActivityTreeStats) (n : Nat) : ActivityTreeStats :=
  { st with ProcessNodes := st.ProcessNodes + n }

/-! ## Looking an entry up in a list of nodes -/

/-- The loop of `findProcessCacheEntryInChildExecedNodes` on the queue `execChildren`; `none`
when the fuel runs out. -/
def execedNodesLoop (x : Collaborators) (differentiateArgs : Bool) (entry : ProcessCacheEntry) :
    Nat → List ProcessNode → Option (Option ProcessNode)
  | 0, _ => none
  | _ + 1, [] => some none
  | fuel + 1, cursor :: execChildren =>
    match execChildren ++ cursor.Children.filter (fun node => node.IsExecChild) with
    | [] => some none
    | head :: tail =>
      if x.Matches head.Process entry.info.Process differentiateArgs then some (some head)
      else execedNodesLoop x differentiateArgs entry fuel (head :: tail)

/-- Looks for entry in the execed nodes of child. The queue loses a node of the subtree of
`child` at every turn, so that the fuel is enough (`execedNodesLoop_fuel`). -/
def findProcessCacheEntryInChildExecedNodes (x : Collaborators) (differentiateArgs : Bool)
    (child : ProcessNode) (entry : ProcessCacheEntry) : Option ProcessNode :=
  match execedNodesLoop x differentiateArgs entry (child.count + 1) [child] with
  | some r => r
  | none => none

/-- Looks for the entry in the list of process nodes, from index `i` on: the node found and the
index of the top level child that lead to it. -/
def findProcessCacheEntryInChildrenNodesFrom (x : Collaborators) (differentiateArgs : Bool)
    (entry : ProcessCacheEntry) : List ProcessNode → Nat → Option (ProcessNode × Nat)
  | [], _ => none
  | child :: rest, i =>
    if x.Matches child.Process entry.info.Process differentiateArgs then some (child, i)
    else
      match findProcessCacheEntryInChildExecedNodes x differentiateArgs child entry with
      | some execChild => some (execChild, i)
      | none => findProcessCacheEntryInChildrenNodesFrom x differentiateArgs entry rest (i + 1)

/-- Looks for the entry in the list of process nodes. -/
def findProcessCacheEntryInChildrenNodes (x : Collaborators) (differentiateArgs : Bool)
    (tree : List ProcessNode) (entry : ProcessCacheEntry) : Option (ProcessNode × Nat) :=
  findProcessCacheEntryInChildrenNodesFrom x differentiateArgs entry tree 0

/-! ## Branch search and rebase -/

/-- The chain of new nodes a rebase creates for the entries, allocated from `ptr` on, above the
node `moved`. -/
def rebaseChain (generationType : NodeGenerationType) :
    List ProcessCacheEntry → Nat → ProcessNode → ProcessNode
  | [], _, moved => moved
  | e :: rest, ptr, moved =>
    ProcessNode.mk ptr e.info.Process generationType e.info.IsExecChild
      [rebaseChain generationType rest (ptr + 1) moved]

/-- The list `*tree` after a rebase: the top level node of index `treeNodeToRebaseIndex` is
removed and the chain of new nodes, which ends on it, is appended. -/
def rebaseSiblings (generationType : NodeGenerationType) (newNodes : List ProcessCacheEntry)
    (ptr : Nat) (treeNodeToRebaseIndex : Nat) (siblings : List ProcessNode) :
    List ProcessNode :=
  match siblings[treeNodeToRebaseIndex]? with
  | none => siblings
  | some moved =>
    siblings.eraseIdx treeNodeToRebaseIndex ++ [rebaseChain generationType newNodes ptr moved]

/-- The rebase of `findBranchInChildrenNodes`: new nodes for `branch[0..i-1]`, the first one
appended to `*tree`, the top level node of index `treeNodeToRebaseIndex` moved below the last
one; the counters, and the callback on the first new node. -/
def rebaseTree (tree : SiblingsRef) (branch : List ProcessCacheEntry) (i : Nat)
    (treeNodeToRebaseIndex : Nat) (generationType : NodeGenerationType) (at_ : ActivityTree) :
    ActivityTree :=
  { updateSiblings tree
      (rebaseSiblings generationType (branch.take i) at_.nextPtr treeNodeToRebaseIndex) at_ with
    Stats := (at_.Stats.addProcessNodes i).incAdded EventType.ExecEventType generationType i
    nextPtr := at_.nextPtr + i
    callbacks := at_.callbacks ++ [at_.nextPtr] }

/-- The loop of `findBranchInChildrenNodes` at index `i`, on `branch[i:]`. -/
def findBranchLoop (x : Collaborators) (tree : SiblingsRef) (branch : List ProcessCacheEntry)
    (dryRun : Bool) (generationType : NodeGenerationType) (at_ : ActivityTree) :
    Nat → List ProcessCacheEntry → NodePtr × Bool × ActivityTree
  | _, [] => (none, false, at_)
  | i, branchCursor :: rest =>
    match findProcessCacheEntryInChildrenNodes x at_.differentiateArgs (getSiblings tree at_)
        branchCursor with
    | some (treeNodeToRebase, treeNodeToRebaseIndex) =>
      if i = 0 then (some treeNodeToRebase.ptr, false, at_)
      else if dryRun then (none, true, at_)
      else (some at_.nextPtr, true,
        rebaseTree tree branch i treeNodeToRebaseIndex generationType at_)
    | none =>
      match rest with
      | [] => (none, false, at_)
      | next :: _ =>
        if next.info.IsExecChild then
          findBranchLoop x tree branch dryRun generationType at_ (i + 1) rest
        else (none, false, at_)

/-- Looks for the provided branch in the list of children. Returns the node that matches the
first node of the branch and true if a new entry was inserted. -/
def findBranchInChildrenNodes (x : Collaborators) (tree : SiblingsRef)
    (branch : List ProcessCacheEntry) (dryRun : Bool) (generationType : NodeGenerationType)
    (at_ : ActivityTree) : NodePtr × Bool × ActivityTree :=
  findBranchLoop x tree branch dryRun generationType at_ 0 branch

/-! ## CreateProcessNode -/

/-- What `CreateProcessNode` returns, and the tree after the call. -/
structure CreateResult where
  node : NodePtr
  newProcessNode : Bool
  err : Option Error
  tree : ActivityTree

/-- The assignment `at.CookieToProcessNode[cs] = node`. -/
def setCookie (cs : cookieSelector) (node : NodePtr) (at_ : ActivityTree) : ActivityTree :=
  { at_ with
    CookieToProcessNode := fun k => if k = cs then some node else at_.CookieToProcessNode k }

/-- The deferred function of `CreateProcessNode`: if a node was found, and if the entry has a
valid cookie, insert a cookie shortcut. -/
def deferCookie (cs : cookieSelector) (r : CreateResult) : CreateResult :=
  match r.node with
  | none => r
  | some n => if cs.isSet then { r with tree := setCookie cs (some n) r.tree } else r

/-- The selector `cs` of `CreateProcessNode`. -/
def entryCookieSelector (entry : ProcessCacheEntry) : cookieSelector :=
  if eventHaveValidCookie entry then
    ⟨entry.info.Process.ExecTimeUnixNano, entry.info.Process.Cookie⟩
  else ⟨0, 0⟩

/-- A new node for the entry, appended to `*tree`, with the counters and the callback of the end
of `CreateProcessNode`. -/
def appendNewNode (tree : SiblingsRef) (entry : ProcessCacheEntry)
    (generationType : NodeGenerationType) (at_ : ActivityTree) : ActivityTree :=
  { updateSiblings tree
      (fun siblings => siblings ++ [NewProcessNode entry generationType at_.nextPtr]) at_ with
    Stats := (at_.Stats.addProcessNodes 1).incAdded EventType.ExecEventType generationType 1
    nextPtr := at_.nextPtr + 1
    callbacks := at_.callbacks ++ [at_.nextPtr] }

/-- The part of `CreateProcessNode` that follows the recursive call, whose results are
`parent`. -/
def attachProcessNode (x : Collaborators) (entry : ProcessCacheEntry)
    (branch : List ProcessCacheEntry) (generationType : NodeGenerationType) (dryRun : Bool)
    (parent : CreateResult) : CreateResult :=
  if parent.err = none && parent.newProcessNode && dryRun then parent
  else
    match parent.node with
    | none =>
      if !parent.tree.validator.MatchesSelector entry then
        ⟨none, false, some Error.ErrContainerIDNotEqual, parent.tree⟩
      else
        match findBranchInChildrenNodes x SiblingsRef.roots branch dryRun generationType
            parent.tree with
        | (some branchRoot, newChildNode, at1) => ⟨some branchRoot, newChildNode, none, at1⟩
        | (none, _, at1) =>
          if !isValidRootNode entry then ⟨none, false, some Error.ErrNotValidRootNode, at1⟩
          else if !dryRun then
            ⟨some at1.nextPtr, true, none,
              appendNewNode SiblingsRef.roots entry generationType at1⟩
          else ⟨none, true, none, at1⟩
    | some parentNode =>
      match findBranchInChildrenNodes x (SiblingsRef.childrenOf parentNode) branch dryRun
          generationType parent.tree with
      | (some branchRoot, newChildNode, at1) =>
        ⟨some branchRoot, newChildNode || parent.newProcessNode, none, at1⟩
      | (none, _, at1) =>
        if !dryRun then
          ⟨some at1.nextPtr, true, none,
            appendNewNode (SiblingsRef.childrenOf parentNode) entry generationType at1⟩
        else ⟨none, true, none, at1⟩

/-- The function `CreateProcessNode` with a bound on the depth of the recursion; `none` when the
bound is reached. -/
def createProcessNodeRec (x : Collaborators) :
    Nat → Option ProcessCacheEntry → List ProcessCacheEntry → NodeGenerationType → Bool →
    ActivityTree → Option CreateResult
  | 0, _, _, _, _, _ => none
  | _ + 1, none, _, _, _, at_ => some ⟨none, false, none, at_⟩
  | fuel + 1, some entry, branch, generationType, dryRun, at_ =>
    if !entry.info.HasCompleteLineage then some ⟨none, false, some Error.ErrBrokenLineage, at_⟩
    else
      match (if eventHaveValidCookie entry then at_.CookieToProcessNode (entryCookieSelector entry)
          else none) with
      | some node => some ⟨node, false, none, at_⟩
      | none =>
        match createProcessNodeRec x fuel (GetNextAncestorBinaryOrArgv0 (some entry))
            (entry :: branch) Snapshot dryRun at_ with
        | none => none
        | some parent =>
          some (deferCookie (entryCookieSelector entry)
            (attachProcessNode x entry (entry :: branch) generationType dryRun parent))

/-- The number of entries of a lineage. -/
def lineageDepth : Option ProcessCacheEntry → Nat
  | none => 0
  | some entry => entry.Ancestors.length + 1

/-- Finds or creates a process activity node for the entry. Every recursive call is made on an
older entry, so that the bound is never reached (`createProcessNodeRec_fuel`). -/
def CreateProcessNode (x : Collaborators) (entry : Option ProcessCacheEntry)
    (branch : List ProcessCacheEntry) (generationType : NodeGenerationType) (dryRun : Bool)
    (at_ : ActivityTree) : CreateResult :=
  match createProcessNodeRec x (lineageDepth entry + 1) entry branch generationType dryRun at_ with
  | some r => r
  | none => ⟨none, false, none, at_⟩

/-! ## Insert and Contains -/

/-- Evaluates if the provided event is valid. -/
def isEventValid (event : Event) (dryRun : Bool) (at_ : ActivityTree) :
    Bool × Option Error × ActivityTree :=
  if !at_.validator.IsEventTypeValid event.EventType then
    (false, some (Error.eventTypeNotValid event.EventType),
      if !dryRun then
        { at_ with Stats := at_.Stats.incDropped event.EventType NodeDroppedReason.eventTypeReason }
      else at_)
  else if event.EventType = EventType.BindEventType ∧ event.BindAddrFamily ≠ AF_INET
      ∧ event.BindAddrFamily ≠ AF_INET6 then
    (false, some Error.invalidBindFamily,
      if !dryRun then
        { at_ with Stats :=
            at_.Stats.incDropped EventType.BindEventType NodeDroppedReason.bindFamilyReason }
      else at_)
  else (true, none, at_)

/-- Rewrites the payload of a node. -/
def setPayload (node : Nat) (p : NodePayload) (at_ : ActivityTree) : ActivityTree :=
  { at_ with payload := fun n => if n = node then p else at_.payload n }

/-- The dispatch of `insert` on the type of the event, on the node found for its process. -/
def insertEvent (x : Collaborators) (event : Event) (dryRun : Bool)
    (generationType : NodeGenerationType) (node : Nat) (newProcessNode : Bool)
    (at_ : ActivityTree) : Bool × Option Error × ActivityTree :=
  match event.EventType with
  | .ExecEventType =>
    (newProcessNode, none,
      setPayload node { at_.payload node with
        MatchedRules := x.AppendMatchedRule (at_.payload node).MatchedRules event.Rules } at_)
  | .FileOpenEventType =>
    match x.InsertFileEvent event generationType dryRun (at_.payload node) at_.Stats with
    | (p, st, added) => (added, none, setPayload node p { at_ with Stats := st })
  | .DNSEventType =>
    match x.InsertDNSEvent event generationType dryRun at_.DNSMatchMaxDepth (at_.payload node)
        at_.Stats at_.DNSNames with
    | (p, st, names, added) =>
      (added, none, setPayload node p { at_ with Stats := st, DNSNames := names })
  | .BindEventType =>
    match x.InsertBindEvent event generationType dryRun (at_.payload node) at_.Stats with
    | (p, st, added) => (added, none, setPayload node p { at_ with Stats := st })
  | .SyscallsEventType =>
    match x.InsertSyscalls event (at_.payload node) at_.SyscallsMask with
    | (p, mask, added) => (added, none, setPayload node p { at_ with SyscallsMask := mask })
  | .ExitEventType =>
    (false, none, setPayload node { at_.payload node with ExitTime := event.Timestamp } at_)
  | .Other _ => (false, none, at_)

/-- Inserts the event in the activity tree, returns true if the event generated a new entry in
the tree. -/
def insert (x : Collaborators) (event : Event) (dryRun : Bool)
    (generationType : NodeGenerationType) (at_ : ActivityTree) :
    Bool × Option Error × ActivityTree :=
  if generationType = Unknown ∨ generationType > MaxNodeGenerationType then
    (false, some (Error.invalidGenerationType generationType), at_)
  else
    match isEventValid event dryRun at_ with
    | (valid, err, at1) =>
      if !valid || err.isSome then
        (false, some (match err with
          | some e => Error.invalidEvent e
          | none => Error.invalidEventNoCause), at1)
      else
        match CreateProcessNode x event.ProcessCacheEntry [] generationType dryRun at1 with
        | ⟨node, newProcessNode, err, at2⟩ =>
          if err.isSome then (false, err, at2)
          else if newProcessNode && dryRun then (true, none, at2)
          else
            match node with
            | none => (false, some Error.noProcessNode, at2)
            | some n =>
              if event.Error.isSome then
                (false, event.Error,
                  { at2 with Stats :=
                      at2.Stats.incDropped event.EventType NodeDroppedReason.brokenEventReason })
              else
                insertEvent x event dryRun generationType n newProcessNode
                  { at2 with Stats := at2.Stats.incProcessed event.EventType }

/-- Inserts the event in the activity tree. -/
def Insert (x : Collaborators) (event : Event) (generationType : NodeGenerationType)
    (at_ : ActivityTree) : Bool × Option Error × ActivityTree :=
  match insert x event false generationType at_ with
  | (newEntry, err, at1) =>
    (newEntry, err,
      if newEntry then
        { at1 with Stats := at1.Stats.incAdded event.EventType generationType 1 }
      else at1)

/-- Looks up the event in the activity tree. -/
def Contains (x : Collaborators) (event : Event) (generationType : NodeGenerationType)
    (at_ : ActivityTree) : Bool × Option Error × ActivityTree :=
  match insert x event true generationType at_ with
  | (newEntry, err, at1) => (!newEntry, err, at1)

/-! ## Shapes used in the statements -/

/-- The nodes from `top` down to `bottom` are a chain made for the entries: every node of the
chain has the process of its entry, the generation type, and exactly one child, which is the
next node of the chain; after the last entry comes `bottom`. -/
def IsNewChain (generationType : NodeGenerationType) :
    List ProcessCacheEntry → ProcessNode → ProcessNode → Prop
  | [], top, bottom => top = bottom
  | e :: rest, top, bottom =>
    top.Process = e.info.Process ∧ top.GenerationType = generationType
      ∧ ∃ c, top.Children = [c] ∧ IsNewChain generationType rest c bottom

mutual
/-- The nodes of a tree: the tree and the nodes of its children. -/
def ProcessNode.nodes : ProcessNode → List ProcessNode
  | .mk p pr g e cs => .mk p pr g e cs :: forestNodes cs
/-- The nodes of a forest, each with its subtree. -/
def forestNodes : List ProcessNode → List ProcessNode
  | [] => []
  | n :: rest => n.nodes ++ forestNodes rest
end

/-- No two nodes of the list match a same process. -/
def NoTwins (x : Collaborators) (differentiateArgs : Bool) (l : List ProcessNode) : Prop :=
  (l.map ProcessNode.Process).Pairwise (fun a b =>
    ∀ p : Process, ¬(x.Matches a p differentiateArgs = true ∧ x.Matches b p differentiateArgs = true))

mutual
/-- No list of `Children` in the tree has two nodes that match a same process. -/
def ProcessNode.NoTwinsBelow (x : Collaborators) (differentiateArgs : Bool) : ProcessNode → Prop
  | .mk _ _ _ _ cs => NoTwins x differentiateArgs cs ∧ forestNoTwinsBelow x differentiateArgs cs
/-- No list of `Children` in the forest has two nodes that match a same process. -/
def forestNoTwinsBelow (x : Collaborators) (differentiateArgs : Bool) : List ProcessNode → Prop
  | [] => True
  | n :: rest => n.NoTwinsBelow x differentiateArgs ∧ forestNoTwinsBelow x differentiateArgs rest
end

/-- No list of siblings of the tree, the root list or the `Children` of a node, has two nodes
that match a same process. -/
def NoTwinSiblings (x : Collaborators) (at_ : ActivityTree) : Prop :=
  NoTwins x at_.differentiateArgs at_.ProcessNodes
    ∧ forestNoTwinsBelow x at_.differentiateArgs at_.ProcessNodes

/-- The trees reached from a new tree, with the argument differentiation set or not, by calls of
`Insert` and `Contains`. -/
inductive Reachable (x : Collaborators) (validator : ActivityTreeOwner)
    (differentiateArgs : Bool) : ActivityTree → Prop where
  | new : Reachable x validator differentiateArgs
      { NewActivityTree validator with differentiateArgs := differentiateArgs }
  | Insert (at_ : ActivityTree) (event : Event) (generationType : NodeGenerationType) :
      Reachable x validator differentiateArgs at_ →
      Reachable x validator differentiateArgs (Insert x event generationType at_).2.2
  | Contains (at_ : ActivityTree) (event : Event) (generationType : NodeGenerationType) :
      Reachable x validator differentiateArgs at_ →
      Reachable x validator differentiateArgs (Contains x event generationType at_).2.2

/-! ## Chains of exec events -/

/-- Inserts the events one after the other. -/
def insertAll (x : Collaborators) (generationType : NodeGenerationType) :
    List Event → ActivityTree → ActivityTree
  | [], at_ => at_
  | event :: rest, at_ => insertAll x generationType rest (Insert x event generationType at_).2.2

mutual
/-- The shape of a tree: the tree without the generation types of its nodes. -/
def ProcessNode.shape : ProcessNode → ProcessNode
  | .mk p pr _ e cs => .mk p pr Unknown e (forestShape cs)
/-- The shape of a forest: its roots and the parent and child relation of its nodes. -/
def forestShape : List ProcessNode → List ProcessNode
  | [] => []
  | n :: rest => n.shape :: forestShape rest
end

/-- The entry `o` is reached from `r` through `Ancestor` links. -/
def IsAncestorOf (o r : ProcessCacheEntry) : Prop :=
  ∃ pre, r.Ancestors = pre ++ o.info :: o.Ancestors

/-- The entry `o` is a distinct ancestor of `r`: it is reached from `r` by
`GetNextAncestorBinaryOrArgv0`, applied once or more. These are the ancestors that
`CreateProcessNode` resolves for `r`. -/
inductive DistinctAncestor (r : ProcessCacheEntry) : ProcessCacheEntry → Prop where
  | next (o : ProcessCacheEntry) :
      GetNextAncestorBinaryOrArgv0 (some r) = some o → DistinctAncestor r o
  | step (o o' : ProcessCacheEntry) : DistinctAncestor r o →
      GetNextAncestorBinaryOrArgv0 (some o) = some o' → DistinctAncestor r o'

/-- A valid ancestor chain, oldest entry first: every entry has a complete lineage; the next
distinct ancestor of an entry is the entry before it in the chain; the oldest entry is a valid
root node that the selector accepts. No distinct ancestor of the oldest entry is inserted: the
selector refuses it, or it is no valid root node, and then the oldest entry is not an exec child
and no entry of the chain matches a distinct ancestor of the oldest entry. The entries of the
chain and the distinct ancestors of the oldest entry that carry a cookie carry different ones. -/
structure ValidAncestorChain (x : Collaborators) (validator : ActivityTreeOwner)
    (chain : List ProcessCacheEntry) : Prop where
  complete : ∀ e, e ∈ chain → e.info.HasCompleteLineage = true
  link : ∀ (i : Nat) a b, chain[i]? = some a → chain[i + 1]? = some b →
    GetNextAncestorBinaryOrArgv0 (some b) = some a
  root : ∀ r, chain[0]? = some r →
    isValidRootNode r = true ∧ validator.MatchesSelector r = true
  outside : ∀ r o, chain[0]? = some r → DistinctAncestor r o →
    validator.MatchesSelector o = false
    ∨ (isValidRootNode o = false ∧ r.info.IsExecChild = false
      ∧ ∀ p e, DistinctAncestor r p → e ∈ chain →
          x.Matches e.info.Process p.info.Process false = false)
  cookies : ∀ (i j : Nat) a b, chain[i]? = some a → chain[j]? = some b →
    eventHaveValidCookie a = true → eventHaveValidCookie b = true →
    entryCookieSelector a = entryCookieSelector b → i = j
  outsideCookies : ∀ r o a, chain[0]? = some r → DistinctAncestor r o → a ∈ chain →
    eventHaveValidCookie o = true → eventHaveValidCookie a = true →
    entryCookieSelector o ≠ entryCookieSelector a

/-- The forest made of one branch: a node for each entry, allocated from `ptr` on, each the only
child of the one before. -/
def chainForest : List (ProcessCacheEntry × NodeGenerationType) → Nat → List ProcessNode
  | [], _ => []
  | (e, g) :: rest, ptr =>
    [ProcessNode.mk ptr e.info.Process g e.info.IsExecChild (chainForest rest (ptr + 1))]

/-- The tree holds the first `d` entries of the chain as one branch, allocated in order, and its
cookie cache holds entries of that branch only. -/
structure ChainState (validator : ActivityTreeOwner) (chain : List ProcessCacheEntry) (d : Nat)
    (at_ : ActivityTree) : Prop where
  validator_eq : at_.validator = validator
  differentiateArgs_eq : at_.differentiateArgs = false
  nextPtr_eq : at_.nextPtr = d
  le : d ≤ chain.length
  forest : ∃ fg, fg.map Prod.fst = chain.take d ∧ at_.ProcessNodes = chainForest fg 0
  cache : ∀ cs node, at_.CookieToProcessNode cs = some node →
    ∃ (i : Nat) (e : ProcessCacheEntry), i < d ∧ chain[i]? = some e ∧ node = some i
      ∧ eventHaveValidCookie e = true
      ∧ cs = entryCookieSelector e

/-- The node of pointer `n` is below the node of pointer `p` in the forest: `p` designates a
node of the forest and `n` a node of the subtree of one of its children. -/
def IsDescendantOf (n p : Nat) (forest : List ProcessNode) : Prop :=
  ∃ pn, findNode p forest = some pn ∧ n ∈ forestPtrs pn.Children

/-- The loop of `GetNextAncestorBinaryOrArgv0` goes on from the pair `(current, ancestor)` to the
next pair: the inode of the ancestor is not 0 and is the one of `current`, and when both are
busybox processes their argv0 resolve and are the same. -/
def loopContinues (current ancestor : EntryInfo) : Bool :=
  ancestor.Process.FileEvent.Inode != 0
    && current.Process.FileEvent.Inode == ancestor.Process.FileEvent.Inode
    && !(current.Process.FileEvent.IsBusybox && ancestor.Process.FileEvent.IsBusybox
      && (current.Process.Argv0.length == 0 || ancestor.Process.Argv0.length == 0
        || current.Process.Argv0 != ancestor.Process.Argv0))

/-- The loop of `GetNextAncestorBinaryOrArgv0`, started on `current` and the ancestors `skipped`,
goes through all of them and holds `last` as its `current` after them. -/
def loopReaches (current : EntryInfo) : List EntryInfo → EntryInfo → Prop
  | [], last => last = current
  | a :: rest, last => loopContinues current a = true ∧ loopReaches a rest last

/-- Every key of the cookie cache is a selector that is set, with an exec time and a cookie that
are not zero, and every value is a node, not nil. -/
def CookieCacheSet (at_ : ActivityTree) : Prop :=
  ∀ cs v, at_.CookieToProcessNode cs = some v →
    (cs.execTime ≠ 0 ∧ cs.cookie ≠ 0) ∧ v ≠ none

/-! ## Summaries of the tree -/

/-- The conversion `uint32(key)` of an `int`. -/
def toUint32 (key : Int) : Nat := (key % 4294967296).toNat

/-- Computes the top level list of syscalls. The keys of the map `SyscallsMask` come in the
order of the list, whatever it is (the iteration order of a map is not specified), and are
converted to `uint32`; `sort.Slice` with the comparison `output[i] < output[j]` is a sort in
ascending order, here the insertion sort. -/
def ComputeSyscallsList (at_ : ActivityTree) : List Nat :=
  (at_.SyscallsMask.map (fun kv => toUint32 kv.1)).insertionSort (· ≤ ·)

namespace FileNode

/-- Whether the field `File` is not nil. -/
def HasFile : FileNode → Bool
  | mk _ f _ => f

/-- The values of the map `Children`. -/
def Children : FileNode → List FileNode
  | mk _ _ c => c

end FileNode

mutual
/-- The number of file nodes of a trie. -/
def FileNode.size : FileNode → Nat
  | .mk _ _ cs => 1 + fileNodesSize cs
/-- The number of file nodes of a list of tries. -/
def fileNodesSize : List FileNode → Nat
  | [] => 0
  | n :: rest => n.size + fileNodesSize rest
end

mutual
/-- The number of file nodes of a trie that carry a file. -/
def FileNode.withFile : FileNode → Nat
  | .mk _ f cs => (if f then 1 else 0) + fileNodesWithFile cs
/-- The number of file nodes of a list of tries that carry a file. -/
def fileNodesWithFile : List FileNode → Nat
  | [] => 0
  | n :: rest => n.withFile + fileNodesWithFile rest
end

mutual
/-- The sum of `f` over the nodes of a tree. -/
def ProcessNode.sum (f : ProcessNode → Nat) : ProcessNode → Nat
  | .mk p pr g e cs => f (.mk p pr g e cs) + forestSum f cs
/-- The sum of `f` over the nodes of a forest. -/
def forestSum (f : ProcessNode → Nat) : List ProcessNode → Nat
  | [] => 0
  | n :: rest => n.sum f + forestSum f rest
end

/-- The first loop of `ComputeActivityTreeStats`, on the queue `pnodes`: the statistics and the
list `fnodes` after the loop. The values of the map `Files` come in the order of the list. The
queue loses a node and gains its children at every turn; `none` when the bound is reached. -/
def processNodesLoop (payload : Nat → NodePayload) :
    Nat → List ProcessNode → ActivityTreeStats → List FileNode →
    Option (ActivityTreeStats × List FileNode)
  | 0, _, _, _ => none
  | _ + 1, [], st, fnodes => some (st, fnodes)
  | fuel + 1, node :: pnodes, st, fnodes =>
    processNodesLoop payload fuel (pnodes ++ node.Children)
      { st with
        ProcessNodes := st.ProcessNodes + 1
        DNSNodes := st.DNSNodes + (payload node.ptr).DNSNames.length
        SocketNodes := st.SocketNodes + (payload node.ptr).Sockets.length }
      (fnodes ++ (payload node.ptr).Files)

/-- The second loop of `ComputeActivityTreeStats`, on the queue `fnodes`. -/
def fileNodesLoop : Nat → List FileNode → ActivityTreeStats → Option ActivityTreeStats
  | 0, _, _ => none
  | _ + 1, [], st => some st
  | fuel + 1, node :: fnodes, st =>
    fileNodesLoop fuel (fnodes ++ node.Children)
      (if node.HasFile then { st with FileNodes := st.FileNodes + 1 } else st)

/-- Computes the initial counts of the activity tree stats. The bounds given to the two loops
are never reached (`ComputeActivityTreeStats_adds`). -/
def ComputeActivityTreeStats (at_ : ActivityTree) : ActivityTree :=
  match processNodesLoop at_.payload (countNodes at_.ProcessNodes + 1) at_.ProcessNodes
      at_.Stats [] with
  | none => at_
  | some (st, fnodes) =>
    match fileNodesLoop (fileNodesSize fnodes + 1) fnodes st with
    | none => at_
    | some st' => { at_ with Stats := st' }

/-- From the tree `before` to the tree `after`, `NewProcessNodeCallback` was called on the nodes
`added`, in that order: on nodes allocated in between, on none twice, and no more often than
nodes were allocated. -/
def CallbacksAdded (before after : ActivityTree) (added : List Nat) : Prop :=
  after.callbacks = before.callbacks ++ added
    ∧ added.Sorted (· < ·)
    ∧ (∀ p ∈ added, before.nextPtr ≤ p ∧ p < after.nextPtr)
    ∧ before.nextPtr ≤ after.nextPtr
    ∧ added.length ≤ after.nextPtr - before.nextPtr

/-- The number of turns of the loop of `GetNextAncestorBinaryOrArgv0` on `current` and the chain
starting at `ancestor`. -/
def nextAncestorSteps (current : EntryInfo) : List EntryInfo → Nat
  | [] => 0
  | ancestor :: rest =>
    if ancestor.Process.FileEvent.Inode = 0 then 1
    else if current.Process.FileEvent.Inode ≠ ancestor.Process.FileEvent.Inode then 1
    else if current.Process.FileEvent.IsBusybox && ancestor.Process.FileEvent.IsBusybox then
      if current.Process.Argv0.length = 0 then 1
      else if ancestor.Process.Argv0.length = 0 then 1
      else if current.Process.Argv0 ≠ ancestor.Process.Argv0 then 1
      else 1 + nextAncestorSteps ancestor rest
    else 1 + nextAncestorSteps ancestor rest

/-! ## The distribution of the cluster checks

A shallow embedding of `pkg/clusteragent/clusterchecks/checks_distribution.go`. A map is the
list of its entries, in the order the iteration gives them; `busyness` and `numChecks` are `int`
and stay far from their 64-bit bounds. -/

/-- The status of a check (`CheckStatus`). -/
structure CheckStatus where
  busyness : Int
  node : String
deriving DecidableEq, Repr

/-- The status of a node (`NodeStatus`). -/
structure NodeStatus where
  busyness : Int
  numChecks : Int
deriving DecidableEq, Repr

/-- The placement of cluster checks across the different nodes of a cluster. -/
structure checksDistribution where
  checks : List (String × CheckStatus)
  nodes : List (String × NodeStatus)
deriving DecidableEq, Repr

/-- The read `m[key]` of a map. -/
def mapGet {α : Type} (m : List (String × α)) (key : String) : Option α :=
  match m with
  | [] => none
  | (k, v) :: rest => if k = key then some v else mapGet rest key

/-- The assignment `m[key] = value` of a map. -/
def mapSet {α : Type} (m : List (String × α)) (key : String) (value : α) : List (String × α) :=
  match m with
  | [] => [(key, value)]
  | (k, v) :: rest => if k = key then (k, value) :: rest else (k, v) :: mapSet rest key value

/-- The result of `newChecksDistribution`. -/
def newChecksDistribution (nodeNames : List String) : checksDistribution :=
  { checks := []
    nodes := nodeNames.foldl (fun nodes nodeName => mapSet nodes nodeName ⟨0, 0⟩) [] }

/-- The loop of `leastBusyNode` on the entries of the map that are left, with the variables
`leastBusyNode`, `minBusyness` and `numChecksLeastBusyNode`. -/
def leastBusyLoop (preferredNode : String) :
    List (String × NodeStatus) → String × Int × Int → String × Int × Int
  | [], acc => acc
  | (nodeName, nodeStatus) :: rest, (leastBusyNode, minBusyness, numChecksLeastBusyNode) =>
    if leastBusyNode = ""
        ∨ nodeStatus.busyness < minBusyness
        ∨ (nodeStatus.busyness = minBusyness ∧ nodeName = preferredNode)
        ∨ (nodeStatus.busyness = minBusyness ∧ nodeStatus.numChecks < numChecksLeastBusyNode)
    then leastBusyLoop preferredNode rest (nodeName, nodeStatus.busyness, nodeStatus.numChecks)
    else leastBusyLoop preferredNode rest (leastBusyNode, minBusyness, numChecksLeastBusyNode)

/-- The name of the least busy node; the empty string when there is none. -/
def leastBusyNode (distribution : checksDistribution) (preferredNode : String) : String :=
  (leastBusyLoop preferredNode distribution.nodes ("", 0, 0)).1

/-- Adds the check to the node. -/
def addCheck (distribution : checksDistribution) (checkID : String) (checkBusyness : Int)
    (node : String) : checksDistribution :=
  { checks := mapSet distribution.checks checkID ⟨checkBusyness, node⟩
    nodes :=
      match mapGet distribution.nodes node with
      | some nodeInfo =>
        mapSet distribution.nodes node ⟨nodeInfo.busyness + checkBusyness, nodeInfo.numChecks + 1⟩
      | none => mapSet distribution.nodes node ⟨checkBusyness, 1⟩ }

/-- Adds the check to the least busy node. -/
def addToLeastBusy (distribution : checksDistribution) (checkID : String) (checkBusyness : Int)
    (preferredNode : String) : checksDistribution :=
  if leastBusyNode distribution preferredNode = "" then distribution
  else addCheck distribution checkID checkBusyness (leastBusyNode distribution preferredNode)

/-- The node of the check; the empty string when the check is not placed. -/
def nodeForCheck (distribution : checksDistribution) (checkID : String) : String :=
  match mapGet distribution.checks checkID with
  | some checkInfo => checkInfo.node
  | none => ""

/-- The indexes of the branch that the loop of `findBranchInChildrenNodes` examines, from the
index `i` on, on `branch[i:]`: the turns of the loop in which
`findProcessCacheEntryInChildrenNodes` is called. -/
def examinedIndexes (x : Collaborators) (tree : SiblingsRef) (at_ : ActivityTree) :
    Nat → List ProcessCacheEntry → List Nat
  | _, [] => []
  | i, branchCursor :: rest =>
    i :: (match findProcessCacheEntryInChildrenNodes x at_.differentiateArgs
        (getSiblings tree at_) branchCursor with
      | some _ => []
      | none =>
        match rest with
        | [] => []
        | next :: _ =>
          if next.info.IsExecChild then examinedIndexes x tree at_ (i + 1) rest else [])

/-! ## The execed nodes below a node -/

/-- The children of the node that are flagged as exec children. -/
def ProcessNode.execChildren (n : ProcessNode) : List ProcessNode :=
  n.Children.filter (fun node => node.IsExecChild)

/-- The exec children of the nodes of a list, in the order of the list. -/
def execChildrenOf : List ProcessNode → List ProcessNode
  | [] => []
  | n :: rest => n.execChildren ++ execChildrenOf rest

/-- The nodes of `level`, then their exec children, then the exec children of these, level after
level, `depth` levels at most: the breadth-first order. -/
def execLevels : Nat → List ProcessNode → List ProcessNode
  | 0, _ => []
  | _ + 1, [] => []
  | depth + 1, n :: level => (n :: level) ++ execLevels depth (execChildrenOf (n :: level))

/-- The nodes below `child` that are reached through nodes that are all flagged as exec
children, in breadth-first order. A tree of `child.count` nodes has less than `child.count`
levels below its root (`mem_execedNodes`). -/
def execedNodes (child : ProcessNode) : List ProcessNode :=
  execLevels child.count child.execChildren

/-- The node `n` is a strict descendant of `child` reached through nodes that are all flagged as
exec children, `n` included. -/
inductive ExecedBelow (child : ProcessNode) : ProcessNode → Prop where
  | direct (n : ProcessNode) : n ∈ child.Children → n.IsExecChild = true → ExecedBelow child n
  | step (m n : ProcessNode) : ExecedBelow child m → n ∈ m.Children → n.IsExecChild = true →
      ExecedBelow child n

/-! ## The nodes that a call allocates -/

mutual
/-- The pointer and the generation type of every node of a tree, in depth-first order. -/
def ProcessNode.tags : ProcessNode → List (Nat × NodeGenerationType)
  | .mk p _ g _ cs => (p, g) :: forestTags cs
/-- The pointer and the generation type of every node of a forest, in depth-first order. -/
def forestTags : List ProcessNode → List (Nat × NodeGenerationType)
  | [] => []
  | n :: rest => n.tags ++ forestTags rest
end

/-- The pointers and the generation type of `a` nodes allocated from `ptr` on. -/
def newTags (generationType : NodeGenerationType) (ptr a : Nat) :
    List (Nat × NodeGenerationType) :=
  (List.range a).map (fun i => (ptr + i, generationType))

/-- The list `*tree` is a list of the tree: the root list, or the `Children` of a node of the
forest. -/
def SiblingsRef.InTree (tree : SiblingsRef) (at_ : ActivityTree) : Prop :=
  match tree with
  | .roots => True
  | .childrenOf p => p ∈ forestPtrs at_.ProcessNodes

/-- From the tree `before` to the tree `after`, `a` nodes of the generation type were allocated
and attached: the forest holds the nodes it had and the new ones, and `Stats.ProcessNodes` and
`addedCount[exec][generationType]` were incremented `a` times. -/
structure Allocated (generationType : NodeGenerationType) (a : Nat)
    (before after : ActivityTree) : Prop where
  nextPtr_eq : after.nextPtr = before.nextPtr + a
  stats_eq : after.Stats
    = (before.Stats.addProcessNodes a).incAdded EventType.ExecEventType generationType a
  tags_perm : (forestTags after.ProcessNodes).Perm
    (forestTags before.ProcessNodes ++ newTags generationType before.nextPtr a)

/-- The counter of process nodes and the allocator agree with the forest: `Stats.ProcessNodes`
and the number of pointers allocated are the number of nodes of the forest, every pointer of the
forest was allocated, and the cookie cache holds nodes of the forest. -/
structure TreeInv (at_ : ActivityTree) : Prop where
  stats : at_.Stats.ProcessNodes = (countNodes at_.ProcessNodes : Int)
  alloc : countNodes at_.ProcessNodes = at_.nextPtr
  fresh : ∀ q ∈ forestPtrs at_.ProcessNodes, q < at_.nextPtr
  cache : ∀ cs p, at_.CookieToProcessNode cs = some (some p) → p ∈ forestPtrs at_.ProcessNodes

/-- Modelled from the spec: the methods `InsertFileEvent`, `InsertDNSEvent` and
`InsertBindEvent` of `ProcessNode` (defined outside the embedded file) count file, DNS and socket
nodes in the statistics they are handed and leave `ProcessNodes` as it is. -/
def KeepsProcessNodes (x : Collaborators) : Prop :=
  (∀ event g dryRun p st, (x.InsertFileEvent event g dryRun p st).2.1.ProcessNodes
      = st.ProcessNodes)
  ∧ (∀ event g dryRun depth p st names,
      (x.InsertDNSEvent event g dryRun depth p st names).2.1.ProcessNodes = st.ProcessNodes)
  ∧ (∀ event g dryRun p st, (x.InsertBindEvent event g dryRun p st).2.1.ProcessNodes
      = st.ProcessNodes)

/-- An ancestor chain under a parent that stays out of the tree, oldest entry first: every entry
has a complete lineage; the next distinct ancestor of an entry is the entry before it in the
chain; the oldest entry is a valid root node that the selector accepts, it is not an exec child,
and its next distinct ancestor is `parent`; `parent` has no distinct ancestor, so that it is no
valid root node, and no entry of the chain matches it; `parent` and the entries of the chain
that carry a cookie carry different ones. -/
structure ForkedAncestorChain (x : Collaborators) (validator : ActivityTreeOwner)
    (parent : ProcessCacheEntry) (chain : List ProcessCacheEntry) : Prop where
  complete : ∀ e, e ∈ chain → e.info.HasCompleteLineage = true
  link : ∀ (i : Nat) a b, chain[i]? = some a → chain[i + 1]? = some b →
    GetNextAncestorBinaryOrArgv0 (some b) = some a
  root : ∀ r, chain[0]? = some r →
    isValidRootNode r = true ∧ validator.MatchesSelector r = true
  forked : ∀ r, chain[0]? = some r →
    r.info.IsExecChild = false ∧ GetNextAncestorBinaryOrArgv0 (some r) = some parent
  parentRoot : GetNextAncestorBinaryOrArgv0 (some parent) = none
  parentMatches : ∀ e, e ∈ chain → x.Matches e.info.Process parent.info.Process false = false
  cookies : (parent :: chain).Pairwise (fun a b =>
    eventHaveValidCookie a = true → eventHaveValidCookie b = true →
    entryCookieSelector a ≠ entryCookieSelector b)

/-! ## Concrete inputs -/

/-- Collaborators for the examples: a node matches an entry when the resolved paths are the
same, matched rules are appended, and the other events add no leaf. -/
def pathCollaborators : Collaborators :=
  { Matches := fun p q _ => p.FileEvent.PathnameStr == q.FileEvent.PathnameStr
    AppendMatchedRule := fun a b => a ++ b
    InsertFileEvent := fun _ _ _ p st => (p, st, false)
    InsertDNSEvent := fun _ _ _ _ p st names => (p, st, names, false)
    InsertBindEvent := fun _ _ _ p st => (p, st, false)
    InsertSyscalls := fun _ p mask => (p, mask, false) }

/-- An entry with a complete lineage and no cookie: inode, path, basename, exec child. -/
def entryInfo (inode : Nat) (path base : String) (execChild : Bool) : EntryInfo :=
  ⟨⟨⟨inode, path, base, false, false⟩, base, true, 0, 0⟩, execChild, true⟩

/-- A process of the host. -/
def systemdInfo : EntryInfo := entryInfo 1 "/usr/lib/systemd/systemd" "systemd" false
/-- The shim of a container runtime, forked by the host. -/
def shimInfo : EntryInfo :=
  entryInfo 2 "/usr/bin/containerd-shim-runc-v2" "containerd-shim-runc-v2" false
/-- The first process of a container, execed by the shim. -/
def initInfo : EntryInfo := entryInfo 3 "/init.sh" "init.sh" true
/-- A process forked by the host. -/
def appInfo : EntryInfo := entryInfo 4 "/usr/bin/app" "app" false

/-- The lineage `systemd → containerd-shim-runc-v2 → init.sh`. -/
def initEntry : ProcessCacheEntry := ⟨initInfo, [shimInfo, systemdInfo]⟩
/-- The lineage `systemd → containerd-shim-runc-v2`. -/
def shimEntry : ProcessCacheEntry := ⟨shimInfo, [systemdInfo]⟩
/-- The lineage `systemd → app`. -/
def appEntry : ProcessCacheEntry := ⟨appInfo, [systemdInfo]⟩

/-- An owner that takes every event type and every process but the ones of the host. -/
def containerOwner : ActivityTreeOwner :=
  ⟨fun e => e.info.Process.FileEvent.PathnameStr != "/usr/lib/systemd/systemd", fun _ => true⟩

/-- An exec event of the entry, whose fields resolve. -/
def execEvent (entry : ProcessCacheEntry) : Event :=
  ⟨EventType.ExecEventType, some entry, 0, none, [], 0, "", "", 0, []⟩

/-- An exec event of the entry, whose fields do not resolve. -/
def brokenExecEvent (entry : ProcessCacheEntry) : Event :=
  ⟨EventType.ExecEventType, some entry, 0, some (Error.eventError "unresolved"), [], 0, "", "", 0,
    []⟩

/-- A new tree of `containerOwner`. -/
def emptyTree : ActivityTree := NewActivityTree containerOwner

/-- The tree after the exec event of `init.sh` was inserted in `emptyTree`. -/
def treeWithInit : ActivityTree :=
  (Insert pathCollaborators (execEvent initEntry) Runtime emptyTree).2.2

/-- The tree after the exec event of `app` was inserted in `emptyTree`. -/
def treeWithApp : ActivityTree :=
  (Insert pathCollaborators (execEvent appEntry) Runtime emptyTree).2.2

/-- The basenames of the nodes of a list. -/
def basenames (l : List ProcessNode) : List String :=
  l.map (fun n => n.Process.FileEvent.BasenameStr)

/-- A shell forked by the host. -/
def shInfo : EntryInfo := entryInfo 5 "/bin/sh" "sh" false
/-- A build tool execed by the shell. -/
def makeInfo : EntryInfo := entryInfo 6 "/usr/bin/make" "make" true
/-- A compiler forked by the build tool. -/
def ccInfo : EntryInfo := entryInfo 7 "/usr/bin/cc" "cc" false

/-- The lineage `systemd → make`, as it is known before the shell is. -/
def makeEntry : ProcessCacheEntry := ⟨makeInfo, [systemdInfo]⟩
/-- The lineage `systemd → sh → make → cc`. -/
def ccEntry : ProcessCacheEntry := ⟨ccInfo, [makeInfo, shInfo, systemdInfo]⟩

/-- The tree after the exec event of `make` was inserted in `emptyTree`. -/
def treeWithMake : ActivityTree :=
  (Insert pathCollaborators (execEvent makeEntry) Runtime emptyTree).2.2

/-- The lineage `systemd → sh`. -/
def shEntry : ProcessCacheEntry := ⟨shInfo, [systemdInfo]⟩
/-- The lineage `systemd → sh → make`. -/
def makeUnderShEntry : ProcessCacheEntry := ⟨makeInfo, [shInfo, systemdInfo]⟩

/-- The chain `sh → make → cc`, oldest entry first. -/
def buildChain : List ProcessCacheEntry := [shEntry, makeUnderShEntry, ccEntry]

/-- An entry of `app` whose lineage is not complete. -/
def brokenEntry : ProcessCacheEntry :=
  ⟨{ appInfo with HasCompleteLineage := false }, [systemdInfo]⟩

/-- An owner that takes every event type and the shell only. -/
def shellOwner : ActivityTreeOwner :=
  ⟨fun e => e.info.Process.FileEvent.PathnameStr == "/bin/sh", fun _ => true⟩

/-- A new tree of `shellOwner`. -/
def shellTree : ActivityTree := NewActivityTree shellOwner

/-- A bind event of the entry with the address family, whose fields resolve. -/
def bindEvent (entry : ProcessCacheEntry) (family : Nat) : Event :=
  ⟨EventType.BindEventType, some entry, family, none, [], 0, "", "", 0, []⟩

/-- An exit event of the entry, whose fields resolve. -/
def exitEvent (entry : ProcessCacheEntry) : Event :=
  ⟨EventType.ExitEventType, some entry, 0, none, [], 0, "", "", 0, []⟩

/-- The address family `unix.AF_UNIX`. -/
def AF_UNIX : Nat := 1

/-- The tree after the exec event of the shell was inserted in `shellTree`. -/
def treeWithShell : ActivityTree :=
  (Insert pathCollaborators (execEvent shEntry) Runtime shellTree).2.2

/-- An entry of `app` that carries a cookie: exec time 1000, cookie 7. -/
def cookieEntry : ProcessCacheEntry :=
  ⟨{ appInfo with Process := { appInfo.Process with
      ExecTimeIsZero := false, ExecTimeUnixNano := 1000, Cookie := 7 } }, [systemdInfo]⟩

/-- The tree after the exec event of `cookieEntry` was inserted in `emptyTree`. -/
def treeWithCookie : ActivityTree :=
  (Insert pathCollaborators (execEvent cookieEntry) Runtime emptyTree).2.2

/-- The lineage `systemd → app → app`: `app` forked, then did something. -/
def forkedAppEntry : ProcessCacheEntry := ⟨appInfo, [appInfo, systemdInfo]⟩

/-- A busybox process with the argv0. -/
def busyboxInfo (argv0 : String) : EntryInfo :=
  ⟨⟨⟨9, "/bin/busybox", "busybox", false, true⟩, argv0, true, 0, 0⟩, true, true⟩

/-- The lineage `systemd → busybox (argv0 unresolved) → busybox ls`. -/
def busyboxEntry : ProcessCacheEntry := ⟨busyboxInfo "ls", [busyboxInfo "", systemdInfo]⟩

/-- The program `env`, execed by the shell. -/
def envInfo : EntryInfo := entryInfo 8 "/usr/bin/env" "env" true

/-- The lineage `systemd → sh → env → make`, where `env` and `make` are exec children. -/
def makeViaEnvEntry : ProcessCacheEntry := ⟨makeInfo, [envInfo, shInfo, systemdInfo]⟩

/-- The tree after the exec event of the shell was inserted in `emptyTree`. -/
def treeWithSh : ActivityTree :=
  (Insert pathCollaborators (execEvent shEntry) Runtime emptyTree).2.2

/-- The tree `treeWithApp` with its four node counters set to zero. -/
def treeWithAppZeroed : ActivityTree :=
  { treeWithApp with Stats := { treeWithApp.Stats with
      ProcessNodes := 0, FileNodes := 0, DNSNodes := 0, SocketNodes := 0 } }

/-- The nodes `node2` and `node3`, with two checks of busyness 1 and 0 on `node2` and one check
of busyness 1 on `node3`: the two nodes have the busyness 1. -/
def twoLeastBusy : checksDistribution :=
  addCheck (addCheck (addCheck (newChecksDistribution ["node2", "node3"]) "check1" 1 "node2")
    "check2" 0 "node2") "check3" 1 "node3"

/-- An owner that takes every process and every event type. -/
def acceptAllOwner : ActivityTreeOwner := ⟨fun _ => true, fun _ => true⟩

/-- A linker forked by the compiler. -/
def ldInfo : EntryInfo := entryInfo 9 "/usr/bin/ld" "ld" false

/-- The lineage `systemd → app → cc`. -/
def ccUnderAppEntry : ProcessCacheEntry := ⟨ccInfo, [appInfo, systemdInfo]⟩
/-- The lineage `systemd → app → cc → ld`. -/
def ldUnderAppEntry : ProcessCacheEntry := ⟨ldInfo, [ccInfo, appInfo, systemdInfo]⟩

/-- The lineage `systemd → sh → app`. -/
def appUnderShEntry : ProcessCacheEntry := ⟨appInfo, [shInfo, systemdInfo]⟩
/-- The lineage `systemd → sh → app → cc`. -/
def ccUnderShAppEntry : ProcessCacheEntry := ⟨ccInfo, [appInfo, shInfo, systemdInfo]⟩
/-- The lineage `systemd → sh → app → cc → ld`. -/
def ldUnderShAppEntry : ProcessCacheEntry := ⟨ldInfo, [ccInfo, appInfo, shInfo, systemdInfo]⟩

/-- The lineage `systemd → make → cc`, where `make` is an exec child. -/
def ccUnderMakeEntry : ProcessCacheEntry := ⟨ccInfo, [makeInfo, systemdInfo]⟩
/-- The lineage `systemd → make → cc → ld`, where `make` is an exec child. -/
def ldUnderMakeEntry : ProcessCacheEntry := ⟨ldInfo, [ccInfo, makeInfo, systemdInfo]⟩

/-- A shell at the top of a lineage. -/
def bashInfo : EntryInfo := entryInfo 10 "/bin/bash" "bash" false
/-- The program `sudo`, forked by the shell. -/
def sudoInfo : EntryInfo := entryInfo 11 "/usr/bin/sudo" "sudo" false
/-- The same shell binary, execed by `sudo`. -/
def bashExecInfo : EntryInfo := entryInfo 10 "/bin/bash" "bash" true

/-- The lineage `bash → sudo`. -/
def sudoEntry : ProcessCacheEntry := ⟨sudoInfo, [bashInfo]⟩
/-- The lineage `bash → sudo → bash`, where the last `bash` is an exec child. -/
def bashUnderSudoEntry : ProcessCacheEntry := ⟨bashExecInfo, [sudoInfo, bashInfo]⟩

/-- The chain `app → cc → ld` under `systemd`. -/
def appChain : List ProcessCacheEntry := [appEntry, ccUnderAppEntry, ldUnderAppEntry]


/-! ## The bounds of the recursions are never reached -/

theorem nextAncestorLoop_length (current : EntryInfo) (l : List EntryInfo)
    (a : ProcessCacheEntry) (h : nextAncestorLoop current l = some a) :
    a.Ancestors.length < l.length := by
  induction l generalizing current with
  | nil => simp [nextAncestorLoop] at h
  | cons anc rest ih =>
    simp only [nextAncestorLoop] at h
    split at h
    · cases h
    · split at h
      · cases h; simp
      · split at h
        · split at h
          · cases h
          · split at h
            · cases h
            · split at h
              · cases h; simp
              · have := ih _ h
                simp; omega
        · have := ih _ h
          simp; omega

theorem lineageDepth_next (entry : ProcessCacheEntry) :
    lineageDepth (GetNextAncestorBinaryOrArgv0 (some entry)) < lineageDepth (some entry) := by
  simp only [GetNextAncestorBinaryOrArgv0]
  cases h : nextAncestorLoop entry.info entry.Ancestors with
  | none => simp [lineageDepth]
  | some a =>
    have := nextAncestorLoop_length _ _ _ h
    simp [lineageDepth]; omega

theorem createProcessNodeRec_fuel (x : Collaborators) (fuel : Nat)
    (entry : Option ProcessCacheEntry) (branch : List ProcessCacheEntry)
    (g : NodeGenerationType) (dryRun : Bool) (s : ActivityTree)
    (h : lineageDepth entry < fuel) :
    (createProcessNodeRec x fuel entry branch g dryRun s).isSome = true := by
  induction fuel generalizing entry branch g s with
  | zero => omega
  | succ n ih =>
    cases entry with
    | none => simp [createProcessNodeRec]
    | some e =>
      simp only [createProcessNodeRec]
      split
      · simp
      · split
        · simp
        · have hlt := lineageDepth_next e
          have := ih (GetNextAncestorBinaryOrArgv0 (some e)) (e :: branch) Snapshot s (by omega)
          cases hr : createProcessNodeRec x n (GetNextAncestorBinaryOrArgv0 (some e))
              (e :: branch) Snapshot dryRun s with
          | none => simp [hr] at this
          | some r => simp

theorem countNodes_append (l₁ l₂ : List ProcessNode) :
    countNodes (l₁ ++ l₂) = countNodes l₁ + countNodes l₂ := by
  induction l₁ with
  | nil => simp [countNodes]
  | cons n rest ih => simp [countNodes, ih]; omega

theorem countNodes_filter_le (f : ProcessNode → Bool) (l : List ProcessNode) :
    countNodes (l.filter f) ≤ countNodes l := by
  induction l with
  | nil => simp [countNodes]
  | cons n rest ih =>
    simp only [List.filter]
    split
    · simp [countNodes]; omega
    · simp [countNodes]; omega

theorem ProcessNode.count_eq (n : ProcessNode) : n.count = 1 + countNodes n.Children := by
  cases n; simp [ProcessNode.count, ProcessNode.Children]

theorem execedNodesLoop_fuel (x : Collaborators) (da : Bool) (entry : ProcessCacheEntry)
    (fuel : Nat) (q : List ProcessNode) (h : countNodes q < fuel) :
    (execedNodesLoop x da entry fuel q).isSome = true := by
  induction fuel generalizing q with
  | zero => omega
  | succ n ih =>
    cases q with
    | nil => simp [execedNodesLoop]
    | cons cursor rest =>
      simp only [execedNodesLoop]
      split
      · simp
      · rename_i head tail hq
        split
        · simp
        · apply ih
          rw [← hq, countNodes_append]
          have h1 := countNodes_filter_le (fun node => node.IsExecChild) cursor.Children
          have h2 := cursor.count_eq
          simp only [countNodes] at h
          omega


/-! ## Dry runs -/

theorem findBranchLoop_dryRun (x : Collaborators) (tree : SiblingsRef)
    (branch : List ProcessCacheEntry) (g : NodeGenerationType) (s : ActivityTree) (i : Nat)
    (rest : List ProcessCacheEntry) :
    (findBranchLoop x tree branch true g s i rest).2.2 = s := by
  induction rest generalizing i with
  | nil => simp [findBranchLoop]
  | cons c rest ih =>
    simp only [findBranchLoop]
    split
    · split
      · rfl
      · simp
    · split
      · rfl
      · split
        · exact ih _
        · rfl

theorem attachProcessNode_dryRun (x : Collaborators) (entry : ProcessCacheEntry)
    (branch : List ProcessCacheEntry) (g : NodeGenerationType) (parent : CreateResult) :
    (attachProcessNode x entry branch g true parent).tree = parent.tree := by
  unfold attachProcessNode
  split
  · rfl
  · split
    · split
      · rfl
      · have h := findBranchLoop_dryRun x SiblingsRef.roots branch g parent.tree 0 branch
        simp only [findBranchInChildrenNodes]
        split
        · rename_i heq; rw [heq] at h; exact h
        · rename_i heq; rw [heq] at h
          split
          · exact h
          · simp; exact h
    · rename_i parentNode _
      have h := findBranchLoop_dryRun x (SiblingsRef.childrenOf parentNode) branch g
        parent.tree 0 branch
      simp only [findBranchInChildrenNodes]
      split
      · rename_i heq; rw [heq] at h; exact h
      · rename_i heq; rw [heq] at h
        simp; exact h

theorem deferCookie_tree (cs : cookieSelector) (r : CreateResult) :
    ∃ c, (deferCookie cs r).tree = { r.tree with CookieToProcessNode := c } := by
  unfold deferCookie
  split
  · exact ⟨_, rfl⟩
  · split
    · exact ⟨_, rfl⟩
    · exact ⟨_, rfl⟩

theorem createProcessNodeRec_dryRun (x : Collaborators) (fuel : Nat)
    (entry : Option ProcessCacheEntry) (branch : List ProcessCacheEntry)
    (g : NodeGenerationType) (s : ActivityTree) (r : CreateResult)
    (h : createProcessNodeRec x fuel entry branch g true s = some r) :
    ∃ c, r.tree = { s with CookieToProcessNode := c } := by
  induction fuel generalizing entry branch g r with
  | zero => simp [createProcessNodeRec] at h
  | succ n ih =>
    cases entry with
    | none =>
      simp only [createProcessNodeRec, Option.some.injEq] at h
      subst h; exact ⟨_, rfl⟩
    | some e =>
      simp only [createProcessNodeRec] at h
      split at h
      · simp only [Option.some.injEq] at h; subst h; exact ⟨_, rfl⟩
      · split at h
        · simp only [Option.some.injEq] at h; subst h; exact ⟨_, rfl⟩
        · split at h
          · cases h
          · rename_i parent hp
            simp only [Option.some.injEq] at h; subst h
            obtain ⟨c, hc⟩ := ih _ _ _ _ hp
            obtain ⟨c', hc'⟩ := deferCookie_tree (entryCookieSelector e)
              (attachProcessNode x e (e :: branch) g true parent)
            rw [hc', attachProcessNode_dryRun, hc]
            exact ⟨_, rfl⟩

theorem CreateProcessNode_dryRun (x : Collaborators) (entry : Option ProcessCacheEntry)
    (branch : List ProcessCacheEntry) (g : NodeGenerationType) (s : ActivityTree) :
    ∃ c, (CreateProcessNode x entry branch g true s).tree = { s with CookieToProcessNode := c } := by
  unfold CreateProcessNode
  split
  · rename_i r hr
    exact createProcessNodeRec_dryRun x _ _ _ _ _ _ hr
  · exact ⟨_, rfl⟩

theorem isEventValid_dryRun (event : Event) (s : ActivityTree) :
    (isEventValid event true s).2.2 = s := by
  unfold isEventValid
  split
  · rfl
  · split <;> rfl

theorem insertEvent_forest (x : Collaborators) (event : Event) (dryRun : Bool)
    (g : NodeGenerationType) (node : Nat) (nw : Bool) (s : ActivityTree) :
    (insertEvent x event dryRun g node nw s).2.2.ProcessNodes = s.ProcessNodes
    ∧ (insertEvent x event dryRun g node nw s).2.2.nextPtr = s.nextPtr
    ∧ (insertEvent x event dryRun g node nw s).2.2.callbacks = s.callbacks := by
  unfold insertEvent
  split <;> simp [setPayload]

theorem insert_dryRun_forest (x : Collaborators) (event : Event) (g : NodeGenerationType)
    (s : ActivityTree) :
    (insert x event true g s).2.2.ProcessNodes = s.ProcessNodes
    ∧ (insert x event true g s).2.2.nextPtr = s.nextPtr
    ∧ (insert x event true g s).2.2.callbacks = s.callbacks := by
  unfold insert
  split
  · simp
  · have hv := isEventValid_dryRun event s
    obtain ⟨c, hc⟩ := CreateProcessNode_dryRun x event.ProcessCacheEntry [] g s
    split
    rename_i valid err at1 hev
    rw [hev] at hv
    simp only at hv
    subst hv
    split
    · simp
    · split
      rename_i node nw err2 at2 hcp
      rw [hcp] at hc
      simp only at hc
      subst hc
      split
      · simp
      · split
        · simp
        · split
          · simp
          · split
            · simp
            · rename_i n _
              have := insertEvent_forest x event true g n nw
                { ({ at1 with CookieToProcessNode := c } : ActivityTree) with
                  Stats := ActivityTreeStats.incProcessed at1.Stats event.EventType }
              simpa using this

/-- C1: `Contains` leaves the process forest unchanged, whatever the generation type and whether
or not it returns an error: the root list (with every subtree, so every `Children` list) is the
same, every pointer designates the same node with the same children, the number of process nodes
is the same, and no node has been allocated or announced to the owner. -/
theorem Contains_forest_unchanged (x : Collaborators) (event : Event)
    (generationType : NodeGenerationType) (s : ActivityTree) :
    (Contains x event generationType s).2.2.ProcessNodes = s.ProcessNodes
    ∧ (∀ p, (findNode p (Contains x event generationType s).2.2.ProcessNodes).map
          ProcessNode.Children = (findNode p s.ProcessNodes).map ProcessNode.Children)
    ∧ countNodes (Contains x event generationType s).2.2.ProcessNodes = countNodes s.ProcessNodes
    ∧ (Contains x event generationType s).2.2.nextPtr = s.nextPtr
    ∧ (Contains x event generationType s).2.2.callbacks = s.callbacks := by
  have h := insert_dryRun_forest x event generationType s
  have e : (Contains x event generationType s).2.2 = (insert x event true generationType s).2.2 := by
    unfold Contains; rfl
  rw [e]
  obtain ⟨h1, h2, h3⟩ := h
  refine ⟨h1, ?_, ?_, h2, h3⟩
  · intro p; rw [h1]
  · rw [h1]

/-! ## Dry runs that count, and roots that a rebase creates -/

/-- C2 (the code counts in a dry run): `app` is a root of `treeWithApp`; `Contains` on its exec
event returns no error and moves `processedCount[exec]` from 1 to 2, and `Contains` on an exec
event whose fields do not resolve moves `droppedCount[exec][broken_event]` from 0 to 1. -/
theorem Contains_moves_counters :
    (Contains pathCollaborators (execEvent appEntry) Runtime treeWithApp).2.1 = none
    ∧ treeWithApp.Stats.processedCount EventType.ExecEventType = 1
    ∧ (Contains pathCollaborators (execEvent appEntry) Runtime treeWithApp).2.2.Stats.processedCount
        EventType.ExecEventType = 2
    ∧ treeWithApp.Stats.droppedCount EventType.ExecEventType NodeDroppedReason.brokenEventReason = 0
    ∧ (Contains pathCollaborators (brokenExecEvent appEntry) Runtime
        treeWithApp).2.2.Stats.droppedCount EventType.ExecEventType
        NodeDroppedReason.brokenEventReason = 1 := by
  decide

/-- C3 (the two modes disagree): on `treeWithInit`, whose only root is `init.sh`, the exec event
of `init.sh` (lineage `systemd → containerd-shim-runc-v2 → init.sh`) is not a new entry for the dry
run, `(false, nil)`, and is one for the mutating run, `(true, nil)`, which rebases the root below a
new node for the shim. -/
theorem insert_dryRun_differs :
    (insert pathCollaborators (execEvent initEntry) true Runtime treeWithInit).1 = false
    ∧ (insert pathCollaborators (execEvent initEntry) true Runtime treeWithInit).2.1 = none
    ∧ (insert pathCollaborators (execEvent initEntry) false Runtime treeWithInit).1 = true
    ∧ (insert pathCollaborators (execEvent initEntry) false Runtime treeWithInit).2.1 = none := by
  decide

/-- C5 (a second insertion adds a node): the exec event of `init.sh` is inserted in the empty tree
without error and the tree has one node; the same event inserted again returns `(true, nil)` and
the tree has two nodes. -/
theorem Insert_twice_adds_node :
    (Insert pathCollaborators (execEvent initEntry) Runtime emptyTree).2.1 = none
    ∧ countNodes treeWithInit.ProcessNodes = 1
    ∧ (Insert pathCollaborators (execEvent initEntry) Runtime treeWithInit).1 = true
    ∧ (Insert pathCollaborators (execEvent initEntry) Runtime treeWithInit).2.1 = none
    ∧ countNodes (Insert pathCollaborators (execEvent initEntry) Runtime
        treeWithInit).2.2.ProcessNodes = 2 := by
  decide

/-- C9 (a shim becomes a root): `containerd-shim-runc-v2` is not a valid root node and the first
insertion of the exec event of its child makes `init.sh` the only root; the second insertion of
that event leaves `containerd-shim-runc-v2` as the only root, with `init.sh` as its only child. -/
theorem Insert_makes_shim_root :
    isValidRootNode shimEntry = false
    ∧ basenames treeWithInit.ProcessNodes = ["init.sh"]
    ∧ basenames (Insert pathCollaborators (execEvent initEntry) Runtime
        treeWithInit).2.2.ProcessNodes = ["containerd-shim-runc-v2"]
    ∧ (Insert pathCollaborators (execEvent initEntry) Runtime
        treeWithInit).2.2.ProcessNodes.map (fun n => basenames n.Children) = [["init.sh"]] := by
  decide

/-! ## Valid root nodes -/

/-- C10: `isValidRootNode` holds exactly when the entry has a next distinct ancestor, its basename
is not the one of a container runtime, and, if the entry is fileless, the basename of that
ancestor is not the one of a container runtime either. -/
theorem isValidRootNode_iff (entry : ProcessCacheEntry) :
    isValidRootNode entry = true ↔
      GetNextAncestorBinaryOrArgv0 (some entry) ≠ none
      ∧ isContainerRuntimePrefix entry.info.Process.FileEvent.BasenameStr = false
      ∧ (entry.info.Process.FileEvent.IsFileless = true →
          ∀ ancestor, GetNextAncestorBinaryOrArgv0 (some entry) = some ancestor →
            isContainerRuntimePrefix ancestor.info.Process.FileEvent.BasenameStr = false) := by
  unfold isValidRootNode
  cases h : GetNextAncestorBinaryOrArgv0 (some entry) with
  | none => simp
  | some ancestor =>
    cases hf : entry.info.Process.FileEvent.IsFileless <;>
      cases he : isContainerRuntimePrefix entry.info.Process.FileEvent.BasenameStr <;>
      cases ha : isContainerRuntimePrefix ancestor.info.Process.FileEvent.BasenameStr <;>
      simp [ha]

/-! ## Reading and rewriting a list of siblings -/

mutual
theorem ProcessNode.find_modifyChildren (p : Nat) (f : List ProcessNode → List ProcessNode) :
    ∀ (n r : ProcessNode), n.find p = some r →
      ∃ n', n.modifyChildren p f = some n' ∧
        n'.find p = some (.mk r.ptr r.Process r.GenerationType r.IsExecChild (f r.Children))
  | .mk q pr g e cs, r, h => by
    simp only [ProcessNode.find] at h
    simp only [ProcessNode.modifyChildren]
    split at h
    · rename_i hq
      cases h
      simp [hq, ProcessNode.find, ProcessNode.ptr, ProcessNode.Process,
        ProcessNode.GenerationType, ProcessNode.IsExecChild, ProcessNode.Children]
    · rename_i hq
      obtain ⟨cs', h1, h2⟩ := findNode_modifyChildrenIn p f cs r h
      simp [hq, h1, ProcessNode.find, h2]
theorem findNode_modifyChildrenIn (p : Nat) (f : List ProcessNode → List ProcessNode) :
    ∀ (l : List ProcessNode) (r : ProcessNode), findNode p l = some r →
      ∃ l', modifyChildrenIn p f l = some l' ∧
        findNode p l' = some (.mk r.ptr r.Process r.GenerationType r.IsExecChild (f r.Children))
  | [], r, h => by simp [findNode] at h
  | n :: rest, r, h => by
    simp only [findNode] at h
    simp only [modifyChildrenIn]
    split at h
    · rename_i r' hr
      cases h
      obtain ⟨n', h1, h2⟩ := ProcessNode.find_modifyChildren p f n r hr
      simp [h1, findNode, h2]
    · rename_i hr
      obtain ⟨l', h1, h2⟩ := findNode_modifyChildrenIn p f rest r h
      have hn : n.modifyChildren p f = none := ProcessNode.modifyChildren_none p f n hr
      simp [hn, h1, findNode, hr, h2]
theorem ProcessNode.modifyChildren_none (p : Nat) (f : List ProcessNode → List ProcessNode) :
    ∀ (n : ProcessNode), n.find p = none → n.modifyChildren p f = none
  | .mk q pr g e cs, h => by
    simp only [ProcessNode.find] at h
    simp only [ProcessNode.modifyChildren]
    split at h
    · cases h
    · rename_i hq
      simp [hq, modifyChildrenIn_none p f cs h]
theorem modifyChildrenIn_none (p : Nat) (f : List ProcessNode → List ProcessNode) :
    ∀ (l : List ProcessNode), findNode p l = none → modifyChildrenIn p f l = none
  | [], _ => by simp [modifyChildrenIn]
  | n :: rest, h => by
    simp only [findNode] at h
    simp only [modifyChildrenIn]
    split at h
    · cases h
    · rename_i hr
      simp [ProcessNode.modifyChildren_none p f n hr, modifyChildrenIn_none p f rest h]
end

theorem getSiblings_updateSiblings (tree : SiblingsRef) (f : List ProcessNode → List ProcessNode)
    (s : ActivityTree) (h : getSiblings tree s ≠ [] ∨ tree = SiblingsRef.roots) :
    getSiblings tree (updateSiblings tree f s) = f (getSiblings tree s) := by
  cases tree with
  | roots => simp [getSiblings, updateSiblings]
  | childrenOf p =>
    simp only [getSiblings, updateSiblings] at *
    cases hf : findNode p s.ProcessNodes with
    | none => simp [hf] at h
    | some n =>
      obtain ⟨l', h1, h2⟩ := findNode_modifyChildrenIn p f _ _ hf
      simp [h1, h2, ProcessNode.Children]

/-! ## The rebase -/

theorem findFrom_index (x : Collaborators) (da : Bool) (entry : ProcessCacheEntry)
    (l : List ProcessNode) (i0 : Nat) (n : ProcessNode) (k : Nat)
    (h : findProcessCacheEntryInChildrenNodesFrom x da entry l i0 = some (n, k)) :
    i0 ≤ k ∧ k - i0 < l.length := by
  induction l generalizing i0 with
  | nil => simp [findProcessCacheEntryInChildrenNodesFrom] at h
  | cons c rest ih =>
    simp only [findProcessCacheEntryInChildrenNodesFrom] at h
    split at h
    · cases h; simp
    · split at h
      · cases h; simp
      · have := ih _ h
        simp only [List.length_cons]
        omega

theorem find_index (x : Collaborators) (da : Bool) (entry : ProcessCacheEntry)
    (l : List ProcessNode) (n : ProcessNode) (k : Nat)
    (h : findProcessCacheEntryInChildrenNodes x da l entry = some (n, k)) :
    k < l.length := by
  have := findFrom_index x da entry l 0 n k h
  omega

theorem rebaseChain_isNewChain (g : NodeGenerationType) (entries : List ProcessCacheEntry)
    (ptr : Nat) (moved : ProcessNode) :
    IsNewChain g entries (rebaseChain g entries ptr moved) moved := by
  induction entries generalizing ptr with
  | nil => simp [IsNewChain, rebaseChain]
  | cons e rest ih =>
    simp only [IsNewChain, rebaseChain, ProcessNode.Process, ProcessNode.GenerationType,
      ProcessNode.Children, true_and]
    exact ⟨_, rfl, ih _⟩

theorem rebaseChain_ptr (g : NodeGenerationType) (e : ProcessCacheEntry)
    (rest : List ProcessCacheEntry) (ptr : Nat) (moved : ProcessNode) :
    (rebaseChain g (e :: rest) ptr moved).ptr = ptr := by
  simp [rebaseChain, ProcessNode.ptr]

/-- The loop of the branch search walks from index `j` to index `i` when no entry before `i` is
found and the entries up to `i` are exec children. -/
theorem findBranchLoop_walk (x : Collaborators) (tree : SiblingsRef)
    (branch : List ProcessCacheEntry) (dryRun : Bool) (g : NodeGenerationType)
    (s : ActivityTree) (i : Nat) (hi : i < branch.length)
    (hnone : ∀ j, j < i → ∀ c, branch[j]? = some c →
      findProcessCacheEntryInChildrenNodes x s.differentiateArgs (getSiblings tree s) c = none)
    (hexec : ∀ j, 0 < j → j ≤ i → ∀ c, branch[j]? = some c → c.info.IsExecChild = true)
    (d : Nat) (j : Nat) (hj : j + d = i) :
    findBranchLoop x tree branch dryRun g s j (branch.drop j)
      = findBranchLoop x tree branch dryRun g s i (branch.drop i) := by
  induction d generalizing j with
  | zero =>
    have : j = i := by omega
    subst this; rfl
  | succ d ih =>
    have hjl : j < branch.length := by omega
    have hj1 : j + 1 < branch.length := by omega
    rw [List.drop_eq_getElem_cons hjl]
    simp only [findBranchLoop]
    rw [hnone j (by omega) branch[j] (by simp [hjl])]
    simp only
    rw [List.drop_eq_getElem_cons hj1]
    simp only
    rw [hexec (j + 1) (by omega) (by omega) branch[j + 1] (by simp [hj1])]
    simp only [if_true]
    rw [← List.drop_eq_getElem_cons hj1]
    exact ih (j + 1) (by omega)

/-- C7: in mutating mode, when the branch search first finds a match at branch index `i > 0`
(no entry before `i` is found in the list, the entries 1 to `i` are exec children) under the top
level sibling of index `k`, then the call returns the pointer of a new node `newRoot` (the
pointer the allocator gives next) with true;
the list of siblings is the old one without its element `k`, followed by `newRoot`; and from
`newRoot` down to the old sibling `k` the nodes are a chain made for `branch[0..i-1]`: each
has exactly one child, and the only child of the last one is the old sibling `k`. -/
theorem findBranchInChildrenNodes_rebase (x : Collaborators) (tree : SiblingsRef)
    (branch : List ProcessCacheEntry) (generationType : NodeGenerationType) (s : ActivityTree)
    (i k : Nat) (c : ProcessCacheEntry) (found : ProcessNode) (hi : 0 < i)
    (hc : branch[i]? = some c)
    (hfound : findProcessCacheEntryInChildrenNodes x s.differentiateArgs (getSiblings tree s) c
      = some (found, k))
    (hnone : ∀ j, j < i → ∀ c, branch[j]? = some c →
      findProcessCacheEntryInChildrenNodes x s.differentiateArgs (getSiblings tree s) c = none)
    (hexec : ∀ j, 0 < j → j ≤ i → ∀ c, branch[j]? = some c → c.info.IsExecChild = true) :
    ∃ moved newRoot,
      (getSiblings tree s)[k]? = some moved
      ∧ getSiblings tree (findBranchInChildrenNodes x tree branch false generationType s).2.2
          = (getSiblings tree s).eraseIdx k ++ [newRoot]
      ∧ IsNewChain generationType (branch.take i) newRoot moved
      ∧ newRoot.ptr = s.nextPtr
      ∧ (findBranchInChildrenNodes x tree branch false generationType s).1 = some newRoot.ptr
      ∧ (findBranchInChildrenNodes x tree branch false generationType s).2.1 = true := by
  have hil : i < branch.length := by
    rcases Nat.lt_or_ge i branch.length with h | h
    · exact h
    · simp [List.getElem?_eq_none h] at hc
  have hci : branch[i] = c := by
    have := List.getElem?_eq_getElem hil
    rw [this] at hc; exact Option.some.inj hc
  have hk := find_index x _ _ _ _ _ hfound
  have hne : getSiblings tree s ≠ [] := by
    intro h; rw [h] at hk; simp at hk
  have hwalk := findBranchLoop_walk x tree branch false generationType s i hil hnone hexec i 0
    (by omega)
  have hres : findBranchInChildrenNodes x tree branch false generationType s
      = (some s.nextPtr, true, rebaseTree tree branch i k generationType s) := by
    unfold findBranchInChildrenNodes
    rw [← List.drop_zero branch] at hwalk
    simp only [List.drop_zero] at hwalk
    rw [hwalk, List.drop_eq_getElem_cons hil]
    simp only [findBranchLoop, hci, hfound]
    have : i ≠ 0 := by omega
    simp [this]
  obtain ⟨e0, erest, htake⟩ : ∃ e0 erest, branch.take i = e0 :: erest := by
    cases hb : branch.take i with
    | nil =>
      have := congrArg List.length hb
      simp only [List.length_take, List.length_nil] at this
      omega
    | cons e0 erest => exact ⟨e0, erest, rfl⟩
  refine ⟨(getSiblings tree s)[k], rebaseChain generationType (branch.take i) s.nextPtr
    (getSiblings tree s)[k], ?_, ?_, ?_, ?_, ?_, ?_⟩
  · exact List.getElem?_eq_getElem hk
  · rw [hres]
    simp only [rebaseTree]
    have hg := getSiblings_updateSiblings tree
      (rebaseSiblings generationType (branch.take i) s.nextPtr k) s (Or.inl hne)
    have hshape : ∀ (t : ActivityTree) st np cb,
        getSiblings tree { t with Stats := st, nextPtr := np, callbacks := cb }
          = getSiblings tree t := by
      intro t st np cb
      cases tree <;> rfl
    rw [hshape, hg]
    simp [rebaseSiblings, List.getElem?_eq_getElem hk]
  · exact rebaseChain_isNewChain _ _ _ _
  · rw [htake, rebaseChain_ptr]
  · rw [hres, htake, rebaseChain_ptr]
  · rw [hres]

/-- The rebase theorem on `treeWithInit`: the branch `[shim, init.sh]` is searched in the root
list `[init.sh]`, and `init.sh` is found at branch index 1 under the root of index 0. -/
theorem findBranchInChildrenNodes_rebase_witness :
    ∃ moved newRoot,
      (getSiblings SiblingsRef.roots treeWithInit)[0]? = some moved
      ∧ getSiblings SiblingsRef.roots (findBranchInChildrenNodes pathCollaborators
          SiblingsRef.roots [shimEntry, initEntry] false Snapshot treeWithInit).2.2
          = (getSiblings SiblingsRef.roots treeWithInit).eraseIdx 0 ++ [newRoot]
      ∧ IsNewChain Snapshot ([shimEntry, initEntry].take 1) newRoot moved
      ∧ newRoot.ptr = treeWithInit.nextPtr
      ∧ (findBranchInChildrenNodes pathCollaborators SiblingsRef.roots [shimEntry, initEntry]
          false Snapshot treeWithInit).1 = some newRoot.ptr
      ∧ (findBranchInChildrenNodes pathCollaborators SiblingsRef.roots [shimEntry, initEntry]
          false Snapshot treeWithInit).2.1 = true :=
  findBranchInChildrenNodes_rebase pathCollaborators SiblingsRef.roots [shimEntry, initEntry]
    Snapshot treeWithInit 1 0 initEntry
    (ProcessNode.mk 0 initInfo.Process Runtime true []) (by decide) rfl rfl
    (by
      intro j hj c hc
      have : j = 0 := by omega
      subst this
      simp only [List.getElem?_cons_zero, Option.some.injEq] at hc
      subst hc
      rfl)
    (by
      intro j h0 h1 c hc
      have : j = 1 := by omega
      subst this
      simp only [List.getElem?_cons_succ, List.getElem?_cons_zero, Option.some.injEq] at hc
      subst hc
      rfl)

/-! ## The outcomes of the branch search -/

/-- From index `i > 0` on, the loop of the branch search ends without a match, or on the dry-run
exit, or on a rebase at an index `j ≥ i` under a top level sibling `k`. -/
theorem findBranchLoop_cases (x : Collaborators) (tree : SiblingsRef)
    (branch : List ProcessCacheEntry) (dryRun : Bool) (g : NodeGenerationType)
    (s : ActivityTree) (rest : List ProcessCacheEntry) (i : Nat) (hi : 0 < i) :
    findBranchLoop x tree branch dryRun g s i rest = (none, false, s)
    ∨ (dryRun = true ∧ findBranchLoop x tree branch dryRun g s i rest = (none, true, s))
    ∨ (dryRun = false ∧ ∃ j k c n, i ≤ j
        ∧ findProcessCacheEntryInChildrenNodes x s.differentiateArgs (getSiblings tree s) c
            = some (n, k)
        ∧ findBranchLoop x tree branch dryRun g s i rest
            = (some s.nextPtr, true, rebaseTree tree branch j k g s)) := by
  induction rest generalizing i with
  | nil => left; simp [findBranchLoop]
  | cons c rest ih =>
    simp only [findBranchLoop]
    cases hf : findProcessCacheEntryInChildrenNodes x s.differentiateArgs (getSiblings tree s) c with
    | some r =>
      obtain ⟨n, k⟩ := r
      have hi0 : i ≠ 0 := by omega
      simp only [hi0, if_false]
      cases dryRun with
      | true => right; left; simp
      | false =>
        right; right
        refine ⟨rfl, i, k, c, n, Nat.le_refl _, hf, ?_⟩
        simp
    | none =>
      simp only
      cases rest with
      | nil => left; rfl
      | cons next rest' =>
        simp only
        split
        · rcases ih (i + 1) (by omega) with h | h | ⟨hd, j, k, c', n, hj, hfind, h⟩
          · left; exact h
          · right; left; exact h
          · right; right
            exact ⟨hd, j, k, c', n, by omega, hfind, h⟩
        · left; rfl

/-- The outcomes of `findBranchInChildrenNodes`: a direct match of the first entry, no match,
the dry-run exit, or a rebase; in the last three the first entry matches no node of the list. -/
theorem findBranchInChildrenNodes_cases (x : Collaborators) (tree : SiblingsRef)
    (branch : List ProcessCacheEntry) (dryRun : Bool) (g : NodeGenerationType)
    (s : ActivityTree) :
    (∃ e rest n k, branch = e :: rest
        ∧ findProcessCacheEntryInChildrenNodes x s.differentiateArgs (getSiblings tree s) e
            = some (n, k)
        ∧ findBranchInChildrenNodes x tree branch dryRun g s = (some n.ptr, false, s))
    ∨ ((∀ e rest, branch = e :: rest →
          findProcessCacheEntryInChildrenNodes x s.differentiateArgs (getSiblings tree s) e = none)
      ∧ (findBranchInChildrenNodes x tree branch dryRun g s = (none, false, s)
        ∨ (dryRun = true ∧ findBranchInChildrenNodes x tree branch dryRun g s = (none, true, s))
        ∨ (dryRun = false ∧ ∃ j k c n, 0 < j
            ∧ findProcessCacheEntryInChildrenNodes x s.differentiateArgs (getSiblings tree s) c
                = some (n, k)
            ∧ findBranchInChildrenNodes x tree branch dryRun g s
                = (some s.nextPtr, true, rebaseTree tree branch j k g s)))) := by
  unfold findBranchInChildrenNodes
  cases branch with
  | nil => right; exact ⟨(by intro e rest h; cases h), Or.inl (by simp [findBranchLoop])⟩
  | cons e rest =>
    cases hf : findProcessCacheEntryInChildrenNodes x s.differentiateArgs (getSiblings tree s) e with
    | some r =>
      obtain ⟨n, k⟩ := r
      left
      exact ⟨e, rest, n, k, rfl, hf, by simp [findBranchLoop, hf]⟩
    | none =>
      right
      refine ⟨(by intro e' rest' h; cases h; exact hf), ?_⟩
      simp only [findBranchLoop, hf]
      cases rest with
      | nil => left; rfl
      | cons next rest' =>
        simp only
        split
        · rcases findBranchLoop_cases x tree (e :: next :: rest') dryRun g s (next :: rest') 1
            (by omega) with h | h | ⟨hd, j, k, c', n, hj, hfind, h⟩
          · left; exact h
          · right; left; exact h
          · right; right
            exact ⟨hd, j, k, c', n, by omega, hfind, h⟩
        · left; rfl

/-! ## No node is lost -/

theorem forestPtrs_append (l₁ l₂ : List ProcessNode) :
    forestPtrs (l₁ ++ l₂) = forestPtrs l₁ ++ forestPtrs l₂ := by
  induction l₁ with
  | nil => simp [forestPtrs]
  | cons n rest ih => simp [forestPtrs, ih]

theorem forestNodes_append (l₁ l₂ : List ProcessNode) :
    forestNodes (l₁ ++ l₂) = forestNodes l₁ ++ forestNodes l₂ := by
  induction l₁ with
  | nil => simp [forestNodes]
  | cons n rest ih => simp [forestNodes, ih]

theorem ProcessNode.mem_nodes_self (n : ProcessNode) : n ∈ n.nodes := by
  cases n; simp [ProcessNode.nodes]

theorem mem_forestNodes_of_mem (l : List ProcessNode) (n : ProcessNode) (h : n ∈ l) :
    n ∈ forestNodes l := by
  induction l with
  | nil => cases h
  | cons m rest ih =>
    simp only [forestNodes, List.mem_append]
    rcases List.mem_cons.mp h with h | h
    · left; rw [h]; exact m.mem_nodes_self
    · right; exact ih h

theorem mem_eraseIdx_or (l : List ProcessNode) (k : Nat) (n : ProcessNode) (h : n ∈ l) :
    n ∈ l.eraseIdx k ∨ l[k]? = some n := by
  induction l generalizing k with
  | nil => cases h
  | cons m rest ih =>
    cases k with
    | zero =>
      rcases List.mem_cons.mp h with h | h
      · right; simp [h]
      · left; simpa using h
    | succ k =>
      rcases List.mem_cons.mp h with h | h
      · left; simp [h]
      · rcases ih k h with h' | h'
        · left; simp [h']
        · right; simpa using h'

theorem rebaseChain_ptrs (g : NodeGenerationType) (entries : List ProcessCacheEntry)
    (ptr : Nat) (moved : ProcessNode) (q : Nat) (h : q ∈ moved.ptrs) :
    q ∈ (rebaseChain g entries ptr moved).ptrs := by
  induction entries generalizing ptr with
  | nil => simpa [rebaseChain] using h
  | cons e rest ih =>
    simp only [rebaseChain, ProcessNode.ptrs, forestPtrs, List.append_nil, List.mem_cons]
    right; exact ih _

theorem rebaseChain_nodes (g : NodeGenerationType) (entries : List ProcessCacheEntry)
    (ptr : Nat) (moved : ProcessNode) :
    moved ∈ (rebaseChain g entries ptr moved).nodes := by
  induction entries generalizing ptr with
  | nil => simpa [rebaseChain] using moved.mem_nodes_self
  | cons e rest ih =>
    simp only [rebaseChain, ProcessNode.nodes, forestNodes, List.append_nil, List.mem_cons]
    right; exact ih _

theorem mem_forestPtrs (l : List ProcessNode) (q : Nat) :
    q ∈ forestPtrs l ↔ ∃ n ∈ l, q ∈ n.ptrs := by
  induction l with
  | nil => simp [forestPtrs]
  | cons m rest ih => simp [forestPtrs, ih]

theorem rebaseSiblings_ptrs (g : NodeGenerationType) (entries : List ProcessCacheEntry)
    (ptr k : Nat) (l : List ProcessNode) (q : Nat) (h : q ∈ forestPtrs l) :
    q ∈ forestPtrs (rebaseSiblings g entries ptr k l) := by
  unfold rebaseSiblings
  split
  · exact h
  · rename_i moved hk
    obtain ⟨n, hn, hq⟩ := (mem_forestPtrs l q).mp h
    rw [forestPtrs_append, List.mem_append]
    rcases mem_eraseIdx_or l k n hn with h' | h'
    · left; exact (mem_forestPtrs _ q).mpr ⟨n, h', hq⟩
    · right
      rw [hk] at h'
      cases h'
      simp only [forestPtrs, List.append_nil]
      exact rebaseChain_ptrs _ _ _ _ _ hq

theorem rebaseSiblings_nodes (g : NodeGenerationType) (entries : List ProcessCacheEntry)
    (ptr k : Nat) (l : List ProcessNode) (n : ProcessNode) (h : n ∈ l) :
    n ∈ forestNodes (rebaseSiblings g entries ptr k l) := by
  unfold rebaseSiblings
  split
  · exact mem_forestNodes_of_mem _ _ h
  · rename_i moved hk
    rw [forestNodes_append, List.mem_append]
    rcases mem_eraseIdx_or l k n h with h' | h'
    · left; exact mem_forestNodes_of_mem _ _ h'
    · right
      rw [hk] at h'
      cases h'
      simp only [forestNodes, List.append_nil]
      exact rebaseChain_nodes _ _ _ _

mutual
theorem ProcessNode.modifyChildren_ptrs (p : Nat) (f : List ProcessNode → List ProcessNode)
    (hf : ∀ l q, q ∈ forestPtrs l → q ∈ forestPtrs (f l)) :
    ∀ (n n' : ProcessNode), n.modifyChildren p f = some n' → ∀ q, q ∈ n.ptrs → q ∈ n'.ptrs
  | .mk a pr g e cs, n', h, q, hq => by
    simp only [ProcessNode.modifyChildren] at h
    simp only [ProcessNode.ptrs, List.mem_cons] at hq
    split at h
    · cases h
      simp only [ProcessNode.ptrs, List.mem_cons]
      rcases hq with hq | hq
      · left; exact hq
      · right; exact hf _ _ hq
    · split at h
      · rename_i cs' hcs
        cases h
        simp only [ProcessNode.ptrs, List.mem_cons]
        rcases hq with hq | hq
        · left; exact hq
        · right; exact modifyChildrenIn_ptrs p f hf cs cs' hcs q hq
      · cases h
theorem modifyChildrenIn_ptrs (p : Nat) (f : List ProcessNode → List ProcessNode)
    (hf : ∀ l q, q ∈ forestPtrs l → q ∈ forestPtrs (f l)) :
    ∀ (l l' : List ProcessNode), modifyChildrenIn p f l = some l' →
      ∀ q, q ∈ forestPtrs l → q ∈ forestPtrs l'
  | [], _, h, _, _ => by simp [modifyChildrenIn] at h
  | n :: rest, l', h, q, hq => by
    simp only [modifyChildrenIn] at h
    simp only [forestPtrs, List.mem_append] at hq
    split at h
    · rename_i n' hn
      cases h
      simp only [forestPtrs, List.mem_append]
      rcases hq with hq | hq
      · left; exact ProcessNode.modifyChildren_ptrs p f hf n n' hn q hq
      · right; exact hq
    · split at h
      · rename_i rest' hr
        cases h
        simp only [forestPtrs, List.mem_append]
        rcases hq with hq | hq
        · left; exact hq
        · right; exact modifyChildrenIn_ptrs p f hf rest rest' hr q hq
      · cases h
end

theorem updateSiblings_ptrs (tree : SiblingsRef) (f : List ProcessNode → List ProcessNode)
    (hf : ∀ l q, q ∈ forestPtrs l → q ∈ forestPtrs (f l)) (s : ActivityTree) (q : Nat)
    (hq : q ∈ forestPtrs s.ProcessNodes) :
    q ∈ forestPtrs (updateSiblings tree f s).ProcessNodes := by
  cases tree with
  | roots => exact hf _ _ hq
  | childrenOf p =>
    simp only [updateSiblings]
    split
    · rename_i forest hm
      exact modifyChildrenIn_ptrs p f hf _ _ hm q hq
    · exact hq

theorem rebaseTree_ptrs (tree : SiblingsRef) (branch : List ProcessCacheEntry) (i k : Nat)
    (g : NodeGenerationType) (s : ActivityTree) (q : Nat) (hq : q ∈ forestPtrs s.ProcessNodes) :
    q ∈ forestPtrs (rebaseTree tree branch i k g s).ProcessNodes := by
  simp only [rebaseTree]
  exact updateSiblings_ptrs tree _ (fun l q h => rebaseSiblings_ptrs _ _ _ _ l q h) s q hq

theorem appendNewNode_ptrs (tree : SiblingsRef) (entry : ProcessCacheEntry)
    (g : NodeGenerationType) (s : ActivityTree) (q : Nat) (hq : q ∈ forestPtrs s.ProcessNodes) :
    q ∈ forestPtrs (appendNewNode tree entry g s).ProcessNodes := by
  simp only [appendNewNode]
  refine updateSiblings_ptrs tree _ ?_ s q hq
  intro l q h
  rw [forestPtrs_append, List.mem_append]
  left; exact h

theorem findBranchInChildrenNodes_ptrs (x : Collaborators) (tree : SiblingsRef)
    (branch : List ProcessCacheEntry) (dryRun : Bool) (g : NodeGenerationType)
    (s : ActivityTree) (q : Nat) (hq : q ∈ forestPtrs s.ProcessNodes) :
    q ∈ forestPtrs (findBranchInChildrenNodes x tree branch dryRun g s).2.2.ProcessNodes := by
  rcases findBranchInChildrenNodes_cases x tree branch dryRun g s with
    ⟨e, rest, n, k, _, _, h⟩ | ⟨_, h | ⟨_, h⟩ | ⟨_, j, k, c, n, _, _, h⟩⟩
  · rw [h]; exact hq
  · rw [h]; exact hq
  · rw [h]; exact hq
  · rw [h]; exact rebaseTree_ptrs _ _ _ _ _ _ q hq

theorem attachProcessNode_ptrs (x : Collaborators) (entry : ProcessCacheEntry)
    (branch : List ProcessCacheEntry) (g : NodeGenerationType) (dryRun : Bool)
    (parent : CreateResult) (q : Nat) (hq : q ∈ forestPtrs parent.tree.ProcessNodes) :
    q ∈ forestPtrs (attachProcessNode x entry branch g dryRun parent).tree.ProcessNodes := by
  unfold attachProcessNode
  split
  · exact hq
  · split
    · split
      · exact hq
      · have h := findBranchInChildrenNodes_ptrs x SiblingsRef.roots branch dryRun g parent.tree
          q hq
        split
        · rename_i heq; rw [heq] at h; exact h
        · rename_i heq; rw [heq] at h
          split
          · exact h
          · split
            · exact appendNewNode_ptrs _ _ _ _ q h
            · exact h
    · rename_i parentNode _
      have h := findBranchInChildrenNodes_ptrs x (SiblingsRef.childrenOf parentNode) branch
        dryRun g parent.tree q hq
      split
      · rename_i heq; rw [heq] at h; exact h
      · rename_i heq; rw [heq] at h
        split
        · exact appendNewNode_ptrs _ _ _ _ q h
        · exact h

theorem deferCookie_forest (cs : cookieSelector) (r : CreateResult) :
    (deferCookie cs r).tree.ProcessNodes = r.tree.ProcessNodes := by
  obtain ⟨c, hc⟩ := deferCookie_tree cs r
  rw [hc]

theorem createProcessNodeRec_ptrs (x : Collaborators) (fuel : Nat)
    (entry : Option ProcessCacheEntry) (branch : List ProcessCacheEntry)
    (g : NodeGenerationType) (dryRun : Bool) (s : ActivityTree) (r : CreateResult)
    (h : createProcessNodeRec x fuel entry branch g dryRun s = some r) (q : Nat)
    (hq : q ∈ forestPtrs s.ProcessNodes) : q ∈ forestPtrs r.tree.ProcessNodes := by
  induction fuel generalizing entry branch g r with
  | zero => simp [createProcessNodeRec] at h
  | succ n ih =>
    cases entry with
    | none =>
      simp only [createProcessNodeRec, Option.some.injEq] at h
      subst h; exact hq
    | some e =>
      simp only [createProcessNodeRec] at h
      split at h
      · simp only [Option.some.injEq] at h; subst h; exact hq
      · split at h
        · simp only [Option.some.injEq] at h; subst h; exact hq
        · split at h
          · cases h
          · rename_i parent hp
            simp only [Option.some.injEq] at h; subst h
            rw [deferCookie_forest]
            exact attachProcessNode_ptrs x e _ g dryRun parent q (ih _ _ _ _ hp)

theorem CreateProcessNode_ptrs (x : Collaborators) (entry : Option ProcessCacheEntry)
    (branch : List ProcessCacheEntry) (g : NodeGenerationType) (dryRun : Bool)
    (s : ActivityTree) (q : Nat) (hq : q ∈ forestPtrs s.ProcessNodes) :
    q ∈ forestPtrs (CreateProcessNode x entry branch g dryRun s).tree.ProcessNodes := by
  unfold CreateProcessNode
  split
  · rename_i r hr
    exact createProcessNodeRec_ptrs x _ _ _ _ _ _ _ hr q hq
  · exact hq

theorem isEventValid_forest (event : Event) (dryRun : Bool) (s : ActivityTree) :
    (isEventValid event dryRun s).2.2.ProcessNodes = s.ProcessNodes := by
  unfold isEventValid
  split
  · split <;> rfl
  · split
    · split <;> rfl
    · rfl

theorem insert_ptrs (x : Collaborators) (event : Event) (dryRun : Bool)
    (g : NodeGenerationType) (s : ActivityTree) (q : Nat)
    (hq : q ∈ forestPtrs s.ProcessNodes) :
    q ∈ forestPtrs (insert x event dryRun g s).2.2.ProcessNodes := by
  unfold insert
  split
  · exact hq
  · have hv := isEventValid_forest event dryRun s
    split
    rename_i valid err at1 hev
    rw [hev] at hv
    simp only at hv
    split
    · simp only; rw [hv]; exact hq
    · have hc := CreateProcessNode_ptrs x event.ProcessCacheEntry [] g dryRun at1 q
        (by rw [hv]; exact hq)
      split
      rename_i node nw err2 at2 hcp
      rw [hcp] at hc
      simp only at hc
      split
      · exact hc
      · split
        · exact hc
        · split
          · exact hc
          · split
            · exact hc
            · rename_i n _
              rw [(insertEvent_forest x event dryRun g n nw _).1]
              exact hc

/-- C8: no process node is lost. Every pointer of the forest before `Insert` or `Contains` is a
pointer of the forest after the call; and the branch search, rebase included, keeps every node of
the list of siblings it is given, with its whole subtree (the same `Children`), among the nodes
below that list: the node a rebase moves is put back unchanged. -/
theorem no_node_lost (x : Collaborators) (event : Event) (generationType : NodeGenerationType)
    (s : ActivityTree) :
    (∀ q, q ∈ forestPtrs s.ProcessNodes →
        q ∈ forestPtrs (Insert x event generationType s).2.2.ProcessNodes)
    ∧ (∀ q, q ∈ forestPtrs s.ProcessNodes →
        q ∈ forestPtrs (Contains x event generationType s).2.2.ProcessNodes)
    ∧ (∀ tree branch dryRun g n, n ∈ getSiblings tree s →
        n ∈ forestNodes (getSiblings tree
          (findBranchInChildrenNodes x tree branch dryRun g s).2.2)) := by
  refine ⟨?_, ?_, ?_⟩
  · intro q hq
    have h := insert_ptrs x event false generationType s q hq
    unfold Insert
    split
    rename_i nw err at1 heq
    rw [heq] at h
    split <;> exact h
  · intro q hq
    have h := insert_ptrs x event true generationType s q hq
    unfold Contains
    split
    rename_i nw err at1 heq
    rw [heq] at h
    exact h
  · intro tree branch dryRun g n hn
    have hne : getSiblings tree s ≠ [] := by
      intro h; rw [h] at hn; cases hn
    rcases findBranchInChildrenNodes_cases x tree branch dryRun g s with
      ⟨e, rest, m, k, _, _, h⟩ | ⟨_, h | ⟨_, h⟩ | ⟨_, j, k, c, m, _, _, h⟩⟩
    · rw [h]; exact mem_forestNodes_of_mem _ _ hn
    · rw [h]; exact mem_forestNodes_of_mem _ _ hn
    · rw [h]; exact mem_forestNodes_of_mem _ _ hn
    · rw [h]
      simp only [rebaseTree]
      have hg := getSiblings_updateSiblings tree
        (rebaseSiblings g (branch.take j) s.nextPtr k) s (Or.inl hne)
      have hshape : ∀ (t : ActivityTree) st np cb,
          getSiblings tree { t with Stats := st, nextPtr := np, callbacks := cb }
            = getSiblings tree t := by
        intro t st np cb
        cases tree <;> rfl
      rw [hshape, hg]
      exact rebaseSiblings_nodes _ _ _ _ _ _ hn

/-- C8 (as stated, for the whole call): in `treeWithMake` the only root is `make`, the node of
pointer 0, and it has no child. The exec event of `cc` (lineage `systemd → sh → make → cc`) is
inserted without error: the rebase moves the node of pointer 0 below a new root `sh`, and the
same call then gives it the child `cc`, so that its `Children` are not the ones it had before
the call. -/
theorem Insert_changes_moved_children :
    basenames treeWithMake.ProcessNodes = ["make"]
    ∧ (findNode 0 treeWithMake.ProcessNodes).map (fun n => basenames n.Children) = some []
    ∧ (Insert pathCollaborators (execEvent ccEntry) Runtime treeWithMake).2.1 = none
    ∧ basenames (Insert pathCollaborators (execEvent ccEntry) Runtime
        treeWithMake).2.2.ProcessNodes = ["sh"]
    ∧ (Insert pathCollaborators (execEvent ccEntry) Runtime
        treeWithMake).2.2.ProcessNodes.map (fun n => basenames n.Children) = [["make"]]
    ∧ (findNode 0 (Insert pathCollaborators (execEvent ccEntry) Runtime
        treeWithMake).2.2.ProcessNodes).map (fun n => basenames n.Children) = some ["cc"] := by
  decide

/-! ## The configuration of the tree does not change -/

theorem updateSiblings_config (tree : SiblingsRef) (f : List ProcessNode → List ProcessNode)
    (s : ActivityTree) :
    (updateSiblings tree f s).differentiateArgs = s.differentiateArgs
    ∧ (updateSiblings tree f s).validator = s.validator := by
  cases tree with
  | roots => simp [updateSiblings]
  | childrenOf p =>
    simp only [updateSiblings]
    split <;> simp

theorem findBranchInChildrenNodes_config (x : Collaborators) (tree : SiblingsRef)
    (branch : List ProcessCacheEntry) (dryRun : Bool) (g : NodeGenerationType)
    (s : ActivityTree) :
    (findBranchInChildrenNodes x tree branch dryRun g s).2.2.differentiateArgs
        = s.differentiateArgs
    ∧ (findBranchInChildrenNodes x tree branch dryRun g s).2.2.validator = s.validator := by
  rcases findBranchInChildrenNodes_cases x tree branch dryRun g s with
    ⟨e, rest, n, k, _, _, h⟩ | ⟨_, h | ⟨_, h⟩ | ⟨_, j, k, c, n, _, _, h⟩⟩
  · rw [h]; exact ⟨rfl, rfl⟩
  · rw [h]; exact ⟨rfl, rfl⟩
  · rw [h]; exact ⟨rfl, rfl⟩
  · rw [h]; simp only [rebaseTree]; exact updateSiblings_config _ _ _

theorem appendNewNode_config (tree : SiblingsRef) (entry : ProcessCacheEntry)
    (g : NodeGenerationType) (s : ActivityTree) :
    (appendNewNode tree entry g s).differentiateArgs = s.differentiateArgs
    ∧ (appendNewNode tree entry g s).validator = s.validator := by
  simp only [appendNewNode]; exact updateSiblings_config _ _ _

theorem attachProcessNode_config (x : Collaborators) (entry : ProcessCacheEntry)
    (branch : List ProcessCacheEntry) (g : NodeGenerationType) (dryRun : Bool)
    (parent : CreateResult) :
    (attachProcessNode x entry branch g dryRun parent).tree.differentiateArgs
        = parent.tree.differentiateArgs
    ∧ (attachProcessNode x entry branch g dryRun parent).tree.validator
        = parent.tree.validator := by
  unfold attachProcessNode
  split
  · exact ⟨rfl, rfl⟩
  · split
    · split
      · exact ⟨rfl, rfl⟩
      · have h := findBranchInChildrenNodes_config x SiblingsRef.roots branch dryRun g parent.tree
        split
        · rename_i heq; rw [heq] at h; exact h
        · rename_i heq; rw [heq] at h
          split
          · exact h
          · split
            · have h2 := appendNewNode_config SiblingsRef.roots entry g (by assumption)
              exact ⟨h2.1.trans h.1, h2.2.trans h.2⟩
            · exact h
    · rename_i parentNode _
      have h := findBranchInChildrenNodes_config x (SiblingsRef.childrenOf parentNode) branch
        dryRun g parent.tree
      split
      · rename_i heq; rw [heq] at h; exact h
      · rename_i heq; rw [heq] at h
        split
        · have h2 := appendNewNode_config (SiblingsRef.childrenOf parentNode) entry g
            (by assumption)
          exact ⟨h2.1.trans h.1, h2.2.trans h.2⟩
        · exact h

theorem createProcessNodeRec_config (x : Collaborators) (fuel : Nat)
    (entry : Option ProcessCacheEntry) (branch : List ProcessCacheEntry)
    (g : NodeGenerationType) (dryRun : Bool) (s : ActivityTree) (r : CreateResult)
    (h : createProcessNodeRec x fuel entry branch g dryRun s = some r) :
    r.tree.differentiateArgs = s.differentiateArgs ∧ r.tree.validator = s.validator := by
  induction fuel generalizing entry branch g r with
  | zero => simp [createProcessNodeRec] at h
  | succ n ih =>
    cases entry with
    | none =>
      simp only [createProcessNodeRec, Option.some.injEq] at h
      subst h; exact ⟨rfl, rfl⟩
    | some e =>
      simp only [createProcessNodeRec] at h
      split at h
      · simp only [Option.some.injEq] at h; subst h; exact ⟨rfl, rfl⟩
      · split at h
        · simp only [Option.some.injEq] at h; subst h; exact ⟨rfl, rfl⟩
        · split at h
          · cases h
          · rename_i parent hp
            simp only [Option.some.injEq] at h; subst h
            obtain ⟨c, hc⟩ := deferCookie_tree (entryCookieSelector e)
              (attachProcessNode x e (e :: branch) g dryRun parent)
            rw [hc]
            have h1 := attachProcessNode_config x e (e :: branch) g dryRun parent
            have h2 := ih _ _ _ _ hp
            exact ⟨h1.1.trans h2.1, h1.2.trans h2.2⟩

theorem CreateProcessNode_config (x : Collaborators) (entry : Option ProcessCacheEntry)
    (branch : List ProcessCacheEntry) (g : NodeGenerationType) (dryRun : Bool)
    (s : ActivityTree) :
    (CreateProcessNode x entry branch g dryRun s).tree.differentiateArgs = s.differentiateArgs
    ∧ (CreateProcessNode x entry branch g dryRun s).tree.validator = s.validator := by
  unfold CreateProcessNode
  split
  · rename_i r hr
    exact createProcessNodeRec_config x _ _ _ _ _ _ _ hr
  · exact ⟨rfl, rfl⟩

theorem isEventValid_config (event : Event) (dryRun : Bool) (s : ActivityTree) :
    (isEventValid event dryRun s).2.2.differentiateArgs = s.differentiateArgs
    ∧ (isEventValid event dryRun s).2.2.validator = s.validator := by
  unfold isEventValid
  split
  · split <;> exact ⟨rfl, rfl⟩
  · split
    · split <;> exact ⟨rfl, rfl⟩
    · exact ⟨rfl, rfl⟩

theorem insertEvent_config (x : Collaborators) (event : Event) (dryRun : Bool)
    (g : NodeGenerationType) (node : Nat) (nw : Bool) (s : ActivityTree) :
    (insertEvent x event dryRun g node nw s).2.2.differentiateArgs = s.differentiateArgs
    ∧ (insertEvent x event dryRun g node nw s).2.2.validator = s.validator := by
  unfold insertEvent
  split <;> simp [setPayload]

/-- The forest after `insert` is the forest before the call or the one `CreateProcessNode`
left. -/
theorem insert_forest (x : Collaborators) (event : Event) (dryRun : Bool)
    (g : NodeGenerationType) (s : ActivityTree) :
    (insert x event dryRun g s).2.2.ProcessNodes = s.ProcessNodes
    ∨ (insert x event dryRun g s).2.2.ProcessNodes
        = (CreateProcessNode x event.ProcessCacheEntry [] g dryRun
            (isEventValid event dryRun s).2.2).tree.ProcessNodes := by
  unfold insert
  split
  · left; rfl
  · have hv := isEventValid_forest event dryRun s
    split
    rename_i valid err at1 hev
    rw [hev] at hv
    simp only at hv
    split
    · left; exact hv
    · right
      have hat : (isEventValid event dryRun s).2.2 = at1 := by rw [hev]
      rw [hat]
      split
      rename_i node nw err2 at2 hcp
      rw [hcp]
      simp only
      split
      · rfl
      · split
        · rfl
        · split
          · rfl
          · split
            · rfl
            · rename_i n _
              rw [(insertEvent_forest x event dryRun g n nw _).1]

theorem insert_config (x : Collaborators) (event : Event) (dryRun : Bool)
    (g : NodeGenerationType) (s : ActivityTree) :
    (insert x event dryRun g s).2.2.differentiateArgs = s.differentiateArgs
    ∧ (insert x event dryRun g s).2.2.validator = s.validator := by
  unfold insert
  split
  · exact ⟨rfl, rfl⟩
  · have hv := isEventValid_config event dryRun s
    split
    rename_i valid err at1 hev
    rw [hev] at hv
    simp only at hv
    split
    · exact hv
    · have hc := CreateProcessNode_config x event.ProcessCacheEntry [] g dryRun at1
      split
      rename_i node nw err2 at2 hcp
      rw [hcp] at hc
      simp only at hc
      have hcv : at2.differentiateArgs = s.differentiateArgs ∧ at2.validator = s.validator :=
        ⟨hc.1.trans hv.1, hc.2.trans hv.2⟩
      split
      · exact hcv
      · split
        · exact hcv
        · split
          · exact hcv
          · split
            · exact hcv
            · rename_i n _
              have := insertEvent_config x event dryRun g n nw
                { at2 with Stats := ActivityTreeStats.incProcessed at2.Stats event.EventType }
              exact ⟨this.1.trans hcv.1, this.2.trans hcv.2⟩

theorem Insert_tree (x : Collaborators) (event : Event) (g : NodeGenerationType)
    (s : ActivityTree) :
    (Insert x event g s).2.2.ProcessNodes = (insert x event false g s).2.2.ProcessNodes
    ∧ (Insert x event g s).2.2.differentiateArgs = (insert x event false g s).2.2.differentiateArgs
    ∧ (Insert x event g s).2.2.validator = (insert x event false g s).2.2.validator := by
  unfold Insert
  split
  rename_i nw err at1 heq
  rw [heq]
  split <;> simp

theorem Contains_tree (x : Collaborators) (event : Event) (g : NodeGenerationType)
    (s : ActivityTree) :
    (Contains x event g s).2.2 = (insert x event true g s).2.2 := by
  unfold Contains
  rfl

/-! ## No two siblings match a same process -/

theorem findFrom_none (x : Collaborators) (da : Bool) (entry : ProcessCacheEntry)
    (l : List ProcessNode) (i0 : Nat)
    (h : findProcessCacheEntryInChildrenNodesFrom x da entry l i0 = none) :
    ∀ c, c ∈ l → x.Matches c.Process entry.info.Process da = false := by
  induction l generalizing i0 with
  | nil => intro c hc; cases hc
  | cons m rest ih =>
    simp only [findProcessCacheEntryInChildrenNodesFrom] at h
    split at h
    · cases h
    · rename_i hm
      split at h
      · cases h
      · intro c hc
        rcases List.mem_cons.mp hc with hc | hc
        · rw [hc]; simpa using hm
        · exact ih _ h c hc

theorem forestNoTwinsBelow_iff (x : Collaborators) (da : Bool) (l : List ProcessNode) :
    forestNoTwinsBelow x da l ↔ ∀ n, n ∈ l → n.NoTwinsBelow x da := by
  induction l with
  | nil => simp [forestNoTwinsBelow]
  | cons m rest ih => simp [forestNoTwinsBelow, ih]

theorem ProcessNode.noTwinsBelow_iff (x : Collaborators) (da : Bool) (n : ProcessNode) :
    n.NoTwinsBelow x da ↔ NoTwins x da n.Children ∧ forestNoTwinsBelow x da n.Children := by
  cases n; simp [ProcessNode.NoTwinsBelow, ProcessNode.Children]

theorem rebaseChain_process (g : NodeGenerationType) (e : ProcessCacheEntry)
    (rest : List ProcessCacheEntry) (ptr : Nat) (moved : ProcessNode) :
    (rebaseChain g (e :: rest) ptr moved).Process = e.info.Process := by
  simp [rebaseChain, ProcessNode.Process]

theorem rebaseChain_noTwinsBelow (x : Collaborators) (da : Bool) (g : NodeGenerationType)
    (entries : List ProcessCacheEntry) (ptr : Nat) (moved : ProcessNode)
    (h : moved.NoTwinsBelow x da) : (rebaseChain g entries ptr moved).NoTwinsBelow x da := by
  induction entries generalizing ptr with
  | nil => simpa [rebaseChain] using h
  | cons e rest ih =>
    simp only [rebaseChain, ProcessNode.NoTwinsBelow, forestNoTwinsBelow, and_true]
    exact ⟨by simp [NoTwins], ih _⟩

/-- A node made for an entry that matches no node of the list can join the list. -/
theorem NoTwins_append (x : Collaborators) (da : Bool)
    (hrefl : ∀ p, x.Matches p p da = true)
    (heucl : ∀ a b p q, x.Matches a p da = true → x.Matches b p da = true →
      x.Matches a q da = true → x.Matches b q da = true)
    (l : List ProcessNode) (new : ProcessNode) (e : ProcessCacheEntry)
    (hnew : new.Process = e.info.Process) (hl : NoTwins x da l)
    (hnone : ∀ c, c ∈ l → x.Matches c.Process e.info.Process da = false) :
    NoTwins x da (l ++ [new]) := by
  unfold NoTwins at *
  rw [List.map_append, List.pairwise_append]
  refine ⟨hl, by simp, ?_⟩
  intro a ha b hb p hp
  simp only [List.map_cons, List.map_nil, List.mem_singleton] at hb
  obtain ⟨c, hc, hca⟩ := List.mem_map.mp ha
  subst hca
  subst hb
  have h1 := heucl new.Process c.Process p e.info.Process hp.2 hp.1 (by rw [hnew]; exact hrefl _)
  rw [hnone c hc] at h1
  cases h1

theorem NoTwins_eraseIdx (x : Collaborators) (da : Bool) (l : List ProcessNode) (k : Nat)
    (hl : NoTwins x da l) : NoTwins x da (l.eraseIdx k) := by
  unfold NoTwins at *
  exact hl.sublist ((List.eraseIdx_sublist l k).map _)

theorem rebaseSiblings_noTwins (x : Collaborators) (da : Bool)
    (hrefl : ∀ p, x.Matches p p da = true)
    (heucl : ∀ a b p q, x.Matches a p da = true → x.Matches b p da = true →
      x.Matches a q da = true → x.Matches b q da = true)
    (g : NodeGenerationType) (e : ProcessCacheEntry) (rest : List ProcessCacheEntry)
    (ptr k : Nat) (l : List ProcessNode) (hl : NoTwins x da l)
    (hb : forestNoTwinsBelow x da l)
    (hnone : ∀ c, c ∈ l → x.Matches c.Process e.info.Process da = false) :
    NoTwins x da (rebaseSiblings g (e :: rest) ptr k l)
    ∧ forestNoTwinsBelow x da (rebaseSiblings g (e :: rest) ptr k l) := by
  unfold rebaseSiblings
  split
  · exact ⟨hl, hb⟩
  · rename_i moved hk
    have hmem : moved ∈ l := List.getElem?_mem hk
    have hsub : ∀ c, c ∈ l.eraseIdx k → c ∈ l := fun c hc => (List.eraseIdx_sublist l k).subset hc
    refine ⟨?_, ?_⟩
    · exact NoTwins_append x da hrefl heucl _ _ e (rebaseChain_process _ _ _ _ _)
        (NoTwins_eraseIdx x da l k hl) (fun c hc => hnone c (hsub c hc))
    · rw [forestNoTwinsBelow_iff] at hb ⊢
      intro n hn
      rcases List.mem_append.mp hn with hn | hn
      · exact hb n (hsub n hn)
      · simp only [List.mem_singleton] at hn
        subst hn
        exact rebaseChain_noTwinsBelow x da g _ _ _ (hb moved hmem)

theorem append_noTwins (x : Collaborators) (da : Bool)
    (hrefl : ∀ p, x.Matches p p da = true)
    (heucl : ∀ a b p q, x.Matches a p da = true → x.Matches b p da = true →
      x.Matches a q da = true → x.Matches b q da = true)
    (g : NodeGenerationType) (e : ProcessCacheEntry) (ptr : Nat) (l : List ProcessNode)
    (hl : NoTwins x da l) (hb : forestNoTwinsBelow x da l)
    (hnone : ∀ c, c ∈ l → x.Matches c.Process e.info.Process da = false) :
    NoTwins x da (l ++ [NewProcessNode e g ptr])
    ∧ forestNoTwinsBelow x da (l ++ [NewProcessNode e g ptr]) := by
  refine ⟨NoTwins_append x da hrefl heucl l _ e (by simp [NewProcessNode, ProcessNode.Process])
    hl hnone, ?_⟩
  rw [forestNoTwinsBelow_iff] at hb ⊢
  intro n hn
  rcases List.mem_append.mp hn with hn | hn
  · exact hb n hn
  · simp only [List.mem_singleton] at hn
    subst hn
    simp [NewProcessNode, ProcessNode.NoTwinsBelow, forestNoTwinsBelow, NoTwins]

mutual
theorem ProcessNode.find_noTwinsBelow (x : Collaborators) (da : Bool) (p : Nat) :
    ∀ (n r : ProcessNode), n.find p = some r → n.NoTwinsBelow x da → r.NoTwinsBelow x da
  | .mk q pr g e cs, r, h, hn => by
    simp only [ProcessNode.find] at h
    split at h
    · cases h; exact hn
    · simp only [ProcessNode.NoTwinsBelow] at hn
      exact findNode_noTwinsBelow x da p cs r h hn.2
theorem findNode_noTwinsBelow (x : Collaborators) (da : Bool) (p : Nat) :
    ∀ (l : List ProcessNode) (r : ProcessNode), findNode p l = some r →
      forestNoTwinsBelow x da l → r.NoTwinsBelow x da
  | [], r, h, _ => by simp [findNode] at h
  | n :: rest, r, h, hl => by
    simp only [findNode] at h
    simp only [forestNoTwinsBelow] at hl
    split at h
    · rename_i r' hr
      cases h
      exact ProcessNode.find_noTwinsBelow x da p n r hr hl.1
    · exact findNode_noTwinsBelow x da p rest r h hl.2
end

mutual
theorem ProcessNode.modifyChildren_noTwins (x : Collaborators) (da : Bool) (p : Nat)
    (f : List ProcessNode → List ProcessNode) :
    ∀ (n r n' : ProcessNode), n.find p = some r → n.modifyChildren p f = some n' →
      n.NoTwinsBelow x da →
      NoTwins x da (f r.Children) ∧ forestNoTwinsBelow x da (f r.Children) →
      n'.NoTwinsBelow x da ∧ n'.Process = n.Process
  | .mk q pr g e cs, r, n', hfind, h, hn, hf => by
    simp only [ProcessNode.find] at hfind
    simp only [ProcessNode.modifyChildren] at h
    split at hfind
    · rename_i hq
      simp only [hq, if_true, Option.some.injEq] at h
      cases hfind
      subst h
      simp only [ProcessNode.Children] at hf
      exact ⟨by simpa [ProcessNode.NoTwinsBelow] using hf, rfl⟩
    · rename_i hq
      simp only [hq, if_false] at h
      split at h
      · rename_i cs' hcs
        cases h
        simp only [ProcessNode.NoTwinsBelow] at hn
        have := modifyChildrenIn_noTwins x da p f cs r cs' hfind hcs hn.2 hf
        refine ⟨?_, rfl⟩
        simp only [ProcessNode.NoTwinsBelow]
        refine ⟨?_, this.1⟩
        have h1 := hn.1
        unfold NoTwins at h1 ⊢
        rw [this.2]; exact h1
      · cases h
theorem modifyChildrenIn_noTwins (x : Collaborators) (da : Bool) (p : Nat)
    (f : List ProcessNode → List ProcessNode) :
    ∀ (l : List ProcessNode) (r : ProcessNode) (l' : List ProcessNode),
      findNode p l = some r → modifyChildrenIn p f l = some l' →
      forestNoTwinsBelow x da l →
      NoTwins x da (f r.Children) ∧ forestNoTwinsBelow x da (f r.Children) →
      forestNoTwinsBelow x da l' ∧ l'.map ProcessNode.Process = l.map ProcessNode.Process
  | [], r, _, hfind, _, _, _ => by simp [findNode] at hfind
  | n :: rest, r, l', hfind, h, hl, hf => by
    simp only [findNode] at hfind
    simp only [modifyChildrenIn] at h
    simp only [forestNoTwinsBelow] at hl
    split at hfind
    · rename_i r' hr
      cases hfind
      obtain ⟨n', h1, _⟩ := ProcessNode.find_modifyChildren p f n r hr
      simp only [h1, Option.some.injEq] at h
      subst h
      have := ProcessNode.modifyChildren_noTwins x da p f n r n' hr h1 hl.1 hf
      simp only [forestNoTwinsBelow, List.map_cons, this.2]
      exact ⟨⟨this.1, hl.2⟩, trivial⟩
    · rename_i hr
      have hn : n.modifyChildren p f = none := ProcessNode.modifyChildren_none p f n hr
      simp only [hn] at h
      split at h
      · rename_i rest' hrest
        cases h
        have := modifyChildrenIn_noTwins x da p f rest r rest' hfind hrest hl.2 hf
        simp only [forestNoTwinsBelow, List.map_cons, this.2]
        exact ⟨⟨hl.1, this.1⟩, trivial⟩
      · cases h
end

/-- Rewriting a list of siblings keeps the invariant when the new list has no twins. -/
theorem updateSiblings_noTwins (x : Collaborators) (tree : SiblingsRef)
    (f : List ProcessNode → List ProcessNode) (s : ActivityTree) (hs : NoTwinSiblings x s)
    (hf : NoTwins x s.differentiateArgs (getSiblings tree s) →
      forestNoTwinsBelow x s.differentiateArgs (getSiblings tree s) →
      NoTwins x s.differentiateArgs (f (getSiblings tree s))
        ∧ forestNoTwinsBelow x s.differentiateArgs (f (getSiblings tree s))) :
    NoTwins x s.differentiateArgs (updateSiblings tree f s).ProcessNodes
    ∧ forestNoTwinsBelow x s.differentiateArgs (updateSiblings tree f s).ProcessNodes := by
  cases tree with
  | roots => exact hf hs.1 hs.2
  | childrenOf p =>
    simp only [updateSiblings]
    split
    · rename_i forest hm
      cases hfind : findNode p s.ProcessNodes with
      | none =>
        rw [modifyChildrenIn_none p f _ hfind] at hm
        cases hm
      | some r =>
        have hr := findNode_noTwinsBelow x s.differentiateArgs p _ r hfind hs.2
        rw [ProcessNode.noTwinsBelow_iff] at hr
        simp only [getSiblings, hfind] at hf
        have := modifyChildrenIn_noTwins x s.differentiateArgs p f _ r forest hfind hm hs.2
          (hf hr.1 hr.2)
        refine ⟨?_, this.1⟩
        have h1 := hs.1
        unfold NoTwins at h1 ⊢
        simp only
        rw [this.2]; exact h1
    · exact hs

theorem NoTwinSiblings_of (x : Collaborators) (s s' : ActivityTree)
    (hda : s'.differentiateArgs = s.differentiateArgs)
    (h : NoTwins x s.differentiateArgs s'.ProcessNodes
      ∧ forestNoTwinsBelow x s.differentiateArgs s'.ProcessNodes) : NoTwinSiblings x s' := by
  unfold NoTwinSiblings
  rw [hda]; exact h

theorem appendNewNode_noTwins (x : Collaborators) (tree : SiblingsRef)
    (e : ProcessCacheEntry) (g : NodeGenerationType) (s : ActivityTree)
    (hrefl : ∀ p, x.Matches p p s.differentiateArgs = true)
    (heucl : ∀ a b p q, x.Matches a p s.differentiateArgs = true →
      x.Matches b p s.differentiateArgs = true → x.Matches a q s.differentiateArgs = true →
      x.Matches b q s.differentiateArgs = true)
    (hs : NoTwinSiblings x s)
    (hnone : ∀ c, c ∈ getSiblings tree s →
      x.Matches c.Process e.info.Process s.differentiateArgs = false) :
    NoTwinSiblings x (appendNewNode tree e g s) := by
  apply NoTwinSiblings_of x s _ (appendNewNode_config tree e g s).1
  simp only [appendNewNode]
  exact updateSiblings_noTwins x tree _ s hs
    (fun h1 h2 => append_noTwins x _ hrefl heucl g e _ _ h1 h2 hnone)

theorem rebaseTree_noTwins (x : Collaborators) (tree : SiblingsRef)
    (e : ProcessCacheEntry) (rest : List ProcessCacheEntry) (j k : Nat) (hj : 0 < j)
    (g : NodeGenerationType) (s : ActivityTree)
    (hrefl : ∀ p, x.Matches p p s.differentiateArgs = true)
    (heucl : ∀ a b p q, x.Matches a p s.differentiateArgs = true →
      x.Matches b p s.differentiateArgs = true → x.Matches a q s.differentiateArgs = true →
      x.Matches b q s.differentiateArgs = true)
    (hs : NoTwinSiblings x s)
    (hnone : ∀ c, c ∈ getSiblings tree s →
      x.Matches c.Process e.info.Process s.differentiateArgs = false) :
    NoTwinSiblings x (rebaseTree tree (e :: rest) j k g s) := by
  have hda : (rebaseTree tree (e :: rest) j k g s).differentiateArgs = s.differentiateArgs := by
    simp only [rebaseTree]; exact (updateSiblings_config _ _ _).1
  apply NoTwinSiblings_of x s _ hda
  simp only [rebaseTree]
  obtain ⟨j', rfl⟩ : ∃ j', j = j' + 1 := ⟨j - 1, by omega⟩
  simp only [List.take_succ_cons]
  exact updateSiblings_noTwins x tree _ s hs
    (fun h1 h2 => rebaseSiblings_noTwins x _ hrefl heucl g e _ _ k _ h1 h2 hnone)

theorem find_none (x : Collaborators) (da : Bool) (entry : ProcessCacheEntry)
    (l : List ProcessNode)
    (h : findProcessCacheEntryInChildrenNodes x da l entry = none) :
    ∀ c, c ∈ l → x.Matches c.Process entry.info.Process da = false :=
  findFrom_none x da entry l 0 h

/-- The branch search keeps the invariant; when it returns no node, the tree is the one it was
given and no node of the list matches the first entry of the branch. -/
theorem findBranchInChildrenNodes_noTwins (x : Collaborators) (tree : SiblingsRef)
    (e : ProcessCacheEntry) (rest : List ProcessCacheEntry) (dryRun : Bool)
    (g : NodeGenerationType) (s : ActivityTree)
    (hrefl : ∀ p, x.Matches p p s.differentiateArgs = true)
    (heucl : ∀ a b p q, x.Matches a p s.differentiateArgs = true →
      x.Matches b p s.differentiateArgs = true → x.Matches a q s.differentiateArgs = true →
      x.Matches b q s.differentiateArgs = true)
    (hs : NoTwinSiblings x s) :
    NoTwinSiblings x (findBranchInChildrenNodes x tree (e :: rest) dryRun g s).2.2
    ∧ ((findBranchInChildrenNodes x tree (e :: rest) dryRun g s).1 = none →
        (findBranchInChildrenNodes x tree (e :: rest) dryRun g s).2.2 = s
        ∧ ∀ c, c ∈ getSiblings tree s →
            x.Matches c.Process e.info.Process s.differentiateArgs = false) := by
  rcases findBranchInChildrenNodes_cases x tree (e :: rest) dryRun g s with
    ⟨e', rest', n, k, _, _, h⟩ | ⟨hnone, h | ⟨_, h⟩ | ⟨_, j, k, c, n, hj, _, h⟩⟩
  · rw [h]; exact ⟨hs, by intro h'; cases h'⟩
  · rw [h]; exact ⟨hs, fun _ => ⟨rfl, find_none x _ e _ (hnone e rest rfl)⟩⟩
  · rw [h]; exact ⟨hs, fun _ => ⟨rfl, find_none x _ e _ (hnone e rest rfl)⟩⟩
  · rw [h]
    refine ⟨?_, by intro h'; cases h'⟩
    exact rebaseTree_noTwins x tree e rest j k hj g s hrefl heucl hs
      (find_none x _ e _ (hnone e rest rfl))

theorem attachProcessNode_noTwins (x : Collaborators) (entry : ProcessCacheEntry)
    (branch : List ProcessCacheEntry) (g : NodeGenerationType) (dryRun : Bool)
    (parent : CreateResult)
    (hrefl : ∀ p, x.Matches p p parent.tree.differentiateArgs = true)
    (heucl : ∀ a b p q, x.Matches a p parent.tree.differentiateArgs = true →
      x.Matches b p parent.tree.differentiateArgs = true →
      x.Matches a q parent.tree.differentiateArgs = true →
      x.Matches b q parent.tree.differentiateArgs = true)
    (hs : NoTwinSiblings x parent.tree) :
    NoTwinSiblings x (attachProcessNode x entry (entry :: branch) g dryRun parent).tree := by
  unfold attachProcessNode
  split
  · exact hs
  · split
    · split
      · exact hs
      · have h := findBranchInChildrenNodes_noTwins x SiblingsRef.roots entry branch dryRun g
          parent.tree hrefl heucl hs
        split
        · rename_i heq; rw [heq] at h; exact h.1
        · rename_i at1 heq; rw [heq] at h
          obtain ⟨h1, h2⟩ := h
          obtain ⟨h3, h4⟩ := h2 rfl
          simp only at h3
          subst h3
          split
          · exact h1
          · split
            · exact appendNewNode_noTwins x _ entry g _ hrefl heucl h1 h4
            · exact h1
    · rename_i parentNode _
      have h := findBranchInChildrenNodes_noTwins x (SiblingsRef.childrenOf parentNode) entry
        branch dryRun g parent.tree hrefl heucl hs
      split
      · rename_i heq; rw [heq] at h; exact h.1
      · rename_i at1 heq; rw [heq] at h
        obtain ⟨h1, h2⟩ := h
        obtain ⟨h3, h4⟩ := h2 rfl
        simp only at h3
        subst h3
        split
        · exact appendNewNode_noTwins x _ entry g _ hrefl heucl h1 h4
        · exact h1

theorem deferCookie_noTwins (x : Collaborators) (cs : cookieSelector) (r : CreateResult)
    (h : NoTwinSiblings x r.tree) : NoTwinSiblings x (deferCookie cs r).tree := by
  obtain ⟨c, hc⟩ := deferCookie_tree cs r
  rw [hc]; exact h

theorem createProcessNodeRec_noTwins (x : Collaborators) (da : Bool)
    (hrefl : ∀ p, x.Matches p p da = true)
    (heucl : ∀ a b p q, x.Matches a p da = true → x.Matches b p da = true →
      x.Matches a q da = true → x.Matches b q da = true)
    (fuel : Nat) (entry : Option ProcessCacheEntry) (branch : List ProcessCacheEntry)
    (g : NodeGenerationType) (dryRun : Bool) (s : ActivityTree) (r : CreateResult)
    (hda : s.differentiateArgs = da)
    (h : createProcessNodeRec x fuel entry branch g dryRun s = some r)
    (hs : NoTwinSiblings x s) : NoTwinSiblings x r.tree := by
  induction fuel generalizing entry branch g r with
  | zero => simp [createProcessNodeRec] at h
  | succ n ih =>
    cases entry with
    | none =>
      simp only [createProcessNodeRec, Option.some.injEq] at h
      subst h; exact hs
    | some e =>
      simp only [createProcessNodeRec] at h
      split at h
      · simp only [Option.some.injEq] at h; subst h; exact hs
      · split at h
        · simp only [Option.some.injEq] at h; subst h; exact hs
        · split at h
          · cases h
          · rename_i parent hp
            simp only [Option.some.injEq] at h; subst h
            apply deferCookie_noTwins
            have hpd : parent.tree.differentiateArgs = da :=
              (createProcessNodeRec_config x _ _ _ _ _ _ _ hp).1.trans hda
            exact attachProcessNode_noTwins x e branch g dryRun parent
              (by rw [hpd]; exact hrefl) (by rw [hpd]; exact heucl) (ih _ _ _ _ hp)

theorem insert_noTwins (x : Collaborators) (da : Bool)
    (hrefl : ∀ p, x.Matches p p da = true)
    (heucl : ∀ a b p q, x.Matches a p da = true → x.Matches b p da = true →
      x.Matches a q da = true → x.Matches b q da = true)
    (event : Event) (dryRun : Bool) (g : NodeGenerationType) (s : ActivityTree)
    (hda : s.differentiateArgs = da) (hs : NoTwinSiblings x s) :
    NoTwinSiblings x (insert x event dryRun g s).2.2 := by
  have hc := (insert_config x event dryRun g s).1
  unfold NoTwinSiblings at hs ⊢
  rw [hc]
  rcases insert_forest x event dryRun g s with h | h
  · rw [h]; exact hs
  · rw [h]
    have hv1 := isEventValid_forest event dryRun s
    have hv2 := (isEventValid_config event dryRun s).1
    have hs' : NoTwinSiblings x (isEventValid event dryRun s).2.2 := by
      unfold NoTwinSiblings; rw [hv1, hv2]; exact hs
    have : NoTwinSiblings x (CreateProcessNode x event.ProcessCacheEntry [] g dryRun
        (isEventValid event dryRun s).2.2).tree := by
      unfold CreateProcessNode
      split
      · rename_i r hr
        exact createProcessNodeRec_noTwins x da hrefl heucl _ _ _ _ _ _ r (hv2.trans hda) hr hs'
      · exact hs'
    unfold NoTwinSiblings at this
    rw [(CreateProcessNode_config x _ _ _ _ _).1, hv2] at this
    exact this

/-- C6: in every tree reached from a new tree by calls of `Insert` and `Contains`, with the
argument differentiation fixed, no list of siblings (the root list or the `Children` of a node)
has two distinct nodes that match a same process. `Matches` is defined outside the embedded
file: the statement holds for every `Matches` that compares identities, that is one that is
reflexive (a node made for a process matches it) and such that two nodes matching a same process
match the same processes. -/
theorem reachable_noTwinSiblings (x : Collaborators) (validator : ActivityTreeOwner)
    (differentiateArgs : Bool)
    (hrefl : ∀ p, x.Matches p p differentiateArgs = true)
    (heucl : ∀ a b p q, x.Matches a p differentiateArgs = true →
      x.Matches b p differentiateArgs = true → x.Matches a q differentiateArgs = true →
      x.Matches b q differentiateArgs = true)
    (s : ActivityTree) (hs : Reachable x validator differentiateArgs s) :
    NoTwinSiblings x s := by
  have key : NoTwinSiblings x s ∧ s.differentiateArgs = differentiateArgs := by
    induction hs with
    | new =>
      refine ⟨?_, rfl⟩
      simp [NoTwinSiblings, NewActivityTree, NoTwins, forestNoTwinsBelow]
    | Insert s event g _ ih =>
      obtain ⟨h1, h2⟩ := ih
      have ht := Insert_tree x event g s
      have hi := insert_noTwins x differentiateArgs hrefl heucl event false g s h2 h1
      have hc := (insert_config x event false g s).1
      refine ⟨?_, ht.2.1.trans (hc.trans h2)⟩
      unfold NoTwinSiblings at hi ⊢
      rw [ht.1, ht.2.1]; exact hi
    | Contains s event g _ ih =>
      obtain ⟨h1, h2⟩ := ih
      rw [Contains_tree]
      exact ⟨insert_noTwins x differentiateArgs hrefl heucl event true g s h2 h1,
        (insert_config x event true g s).1.trans h2⟩
  exact key.1

/-- The invariant on the tree of the rebase: `treeWithInit` after the second insertion of the exec
event of `init.sh`, which rebases `init.sh` below a new root. -/
theorem reachable_noTwinSiblings_witness :
    NoTwinSiblings pathCollaborators
      (Insert pathCollaborators (execEvent initEntry) Runtime treeWithInit).2.2 :=
  reachable_noTwinSiblings pathCollaborators containerOwner false
    (by intro p; simp [pathCollaborators])
    (by
      intro a b p q h1 h2 h3
      simp only [pathCollaborators, beq_iff_eq] at *
      rw [h2, ← h1, h3])
    _ (Reachable.Insert _ _ _ (Reachable.Insert _ _ _ Reachable.new))

/-! ## One branch -/

theorem findNode_chainForest (fg : List (ProcessCacheEntry × NodeGenerationType)) (p j : Nat)
    (hj : j < fg.length) :
    findNode (p + j) (chainForest fg p)
      = some (ProcessNode.mk (p + j) fg[j].1.info.Process fg[j].2 fg[j].1.info.IsExecChild
          (chainForest (fg.drop (j + 1)) (p + j + 1))) := by
  induction fg generalizing p j with
  | nil => simp at hj
  | cons a rest ih =>
    obtain ⟨e, g⟩ := a
    cases j with
    | zero => simp [chainForest, findNode, ProcessNode.find]
    | succ j =>
      have hne : ¬ p = p + (j + 1) := by omega
      have := ih (p + 1) j (by simpa using hj)
      simp only [chainForest, findNode, ProcessNode.find, hne, if_false]
      have e1 : p + (j + 1) = p + 1 + j := by omega
      rw [e1, this]
      simp

theorem modifyChildrenIn_singleton (q : Nat) (f : List ProcessNode → List ProcessNode)
    (p : Nat) (pr : Process) (g : NodeGenerationType) (e : Bool) (cs : List ProcessNode) :
    modifyChildrenIn q f [ProcessNode.mk p pr g e cs]
      = if p = q then some [ProcessNode.mk p pr g e (f cs)]
        else (modifyChildrenIn q f cs).map (fun cs' => [ProcessNode.mk p pr g e cs']) := by
  simp only [modifyChildrenIn, ProcessNode.modifyChildren]
  by_cases h : p = q
  · simp [h]
  · simp only [h, if_false]
    cases modifyChildrenIn q f cs <;> rfl

theorem modifyChildrenIn_chainForest (fg : List (ProcessCacheEntry × NodeGenerationType))
    (p : Nat) (e : ProcessCacheEntry) (g : NodeGenerationType) (hfg : fg ≠ []) :
    modifyChildrenIn (p + fg.length - 1)
        (fun siblings => siblings ++ [NewProcessNode e g (p + fg.length)]) (chainForest fg p)
      = some (chainForest (fg ++ [(e, g)]) p) := by
  induction fg generalizing p with
  | nil => exact absurd rfl hfg
  | cons a rest ih =>
    obtain ⟨e0, g0⟩ := a
    cases rest with
    | nil =>
      simp [chainForest, modifyChildrenIn, ProcessNode.modifyChildren, NewProcessNode]
    | cons b rest' =>
      have := ih (p + 1) (by simp)
      have e1 : p + 1 + (b :: rest').length - 1 = p + ((e0, g0) :: b :: rest').length - 1 := by
        simp only [List.length_cons]; omega
      have e2 : p + 1 + (b :: rest').length = p + ((e0, g0) :: b :: rest').length := by
        simp only [List.length_cons]; omega
      rw [e1, e2] at this
      have hne : ¬ p = p + ((e0, g0) :: b :: rest').length - 1 := by
        simp only [List.length_cons]; omega
      show modifyChildrenIn _ _ [ProcessNode.mk p e0.info.Process g0 e0.info.IsExecChild
        (chainForest (b :: rest') (p + 1))] = _
      rw [modifyChildrenIn_singleton, if_neg hne, this]
      rfl

theorem forestShape_chainForest (fg fg' : List (ProcessCacheEntry × NodeGenerationType))
    (p : Nat) (h : fg.map Prod.fst = fg'.map Prod.fst) :
    forestShape (chainForest fg p) = forestShape (chainForest fg' p) := by
  induction fg generalizing fg' p with
  | nil =>
    cases fg' with
    | nil => rfl
    | cons b rest' => simp at h
  | cons a rest ih =>
    cases fg' with
    | nil => simp at h
    | cons b rest' =>
      obtain ⟨e, g⟩ := a
      obtain ⟨e', g'⟩ := b
      simp only [List.map_cons, List.cons.injEq] at h
      obtain ⟨h1, h2⟩ := h
      subst h1
      simp only [chainForest, forestShape, ProcessNode.shape]
      rw [ih rest' (p + 1) h2]

/-- The branch search in an empty list finds nothing. -/
theorem findBranchLoop_empty (x : Collaborators) (tree : SiblingsRef)
    (branch : List ProcessCacheEntry) (dryRun : Bool) (g : NodeGenerationType)
    (s : ActivityTree) (h : getSiblings tree s = []) (i : Nat) (rest : List ProcessCacheEntry) :
    findBranchLoop x tree branch dryRun g s i rest = (none, false, s) := by
  induction rest generalizing i with
  | nil => simp [findBranchLoop]
  | cons c rest ih =>
    simp only [findBranchLoop, h, findProcessCacheEntryInChildrenNodes,
      findProcessCacheEntryInChildrenNodesFrom]
    cases rest with
    | nil => rfl
    | cons next rest' =>
      simp only
      split
      · exact ih _
      · rfl

/-- The branch search returns the first node of the list when it matches the first entry. -/
theorem findBranch_head (x : Collaborators) (tree : SiblingsRef) (e : ProcessCacheEntry)
    (branch : List ProcessCacheEntry) (dryRun : Bool) (g : NodeGenerationType)
    (s : ActivityTree) (n : ProcessNode) (rest : List ProcessNode)
    (h : getSiblings tree s = n :: rest)
    (hm : x.Matches n.Process e.info.Process s.differentiateArgs = true) :
    findBranchInChildrenNodes x tree (e :: branch) dryRun g s = (some n.ptr, false, s) := by
  simp [findBranchInChildrenNodes, findBranchLoop, h, findProcessCacheEntryInChildrenNodes,
    findProcessCacheEntryInChildrenNodesFrom, hm]

/-! ## The nodes that the lookups return -/

theorem forestNodes_filter (f : ProcessNode → Bool) (l : List ProcessNode) (n : ProcessNode)
    (h : n ∈ forestNodes (l.filter f)) : n ∈ forestNodes l := by
  induction l with
  | nil => exact h
  | cons m rest ih =>
    simp only [List.filter] at h
    split at h
    · simp only [forestNodes, List.mem_append] at h ⊢
      rcases h with h | h
      · exact Or.inl h
      · exact Or.inr (ih h)
    · simp only [forestNodes, List.mem_append]
      exact Or.inr (ih h)

theorem ProcessNode.mem_nodes_children (c n : ProcessNode) (h : n ∈ forestNodes c.Children) :
    n ∈ c.nodes := by
  cases c
  simp only [ProcessNode.nodes, ProcessNode.Children] at h ⊢
  exact List.mem_cons_of_mem _ h

theorem execedNodesLoop_mem (x : Collaborators) (da : Bool) (entry : ProcessCacheEntry)
    (fuel : Nat) (q : List ProcessNode) (r : ProcessNode)
    (h : execedNodesLoop x da entry fuel q = some (some r)) : r ∈ forestNodes q := by
  induction fuel generalizing q with
  | zero => simp [execedNodesLoop] at h
  | succ n ih =>
    cases q with
    | nil => simp [execedNodesLoop] at h
    | cons cursor execChildren =>
      simp only [execedNodesLoop] at h
      have hsub : ∀ m, m ∈ forestNodes
          (execChildren ++ cursor.Children.filter (fun node => node.IsExecChild)) →
          m ∈ forestNodes (cursor :: execChildren) := by
        intro m hm
        rw [forestNodes_append] at hm
        simp only [forestNodes, List.mem_append] at hm ⊢
        rcases hm with hm | hm
        · exact Or.inr hm
        · exact Or.inl (ProcessNode.mem_nodes_children _ _ (forestNodes_filter _ _ _ hm))
      split at h
      · cases h
      · rename_i head tail hq
        split at h
        · simp only [Option.some.injEq] at h
          subst h
          apply hsub
          rw [hq]
          exact mem_forestNodes_of_mem _ _ (List.mem_cons_self _ _)
        · apply hsub
          rw [hq]
          exact ih _ h

theorem findFrom_mem (x : Collaborators) (da : Bool) (entry : ProcessCacheEntry)
    (l : List ProcessNode) (i0 : Nat) (n : ProcessNode) (k : Nat)
    (h : findProcessCacheEntryInChildrenNodesFrom x da entry l i0 = some (n, k)) :
    n ∈ forestNodes l := by
  induction l generalizing i0 with
  | nil => simp [findProcessCacheEntryInChildrenNodesFrom] at h
  | cons child rest ih =>
    simp only [findProcessCacheEntryInChildrenNodesFrom] at h
    simp only [forestNodes, List.mem_append]
    split at h
    · simp only [Option.some.injEq, Prod.mk.injEq] at h
      rw [← h.1]
      exact Or.inl (ProcessNode.mem_nodes_self _)
    · split at h
      · rename_i execChild he
        simp only [Option.some.injEq, Prod.mk.injEq] at h
        rw [← h.1]
        left
        unfold findProcessCacheEntryInChildExecedNodes at he
        split at he
        · rename_i r hr
          subst he
          have := execedNodesLoop_mem x da entry _ _ _ hr
          simpa [forestNodes] using this
        · cases he
      · exact Or.inr (ih _ h)

/-- The node that the search finds in a list is a node of the forest below the list. -/
theorem find_mem (x : Collaborators) (da : Bool) (entry : ProcessCacheEntry)
    (l : List ProcessNode) (n : ProcessNode) (k : Nat)
    (h : findProcessCacheEntryInChildrenNodes x da l entry = some (n, k)) :
    n ∈ forestNodes l :=
  findFrom_mem x da entry l 0 n k h


/-! ## The execed nodes below a node -/

theorem execChildrenOf_append (l₁ l₂ : List ProcessNode) :
    execChildrenOf (l₁ ++ l₂) = execChildrenOf l₁ ++ execChildrenOf l₂ := by
  induction l₁ with
  | nil => rfl
  | cons n rest ih => simp [execChildrenOf, ih]

theorem mem_execChildrenOf (l : List ProcessNode) (n : ProcessNode) :
    n ∈ execChildrenOf l ↔ ∃ m ∈ l, n ∈ m.Children ∧ n.IsExecChild = true := by
  induction l with
  | nil => simp [execChildrenOf]
  | cons m rest ih =>
    simp only [execChildrenOf, List.mem_append, ih, ProcessNode.execChildren, List.mem_filter,
      List.mem_cons, exists_eq_or_imp]

theorem countNodes_pos (l : List ProcessNode) (h : l ≠ []) : 0 < countNodes l := by
  cases l with
  | nil => exact absurd rfl h
  | cons n rest =>
    have := n.count_eq
    simp only [countNodes]
    omega

theorem countNodes_execChildren (n : ProcessNode) : countNodes n.execChildren < n.count := by
  have h1 := countNodes_filter_le (fun node => node.IsExecChild) n.Children
  have h2 := n.count_eq
  unfold ProcessNode.execChildren
  omega

theorem countNodes_execChildrenOf (l : List ProcessNode) :
    countNodes (execChildrenOf l) + l.length ≤ countNodes l := by
  induction l with
  | nil => simp [execChildrenOf, countNodes]
  | cons n rest ih =>
    have := countNodes_execChildren n
    simp only [execChildrenOf, countNodes_append, countNodes, List.length_cons]
    omega

theorem execLevels_nil (depth : Nat) : execLevels depth [] = [] := by
  cases depth <;> rfl

/-- The loop of `findProcessCacheEntryInChildExecedNodes`, on a queue made of the cursor, of the
rest `q` of its level and of the exec children of the nodes `p` that were before it in its level,
returns the first node that matches the entry among `q` and the levels that follow. -/
theorem execedNodesLoop_levels (x : Collaborators) (da : Bool) (entry : ProcessCacheEntry)
    (fuel : Nat) :
    ∀ (c : ProcessNode) (q p : List ProcessNode) (depth : Nat),
      countNodes (c :: (q ++ execChildrenOf p)) < fuel →
      countNodes (execChildrenOf (p ++ c :: q)) ≤ depth →
      execedNodesLoop x da entry fuel (c :: (q ++ execChildrenOf p))
        = some ((q ++ execLevels depth (execChildrenOf (p ++ c :: q))).find?
            (fun n => x.Matches n.Process entry.info.Process da)) := by
  induction fuel with
  | zero => intro c q p depth h; omega
  | succ n ih =>
    intro c q p depth hfuel hdepth
    have hq : (q ++ execChildrenOf p) ++ c.Children.filter (fun node => node.IsExecChild)
        = q ++ execChildrenOf (p ++ [c]) := by
      simp [execChildrenOf_append, execChildrenOf, ProcessNode.execChildren]
    have hc := countNodes_execChildren c
    have hcount : countNodes (q ++ execChildrenOf (p ++ [c]))
        < countNodes (c :: (q ++ execChildrenOf p)) := by
      simp only [countNodes, countNodes_append, execChildrenOf_append, execChildrenOf,
        List.append_nil]
      omega
    simp only [execedNodesLoop]
    rw [hq]
    cases q with
    | nil =>
      simp only [List.nil_append] at hcount ⊢
      have hpc : p ++ [c] = p ++ c :: [] := rfl
      cases hL : execChildrenOf (p ++ [c]) with
      | nil => simp [execLevels_nil]
      | cons h t =>
        rw [hL] at hcount
        have hd : countNodes (h :: t) ≤ depth := by rw [← hL]; exact hdepth
        have hpos := countNodes_pos (h :: t) (by simp)
        obtain ⟨d, rfl⟩ : ∃ d, depth = d + 1 := ⟨depth - 1, by omega⟩
        have hlen := countNodes_execChildrenOf (h :: t)
        simp only [List.length_cons] at hlen
        simp only [execLevels, List.cons_append, List.find?_cons]
        cases hm : x.Matches h.Process entry.info.Process da with
        | true => simp
        | false =>
          simp only [Bool.false_eq_true, if_false]
          have hf' : countNodes (c :: execChildrenOf p) < n + 1 := by simpa using hfuel
          have := ih h t [] d (by simp only [execChildrenOf, List.append_nil]; omega)
            (by simp only [List.nil_append]; omega)
          simp only [execChildrenOf, List.append_nil, List.nil_append] at this
          exact this
    | cons q0 q' =>
      simp only [List.cons_append, List.find?_cons]
      cases hm : x.Matches q0.Process entry.info.Process da with
      | true => simp
      | false =>
        simp only [Bool.false_eq_true, if_false]
        have hf' : countNodes (c :: q0 :: (q' ++ execChildrenOf p)) < n + 1 := by
          simpa using hfuel
        have hcount' : countNodes (q0 :: (q' ++ execChildrenOf (p ++ [c])))
            < countNodes (c :: q0 :: (q' ++ execChildrenOf p)) := by simpa using hcount
        have := ih q0 q' (p ++ [c]) depth (by omega) (by simpa using hdepth)
        simp only [List.append_assoc, List.singleton_append] at this
        exact this

theorem findProcessCacheEntryInChildExecedNodes_eq (x : Collaborators) (da : Bool)
    (child : ProcessNode) (entry : ProcessCacheEntry) :
    execedNodesLoop x da entry (child.count + 1) [child]
      = some ((execedNodes child).find? (fun n => x.Matches n.Process entry.info.Process da)) := by
  have h := execedNodesLoop_levels x da entry (child.count + 1) child [] [] child.count
    (by simp [execChildrenOf, countNodes])
    (by
      have := countNodes_execChildren child
      simp only [List.nil_append, execChildrenOf, List.append_nil]
      omega)
  simpa [execChildrenOf, execedNodes] using h

theorem ExecedBelow.cons (m c n : ProcessNode) (hc : c ∈ m.Children)
    (he : c.IsExecChild = true) (h : ExecedBelow c n) : ExecedBelow m n := by
  induction h with
  | direct n hn hne => exact ExecedBelow.step c n (ExecedBelow.direct c hc he) hn hne
  | step p n _ hn hne ih => exact ExecedBelow.step p n ih hn hne

theorem execLevels_sound (depth : Nat) (l : List ProcessNode) (n : ProcessNode)
    (h : n ∈ execLevels depth l) : n ∈ l ∨ ∃ m ∈ l, ExecedBelow m n := by
  induction depth generalizing l with
  | zero => simp [execLevels] at h
  | succ d ih =>
    cases l with
    | nil => simp [execLevels] at h
    | cons a rest =>
      simp only [execLevels, List.mem_append] at h
      rcases h with h | h
      · exact Or.inl h
      · right
        rcases ih _ h with h1 | ⟨c, hc, hcn⟩
        · obtain ⟨m, hm, hn, hne⟩ := (mem_execChildrenOf _ _).mp h1
          exact ⟨m, hm, ExecedBelow.direct n hn hne⟩
        · obtain ⟨m, hm, hcm, hce⟩ := (mem_execChildrenOf _ _).mp hc
          exact ⟨m, hm, ExecedBelow.cons m c n hcm hce hcn⟩

theorem execLevels_base (depth : Nat) (l : List ProcessNode) (n : ProcessNode)
    (hd : countNodes l ≤ depth) (h : n ∈ l) : n ∈ execLevels depth l := by
  cases l with
  | nil => cases h
  | cons a rest =>
    have hpos := countNodes_pos (a :: rest) (by simp)
    obtain ⟨d, rfl⟩ : ∃ d, depth = d + 1 := ⟨depth - 1, by omega⟩
    simp only [execLevels, List.mem_append]
    exact Or.inl h

theorem execLevels_closed (depth : Nat) (l : List ProcessNode) (p n : ProcessNode)
    (hd : countNodes l ≤ depth) (hp : p ∈ execLevels depth l) (hn : n ∈ p.Children)
    (hne : n.IsExecChild = true) : n ∈ execLevels depth l := by
  induction depth generalizing l with
  | zero => simp [execLevels] at hp
  | succ d ih =>
    cases l with
    | nil => simp [execLevels] at hp
    | cons a rest =>
      have hlen := countNodes_execChildrenOf (a :: rest)
      simp only [List.length_cons] at hlen
      have hd' : countNodes (execChildrenOf (a :: rest)) ≤ d := by omega
      simp only [execLevels, List.mem_append] at hp ⊢
      right
      rcases hp with hp | hp
      · exact execLevels_base d _ n hd' ((mem_execChildrenOf _ _).mpr ⟨p, hp, hn, hne⟩)
      · exact ih _ hd' hp

/-- The list `execedNodes child` holds the strict descendants of `child` that are reached
through nodes flagged as exec children, and only them. -/
theorem mem_execedNodes (child n : ProcessNode) : n ∈ execedNodes child ↔ ExecedBelow child n := by
  have hd : countNodes child.execChildren ≤ child.count :=
    Nat.le_of_lt (countNodes_execChildren child)
  have hmem : ∀ m, m ∈ child.execChildren ↔ m ∈ child.Children ∧ m.IsExecChild = true := by
    intro m
    simp [ProcessNode.execChildren, List.mem_filter]
  constructor
  · intro h
    rcases execLevels_sound _ _ _ h with h1 | ⟨c, hc, hcn⟩
    · exact ExecedBelow.direct n ((hmem n).mp h1).1 ((hmem n).mp h1).2
    · exact ExecedBelow.cons child c n ((hmem c).mp hc).1 ((hmem c).mp hc).2 hcn
  · intro h
    induction h with
    | direct n hn hne => exact execLevels_base _ _ n hd ((hmem n).mpr ⟨hn, hne⟩)
    | step m n _ hn hne ih => exact execLevels_closed _ _ m n hd ih hn hne

theorem count_le_countNodes (l : List ProcessNode) (n : ProcessNode) (h : n ∈ l) :
    n.count ≤ countNodes l := by
  induction l with
  | nil => cases h
  | cons a rest ih =>
    simp only [countNodes]
    rcases List.mem_cons.mp h with h | h
    · subst h; omega
    · have := ih h; omega

theorem ExecedBelow.count_lt (child n : ProcessNode) (h : ExecedBelow child n) :
    n.count < child.count := by
  induction h with
  | direct n hn _ =>
    have := count_le_countNodes _ _ hn
    have := child.count_eq
    omega
  | step m n _ hn _ ih =>
    have := count_le_countNodes _ _ hn
    have := m.count_eq
    omega

/-- C40: the loop of `findProcessCacheEntryInChildExecedNodes` ends within the bound its caller
gives, on every node and entry. The function returns the first node, in breadth-first order,
that matches the entry among the strict descendants of `child` reached through nodes that are all
flagged as exec children: it returns a node if and only if one of these descendants matches the
entry, the node returned is one of them and matches the entry, no node before it in
breadth-first order matches, and it is not `child`, of which it is a proper subtree. The
function reads the node and the entry and returns a node: the tree is no part of its result. -/
theorem findProcessCacheEntryInChildExecedNodes_spec (x : Collaborators) (da : Bool)
    (child : ProcessNode) (entry : ProcessCacheEntry) :
    (execedNodesLoop x da entry (child.count + 1) [child]).isSome = true
    ∧ findProcessCacheEntryInChildExecedNodes x da child entry
        = (execedNodes child).find? (fun n => x.Matches n.Process entry.info.Process da)
    ∧ (∀ n, n ∈ execedNodes child ↔ ExecedBelow child n)
    ∧ ((findProcessCacheEntryInChildExecedNodes x da child entry).isSome = true
        ↔ ∃ n, ExecedBelow child n ∧ x.Matches n.Process entry.info.Process da = true)
    ∧ ∀ r, findProcessCacheEntryInChildExecedNodes x da child entry = some r →
        ExecedBelow child r ∧ x.Matches r.Process entry.info.Process da = true
          ∧ r ≠ child ∧ r.count < child.count
          ∧ ∃ before after, execedNodes child = before ++ r :: after
              ∧ ∀ m ∈ before, x.Matches m.Process entry.info.Process da = false := by
  have heq : findProcessCacheEntryInChildExecedNodes x da child entry
      = (execedNodes child).find? (fun n => x.Matches n.Process entry.info.Process da) := by
    unfold findProcessCacheEntryInChildExecedNodes
    rw [findProcessCacheEntryInChildExecedNodes_eq]
  refine ⟨?_, heq, mem_execedNodes child, ?_, ?_⟩
  · rw [findProcessCacheEntryInChildExecedNodes_eq]; rfl
  · rw [heq, List.find?_isSome]
    constructor
    · rintro ⟨n, hn, hm⟩
      exact ⟨n, (mem_execedNodes child n).mp hn, hm⟩
    · rintro ⟨n, hn, hm⟩
      exact ⟨n, (mem_execedNodes child n).mpr hn, hm⟩
  · intro r hr
    rw [heq] at hr
    have hmem := List.mem_of_find?_eq_some hr
    have hmatch := List.find?_some hr
    have hbelow := (mem_execedNodes child r).mp hmem
    have hlt := ExecedBelow.count_lt child r hbelow
    refine ⟨hbelow, hmatch, ?_, hlt, ?_⟩
    · intro h
      rw [h] at hlt
      omega
    · obtain ⟨_, before, after, hsplit, hbefore⟩ := List.find?_eq_some.mp hr
      exact ⟨before, after, hsplit, fun m hm => by simpa using hbefore m hm⟩

/-! ## The node found matches the entry -/

theorem findFrom_matches (x : Collaborators) (da : Bool) (entry : ProcessCacheEntry)
    (l : List ProcessNode) (i0 : Nat) (n : ProcessNode) (k : Nat)
    (h : findProcessCacheEntryInChildrenNodesFrom x da entry l i0 = some (n, k)) :
    x.Matches n.Process entry.info.Process da = true := by
  induction l generalizing i0 with
  | nil => simp [findProcessCacheEntryInChildrenNodesFrom] at h
  | cons child rest ih =>
    simp only [findProcessCacheEntryInChildrenNodesFrom] at h
    split at h
    · rename_i hm
      simp only [Option.some.injEq, Prod.mk.injEq] at h
      rw [← h.1]; exact hm
    · split at h
      · rename_i execChild he
        simp only [Option.some.injEq, Prod.mk.injEq] at h
        rw [← h.1]
        unfold findProcessCacheEntryInChildExecedNodes at he
        rw [findProcessCacheEntryInChildExecedNodes_eq] at he
        simp only at he
        have hm := List.find?_some he
        exact hm
      · exact ih _ h

theorem find_matches (x : Collaborators) (da : Bool) (entry : ProcessCacheEntry)
    (l : List ProcessNode) (n : ProcessNode) (k : Nat)
    (h : findProcessCacheEntryInChildrenNodes x da l entry = some (n, k)) :
    x.Matches n.Process entry.info.Process da = true :=
  findFrom_matches x da entry l 0 n k h

theorem chainForest_process (fg : List (ProcessCacheEntry × NodeGenerationType)) (p : Nat)
    (n : ProcessNode) (h : n ∈ forestNodes (chainForest fg p)) :
    ∃ e, e ∈ fg.map Prod.fst ∧ n.Process = e.info.Process := by
  induction fg generalizing p with
  | nil => simp [chainForest, forestNodes] at h
  | cons a rest ih =>
    obtain ⟨e, g⟩ := a
    simp only [chainForest, forestNodes, ProcessNode.nodes, List.append_nil, List.mem_cons] at h
    rcases h with h | h
    · exact ⟨e, by simp, by rw [h]; rfl⟩
    · obtain ⟨e', he', hp⟩ := ih _ h
      exact ⟨e', by simp only [List.map_cons, List.mem_cons]; exact Or.inr he', hp⟩


/-! ## The ancestors of the oldest entry stay out of the tree -/

theorem nextAncestorLoop_suffix (current : EntryInfo) (l : List EntryInfo)
    (a : ProcessCacheEntry) (h : nextAncestorLoop current l = some a) :
    ∃ pre, l = pre ++ a.info :: a.Ancestors := by
  induction l generalizing current with
  | nil => simp [nextAncestorLoop] at h
  | cons anc rest ih =>
    simp only [nextAncestorLoop] at h
    split at h
    · cases h
    · split at h
      · cases h; exact ⟨[], rfl⟩
      · split at h
        · split at h
          · cases h
          · split at h
            · cases h
            · split at h
              · cases h; exact ⟨[], rfl⟩
              · obtain ⟨pre, hpre⟩ := ih _ h
                exact ⟨anc :: pre, by rw [hpre]; rfl⟩
        · obtain ⟨pre, hpre⟩ := ih _ h
          exact ⟨anc :: pre, by rw [hpre]; rfl⟩

theorem IsAncestorOf_next (e a : ProcessCacheEntry)
    (h : GetNextAncestorBinaryOrArgv0 (some e) = some a) : IsAncestorOf a e :=
  nextAncestorLoop_suffix _ _ _ h

theorem IsAncestorOf_trans (a b c : ProcessCacheEntry) (h1 : IsAncestorOf a b)
    (h2 : IsAncestorOf b c) : IsAncestorOf a c := by
  obtain ⟨p1, hp1⟩ := h1
  obtain ⟨p2, hp2⟩ := h2
  refine ⟨p2 ++ b.info :: p1, ?_⟩
  rw [hp2, hp1]
  simp

/-- The loop of the branch search on entries that are not found, followed by an entry that is
not an exec child, ends without a match. -/
theorem findBranchLoop_stops (x : Collaborators) (tree : SiblingsRef)
    (branch : List ProcessCacheEntry) (dryRun : Bool) (g : NodeGenerationType)
    (s : ActivityTree) (r : ProcessCacheEntry) (rest : List ProcessCacheEntry)
    (hr : r.info.IsExecChild = false) (c : ProcessCacheEntry) (pre : List ProcessCacheEntry)
    (i : Nat)
    (hnone : ∀ p, p ∈ c :: pre →
      findProcessCacheEntryInChildrenNodes x s.differentiateArgs (getSiblings tree s) p = none) :
    findBranchLoop x tree branch dryRun g s i (c :: pre ++ r :: rest) = (none, false, s) := by
  induction pre generalizing c i with
  | nil =>
    simp [findBranchLoop, hnone c (List.mem_cons_self _ _), hr]
  | cons c' pre' ih =>
    have h1 := hnone c (List.mem_cons_self _ _)
    have h2 := ih c' (i + 1) (fun p hp => hnone p (List.mem_cons_of_mem _ hp))
    simp only [List.cons_append] at h2 ⊢
    simp only [findBranchLoop, h1]
    split
    · exact h2
    · rfl

theorem createProcessNodeRec_outside (x : Collaborators) (v : ActivityTreeOwner)
    (chain : List ProcessCacheEntry) (hv : ValidAncestorChain x v chain) (r : ProcessCacheEntry)
    (hr : chain[0]? = some r) (d : Nat) (s : ActivityTree) (hs : ChainState v chain d s)
    (fuel : Nat) (o : Option ProcessCacheEntry) (pre rest : List ProcessCacheEntry)
    (g : NodeGenerationType) (ho : ∀ o', o = some o' → DistinctAncestor r o')
    (hpre : ∀ p, p ∈ pre → DistinctAncestor r p)
    (hfuel : lineageDepth o < fuel) :
    ∃ err, createProcessNodeRec x fuel o (pre ++ r :: rest) g false s
      = some ⟨none, false, err, s⟩ := by
  induction fuel generalizing o pre g with
  | zero => omega
  | succ n ih =>
    cases o with
    | none => exact ⟨none, by simp [createProcessNodeRec]⟩
    | some o' =>
      have hanc := ho o' rfl
      simp only [createProcessNodeRec]
      split
      · exact ⟨_, rfl⟩
      · split
        · rename_i node hck
          exfalso
          split at hck
          · rename_i hvalid
            obtain ⟨i, e, _, hi, _, hve, hcs⟩ := hs.cache _ _ hck
            exact hv.outsideCookies r o' e hr hanc (List.getElem?_mem hi) hvalid hve hcs
          · cases hck
        · have hlt := lineageDepth_next o'
          obtain ⟨err, hp⟩ := ih (GetNextAncestorBinaryOrArgv0 (some o')) (o' :: pre) Snapshot
            (fun o'' h'' => DistinctAncestor.step o' o'' hanc h'')
            (fun p hp => by
              rcases List.mem_cons.mp hp with h | h
              · rw [h]; exact hanc
              · exact hpre p h)
            (by omega)
          have hp' : createProcessNodeRec x n (GetNextAncestorBinaryOrArgv0 (some o'))
              (o' :: (pre ++ r :: rest)) Snapshot false s = some ⟨none, false, err, s⟩ := hp
          rw [hp']
          rcases hv.outside r o' hr hanc with hsel | ⟨hroot, hexec, hmatch⟩
          · have hsel' : s.validator.MatchesSelector o' = false := by
              rw [hs.validator_eq]; exact hsel
            exact ⟨some Error.ErrContainerIDNotEqual,
              by simp [attachProcessNode, hsel', deferCookie]⟩
          · cases hsel : s.validator.MatchesSelector o' with
            | false =>
              exact ⟨some Error.ErrContainerIDNotEqual,
                by simp [attachProcessNode, hsel, deferCookie]⟩
            | true =>
              obtain ⟨fg, hfg, hf⟩ := hs.forest
              have hnone : ∀ p, p ∈ o' :: pre →
                  findProcessCacheEntryInChildrenNodes x s.differentiateArgs
                    (getSiblings SiblingsRef.roots s) p = none := by
                intro p hp
                have hpa : DistinctAncestor r p := by
                  rcases List.mem_cons.mp hp with h | h
                  · rw [h]; exact hanc
                  · exact hpre p h
                cases hfd : findProcessCacheEntryInChildrenNodes x s.differentiateArgs
                    (getSiblings SiblingsRef.roots s) p with
                | none => rfl
                | some res =>
                  obtain ⟨m, k⟩ := res
                  exfalso
                  have hm := find_matches _ _ _ _ _ _ hfd
                  have hmem := find_mem _ _ _ _ _ _ hfd
                  simp only [getSiblings, hf] at hmem
                  obtain ⟨e, he, hpe⟩ := chainForest_process fg 0 m hmem
                  rw [hfg] at he
                  have := hmatch p e hpa (List.mem_of_mem_take he)
                  rw [hs.differentiateArgs_eq, hpe, this] at hm
                  cases hm
              have hfb : findBranchInChildrenNodes x SiblingsRef.roots
                  (o' :: (pre ++ r :: rest)) false g s = (none, false, s) :=
                findBranchLoop_stops x _ _ false g s r rest hexec o' pre 0 hnone
              exact ⟨some Error.ErrNotValidRootNode,
                by simp [attachProcessNode, hsel, hfb, hroot, deferCookie]⟩

/-! ## The cookie shortcut of a node of the branch -/

theorem entryCookieSelector_isSet (e : ProcessCacheEntry)
    (h : (entryCookieSelector e).isSet = true) : eventHaveValidCookie e = true := by
  unfold entryCookieSelector at h
  split at h
  · assumption
  · simp [cookieSelector.isSet] at h

theorem deferCookie_chain (v : ActivityTreeOwner) (chain : List ProcessCacheEntry) (d i : Nat)
    (e : ProcessCacheEntry) (hi : i < d) (he : chain[i]? = some e) (nw : Bool)
    (s : ActivityTree) (hs : ChainState v chain d s) :
    ∃ s', deferCookie (entryCookieSelector e) ⟨some i, nw, none, s⟩ = ⟨some i, nw, none, s'⟩
      ∧ ChainState v chain d s' := by
  simp only [deferCookie]
  split
  · rename_i hset
    refine ⟨_, rfl, ?_⟩
    refine ⟨hs.validator_eq, hs.differentiateArgs_eq, hs.nextPtr_eq, hs.le, hs.forest, ?_⟩
    intro cs node hc
    simp only [setCookie] at hc
    split at hc
    · rename_i hcs
      cases hc
      exact ⟨i, e, hi, he, rfl, entryCookieSelector_isSet e hset, hcs⟩
    · exact hs.cache cs node hc
  · exact ⟨_, rfl, hs⟩

theorem ChainState_mono_cache (v : ActivityTreeOwner) (chain : List ProcessCacheEntry)
    (d d' : Nat) (s s' : ActivityTree) (hs : ChainState v chain d s) (hd : d ≤ d')
    (hle : d' ≤ chain.length) (hval : s'.validator = s.validator)
    (hda : s'.differentiateArgs = s.differentiateArgs) (hn : s'.nextPtr = d')
    (hc : s'.CookieToProcessNode = s.CookieToProcessNode)
    (hf : ∃ fg, fg.map Prod.fst = chain.take d' ∧ s'.ProcessNodes = chainForest fg 0) :
    ChainState v chain d' s' := by
  refine ⟨hval.trans hs.validator_eq, hda.trans hs.differentiateArgs_eq, hn, hle, hf, ?_⟩
  intro cs node h
  rw [hc] at h
  obtain ⟨i, e, hi, h1, h2, h3, h4⟩ := hs.cache cs node h
  exact ⟨i, e, by omega, h1, h2, h3, h4⟩

/-! ## The node of an entry of the chain -/

theorem chain_take_succ (chain : List ProcessCacheEntry) (i : Nat) (e : ProcessCacheEntry)
    (h : chain[i]? = some e) : chain.take (i + 1) = chain.take i ++ [e] := by
  rw [List.take_succ, h]; rfl

theorem chain_length_of_getElem? (chain : List ProcessCacheEntry) (i : Nat)
    (e : ProcessCacheEntry) (h : chain[i]? = some e) : i < chain.length := by
  rcases Nat.lt_or_ge i chain.length with h' | h'
  · exact h'
  · rw [List.getElem?_eq_none h'] at h; cases h

theorem fg_length (chain : List ProcessCacheEntry) (d : Nat) (hd : d ≤ chain.length)
    (fg : List (ProcessCacheEntry × NodeGenerationType))
    (h : fg.map Prod.fst = chain.take d) : fg.length = d := by
  have := congrArg List.length h
  simp only [List.length_map, List.length_take] at this
  omega

theorem fg_getElem (chain : List ProcessCacheEntry) (d i : Nat) (e : ProcessCacheEntry)
    (fg : List (ProcessCacheEntry × NodeGenerationType))
    (h : fg.map Prod.fst = chain.take d) (hi : i < d) (he : chain[i]? = some e) :
    ∃ g, fg[i]? = some (e, g) := by
  have h1 : (fg.map Prod.fst)[i]? = some e := by
    rw [h, List.getElem?_take_of_lt hi, he]
  rw [List.getElem?_map] at h1
  cases hfg : fg[i]? with
  | none => rw [hfg] at h1; cases h1
  | some a =>
    rw [hfg] at h1
    simp only [Option.map_some', Option.some.injEq] at h1
    exact ⟨a.2, by rw [← h1]⟩

theorem getSiblings_chain_child (s : ActivityTree)
    (fg : List (ProcessCacheEntry × NodeGenerationType)) (i : Nat) (e : ProcessCacheEntry)
    (g : NodeGenerationType) (hf : s.ProcessNodes = chainForest fg 0)
    (h : fg[i + 1]? = some (e, g)) :
    ∃ cs, getSiblings (SiblingsRef.childrenOf i) s
      = [ProcessNode.mk (i + 1) e.info.Process g e.info.IsExecChild cs] := by
  have hlt : i + 1 < fg.length := by
    rcases Nat.lt_or_ge (i + 1) fg.length with h' | h'
    · exact h'
    · rw [List.getElem?_eq_none h'] at h; cases h
  have hfind := findNode_chainForest fg 0 i (by omega)
  simp only [Nat.zero_add] at hfind
  simp only [getSiblings, hf, hfind, ProcessNode.Children]
  rw [List.drop_eq_getElem_cons hlt]
  have : fg[i + 1] = (e, g) := by
    rw [List.getElem?_eq_getElem hlt] at h
    exact Option.some.inj h
  rw [this]
  exact ⟨_, rfl⟩

theorem getSiblings_chain_last (s : ActivityTree)
    (fg : List (ProcessCacheEntry × NodeGenerationType)) (i : Nat)
    (hf : s.ProcessNodes = chainForest fg 0) (h : fg.length = i + 1) :
    getSiblings (SiblingsRef.childrenOf i) s = [] := by
  have hfind := findNode_chainForest fg 0 i (by omega)
  simp only [Nat.zero_add] at hfind
  simp only [getSiblings, hf, hfind, ProcessNode.Children]
  rw [List.drop_of_length_le (by omega)]
  rfl

theorem appendNewNode_chain_child (s : ActivityTree)
    (fg : List (ProcessCacheEntry × NodeGenerationType)) (i : Nat) (e : ProcessCacheEntry)
    (g : NodeGenerationType) (hf : s.ProcessNodes = chainForest fg 0) (h : fg.length = i + 1)
    (hn : s.nextPtr = i + 1) :
    (appendNewNode (SiblingsRef.childrenOf i) e g s).ProcessNodes = chainForest (fg ++ [(e, g)]) 0
    ∧ (appendNewNode (SiblingsRef.childrenOf i) e g s).nextPtr = i + 2
    ∧ (appendNewNode (SiblingsRef.childrenOf i) e g s).CookieToProcessNode
        = s.CookieToProcessNode := by
  have hm := modifyChildrenIn_chainForest fg 0 e g (by intro h'; rw [h'] at h; simp at h)
  simp only [Nat.zero_add, h, Nat.add_sub_cancel] at hm
  simp [appendNewNode, updateSiblings, hf, hn, hm]

theorem appendNewNode_chain_root (s : ActivityTree) (e : ProcessCacheEntry)
    (g : NodeGenerationType) (hf : s.ProcessNodes = []) (hn : s.nextPtr = 0) :
    (appendNewNode SiblingsRef.roots e g s).ProcessNodes = chainForest [(e, g)] 0
    ∧ (appendNewNode SiblingsRef.roots e g s).nextPtr = 1
    ∧ (appendNewNode SiblingsRef.roots e g s).CookieToProcessNode = s.CookieToProcessNode := by
  simp [appendNewNode, updateSiblings, hf, hn, chainForest, NewProcessNode]

theorem chain_cookie_hit (x : Collaborators) (v : ActivityTreeOwner)
    (chain : List ProcessCacheEntry) (hv : ValidAncestorChain x v chain) (d i : Nat) (e : ProcessCacheEntry) (s : ActivityTree)
    (he : chain[i]? = some e) (hs : ChainState v chain d s) (node : NodePtr)
    (h : (if eventHaveValidCookie e then s.CookieToProcessNode (entryCookieSelector e)
        else none) = some node) :
    node = some i ∧ i < d := by
  split at h
  · rename_i hvalid
    obtain ⟨j, e', hj, he', hn, hve, hcs⟩ := hs.cache _ _ h
    have := hv.cookies i j e e' he he' hvalid hve hcs
    subst this
    exact ⟨hn, hj⟩
  · cases h

/-- The attachment of the oldest entry of the chain, whose ancestors are out of the tree. -/
theorem attachProcessNode_chain_root (x : Collaborators) (v : ActivityTreeOwner)
    (chain : List ProcessCacheEntry) (hv : ValidAncestorChain x v chain)
    (hrefl : ∀ p, x.Matches p p false = true) (e : ProcessCacheEntry)
    (he : chain[0]? = some e) (branch : List ProcessCacheEntry) (g : NodeGenerationType)
    (err : Option Error) (s : ActivityTree) (d : Nat) (hs : ChainState v chain d s) :
    ∃ s', attachProcessNode x e (e :: branch) g false ⟨none, false, err, s⟩
        = ⟨some 0, decide (d ≤ 0), none, s'⟩
      ∧ ChainState v chain (max d 1) s' := by
  have hsel : s.validator.MatchesSelector e = true := by
    rw [hs.validator_eq]; exact (hv.root e he).2
  have hroot := (hv.root e he).1
  have hlen := chain_length_of_getElem? chain 0 e he
  obtain ⟨fg, hfg, hf⟩ := hs.forest
  rcases Nat.eq_zero_or_pos d with hd | hd
  · subst hd
    have hfgnil : fg = [] := by
      simpa using hfg
    subst hfgnil
    have hf' : s.ProcessNodes = [] := hf
    have hfb : findBranchInChildrenNodes x SiblingsRef.roots (e :: branch) false g s
        = (none, false, s) :=
      findBranchLoop_empty x _ _ _ _ s (by simp [getSiblings, hf']) 0 _
    have happ := appendNewNode_chain_root s e g hf' hs.nextPtr_eq
    have hcfg := appendNewNode_config SiblingsRef.roots e g s
    refine ⟨appendNewNode SiblingsRef.roots e g s, ?_, ?_⟩
    · simp [attachProcessNode, hsel, hfb, hroot, hs.nextPtr_eq]
    · exact ChainState_mono_cache v chain 0 1 s _ hs (by omega) (by omega) hcfg.2 hcfg.1
        happ.2.1 happ.2.2 ⟨[(e, g)], by simp [chain_take_succ chain 0 e he], happ.1⟩
  · obtain ⟨g', hg'⟩ := fg_getElem chain d 0 e fg hfg hd he
    obtain ⟨rest, hrest⟩ : ∃ rest, fg = (e, g') :: rest := by
      cases fg with
      | nil => simp at hg'
      | cons a rest => simp at hg'; exact ⟨rest, by rw [hg']⟩
    subst hrest
    have hsib : getSiblings SiblingsRef.roots s
        = ProcessNode.mk 0 e.info.Process g' e.info.IsExecChild (chainForest rest 1) :: [] := by
      simp [getSiblings, hf, chainForest]
    have hfb := findBranch_head x SiblingsRef.roots e branch false g s _ _ hsib
      (by rw [hs.differentiateArgs_eq]; exact hrefl _)
    refine ⟨s, ?_, ?_⟩
    · have hd0 : ¬ d ≤ 0 := by omega
      simp [attachProcessNode, hsel, hfb, ProcessNode.ptr, hd0]
    · have : max d 1 = d := by omega
      rw [this]; exact hs

/-- The attachment of an entry of the chain below the node of the entry before it. -/
theorem attachProcessNode_chain_child (x : Collaborators) (v : ActivityTreeOwner)
    (chain : List ProcessCacheEntry) (hrefl : ∀ p, x.Matches p p false = true)
    (i : Nat) (e : ProcessCacheEntry) (he : chain[i + 1]? = some e)
    (branch : List ProcessCacheEntry) (g : NodeGenerationType) (s : ActivityTree) (d : Nat)
    (hs : ChainState v chain (max d (i + 1)) s) :
    ∃ s', attachProcessNode x e (e :: branch) g false ⟨some i, decide (d ≤ i), none, s⟩
        = ⟨some (i + 1), decide (d ≤ i + 1), none, s'⟩
      ∧ ChainState v chain (max d (i + 2)) s' := by
  have hlen := chain_length_of_getElem? chain (i + 1) e he
  obtain ⟨fg, hfg, hf⟩ := hs.forest
  have hfl := fg_length chain _ hs.le fg hfg
  rcases Nat.lt_or_ge (i + 1) d with hd | hd
  · have hmax : max d (i + 1) = d := by omega
    rw [hmax] at hfg hfl hs
    obtain ⟨g', hg'⟩ := fg_getElem chain d (i + 1) e fg hfg hd he
    obtain ⟨cs, hsib⟩ := getSiblings_chain_child s fg i e g' hf hg'
    have hfb := findBranch_head x (SiblingsRef.childrenOf i) e branch false g s _ _ hsib
      (by rw [hs.differentiateArgs_eq]; exact hrefl _)
    refine ⟨s, ?_, ?_⟩
    · have h1 : ¬ d ≤ i := by omega
      have h2 : ¬ d ≤ i + 1 := by omega
      simp [attachProcessNode, hfb, ProcessNode.ptr, h1, h2]
    · have : max d (i + 2) = d := by omega
      rw [this]; exact hs
  · have hmax : max d (i + 1) = i + 1 := by omega
    rw [hmax] at hfg hfl hs
    have hsib := getSiblings_chain_last s fg i hf hfl
    have hfb : findBranchInChildrenNodes x (SiblingsRef.childrenOf i) (e :: branch) false g s
        = (none, false, s) :=
      findBranchLoop_empty x _ _ _ _ s hsib 0 _
    have happ := appendNewNode_chain_child s fg i e g hf hfl hs.nextPtr_eq
    have hcfg := appendNewNode_config (SiblingsRef.childrenOf i) e g s
    refine ⟨appendNewNode (SiblingsRef.childrenOf i) e g s, ?_, ?_⟩
    · have h2 : d ≤ i + 1 := by omega
      simp [attachProcessNode, hfb, hs.nextPtr_eq, h2]
    · have : max d (i + 2) = i + 2 := by omega
      rw [this]
      exact ChainState_mono_cache v chain (i + 1) (i + 2) s _ hs (by omega) (by omega) hcfg.2
        hcfg.1 happ.2.1 happ.2.2
        ⟨fg ++ [(e, g)], by simp [hfg, chain_take_succ chain (i + 1) e he], happ.1⟩

/-- On a tree that holds the first `d` entries of the chain, `CreateProcessNode` returns the node
of the entry of index `i`, which is new when `d ≤ i`, and the tree then holds the first
`max d (i + 1)` entries. -/
theorem createProcessNodeRec_chain (x : Collaborators) (v : ActivityTreeOwner)
    (chain : List ProcessCacheEntry) (hv : ValidAncestorChain x v chain)
    (hrefl : ∀ p, x.Matches p p false = true) (i : Nat) :
    ∀ (e : ProcessCacheEntry), chain[i]? = some e →
    ∀ (fuel : Nat) (branch : List ProcessCacheEntry) (g : NodeGenerationType)
      (s : ActivityTree) (d : Nat),
      lineageDepth (some e) < fuel → ChainState v chain d s →
      ∃ s', createProcessNodeRec x fuel (some e) branch g false s
          = some ⟨some i, decide (d ≤ i), none, s'⟩
        ∧ ChainState v chain (max d (i + 1)) s' := by
  induction i with
  | zero =>
    intro e he fuel branch g s d hfuel hs
    obtain ⟨n, rfl⟩ : ∃ n, fuel = n + 1 := ⟨fuel - 1, by omega⟩
    have hc := hv.complete e (List.getElem?_mem he)
    simp only [createProcessNodeRec, hc, Bool.not_true, Bool.false_eq_true, if_false]
    cases hck : (if eventHaveValidCookie e = true then
        s.CookieToProcessNode (entryCookieSelector e) else none) with
    | some node =>
      obtain ⟨rfl, hid⟩ := chain_cookie_hit x v chain hv d 0 e s he hs node hck
      refine ⟨s, ?_, ?_⟩
      · have : ¬ d ≤ 0 := by omega
        simp [this]
      · have : max d (0 + 1) = d := by omega
        rw [this]; exact hs
    | none =>
      simp only
      have hlt := lineageDepth_next e
      obtain ⟨err, hp⟩ := createProcessNodeRec_outside x v chain hv e he d s hs n
        (GetNextAncestorBinaryOrArgv0 (some e)) [] branch Snapshot
        (fun o' h => DistinctAncestor.next o' h) (fun p hp => by cases hp) (by omega)
      simp only [List.nil_append] at hp
      rw [hp]
      simp only
      obtain ⟨s1, h1, hs1⟩ := attachProcessNode_chain_root x v chain hv hrefl e he branch g err
        s d hs
      rw [h1]
      obtain ⟨s2, h2, hs2⟩ := deferCookie_chain v chain (max d 1) 0 e (by omega) he
        (decide (d ≤ 0)) s1 hs1
      rw [h2]
      exact ⟨s2, rfl, hs2⟩
  | succ i ih =>
    intro e he fuel branch g s d hfuel hs
    obtain ⟨n, rfl⟩ : ∃ n, fuel = n + 1 := ⟨fuel - 1, by omega⟩
    have hc := hv.complete e (List.getElem?_mem he)
    simp only [createProcessNodeRec, hc, Bool.not_true, Bool.false_eq_true, if_false]
    cases hck : (if eventHaveValidCookie e = true then
        s.CookieToProcessNode (entryCookieSelector e) else none) with
    | some node =>
      obtain ⟨rfl, hid⟩ := chain_cookie_hit x v chain hv d (i + 1) e s he hs node hck
      refine ⟨s, ?_, ?_⟩
      · have : ¬ d ≤ i + 1 := by omega
        simp [this]
      · have : max d (i + 1 + 1) = d := by omega
        rw [this]; exact hs
    | none =>
      simp only
      have hlen := chain_length_of_getElem? chain (i + 1) e he
      have hil : i < chain.length := by omega
      have ha : chain[i]? = some chain[i] := List.getElem?_eq_getElem hil
      have hnext := hv.link i chain[i] e ha he
      have hlt := lineageDepth_next e
      rw [hnext] at hlt ⊢
      obtain ⟨s1, h1, hs1⟩ := ih chain[i] ha n (e :: branch) Snapshot s d (by omega) hs
      rw [h1]
      simp only
      obtain ⟨s2, h2, hs2⟩ := attachProcessNode_chain_child x v chain hrefl i e he branch g s1 d
        hs1
      rw [h2]
      obtain ⟨s3, h3, hs3⟩ := deferCookie_chain v chain (max d (i + 2)) (i + 1) e (by omega) he
        (decide (d ≤ i + 1)) s2 hs2
      rw [h3]
      exact ⟨s3, rfl, hs3⟩

/-! ## Inserting the events of a chain -/

theorem ChainState_congr (v : ActivityTreeOwner) (chain : List ProcessCacheEntry) (d : Nat)
    (s s' : ActivityTree) (hs : ChainState v chain d s)
    (hf : s'.ProcessNodes = s.ProcessNodes)
    (hc : s'.CookieToProcessNode = s.CookieToProcessNode) (hn : s'.nextPtr = s.nextPtr)
    (hval : s'.validator = s.validator)
    (hda : s'.differentiateArgs = s.differentiateArgs) : ChainState v chain d s' := by
  obtain ⟨fg, h1, h2⟩ := hs.forest
  exact ChainState_mono_cache v chain d d s s' hs (Nat.le_refl _) hs.le hval hda
    (hn.trans hs.nextPtr_eq) hc ⟨fg, h1, hf.trans h2⟩

theorem insertEvent_core (x : Collaborators) (event : Event) (dryRun : Bool)
    (g : NodeGenerationType) (node : Nat) (nw : Bool) (s : ActivityTree) :
    (insertEvent x event dryRun g node nw s).2.2.ProcessNodes = s.ProcessNodes
    ∧ (insertEvent x event dryRun g node nw s).2.2.CookieToProcessNode = s.CookieToProcessNode
    ∧ (insertEvent x event dryRun g node nw s).2.2.nextPtr = s.nextPtr
    ∧ (insertEvent x event dryRun g node nw s).2.2.validator = s.validator
    ∧ (insertEvent x event dryRun g node nw s).2.2.differentiateArgs = s.differentiateArgs := by
  unfold insertEvent
  split <;> simp [setPayload]

/-- What `Insert` of an exec event leaves of the forest, the cookie cache, the allocator and the
configuration: what the tree had, when the generation type or the event type is refused, and what
`CreateProcessNode` leaves otherwise. -/
theorem Insert_exec_core (x : Collaborators) (event : Event) (g : NodeGenerationType)
    (s : ActivityTree) (ht : event.EventType = EventType.ExecEventType) :
    ∃ t, ((g = Unknown ∨ g > MaxNodeGenerationType
            ∨ s.validator.IsEventTypeValid EventType.ExecEventType = false) → t = s)
      ∧ ((¬(g = Unknown ∨ g > MaxNodeGenerationType)
            ∧ s.validator.IsEventTypeValid EventType.ExecEventType = true) →
          t = (CreateProcessNode x event.ProcessCacheEntry [] g false s).tree)
      ∧ (Insert x event g s).2.2.ProcessNodes = t.ProcessNodes
      ∧ (Insert x event g s).2.2.CookieToProcessNode = t.CookieToProcessNode
      ∧ (Insert x event g s).2.2.nextPtr = t.nextPtr
      ∧ (Insert x event g s).2.2.validator = t.validator
      ∧ (Insert x event g s).2.2.differentiateArgs = t.differentiateArgs := by
  have hI : ∀ r : Bool × Option Error × ActivityTree, insert x event false g s = r →
      (Insert x event g s).2.2.ProcessNodes = r.2.2.ProcessNodes
      ∧ (Insert x event g s).2.2.CookieToProcessNode = r.2.2.CookieToProcessNode
      ∧ (Insert x event g s).2.2.nextPtr = r.2.2.nextPtr
      ∧ (Insert x event g s).2.2.validator = r.2.2.validator
      ∧ (Insert x event g s).2.2.differentiateArgs = r.2.2.differentiateArgs := by
    intro r hr
    unfold Insert
    rw [hr]
    obtain ⟨a, b, c⟩ := r
    simp only
    split <;> simp
  by_cases hg : g = Unknown ∨ g > MaxNodeGenerationType
  · refine ⟨s, fun _ => rfl, fun h => absurd hg h.1, ?_⟩
    exact hI (false, some (Error.invalidGenerationType g), s) (by simp [insert, hg])
  · cases hvt : s.validator.IsEventTypeValid EventType.ExecEventType with
    | false =>
      refine ⟨s, fun _ => rfl, fun h => by simp at h, ?_⟩
      have := hI _ rfl
      have hins : (insert x event false g s).2.2
          = { s with Stats := s.Stats.incDropped event.EventType NodeDroppedReason.eventTypeReason } := by
        simp [insert, hg, isEventValid, ht, hvt]
      rw [hins] at this
      exact this
    | true =>
      refine ⟨(CreateProcessNode x event.ProcessCacheEntry [] g false s).tree,
        ?_, fun _ => rfl, ?_⟩
      · intro h
        rcases h with h | h | h
        · exact absurd (Or.inl h) hg
        · exact absurd (Or.inr h) hg
        · cases h
      · have := hI _ rfl
        have hev : isEventValid event false s = (true, none, s) := by
          simp [isEventValid, ht, hvt]
        have hins : ∃ t' : ActivityTree, (insert x event false g s).2.2 = t'
            ∧ t'.ProcessNodes
              = (CreateProcessNode x event.ProcessCacheEntry [] g false s).tree.ProcessNodes
            ∧ t'.CookieToProcessNode
              = (CreateProcessNode x event.ProcessCacheEntry [] g false s).tree.CookieToProcessNode
            ∧ t'.nextPtr = (CreateProcessNode x event.ProcessCacheEntry [] g false s).tree.nextPtr
            ∧ t'.validator
              = (CreateProcessNode x event.ProcessCacheEntry [] g false s).tree.validator
            ∧ t'.differentiateArgs
              = (CreateProcessNode x event.ProcessCacheEntry [] g false s).tree.differentiateArgs := by
          refine ⟨_, rfl, ?_⟩
          simp only [insert, hg, if_false, hev]
          simp only [Bool.not_true, Option.isSome_none, Bool.or_self, Bool.false_eq_true,
            if_false, Bool.and_false]
          split
          · exact ⟨rfl, rfl, rfl, rfl, rfl⟩
          · split
            · exact ⟨rfl, rfl, rfl, rfl, rfl⟩
            · split
              · exact ⟨rfl, rfl, rfl, rfl, rfl⟩
              · exact insertEvent_core x event false g _ _ _
        obtain ⟨t', ht', h1, h2, h3, h4, h5⟩ := hins
        rw [ht'] at this
        exact ⟨this.1.trans h1, this.2.1.trans h2, this.2.2.1.trans h3, this.2.2.2.1.trans h4,
          this.2.2.2.2.trans h5⟩

theorem Insert_chain (x : Collaborators) (v : ActivityTreeOwner)
    (chain : List ProcessCacheEntry) (hv : ValidAncestorChain x v chain)
    (hrefl : ∀ p, x.Matches p p false = true) (g : NodeGenerationType) (event : Event)
    (i : Nat) (e : ProcessCacheEntry) (ht : event.EventType = EventType.ExecEventType)
    (hp : event.ProcessCacheEntry = some e) (he : chain[i]? = some e) (s : ActivityTree)
    (d : Nat) (hs : ChainState v chain d s) :
    ((g = Unknown ∨ g > MaxNodeGenerationType
        ∨ v.IsEventTypeValid EventType.ExecEventType = false) →
      ChainState v chain d (Insert x event g s).2.2)
    ∧ ((¬(g = Unknown ∨ g > MaxNodeGenerationType)
        ∧ v.IsEventTypeValid EventType.ExecEventType = true) →
      ChainState v chain (max d (i + 1)) (Insert x event g s).2.2) := by
  obtain ⟨t, h1, h2, hf, hc, hn, hval, hda⟩ := Insert_exec_core x event g s ht
  rw [hs.validator_eq] at h1 h2
  constructor
  · intro h
    have ht' := h1 h
    subst ht'
    exact ChainState_congr v chain d _ _ hs hf hc hn hval hda
  · intro h
    have ht' := h2 h
    obtain ⟨s', hs', hcs⟩ := createProcessNodeRec_chain x v chain hv hrefl i e he
      (lineageDepth (some e) + 1) [] g s d (by omega) hs
    have hcp : (CreateProcessNode x event.ProcessCacheEntry [] g false s).tree = s' := by
      rw [hp]
      unfold CreateProcessNode
      rw [hs']
    rw [hcp] at ht'
    subst ht'
    exact ChainState_congr v chain _ _ _ hcs hf hc hn hval hda

theorem ChainState_unique (v : ActivityTreeOwner) (chain : List ProcessCacheEntry)
    (d d' : Nat) (s : ActivityTree) (h : ChainState v chain d s) (h' : ChainState v chain d' s) :
    d = d' := by
  rw [← h.nextPtr_eq, ← h'.nextPtr_eq]

/-- After the events of a chain are inserted the tree holds the first `d'` entries of the chain,
where `d'` is at least the depth before, is above the index of every entry inserted, and is the
depth before or one more than the index of an entry inserted. -/
theorem insertAll_chain (x : Collaborators) (v : ActivityTreeOwner)
    (chain : List ProcessCacheEntry) (hv : ValidAncestorChain x v chain)
    (hrefl : ∀ p, x.Matches p p false = true) (g : NodeGenerationType)
    (heff : ¬(g = Unknown ∨ g > MaxNodeGenerationType)
      ∧ v.IsEventTypeValid EventType.ExecEventType = true)
    (l : List Event)
    (hl : ∀ ev, ev ∈ l → ev.EventType = EventType.ExecEventType
      ∧ ∃ e, e ∈ chain ∧ ev.ProcessCacheEntry = some e)
    (s : ActivityTree) (d : Nat) (hs : ChainState v chain d s) :
    ∃ d', ChainState v chain d' (insertAll x g l s) ∧ d ≤ d'
      ∧ (∀ ev, ev ∈ l → ∀ (i : Nat) e, ev.ProcessCacheEntry = some e → chain[i]? = some e →
          i < d')
      ∧ (d' = d ∨ ∃ ev, ev ∈ l ∧ ∃ e, ev.ProcessCacheEntry = some e
          ∧ chain[d' - 1]? = some e ∧ 0 < d') := by
  induction l generalizing s d with
  | nil => exact ⟨d, hs, Nat.le_refl _, (by intro ev h; cases h), Or.inl rfl⟩
  | cons ev rest ih =>
    obtain ⟨ht, e0, hmem, hp0⟩ := hl ev (List.mem_cons_self _ _)
    obtain ⟨i0, hi0⟩ := List.getElem?_of_mem hmem
    have hs1 := (Insert_chain x v chain hv hrefl g ev i0 e0 ht hp0 hi0 s d hs).2 heff
    obtain ⟨d', hd', hle, hP, hQ⟩ := ih (fun ev' h' => hl ev' (List.mem_cons_of_mem _ h'))
      (Insert x ev g s).2.2 (max d (i0 + 1)) hs1
    refine ⟨d', hd', by omega, ?_, ?_⟩
    · intro ev' hev' i e hpe hie
      rcases List.mem_cons.mp hev' with h | h
      · subst h
        have hs1' := (Insert_chain x v chain hv hrefl g ev' i e ht hpe hie s d hs).2 heff
        have := ChainState_unique v chain _ _ _ hs1 hs1'
        omega
      · exact hP ev' h i e hpe hie
    · rcases hQ with h | ⟨ev', hev', e, hpe, hce, hpos⟩
      · rcases Nat.lt_or_ge d (i0 + 1) with hlt | hge
        · right
          refine ⟨ev, List.mem_cons_self _ _, e0, hp0, ?_, by omega⟩
          have : d' - 1 = i0 := by omega
          rw [this]; exact hi0
        · left; omega
      · right
        exact ⟨ev', List.mem_cons_of_mem _ hev', e, hpe, hce, hpos⟩

theorem insertAll_refused (x : Collaborators) (g : NodeGenerationType) (l : List Event)
    (s : ActivityTree)
    (hl : ∀ ev, ev ∈ l → ev.EventType = EventType.ExecEventType)
    (h : g = Unknown ∨ g > MaxNodeGenerationType
      ∨ s.validator.IsEventTypeValid EventType.ExecEventType = false) :
    (insertAll x g l s).ProcessNodes = s.ProcessNodes := by
  induction l generalizing s with
  | nil => rfl
  | cons ev rest ih =>
    simp only [insertAll]
    obtain ⟨t, h1, _, hf, _, _, hval, _⟩ :=
      Insert_exec_core x ev g s (hl ev (List.mem_cons_self _ _))
    have ht := h1 h
    subst ht
    rw [ih _ (fun ev' h' => hl ev' (List.mem_cons_of_mem _ h')) (by rw [hval]; exact h), hf]

theorem ChainState_new (v : ActivityTreeOwner) (chain : List ProcessCacheEntry) :
    ChainState v chain 0 (NewActivityTree v) := by
  refine ⟨rfl, rfl, rfl, Nat.zero_le _, ⟨[], by simp, rfl⟩, ?_⟩
  intro cs node h
  simp [NewActivityTree] at h

theorem insertAll_chain_full (x : Collaborators) (v : ActivityTreeOwner)
    (chain : List ProcessCacheEntry) (hv : ValidAncestorChain x v chain)
    (hrefl : ∀ p, x.Matches p p false = true) (g : NodeGenerationType)
    (heff : ¬(g = Unknown ∨ g > MaxNodeGenerationType)
      ∧ v.IsEventTypeValid EventType.ExecEventType = true)
    (l : List Event)
    (hl : ∀ ev, ev ∈ l → ev.EventType = EventType.ExecEventType
      ∧ ∃ e, e ∈ chain ∧ ev.ProcessCacheEntry = some e)
    (hall : ∀ e, chain.getLast? = some e → ∃ ev, ev ∈ l ∧ ev.ProcessCacheEntry = some e) :
    forestShape (insertAll x g l (NewActivityTree v)).ProcessNodes
      = forestShape (chainForest (chain.map (fun e => (e, Unknown))) 0) := by
  obtain ⟨d, hd, _, hP, _⟩ := insertAll_chain x v chain hv hrefl g heff l hl _ 0
    (ChainState_new v chain)
  have hdl : d = chain.length := by
    rcases Nat.lt_or_ge d chain.length with hlt | hge
    · exfalso
      have hlast : chain.length - 1 < chain.length := by omega
      have he : chain[chain.length - 1]? = some chain[chain.length - 1] :=
        List.getElem?_eq_getElem hlast
      obtain ⟨ev, hev, hpe⟩ := hall chain[chain.length - 1]
        (by rw [List.getLast?_eq_getElem?]; exact he)
      have := hP ev hev (chain.length - 1) chain[chain.length - 1] hpe he
      omega
    · have := hd.le
      omega
  obtain ⟨fg, hfg, hf⟩ := hd.forest
  rw [hf]
  apply forestShape_chainForest
  rw [hfg, hdl, List.take_length]
  simp [List.map_map, Function.comp_def]

/-- C4 (amended): `chain` is a valid ancestor chain, from the root of the tree down: its oldest
entry is a valid root node that the selector accepts, and none of the distinct ancestors of that
entry is inserted; `events` are exec events of entries of the chain, the one of the youngest
entry among them (the events of all the entries of the chain, for one). They are inserted in a new
tree. Whatever the order in which they are inserted (every event brings its ancestors with it, so
that every order inserts a parent before or with its child), the final tree has the same shape:
the same roots and the same parent and child relation. When the generation type is valid and the
owner takes exec events, that shape is one branch, with a node for each entry of the chain, each
the only child of the node of the entry before it. -/
theorem insertion_order_irrelevant (x : Collaborators) (validator : ActivityTreeOwner)
    (chain : List ProcessCacheEntry) (generationType : NodeGenerationType)
    (events order : List Event)
    (hchain : ValidAncestorChain x validator chain)
    (hmatch : ∀ p, x.Matches p p false = true)
    (hevents : ∀ ev, ev ∈ events → ev.EventType = EventType.ExecEventType
      ∧ ∃ e, e ∈ chain ∧ ev.ProcessCacheEntry = some e)
    (hyoungest : ∀ e, chain.getLast? = some e →
      ∃ ev, ev ∈ events ∧ ev.ProcessCacheEntry = some e)
    (horder : order.Perm events) :
    forestShape (insertAll x generationType order (NewActivityTree validator)).ProcessNodes
      = forestShape (insertAll x generationType events (NewActivityTree validator)).ProcessNodes
    ∧ ((¬(generationType = Unknown ∨ generationType > MaxNodeGenerationType)
        ∧ validator.IsEventTypeValid EventType.ExecEventType = true) →
      forestShape (insertAll x generationType events (NewActivityTree validator)).ProcessNodes
        = forestShape (chainForest (chain.map (fun e => (e, Unknown))) 0)) := by
  have hl' : ∀ ev, ev ∈ order → ev.EventType = EventType.ExecEventType
      ∧ ∃ e, e ∈ chain ∧ ev.ProcessCacheEntry = some e :=
    fun ev hev => hevents ev (horder.subset hev)
  have hall' : ∀ e, chain.getLast? = some e →
      ∃ ev, ev ∈ order ∧ ev.ProcessCacheEntry = some e := by
    intro e he
    obtain ⟨ev, hev, hpe⟩ := hyoungest e he
    exact ⟨ev, horder.symm.subset hev, hpe⟩
  by_cases heff : ¬(generationType = Unknown ∨ generationType > MaxNodeGenerationType)
      ∧ validator.IsEventTypeValid EventType.ExecEventType = true
  · have h1 := insertAll_chain_full x validator chain hchain hmatch generationType heff events
      hevents hyoungest
    have h2 := insertAll_chain_full x validator chain hchain hmatch generationType heff order
      hl' hall'
    exact ⟨h2.trans h1.symm, fun _ => h1⟩
  · have hr : generationType = Unknown ∨ generationType > MaxNodeGenerationType
        ∨ (NewActivityTree validator).validator.IsEventTypeValid EventType.ExecEventType
          = false := by
      by_cases hg : generationType = Unknown ∨ generationType > MaxNodeGenerationType
      · rcases hg with hg | hg
        · exact Or.inl hg
        · exact Or.inr (Or.inl hg)
      · right; right
        cases hvt : validator.IsEventTypeValid EventType.ExecEventType with
        | false => exact hvt
        | true => exact absurd ⟨hg, hvt⟩ heff
    refine ⟨?_, fun h => absurd h heff⟩
    rw [insertAll_refused x generationType order _ (fun ev hev => (hl' ev hev).1) hr,
      insertAll_refused x generationType events _ (fun ev hev => (hevents ev hev).1) hr]

/-! ## Two valid ancestor chains -/

theorem distinctAncestor_under_systemd (info : EntryInfo) (o : ProcessCacheEntry)
    (hn : GetNextAncestorBinaryOrArgv0 (some ⟨info, [systemdInfo]⟩) = some ⟨systemdInfo, []⟩)
    (h : DistinctAncestor ⟨info, [systemdInfo]⟩ o) : o = ⟨systemdInfo, []⟩ := by
  induction h with
  | next o h =>
    rw [hn] at h
    exact (Option.some.inj h).symm
  | step o o' _ h ih =>
    subst ih
    have hs : GetNextAncestorBinaryOrArgv0 (some ⟨systemdInfo, []⟩) = none := by decide
    rw [hs] at h
    cases h

/-- The chain `sh → make → cc` of a container: the selector refuses `systemd`, the only
distinct ancestor of the shell. -/
theorem buildChain_valid : ValidAncestorChain pathCollaborators containerOwner buildChain := by
  have hmem : ∀ e, e ∈ buildChain → e = shEntry ∨ e = makeUnderShEntry ∨ e = ccEntry := by
    intro e he
    simpa [buildChain] using he
  have hcookie : ∀ e, e ∈ buildChain → eventHaveValidCookie e = false := by
    intro e he
    rcases hmem e he with h | h | h <;> subst h <;> rfl
  have hout : ∀ o, DistinctAncestor shEntry o → o = ⟨systemdInfo, []⟩ :=
    fun o ho => distinctAncestor_under_systemd shInfo o (by decide) ho
  refine ⟨?_, ?_, ?_, ?_, ?_, ?_⟩
  · intro e he
    rcases hmem e he with h | h | h <;> subst h <;> rfl
  · intro i a b ha hb
    match i with
    | 0 =>
      simp only [buildChain, List.getElem?_cons_zero, List.getElem?_cons_succ,
        Option.some.injEq] at ha hb
      subst ha; subst hb; rfl
    | 1 =>
      simp only [buildChain, List.getElem?_cons_zero, List.getElem?_cons_succ,
        Option.some.injEq] at ha hb
      subst ha; subst hb; rfl
    | n + 2 =>
      simp [buildChain] at hb
  · intro r hr
    simp only [buildChain, List.getElem?_cons_zero, Option.some.injEq] at hr
    subst hr
    exact ⟨by decide, by decide⟩
  · intro r o hr ho
    simp only [buildChain, List.getElem?_cons_zero, Option.some.injEq] at hr
    subst hr
    rw [hout o ho]
    left
    decide
  · intro i j a b ha _ hva _ _
    rw [hcookie a (List.getElem?_mem ha)] at hva
    cases hva
  · intro r o a _ _ ha _ hva
    rw [hcookie a ha] at hva
    cases hva

/-- The chain `app → cc → ld` under an owner that accepts every entry: `systemd`, the only
distinct ancestor of `app`, is no valid root node, `app` is not an exec child and no entry of the
chain matches `systemd`. -/
theorem appChain_valid : ValidAncestorChain pathCollaborators acceptAllOwner appChain := by
  have hmem : ∀ e, e ∈ appChain → e = appEntry ∨ e = ccUnderAppEntry ∨ e = ldUnderAppEntry := by
    intro e he
    simpa [appChain] using he
  have hcookie : ∀ e, e ∈ appChain → eventHaveValidCookie e = false := by
    intro e he
    rcases hmem e he with h | h | h <;> subst h <;> rfl
  have hout : ∀ o, DistinctAncestor appEntry o → o = ⟨systemdInfo, []⟩ :=
    fun o ho => distinctAncestor_under_systemd appInfo o (by decide) ho
  refine ⟨?_, ?_, ?_, ?_, ?_, ?_⟩
  · intro e he
    rcases hmem e he with h | h | h <;> subst h <;> rfl
  · intro i a b ha hb
    match i with
    | 0 =>
      simp only [appChain, List.getElem?_cons_zero, List.getElem?_cons_succ,
        Option.some.injEq] at ha hb
      subst ha; subst hb; decide
    | 1 =>
      simp only [appChain, List.getElem?_cons_zero, List.getElem?_cons_succ,
        Option.some.injEq] at ha hb
      subst ha; subst hb; decide
    | n + 2 =>
      simp [appChain] at hb
  · intro r hr
    simp only [appChain, List.getElem?_cons_zero, Option.some.injEq] at hr
    subst hr
    exact ⟨by decide, by decide⟩
  · intro r o hr ho
    simp only [appChain, List.getElem?_cons_zero, Option.some.injEq] at hr
    subst hr
    rw [hout o ho]
    right
    refine ⟨by decide, by decide, ?_⟩
    intro p e hp he
    rw [hout p hp]
    rcases hmem e he with h | h | h <;> subst h <;> decide
  · intro i j a b ha _ hva _ _
    rw [hcookie a (List.getElem?_mem ha)] at hva
    cases hva
  · intro r o a _ _ ha _ hva
    rw [hcookie a ha] at hva
    cases hva

/-- C4 (counterexample): the chain `sudo → bash` under an owner that accepts every entry and
event type, where `sudo` was forked by a shell `bash` and the `bash` of the chain is an exec
child of `sudo`: the two entries have a complete lineage and distinct binaries, and `sudo` is a
valid root node. Inserted oldest first, the two exec events leave the two nodes `sudo → bash`.
Inserted youngest first, they leave three nodes: the event of `bash` creates `sudo → bash`; for
the event of `sudo`, the node of `bash`, which has the binary of the parent of `sudo`, is found in
the exec chain of the root and taken for the node of that parent, and a second node of `sudo` is
created below it. -/
theorem insertion_order_matters :
    sudoEntry.info.HasCompleteLineage = true
    ∧ bashUnderSudoEntry.info.HasCompleteLineage = true
    ∧ GetNextAncestorBinaryOrArgv0 (some bashUnderSudoEntry) = some sudoEntry
    ∧ isValidRootNode sudoEntry = true
    ∧ acceptAllOwner.MatchesSelector sudoEntry = true
    ∧ basenames (forestNodes (insertAll pathCollaborators Runtime
        [execEvent sudoEntry, execEvent bashUnderSudoEntry]
        (NewActivityTree acceptAllOwner)).ProcessNodes) = ["sudo", "bash"]
    ∧ basenames (forestNodes (insertAll pathCollaborators Runtime
        [execEvent bashUnderSudoEntry, execEvent sudoEntry]
        (NewActivityTree acceptAllOwner)).ProcessNodes) = ["sudo", "bash", "sudo"]
    ∧ countNodes (insertAll pathCollaborators Runtime
        [execEvent sudoEntry, execEvent bashUnderSudoEntry]
        (NewActivityTree acceptAllOwner)).ProcessNodes = 2
    ∧ countNodes (insertAll pathCollaborators Runtime
        [execEvent bashUnderSudoEntry, execEvent sudoEntry]
        (NewActivityTree acceptAllOwner)).ProcessNodes = 3 := by
  decide

/-- The events of the chain `app → cc → ld` inserted youngest first and oldest first, under an
owner that accepts every entry: the shapes are the same, and the shape is the branch
`app → cc → ld`. -/
theorem insertion_order_irrelevant_witness :
    forestShape (insertAll pathCollaborators Runtime
        [execEvent ldUnderAppEntry, execEvent ccUnderAppEntry, execEvent appEntry]
        (NewActivityTree acceptAllOwner)).ProcessNodes
      = forestShape (insertAll pathCollaborators Runtime (appChain.map execEvent)
          (NewActivityTree acceptAllOwner)).ProcessNodes
    ∧ ((¬(Runtime = Unknown ∨ Runtime > MaxNodeGenerationType)
        ∧ acceptAllOwner.IsEventTypeValid EventType.ExecEventType = true) →
      forestShape (insertAll pathCollaborators Runtime (appChain.map execEvent)
          (NewActivityTree acceptAllOwner)).ProcessNodes
        = forestShape (chainForest (appChain.map (fun e => (e, Unknown))) 0)) :=
  insertion_order_irrelevant pathCollaborators acceptAllOwner appChain Runtime
    (appChain.map execEvent)
    [execEvent ldUnderAppEntry, execEvent ccUnderAppEntry, execEvent appEntry]
    appChain_valid (by intro p; simp [pathCollaborators])
    (by
      intro ev hev
      simp only [appChain, List.map_cons, List.map_nil, List.mem_cons, List.mem_singleton,
        List.not_mem_nil, or_false] at hev
      rcases hev with h | h | h <;> subst h
      · exact ⟨rfl, appEntry, by simp [appChain], rfl⟩
      · exact ⟨rfl, ccUnderAppEntry, by simp [appChain], rfl⟩
      · exact ⟨rfl, ldUnderAppEntry, by simp [appChain], rfl⟩)
    (by
      intro e he
      have : e = ldUnderAppEntry := by
        simp only [appChain, List.getLast?_cons_cons, List.getLast?_singleton,
          Option.some.injEq] at he
        exact he.symm
      subst this
      exact ⟨execEvent ldUnderAppEntry, by simp [appChain], rfl⟩)
    (by
      have h : [execEvent ldUnderAppEntry, execEvent ccUnderAppEntry, execEvent appEntry]
          = (appChain.map execEvent).reverse := by simp [appChain]
      rw [h]
      exact List.reverse_perm _)

/-! ## Unfolding CreateProcessNode -/

theorem createProcessNodeRec_stable (x : Collaborators) (fuel fuel' : Nat)
    (entry : Option ProcessCacheEntry) (branch : List ProcessCacheEntry)
    (g : NodeGenerationType) (dryRun : Bool) (s : ActivityTree)
    (h : lineageDepth entry < fuel) (h' : lineageDepth entry < fuel') :
    createProcessNodeRec x fuel entry branch g dryRun s
      = createProcessNodeRec x fuel' entry branch g dryRun s := by
  induction fuel generalizing fuel' entry branch g with
  | zero => omega
  | succ n ih =>
    obtain ⟨m, rfl⟩ : ∃ m, fuel' = m + 1 := ⟨fuel' - 1, by omega⟩
    cases entry with
    | none => simp [createProcessNodeRec]
    | some e =>
      have hlt := lineageDepth_next e
      simp only [createProcessNodeRec]
      rw [ih m (GetNextAncestorBinaryOrArgv0 (some e)) (e :: branch) Snapshot (by omega)
        (by omega)]

theorem CreateProcessNode_eq (x : Collaborators) (fuel : Nat)
    (entry : Option ProcessCacheEntry) (branch : List ProcessCacheEntry)
    (g : NodeGenerationType) (dryRun : Bool) (s : ActivityTree)
    (h : lineageDepth entry < fuel) :
    createProcessNodeRec x fuel entry branch g dryRun s
      = some (CreateProcessNode x entry branch g dryRun s) := by
  unfold CreateProcessNode
  rw [createProcessNodeRec_stable x fuel (lineageDepth entry + 1) entry branch g dryRun s h
    (by omega)]
  have := createProcessNodeRec_fuel x (lineageDepth entry + 1) entry branch g dryRun s (by omega)
  cases hr : createProcessNodeRec x (lineageDepth entry + 1) entry branch g dryRun s with
  | none => rw [hr] at this; cases this
  | some r => rfl

theorem CreateProcessNode_none (x : Collaborators) (branch : List ProcessCacheEntry)
    (g : NodeGenerationType) (dryRun : Bool) (s : ActivityTree) :
    CreateProcessNode x none branch g dryRun s = ⟨none, false, none, s⟩ := by
  simp [CreateProcessNode, createProcessNodeRec, lineageDepth]

/-- The body of `CreateProcessNode` on an entry, in terms of the call on its next distinct
ancestor. -/
theorem CreateProcessNode_some (x : Collaborators) (entry : ProcessCacheEntry)
    (branch : List ProcessCacheEntry) (g : NodeGenerationType) (dryRun : Bool)
    (s : ActivityTree) :
    CreateProcessNode x (some entry) branch g dryRun s
      = if !entry.info.HasCompleteLineage then ⟨none, false, some Error.ErrBrokenLineage, s⟩
        else
          match (if eventHaveValidCookie entry then
              s.CookieToProcessNode (entryCookieSelector entry) else none) with
          | some node => ⟨node, false, none, s⟩
          | none =>
            deferCookie (entryCookieSelector entry)
              (attachProcessNode x entry (entry :: branch) g dryRun
                (CreateProcessNode x (GetNextAncestorBinaryOrArgv0 (some entry))
                  (entry :: branch) Snapshot dryRun s)) := by
  have hlt := lineageDepth_next entry
  have h1 := CreateProcessNode_eq x (lineageDepth (some entry) + 1) (some entry) branch g dryRun
    s (by omega)
  have h2 := CreateProcessNode_eq x (lineageDepth (some entry))
    (GetNextAncestorBinaryOrArgv0 (some entry)) (entry :: branch) Snapshot dryRun s (by omega)
  simp only [createProcessNodeRec, h2] at h1
  cases hcl : entry.info.HasCompleteLineage with
  | false =>
    simp only [hcl, Bool.not_false, if_true] at h1 ⊢
    exact (Option.some.inj h1).symm
  | true =>
    simp only [hcl, Bool.not_true, Bool.false_eq_true, if_false] at h1 ⊢
    cases hck : (if eventHaveValidCookie entry = true then
        s.CookieToProcessNode (entryCookieSelector entry) else none) with
    | some node =>
      simp only [hck] at h1
      exact (Option.some.inj h1).symm
    | none =>
      simp only [hck] at h1
      exact (Option.some.inj h1).symm

/-! ## What a call that returns no node leaves behind -/

theorem findBranchInChildrenNodes_none (x : Collaborators) (tree : SiblingsRef)
    (branch : List ProcessCacheEntry) (dryRun : Bool) (g : NodeGenerationType)
    (s : ActivityTree) (h : (findBranchInChildrenNodes x tree branch dryRun g s).1 = none) :
    (findBranchInChildrenNodes x tree branch dryRun g s).2.2 = s := by
  rcases findBranchInChildrenNodes_cases x tree branch dryRun g s with
    ⟨e, rest, n, k, _, _, h'⟩ | ⟨_, h' | ⟨_, h'⟩ | ⟨_, j, k, c, n, _, _, h'⟩⟩
  · rw [h']
  · rw [h']
  · rw [h']
  · rw [h'] at h; cases h

theorem deferCookie_fields (cs : cookieSelector) (r : CreateResult) :
    (deferCookie cs r).node = r.node ∧ (deferCookie cs r).newProcessNode = r.newProcessNode
    ∧ (deferCookie cs r).err = r.err ∧ (r.node = none → (deferCookie cs r).tree = r.tree) := by
  unfold deferCookie
  split
  · exact ⟨rfl, rfl, rfl, fun _ => rfl⟩
  · rename_i n hn
    split
    · exact ⟨rfl, rfl, rfl, fun h => by rw [hn] at h; cases h⟩
    · exact ⟨rfl, rfl, rfl, fun _ => rfl⟩

/-- In mutating mode, a call that returns an error returns no node, and a call that returns no
node returns false and the tree it was given. -/
theorem attachProcessNode_mutating_facts (x : Collaborators) (entry : ProcessCacheEntry)
    (branch : List ProcessCacheEntry) (g : NodeGenerationType) (parent : CreateResult)
    (s : ActivityTree)
    (hp : parent.node = none → parent.newProcessNode = false ∧ parent.tree = s) :
    ((attachProcessNode x entry branch g false parent).err ≠ none →
        (attachProcessNode x entry branch g false parent).node = none)
    ∧ ((attachProcessNode x entry branch g false parent).node = none →
        (attachProcessNode x entry branch g false parent).newProcessNode = false
        ∧ (attachProcessNode x entry branch g false parent).tree = s) := by
  unfold attachProcessNode
  simp only [Bool.and_false, Bool.false_eq_true, if_false]
  split
  · rename_i hnode
    obtain ⟨_, ht⟩ := hp hnode
    split
    · exact ⟨fun _ => rfl, fun _ => ⟨rfl, ht⟩⟩
    · have hn := findBranchInChildrenNodes_none x SiblingsRef.roots branch false g parent.tree
      split
      · exact ⟨fun h => absurd rfl h, fun h => by cases h⟩
      · rename_i at1 heq
        rw [heq] at hn
        have hat := hn rfl
        simp only at hat
        split
        · exact ⟨fun _ => rfl, fun _ => ⟨rfl, hat.trans ht⟩⟩
        · simp
  · split
    · exact ⟨fun h => absurd rfl h, fun h => by cases h⟩
    · simp

theorem createProcessNodeRec_mutating_facts (x : Collaborators) (fuel : Nat)
    (entry : Option ProcessCacheEntry) (branch : List ProcessCacheEntry)
    (g : NodeGenerationType) (s : ActivityTree) (r : CreateResult)
    (h : createProcessNodeRec x fuel entry branch g false s = some r) :
    (r.err ≠ none → r.node = none)
    ∧ (r.node = none → r.newProcessNode = false ∧ r.tree = s) := by
  induction fuel generalizing entry branch g r with
  | zero => simp [createProcessNodeRec] at h
  | succ n ih =>
    cases entry with
    | none =>
      simp only [createProcessNodeRec, Option.some.injEq] at h
      subst h; exact ⟨fun _ => rfl, fun _ => ⟨rfl, rfl⟩⟩
    | some e =>
      simp only [createProcessNodeRec] at h
      split at h
      · simp only [Option.some.injEq] at h; subst h
        exact ⟨fun _ => rfl, fun _ => ⟨rfl, rfl⟩⟩
      · split at h
        · simp only [Option.some.injEq] at h; subst h
          exact ⟨fun h' => absurd rfl h', fun _ => ⟨rfl, rfl⟩⟩
        · split at h
          · cases h
          · rename_i parent hp
            simp only [Option.some.injEq] at h; subst h
            have hpf := (ih _ _ _ _ hp).2
            have ha := attachProcessNode_mutating_facts x e (e :: branch) g parent s hpf
            obtain ⟨d1, d2, d3, d4⟩ := deferCookie_fields (entryCookieSelector e)
              (attachProcessNode x e (e :: branch) g false parent)
            rw [d1, d2, d3]
            refine ⟨ha.1, fun hn => ?_⟩
            obtain ⟨h1, h2⟩ := ha.2 hn
            exact ⟨h1, (d4 hn).trans h2⟩

/-- In dry-run mode, a call that returns an error returns no node and false, and a call that
returns no node and false returns the tree it was given. -/
theorem attachProcessNode_dryRun_facts (x : Collaborators) (entry : ProcessCacheEntry)
    (branch : List ProcessCacheEntry) (g : NodeGenerationType) (parent : CreateResult)
    (s : ActivityTree)
    (hp1 : parent.err ≠ none → parent.node = none ∧ parent.newProcessNode = false)
    (hp2 : parent.node = none → parent.newProcessNode = false → parent.tree = s) :
    ((attachProcessNode x entry branch g true parent).err ≠ none →
        (attachProcessNode x entry branch g true parent).node = none
        ∧ (attachProcessNode x entry branch g true parent).newProcessNode = false)
    ∧ ((attachProcessNode x entry branch g true parent).node = none →
        (attachProcessNode x entry branch g true parent).newProcessNode = false →
        (attachProcessNode x entry branch g true parent).tree = s) := by
  have htree := attachProcessNode_dryRun x entry branch g parent
  rw [htree]
  unfold attachProcessNode
  split
  · exact ⟨hp1, hp2⟩
  · rename_i hcond
    have hnew : parent.node = none → parent.newProcessNode = false := by
      intro hn
      cases hnw : parent.newProcessNode with
      | false => rfl
      | true =>
        cases he : parent.err with
        | none => simp [hnw, he] at hcond
        | some e' =>
          have := (hp1 (by rw [he]; simp)).2
          rw [hnw] at this; cases this
    split
    · rename_i hnode
      have ht := hp2 hnode (hnew hnode)
      split
      · exact ⟨fun _ => ⟨rfl, rfl⟩, fun _ _ => ht⟩
      · split
        · exact ⟨fun h => absurd rfl h, fun h => by cases h⟩
        · split
          · exact ⟨fun _ => ⟨rfl, rfl⟩, fun _ _ => ht⟩
          · simp
    · split
      · exact ⟨fun h => absurd rfl h, fun h => by cases h⟩
      · simp

theorem createProcessNodeRec_dryRun_facts (x : Collaborators) (fuel : Nat)
    (entry : Option ProcessCacheEntry) (branch : List ProcessCacheEntry)
    (g : NodeGenerationType) (s : ActivityTree) (r : CreateResult)
    (h : createProcessNodeRec x fuel entry branch g true s = some r) :
    (r.err ≠ none → r.node = none ∧ r.newProcessNode = false)
    ∧ (r.node = none → r.newProcessNode = false → r.tree = s) := by
  induction fuel generalizing entry branch g r with
  | zero => simp [createProcessNodeRec] at h
  | succ n ih =>
    cases entry with
    | none =>
      simp only [createProcessNodeRec, Option.some.injEq] at h
      subst h; exact ⟨fun _ => ⟨rfl, rfl⟩, fun _ _ => rfl⟩
    | some e =>
      simp only [createProcessNodeRec] at h
      split at h
      · simp only [Option.some.injEq] at h; subst h
        exact ⟨fun _ => ⟨rfl, rfl⟩, fun _ _ => rfl⟩
      · split at h
        · simp only [Option.some.injEq] at h; subst h
          exact ⟨fun h' => absurd rfl h', fun _ _ => rfl⟩
        · split at h
          · cases h
          · rename_i parent hp
            simp only [Option.some.injEq] at h; subst h
            obtain ⟨i1, i2⟩ := ih _ _ _ _ hp
            have ha := attachProcessNode_dryRun_facts x e (e :: branch) g parent s i1 i2
            obtain ⟨d1, d2, d3, d4⟩ := deferCookie_fields (entryCookieSelector e)
              (attachProcessNode x e (e :: branch) g true parent)
            rw [d1, d2, d3]
            exact ⟨ha.1, fun hn hw => (d4 hn).trans (ha.2 hn hw)⟩

/-- A call of `CreateProcessNode` that returns an error returns no node and false, and leaves the
tree as it was, in both modes. -/
theorem CreateProcessNode_error (x : Collaborators) (entry : Option ProcessCacheEntry)
    (branch : List ProcessCacheEntry) (g : NodeGenerationType) (dryRun : Bool)
    (s : ActivityTree) (h : (CreateProcessNode x entry branch g dryRun s).err ≠ none) :
    (CreateProcessNode x entry branch g dryRun s).node = none
    ∧ (CreateProcessNode x entry branch g dryRun s).newProcessNode = false
    ∧ (CreateProcessNode x entry branch g dryRun s).tree = s := by
  have heq := CreateProcessNode_eq x (lineageDepth entry + 1) entry branch g dryRun s (by omega)
  cases dryRun with
  | false =>
    obtain ⟨h1, h2⟩ := createProcessNodeRec_mutating_facts x _ _ _ _ _ _ heq
    have hn := h1 h
    exact ⟨hn, h2 hn⟩
  | true =>
    obtain ⟨h1, h2⟩ := createProcessNodeRec_dryRun_facts x _ _ _ _ _ _ heq
    obtain ⟨hn, hw⟩ := h1 h
    exact ⟨hn, hw, h2 hn hw⟩

theorem CreateProcessNode_mutating_none (x : Collaborators)
    (entry : Option ProcessCacheEntry) (branch : List ProcessCacheEntry)
    (g : NodeGenerationType) (s : ActivityTree)
    (h : (CreateProcessNode x entry branch g false s).node = none) :
    (CreateProcessNode x entry branch g false s).newProcessNode = false
    ∧ (CreateProcessNode x entry branch g false s).tree = s := by
  have heq := CreateProcessNode_eq x (lineageDepth entry + 1) entry branch g false s (by omega)
  exact (createProcessNodeRec_mutating_facts x _ _ _ _ _ _ heq).2 h

/-! ## The errors of CreateProcessNode -/

/-- C14: `CreateProcessNode` is atomic on failure. In both modes, a call that returns an error
returns no node and false, and the tree after the call is the tree before it: the root list,
every `Children` list, the cookie cache and the statistics are the same, whatever the recursion
visited. -/
theorem CreateProcessNode_atomic_on_failure (x : Collaborators)
    (entry : Option ProcessCacheEntry) (branch : List ProcessCacheEntry)
    (generationType : NodeGenerationType) (dryRun : Bool) (s : ActivityTree)
    (h : (CreateProcessNode x entry branch generationType dryRun s).err ≠ none) :
    (CreateProcessNode x entry branch generationType dryRun s).tree = s
    ∧ (CreateProcessNode x entry branch generationType dryRun s).tree.ProcessNodes
        = s.ProcessNodes
    ∧ (CreateProcessNode x entry branch generationType dryRun s).tree.CookieToProcessNode
        = s.CookieToProcessNode
    ∧ (CreateProcessNode x entry branch generationType dryRun s).tree.Stats = s.Stats
    ∧ (CreateProcessNode x entry branch generationType dryRun s).node = none
    ∧ (CreateProcessNode x entry branch generationType dryRun s).newProcessNode = false := by
  obtain ⟨h1, h2, h3⟩ := CreateProcessNode_error x entry branch generationType dryRun s h
  refine ⟨h3, ?_, ?_, ?_, h1, h2⟩ <;> rw [h3]

/-- The shim is refused as a root of `treeWithApp`, and the tree is left as it was. -/
theorem CreateProcessNode_atomic_on_failure_witness :
    (CreateProcessNode pathCollaborators (some shimEntry) [] Runtime false treeWithApp).err
        = some Error.ErrNotValidRootNode
    ∧ (CreateProcessNode pathCollaborators (some shimEntry) [] Runtime false treeWithApp).tree
        = treeWithApp :=
  ⟨by decide,
    (CreateProcessNode_atomic_on_failure pathCollaborators (some shimEntry) [] Runtime false
      treeWithApp (by decide)).1⟩

theorem isEventValid_true (event : Event) (dryRun : Bool) (s : ActivityTree)
    (h : (isEventValid event dryRun s).1 = true) :
    isEventValid event dryRun s = (true, none, s) := by
  unfold isEventValid at h ⊢
  by_cases h1 : (!s.validator.IsEventTypeValid event.EventType) = true
  · rw [if_pos h1] at h; simp at h
  · rw [if_neg h1] at h ⊢
    by_cases h2 : event.EventType = EventType.BindEventType ∧ event.BindAddrFamily ≠ AF_INET
        ∧ event.BindAddrFamily ≠ AF_INET6
    · rw [if_pos h2] at h; simp at h
    · rw [if_neg h2]

/-- C13 (as stated, for every call of `Insert`): the exec event of an entry whose lineage is not
complete, inserted with the generation type `Unknown`, returns the error of the generation type,
not `ErrBrokenLineage`. -/
theorem Insert_broken_lineage_unknown :
    brokenEntry.info.HasCompleteLineage = false
    ∧ (Insert pathCollaborators (execEvent brokenEntry) Unknown emptyTree).2.1
        = some (Error.invalidGenerationType Unknown)
    ∧ (Insert pathCollaborators (execEvent brokenEntry) Unknown emptyTree).2.1
        ≠ some Error.ErrBrokenLineage := by
  decide

/-- C13: for every tree and every entry whose lineage is not complete, `CreateProcessNode`
returns `(nil, false, ErrBrokenLineage)` and the tree it was given, in both modes; and `Insert`
of an event that carries such an entry, with a valid generation type and an event that passes
`isEventValid`, returns `(false, ErrBrokenLineage)` and leaves the tree as it was. -/
theorem broken_lineage (x : Collaborators) (entry : ProcessCacheEntry) (s : ActivityTree)
    (h : entry.info.HasCompleteLineage = false) :
    (∀ branch generationType dryRun,
      CreateProcessNode x (some entry) branch generationType dryRun s
        = ⟨none, false, some Error.ErrBrokenLineage, s⟩)
    ∧ (∀ event generationType, event.ProcessCacheEntry = some entry →
        ¬(generationType = Unknown ∨ generationType > MaxNodeGenerationType) →
        (isEventValid event false s).1 = true →
        Insert x event generationType s = (false, some Error.ErrBrokenLineage, s)) := by
  have hc : ∀ branch generationType dryRun,
      CreateProcessNode x (some entry) branch generationType dryRun s
        = ⟨none, false, some Error.ErrBrokenLineage, s⟩ := by
    intro branch g dryRun
    rw [CreateProcessNode_some]
    simp [h]
  refine ⟨hc, ?_⟩
  intro event g hp hg hv
  have hev := isEventValid_true event false s hv
  simp [Insert, insert, hg, hev, hp, hc]

/-- The entry `brokenEntry` in the empty tree, with the generation type `Runtime`. -/
theorem broken_lineage_witness :
    (∀ branch generationType dryRun,
      CreateProcessNode pathCollaborators (some brokenEntry) branch generationType dryRun
        emptyTree = ⟨none, false, some Error.ErrBrokenLineage, emptyTree⟩)
    ∧ (∀ event generationType, event.ProcessCacheEntry = some brokenEntry →
        ¬(generationType = Unknown ∨ generationType > MaxNodeGenerationType) →
        (isEventValid event false emptyTree).1 = true →
        Insert pathCollaborators event generationType emptyTree
          = (false, some Error.ErrBrokenLineage, emptyTree)) :=
  broken_lineage pathCollaborators brokenEntry emptyTree (by decide)

/-- A call of `CreateProcessNode` that returns no node and false leaves the tree as it was, in
both modes. -/
theorem CreateProcessNode_none_tree (x : Collaborators) (entry : Option ProcessCacheEntry)
    (branch : List ProcessCacheEntry) (g : NodeGenerationType) (dryRun : Bool)
    (s : ActivityTree) (hn : (CreateProcessNode x entry branch g dryRun s).node = none)
    (hw : (CreateProcessNode x entry branch g dryRun s).newProcessNode = false) :
    (CreateProcessNode x entry branch g dryRun s).tree = s := by
  have heq := CreateProcessNode_eq x (lineageDepth entry + 1) entry branch g dryRun s (by omega)
  cases dryRun with
  | false => exact ((createProcessNodeRec_mutating_facts x _ _ _ _ _ _ heq).2 hn).2
  | true => exact (createProcessNodeRec_dryRun_facts x _ _ _ _ _ _ heq).2 hn hw

/-- C12 (as stated, for every call): in dry-run mode, `make` execed by a shell that the owner
would take is not in the cache of the new tree, its ancestor resolves to no node (the shell would
be new), the owner does not take `make`, and the call returns `(nil, true, nil)`, not
`(nil, false, ErrContainerIDNotEqual)`. -/
theorem CreateProcessNode_dryRun_no_mismatch :
    makeUnderShEntry.info.HasCompleteLineage = true
    ∧ (if eventHaveValidCookie makeUnderShEntry then
        shellTree.CookieToProcessNode (entryCookieSelector makeUnderShEntry) else none) = none
    ∧ (CreateProcessNode pathCollaborators (GetNextAncestorBinaryOrArgv0 (some makeUnderShEntry))
        [makeUnderShEntry] Snapshot true shellTree).node = none
    ∧ shellTree.validator.MatchesSelector makeUnderShEntry = false
    ∧ (CreateProcessNode pathCollaborators (some makeUnderShEntry) [] Runtime true shellTree).node
        = none
    ∧ (CreateProcessNode pathCollaborators (some makeUnderShEntry) [] Runtime true
        shellTree).newProcessNode = true
    ∧ (CreateProcessNode pathCollaborators (some makeUnderShEntry) [] Runtime true shellTree).err
        = none := by
  decide

/-- C12: for an entry with a complete lineage that is not in the cookie cache, if the resolution
of its next ancestor returns no node and the owner does not take the entry, then the call returns
`(nil, false, ErrContainerIDNotEqual)` and the tree it was given, so that no node is created: in
mutating mode always, and in dry-run mode when the resolution of the ancestor does not report a
new node. -/
theorem CreateProcessNode_selector_mismatch (x : Collaborators) (entry : ProcessCacheEntry)
    (branch : List ProcessCacheEntry) (generationType : NodeGenerationType) (dryRun : Bool)
    (s : ActivityTree)
    (hl : entry.info.HasCompleteLineage = true)
    (hc : (if eventHaveValidCookie entry then
        s.CookieToProcessNode (entryCookieSelector entry) else none) = none)
    (hp : (CreateProcessNode x (GetNextAncestorBinaryOrArgv0 (some entry)) (entry :: branch)
        Snapshot dryRun s).node = none)
    (hd : dryRun = true → (CreateProcessNode x (GetNextAncestorBinaryOrArgv0 (some entry))
        (entry :: branch) Snapshot dryRun s).newProcessNode = false)
    (hm : s.validator.MatchesSelector entry = false) :
    CreateProcessNode x (some entry) branch generationType dryRun s
      = ⟨none, false, some Error.ErrContainerIDNotEqual, s⟩ := by
  have hw : (CreateProcessNode x (GetNextAncestorBinaryOrArgv0 (some entry)) (entry :: branch)
      Snapshot dryRun s).newProcessNode = false := by
    cases dryRun with
    | true => exact hd rfl
    | false => exact (CreateProcessNode_mutating_none x _ _ _ _ hp).1
  have ht := CreateProcessNode_none_tree x _ _ _ _ _ hp hw
  rw [CreateProcessNode_some]
  simp only [hl, hc, Bool.not_true, Bool.false_eq_true, if_false]
  have ha : attachProcessNode x entry (entry :: branch) generationType dryRun
      (CreateProcessNode x (GetNextAncestorBinaryOrArgv0 (some entry)) (entry :: branch)
        Snapshot dryRun s) = ⟨none, false, some Error.ErrContainerIDNotEqual, s⟩ := by
    unfold attachProcessNode
    simp [hw, hp, ht, hm]
  rw [ha]
  rfl

/-- In mutating mode, `make` under a host process is refused by `shellOwner`. -/
theorem CreateProcessNode_selector_mismatch_witness :
    CreateProcessNode pathCollaborators (some makeEntry) [] Runtime false shellTree
      = ⟨none, false, some Error.ErrContainerIDNotEqual, shellTree⟩ :=
  CreateProcessNode_selector_mismatch pathCollaborators makeEntry [] Runtime false shellTree
    (by decide) (by decide) (by decide) (by decide) (by decide)

/-! ## The checks of insert -/

/-- The three outcomes of `isEventValid`. -/
theorem isEventValid_cases (event : Event) (dryRun : Bool) (s : ActivityTree) :
    (s.validator.IsEventTypeValid event.EventType = false
      ∧ isEventValid event dryRun s = (false, some (Error.eventTypeNotValid event.EventType),
          if !dryRun then
            { s with Stats :=
                s.Stats.incDropped event.EventType NodeDroppedReason.eventTypeReason }
          else s))
    ∨ (s.validator.IsEventTypeValid event.EventType = true
      ∧ (event.EventType = EventType.BindEventType ∧ event.BindAddrFamily ≠ AF_INET
          ∧ event.BindAddrFamily ≠ AF_INET6)
      ∧ isEventValid event dryRun s = (false, some Error.invalidBindFamily,
          if !dryRun then
            { s with Stats :=
                s.Stats.incDropped EventType.BindEventType NodeDroppedReason.bindFamilyReason }
          else s))
    ∨ (s.validator.IsEventTypeValid event.EventType = true
      ∧ ¬(event.EventType = EventType.BindEventType ∧ event.BindAddrFamily ≠ AF_INET
          ∧ event.BindAddrFamily ≠ AF_INET6)
      ∧ isEventValid event dryRun s = (true, none, s)) := by
  unfold isEventValid
  cases h1 : s.validator.IsEventTypeValid event.EventType with
  | false => left; exact ⟨rfl, by rw [if_pos (by simp)]⟩
  | true =>
    right
    by_cases h2 : event.EventType = EventType.BindEventType ∧ event.BindAddrFamily ≠ AF_INET
        ∧ event.BindAddrFamily ≠ AF_INET6
    · left; exact ⟨rfl, h2, by rw [if_neg (by simp), if_pos h2]⟩
    · right; exact ⟨rfl, h2, by rw [if_neg (by simp), if_neg h2]⟩

/-- C20: `isEventValid` returns `(true, nil)` if and only if the owner accepts the type of the
event and, when the event is a bind event, its address family is `AF_INET` or `AF_INET6`; in
every other case it returns `(false, err)` with an error, so that the boolean is true exactly
when the error is nil. -/
theorem isEventValid_iff (event : Event) (dryRun : Bool) (s : ActivityTree) :
    (((isEventValid event dryRun s).1 = true ∧ (isEventValid event dryRun s).2.1 = none)
      ↔ (s.validator.IsEventTypeValid event.EventType = true
          ∧ (event.EventType = EventType.BindEventType →
              event.BindAddrFamily = AF_INET ∨ event.BindAddrFamily = AF_INET6)))
    ∧ (¬(s.validator.IsEventTypeValid event.EventType = true
          ∧ (event.EventType = EventType.BindEventType →
              event.BindAddrFamily = AF_INET ∨ event.BindAddrFamily = AF_INET6))
        → (isEventValid event dryRun s).1 = false ∧ (isEventValid event dryRun s).2.1 ≠ none)
    ∧ ((isEventValid event dryRun s).1 = true ↔ (isEventValid event dryRun s).2.1 = none) := by
  rcases isEventValid_cases event dryRun s with ⟨h1, he⟩ | ⟨h1, h2, he⟩ | ⟨h1, h2, he⟩
  · rw [he]
    simp [h1]
  · rw [he]
    have h3 : ¬(event.EventType = EventType.BindEventType →
        event.BindAddrFamily = AF_INET ∨ event.BindAddrFamily = AF_INET6) := by
      intro h; rcases h h2.1 with h | h
      · exact h2.2.1 h
      · exact h2.2.2 h
    refine ⟨⟨fun h => ?_, fun h => absurd h.2 h3⟩, fun _ => ?_, ?_⟩
    · simp at h
    · simp
    · simp
  · rw [he]
    have h3 : event.EventType = EventType.BindEventType →
        event.BindAddrFamily = AF_INET ∨ event.BindAddrFamily = AF_INET6 := by
      intro h
      by_contra hc
      exact h2 ⟨h, fun a => hc (Or.inl a), fun a => hc (Or.inr a)⟩
    refine ⟨⟨fun _ => ⟨h1, h3⟩, fun _ => ⟨rfl, rfl⟩⟩, fun h => absurd ⟨h1, h3⟩ h, ?_⟩
    simp

/-- C18: with the generation type `Unknown` (0) or one greater than `MaxNodeGenerationType` (4),
`Insert` and `Contains` return the error of the generation type at once and the tree they were
given: the forest, the cookie cache and every counter are the same; and the check fails for no
generation type from 1 to 4. -/
theorem invalid_generation_type (x : Collaborators) (event : Event)
    (generationType : NodeGenerationType) (s : ActivityTree) :
    ((generationType = Unknown ∨ generationType > MaxNodeGenerationType) →
      Insert x event generationType s
          = (false, some (Error.invalidGenerationType generationType), s)
      ∧ Contains x event generationType s
          = (true, some (Error.invalidGenerationType generationType), s)
      ∧ insert x event false generationType s
          = (false, some (Error.invalidGenerationType generationType), s)
      ∧ insert x event true generationType s
          = (false, some (Error.invalidGenerationType generationType), s))
    ∧ (Unknown = 0 ∧ MaxNodeGenerationType = 4)
    ∧ ((1 ≤ generationType ∧ generationType ≤ 4) →
        ¬(generationType = Unknown ∨ generationType > MaxNodeGenerationType)) := by
  refine ⟨?_, ⟨rfl, rfl⟩, ?_⟩
  · intro h
    simp [Insert, Contains, insert, h]
  · rintro ⟨h1, h2⟩ (h3 | h3)
    · rw [h3] at h1
      exact absurd h1 (by decide)
    · exact absurd (Nat.lt_of_lt_of_le h3 h2) (by decide)

/-- The generation type `Unknown` and the generation type 5, on the exec event of `app` in
`treeWithApp`. -/
theorem invalid_generation_type_witness :
    Insert pathCollaborators (execEvent appEntry) 5 treeWithApp
        = (false, some (Error.invalidGenerationType 5), treeWithApp)
    ∧ Contains pathCollaborators (execEvent appEntry) Unknown treeWithApp
        = (true, some (Error.invalidGenerationType Unknown), treeWithApp) :=
  ⟨((invalid_generation_type pathCollaborators (execEvent appEntry) 5 treeWithApp).1
      (by decide)).1,
    ((invalid_generation_type pathCollaborators (execEvent appEntry) Unknown treeWithApp).1
      (by decide)).2.1⟩

/-- C19: for a bind event whose address family is neither `AF_INET` nor `AF_INET6`, `Insert`
returns `(false, err)` with an error and creates no socket entry and no process node: the forest,
the cookie cache, the payload of every node, the allocator and the count of socket nodes are the
same after the call as before. -/
theorem Insert_bind_family (x : Collaborators) (event : Event)
    (generationType : NodeGenerationType) (s : ActivityTree)
    (hb : event.EventType = EventType.BindEventType)
    (h4 : event.BindAddrFamily ≠ AF_INET) (h6 : event.BindAddrFamily ≠ AF_INET6) :
    (Insert x event generationType s).1 = false
    ∧ (Insert x event generationType s).2.1 ≠ none
    ∧ (Insert x event generationType s).2.2.ProcessNodes = s.ProcessNodes
    ∧ (Insert x event generationType s).2.2.CookieToProcessNode = s.CookieToProcessNode
    ∧ (Insert x event generationType s).2.2.payload = s.payload
    ∧ (Insert x event generationType s).2.2.nextPtr = s.nextPtr
    ∧ (Insert x event generationType s).2.2.Stats.SocketNodes = s.Stats.SocketNodes
    ∧ (Insert x event generationType s).2.2.Stats.ProcessNodes = s.Stats.ProcessNodes := by
  by_cases hg : generationType = Unknown ∨ generationType > MaxNodeGenerationType
  · simp [Insert, insert, hg]
  · rcases isEventValid_cases event false s with ⟨_, he⟩ | ⟨_, _, he⟩ | ⟨_, h2, _⟩
    · simp [Insert, insert, hg, he, ActivityTreeStats.incDropped]
    · simp [Insert, insert, hg, he, ActivityTreeStats.incDropped]
    · exact absurd ⟨hb, h4, h6⟩ h2

/-- A bind event of `app` on a socket of the family `AF_UNIX`, in `treeWithApp`. -/
theorem Insert_bind_family_witness :
    (Insert pathCollaborators (bindEvent appEntry AF_UNIX) Runtime treeWithApp).1 = false
    ∧ (Insert pathCollaborators (bindEvent appEntry AF_UNIX) Runtime treeWithApp).2.1
        = some (Error.invalidEvent Error.invalidBindFamily)
    ∧ (Insert pathCollaborators (bindEvent appEntry AF_UNIX) Runtime treeWithApp).2.2.ProcessNodes
        = treeWithApp.ProcessNodes :=
  ⟨(Insert_bind_family pathCollaborators (bindEvent appEntry AF_UNIX) Runtime treeWithApp
      (by decide) (by decide) (by decide)).1,
    by decide,
    (Insert_bind_family pathCollaborators (bindEvent appEntry AF_UNIX) Runtime treeWithApp
      (by decide) (by decide) (by decide)).2.2.1⟩

/-! ## The two modes of CreateProcessNode -/

/-- The loop of the branch search gives the same result in both modes, with false, or it ends on
the dry-run exit in a dry run and on a rebase otherwise. -/
theorem findBranchLoop_modes (x : Collaborators) (tree : SiblingsRef)
    (branch : List ProcessCacheEntry) (g : NodeGenerationType) (s : ActivityTree)
    (rest : List ProcessCacheEntry) (i : Nat) :
    (findBranchLoop x tree branch false g s i rest = findBranchLoop x tree branch true g s i rest
      ∧ (findBranchLoop x tree branch true g s i rest).2.1 = false
      ∧ (findBranchLoop x tree branch true g s i rest).2.2 = s)
    ∨ (findBranchLoop x tree branch true g s i rest = (none, true, s)
      ∧ ∃ t, findBranchLoop x tree branch false g s i rest = (some s.nextPtr, true, t)) := by
  induction rest generalizing i with
  | nil => left; simp [findBranchLoop]
  | cons c rest ih =>
    simp only [findBranchLoop]
    cases hf : findProcessCacheEntryInChildrenNodes x s.differentiateArgs (getSiblings tree s) c with
    | some r =>
      obtain ⟨n, k⟩ := r
      by_cases hi : i = 0
      · left; simp [hi]
      · right; simp [hi]
    | none =>
      simp only
      cases rest with
      | nil => left; simp
      | cons next rest' =>
        simp only
        split
        · exact ih (i + 1)
        · left; simp

theorem findBranchInChildrenNodes_modes (x : Collaborators) (tree : SiblingsRef)
    (branch : List ProcessCacheEntry) (g : NodeGenerationType) (s : ActivityTree) :
    (findBranchInChildrenNodes x tree branch false g s
        = findBranchInChildrenNodes x tree branch true g s
      ∧ (findBranchInChildrenNodes x tree branch true g s).2.1 = false
      ∧ (findBranchInChildrenNodes x tree branch true g s).2.2 = s)
    ∨ (findBranchInChildrenNodes x tree branch true g s = (none, true, s)
      ∧ ∃ t, findBranchInChildrenNodes x tree branch false g s = (some s.nextPtr, true, t)) :=
  findBranchLoop_modes x tree branch g s branch 0

/-- The part of `CreateProcessNode` after the recursive call: when the mutating call returns
false, the dry run returns the same results, provided this holds of the recursive call. -/
theorem attachProcessNode_same (x : Collaborators) (entry : ProcessCacheEntry)
    (branch : List ProcessCacheEntry) (g : NodeGenerationType) (pm pd : CreateResult)
    (hA : pm.newProcessNode = false → pd = pm)
    (hn : pm.node = none → pm.newProcessNode = false)
    (h : (attachProcessNode x entry branch g false pm).newProcessNode = false) :
    attachProcessNode x entry branch g true pd = attachProcessNode x entry branch g false pm := by
  unfold attachProcessNode at h ⊢
  simp only [Bool.and_false, Bool.false_eq_true, if_false, Bool.not_false, if_true,
    Bool.and_true] at h ⊢
  cases hpn : pm.node with
  | none =>
    have hw := hn hpn
    have hpd := hA hw
    subst hpd
    simp only [hpn, hw, Bool.and_false, Bool.false_eq_true, if_false] at h ⊢
    cases hm : pd.tree.validator.MatchesSelector entry with
    | false => simp
    | true =>
      simp only [hm, Bool.not_true, Bool.false_eq_true, if_false] at h ⊢
      rcases findBranchInChildrenNodes_modes x SiblingsRef.roots branch g pd.tree with
        ⟨he, hf, ht⟩ | ⟨hd, t, hmu⟩
      · rw [he] at h ⊢
        cases hr : findBranchInChildrenNodes x SiblingsRef.roots branch true g pd.tree with
        | mk b rest =>
          obtain ⟨nc, t⟩ := rest
          rw [hr] at h hf ht
          simp only at hf ht
          subst hf; subst ht
          cases b with
          | some b => rfl
          | none =>
            simp only at h ⊢
            cases hv : isValidRootNode entry with
            | false => simp
            | true => simp [hv] at h
      · rw [hmu] at h
        simp at h
  | some p =>
    simp only [hpn] at h ⊢
    rcases findBranchInChildrenNodes_modes x (SiblingsRef.childrenOf p) branch g pm.tree with
      ⟨he, hf, ht⟩ | ⟨hd, t, hmu⟩
    · rw [he] at h ⊢
      cases hr : findBranchInChildrenNodes x (SiblingsRef.childrenOf p) branch true g pm.tree with
      | mk b rest =>
        obtain ⟨nc, t⟩ := rest
        rw [hr] at h hf ht
        simp only at hf ht
        subst hf; subst ht
        cases b with
        | some b =>
          simp only [Bool.false_or] at h ⊢
          have hpd := hA h
          subst hpd
          simp [h, hpn, hr]
        | none => simp at h
    · rw [hmu] at h
      simp at h

/-- The part of `CreateProcessNode` after the recursive call: when the dry run reports a new node
and no error, the mutating call returns a node, true and no error, provided this holds of the
recursive call. -/
theorem attachProcessNode_new (x : Collaborators) (entry : ProcessCacheEntry)
    (branch : List ProcessCacheEntry) (g : NodeGenerationType) (pm pd : CreateResult)
    (hA : pm.newProcessNode = false → pd = pm)
    (hn : pm.node = none → pm.newProcessNode = false)
    (he : pm.err ≠ none → pm.node = none)
    (hw : (attachProcessNode x entry branch g true pd).newProcessNode = true)
    (hr : (attachProcessNode x entry branch g true pd).err = none) :
    (attachProcessNode x entry branch g false pm).newProcessNode = true
    ∧ (attachProcessNode x entry branch g false pm).err = none
    ∧ (attachProcessNode x entry branch g false pm).node ≠ none := by
  cases hpw : pm.newProcessNode with
  | true =>
    cases hpn : pm.node with
    | none => rw [hn hpn] at hpw; cases hpw
    | some p =>
      unfold attachProcessNode
      simp only [Bool.and_false, Bool.false_eq_true, if_false, Bool.not_false, if_true, hpn, hpw,
        Bool.or_true]
      cases hf : findBranchInChildrenNodes x (SiblingsRef.childrenOf p) branch false g pm.tree with
      | mk b rest =>
        obtain ⟨nc, t⟩ := rest
        cases b with
        | some b => simp
        | none => simp
  | false =>
    have hpd := hA hpw
    subst hpd
    unfold attachProcessNode at hw hr ⊢
    simp only [hpw, Bool.and_false, Bool.false_and, Bool.false_eq_true, if_false, Bool.not_false,
      if_true, Bool.not_true, Bool.or_false] at hw hr ⊢
    cases hpn : pd.node with
    | none =>
      simp only [hpn] at hw hr ⊢
      cases hm : pd.tree.validator.MatchesSelector entry with
      | false => simp [hm] at hw
      | true =>
        simp only [hm, Bool.not_true, Bool.false_eq_true, if_false] at hw hr ⊢
        rcases findBranchInChildrenNodes_modes x SiblingsRef.roots branch g pd.tree with
          ⟨hq, hf, ht⟩ | ⟨hd, t, hmu⟩
        · rw [hq]
          cases hfb : findBranchInChildrenNodes x SiblingsRef.roots branch true g pd.tree with
          | mk b rest =>
            obtain ⟨nc, t⟩ := rest
            rw [hfb] at hw hr hf
            simp only at hf
            subst hf
            cases b with
            | some b => simp at hw
            | none =>
              simp only at hw hr ⊢
              cases hv : isValidRootNode entry with
              | false => simp [hv] at hw
              | true => simp
        · rw [hmu]
          simp
    | some p =>
      simp only [hpn] at hw hr ⊢
      rcases findBranchInChildrenNodes_modes x (SiblingsRef.childrenOf p) branch g pd.tree with
        ⟨hq, hf, ht⟩ | ⟨hd, t, hmu⟩
      · rw [hq]
        cases hfb : findBranchInChildrenNodes x (SiblingsRef.childrenOf p) branch true g
            pd.tree with
        | mk b rest =>
          obtain ⟨nc, t⟩ := rest
          rw [hfb] at hw hr hf
          simp only at hf
          subst hf
          cases b with
          | some b => simp at hw
          | none => simp
      · rw [hmu]
        simp

/-- The two modes of `CreateProcessNode` on a same tree: when the mutating call returns false, the
dry run returns the same results and leaves the same tree; and when the dry run returns true and
no error, the mutating call returns a node, true and no error. -/
theorem createProcessNodeRec_modes (x : Collaborators) (fuel : Nat)
    (entry : Option ProcessCacheEntry) (branch : List ProcessCacheEntry)
    (g : NodeGenerationType) (s : ActivityTree) (rm rd : CreateResult)
    (hm : createProcessNodeRec x fuel entry branch g false s = some rm)
    (hd : createProcessNodeRec x fuel entry branch g true s = some rd) :
    (rm.newProcessNode = false → rd = rm)
    ∧ (rd.newProcessNode = true → rd.err = none →
        rm.newProcessNode = true ∧ rm.err = none ∧ rm.node ≠ none) := by
  induction fuel generalizing entry branch g rm rd with
  | zero => simp [createProcessNodeRec] at hm
  | succ n ih =>
    cases entry with
    | none =>
      simp only [createProcessNodeRec, Option.some.injEq] at hm hd
      subst hm; subst hd
      simp
    | some e =>
      simp only [createProcessNodeRec] at hm hd
      split at hm
      · rename_i hc
        rw [if_pos hc] at hd
        simp only [Option.some.injEq] at hm hd
        subst hm; subst hd
        simp
      · rename_i hc
        rw [if_neg hc] at hd
        split at hm
        · rename_i node hck
          rw [hck] at hd
          simp only [Option.some.injEq] at hm hd
          subst hm; subst hd
          simp
        · rename_i hck
          rw [hck] at hd
          simp only at hd
          split at hm
          · cases hm
          · rename_i pm hpm
            split at hd
            · cases hd
            · rename_i pd hpd
              simp only [Option.some.injEq] at hm hd
              subst hm; subst hd
              obtain ⟨ihA, ihB⟩ := ih _ _ _ _ _ hpm hpd
              obtain ⟨f1, f2⟩ := createProcessNodeRec_mutating_facts x _ _ _ _ _ _ hpm
              obtain ⟨d1, d2, d3, _⟩ := deferCookie_fields (entryCookieSelector e)
                (attachProcessNode x e (e :: branch) g false pm)
              obtain ⟨e1, e2, e3, _⟩ := deferCookie_fields (entryCookieSelector e)
                (attachProcessNode x e (e :: branch) g true pd)
              constructor
              · intro h
                rw [d2] at h
                rw [attachProcessNode_same x e (e :: branch) g pm pd ihA
                  (fun hn => (f2 hn).1) h]
              · intro hw hr
                rw [e2] at hw
                rw [e3] at hr
                rw [d1, d2, d3]
                exact attachProcessNode_new x e (e :: branch) g pm pd ihA
                  (fun hn => (f2 hn).1) f1 hw hr

theorem CreateProcessNode_modes (x : Collaborators) (entry : Option ProcessCacheEntry)
    (branch : List ProcessCacheEntry) (g : NodeGenerationType) (s : ActivityTree) :
    ((CreateProcessNode x entry branch g false s).newProcessNode = false →
        CreateProcessNode x entry branch g true s = CreateProcessNode x entry branch g false s)
    ∧ ((CreateProcessNode x entry branch g true s).newProcessNode = true →
        (CreateProcessNode x entry branch g true s).err = none →
        (CreateProcessNode x entry branch g false s).newProcessNode = true
        ∧ (CreateProcessNode x entry branch g false s).err = none
        ∧ (CreateProcessNode x entry branch g false s).node ≠ none) :=
  createProcessNodeRec_modes x (lineageDepth entry + 1) entry branch g s _ _
    (CreateProcessNode_eq x _ entry branch g false s (by omega))
    (CreateProcessNode_eq x _ entry branch g true s (by omega))

/-- A mutating call of `CreateProcessNode` that returns false changes the cookie cache only. -/
theorem CreateProcessNode_not_new (x : Collaborators) (entry : Option ProcessCacheEntry)
    (branch : List ProcessCacheEntry) (g : NodeGenerationType) (s : ActivityTree)
    (h : (CreateProcessNode x entry branch g false s).newProcessNode = false) :
    ∃ c, (CreateProcessNode x entry branch g false s).tree = { s with CookieToProcessNode := c } := by
  rw [← (CreateProcessNode_modes x entry branch g s).1 h]
  exact CreateProcessNode_dryRun x entry branch g s

/-! ## What CreateProcessNode leaves of the events -/

theorem updateSiblings_leaves (tree : SiblingsRef) (f : List ProcessNode → List ProcessNode)
    (s : ActivityTree) :
    (updateSiblings tree f s).payload = s.payload
    ∧ (updateSiblings tree f s).DNSNames = s.DNSNames
    ∧ (updateSiblings tree f s).SyscallsMask = s.SyscallsMask := by
  cases tree with
  | roots => simp [updateSiblings]
  | childrenOf p =>
    simp only [updateSiblings]
    split <;> simp

theorem findBranchInChildrenNodes_leaves (x : Collaborators) (tree : SiblingsRef)
    (branch : List ProcessCacheEntry) (dryRun : Bool) (g : NodeGenerationType)
    (s : ActivityTree) :
    (findBranchInChildrenNodes x tree branch dryRun g s).2.2.payload = s.payload
    ∧ (findBranchInChildrenNodes x tree branch dryRun g s).2.2.DNSNames = s.DNSNames
    ∧ (findBranchInChildrenNodes x tree branch dryRun g s).2.2.SyscallsMask = s.SyscallsMask := by
  rcases findBranchInChildrenNodes_cases x tree branch dryRun g s with
    ⟨e, rest, n, k, _, _, h⟩ | ⟨_, h | ⟨_, h⟩ | ⟨_, j, k, c, n, _, _, h⟩⟩
  · rw [h]; exact ⟨rfl, rfl, rfl⟩
  · rw [h]; exact ⟨rfl, rfl, rfl⟩
  · rw [h]; exact ⟨rfl, rfl, rfl⟩
  · rw [h]; simp only [rebaseTree]; exact updateSiblings_leaves _ _ _

theorem appendNewNode_leaves (tree : SiblingsRef) (entry : ProcessCacheEntry)
    (g : NodeGenerationType) (s : ActivityTree) :
    (appendNewNode tree entry g s).payload = s.payload
    ∧ (appendNewNode tree entry g s).DNSNames = s.DNSNames
    ∧ (appendNewNode tree entry g s).SyscallsMask = s.SyscallsMask := by
  simp only [appendNewNode]; exact updateSiblings_leaves _ _ _

theorem attachProcessNode_leaves (x : Collaborators) (entry : ProcessCacheEntry)
    (branch : List ProcessCacheEntry) (g : NodeGenerationType) (dryRun : Bool)
    (parent : CreateResult) :
    (attachProcessNode x entry branch g dryRun parent).tree.payload = parent.tree.payload
    ∧ (attachProcessNode x entry branch g dryRun parent).tree.DNSNames = parent.tree.DNSNames
    ∧ (attachProcessNode x entry branch g dryRun parent).tree.SyscallsMask
        = parent.tree.SyscallsMask := by
  unfold attachProcessNode
  split
  · exact ⟨rfl, rfl, rfl⟩
  · split
    · split
      · exact ⟨rfl, rfl, rfl⟩
      · have h := findBranchInChildrenNodes_leaves x SiblingsRef.roots branch dryRun g parent.tree
        split
        · rename_i heq; rw [heq] at h; exact h
        · rename_i heq; rw [heq] at h
          split
          · exact h
          · split
            · have h2 := appendNewNode_leaves SiblingsRef.roots entry g (by assumption)
              exact ⟨h2.1.trans h.1, h2.2.1.trans h.2.1, h2.2.2.trans h.2.2⟩
            · exact h
    · rename_i parentNode _
      have h := findBranchInChildrenNodes_leaves x (SiblingsRef.childrenOf parentNode) branch
        dryRun g parent.tree
      split
      · rename_i heq; rw [heq] at h; exact h
      · rename_i heq; rw [heq] at h
        split
        · have h2 := appendNewNode_leaves (SiblingsRef.childrenOf parentNode) entry g
            (by assumption)
          exact ⟨h2.1.trans h.1, h2.2.1.trans h.2.1, h2.2.2.trans h.2.2⟩
        · exact h

theorem createProcessNodeRec_leaves (x : Collaborators) (fuel : Nat)
    (entry : Option ProcessCacheEntry) (branch : List ProcessCacheEntry)
    (g : NodeGenerationType) (dryRun : Bool) (s : ActivityTree) (r : CreateResult)
    (h : createProcessNodeRec x fuel entry branch g dryRun s = some r) :
    r.tree.payload = s.payload ∧ r.tree.DNSNames = s.DNSNames
    ∧ r.tree.SyscallsMask = s.SyscallsMask := by
  induction fuel generalizing entry branch g r with
  | zero => simp [createProcessNodeRec] at h
  | succ n ih =>
    cases entry with
    | none =>
      simp only [createProcessNodeRec, Option.some.injEq] at h
      subst h; exact ⟨rfl, rfl, rfl⟩
    | some e =>
      simp only [createProcessNodeRec] at h
      split at h
      · simp only [Option.some.injEq] at h; subst h; exact ⟨rfl, rfl, rfl⟩
      · split at h
        · simp only [Option.some.injEq] at h; subst h; exact ⟨rfl, rfl, rfl⟩
        · split at h
          · cases h
          · rename_i parent hp
            simp only [Option.some.injEq] at h; subst h
            obtain ⟨c, hc⟩ := deferCookie_tree (entryCookieSelector e)
              (attachProcessNode x e (e :: branch) g dryRun parent)
            rw [hc]
            have h1 := attachProcessNode_leaves x e (e :: branch) g dryRun parent
            have h2 := ih _ _ _ _ hp
            exact ⟨h1.1.trans h2.1, h1.2.1.trans h2.2.1, h1.2.2.trans h2.2.2⟩

/-- A call of `CreateProcessNode` applies no event: the payload of every node, the names and the
mask of the system calls are as before. -/
theorem CreateProcessNode_leaves (x : Collaborators) (entry : Option ProcessCacheEntry)
    (branch : List ProcessCacheEntry) (g : NodeGenerationType) (dryRun : Bool)
    (s : ActivityTree) :
    (CreateProcessNode x entry branch g dryRun s).tree.payload = s.payload
    ∧ (CreateProcessNode x entry branch g dryRun s).tree.DNSNames = s.DNSNames
    ∧ (CreateProcessNode x entry branch g dryRun s).tree.SyscallsMask = s.SyscallsMask := by
  unfold CreateProcessNode
  split
  · rename_i r hr
    exact createProcessNodeRec_leaves x _ _ _ _ _ _ _ hr
  · exact ⟨rfl, rfl, rfl⟩

/-! ## The results of insert -/

/-- The body of `insert` after the two checks. -/
theorem insert_valid (x : Collaborators) (event : Event) (dryRun : Bool)
    (g : NodeGenerationType) (s : ActivityTree)
    (hg : ¬(g = Unknown ∨ g > MaxNodeGenerationType))
    (hv : (isEventValid event dryRun s).1 = true) :
    insert x event dryRun g s
      = if (CreateProcessNode x event.ProcessCacheEntry [] g dryRun s).err.isSome then
          (false, (CreateProcessNode x event.ProcessCacheEntry [] g dryRun s).err,
            (CreateProcessNode x event.ProcessCacheEntry [] g dryRun s).tree)
        else if (CreateProcessNode x event.ProcessCacheEntry [] g dryRun s).newProcessNode
            && dryRun then
          (true, none, (CreateProcessNode x event.ProcessCacheEntry [] g dryRun s).tree)
        else
          match (CreateProcessNode x event.ProcessCacheEntry [] g dryRun s).node with
          | none => (false, some Error.noProcessNode,
              (CreateProcessNode x event.ProcessCacheEntry [] g dryRun s).tree)
          | some n =>
            if event.Error.isSome then
              (false, event.Error,
                { (CreateProcessNode x event.ProcessCacheEntry [] g dryRun s).tree with
                  Stats := (CreateProcessNode x event.ProcessCacheEntry [] g dryRun
                    s).tree.Stats.incDropped event.EventType NodeDroppedReason.brokenEventReason })
            else
              insertEvent x event dryRun g n
                (CreateProcessNode x event.ProcessCacheEntry [] g dryRun s).newProcessNode
                { (CreateProcessNode x event.ProcessCacheEntry [] g dryRun s).tree with
                  Stats := (CreateProcessNode x event.ProcessCacheEntry [] g dryRun
                    s).tree.Stats.incProcessed event.EventType } := by
  unfold insert
  rw [if_neg hg, isEventValid_true event dryRun s hv]
  simp only [Bool.not_true, Option.isSome_none, Bool.or_self, Bool.false_eq_true, if_false]

/-- The result of `insert` when `isEventValid` refuses the event. -/
theorem insert_invalid (x : Collaborators) (event : Event) (dryRun : Bool)
    (g : NodeGenerationType) (s : ActivityTree)
    (hg : ¬(g = Unknown ∨ g > MaxNodeGenerationType))
    (hv : (isEventValid event dryRun s).1 = false) :
    ∃ e d, insert x event dryRun g s
      = (false, some e, { s with Stats := { s.Stats with droppedCount := d } }) := by
  unfold insert
  rw [if_neg hg]
  rcases isEventValid_cases event dryRun s with ⟨_, he⟩ | ⟨_, _, he⟩ | ⟨_, _, he⟩
  · rw [he]
    cases dryRun
    · exact ⟨_, _, rfl⟩
    · exact ⟨_, s.Stats.droppedCount, rfl⟩
  · rw [he]
    cases dryRun
    · exact ⟨_, _, rfl⟩
    · exact ⟨_, s.Stats.droppedCount, rfl⟩
  · rw [he] at hv
    cases hv

/-- The statistics are the only part of the tree that `Insert` writes after `insert`. -/
theorem Insert_stats (x : Collaborators) (event : Event) (g : NodeGenerationType)
    (s : ActivityTree) :
    (Insert x event g s).1 = (insert x event false g s).1
    ∧ (Insert x event g s).2.1 = (insert x event false g s).2.1
    ∧ ∃ st, (Insert x event g s).2.2 = { (insert x event false g s).2.2 with Stats := st } := by
  unfold Insert
  refine ⟨rfl, rfl, ?_⟩
  simp only
  split
  · exact ⟨_, rfl⟩
  · exact ⟨_, rfl⟩

theorem insertEvent_err (x : Collaborators) (event : Event) (dryRun : Bool)
    (g : NodeGenerationType) (node : Nat) (nw : Bool) (s : ActivityTree) :
    (insertEvent x event dryRun g node nw s).2.1 = none := by
  unfold insertEvent
  split <;> rfl

theorem insertEvent_exec (x : Collaborators) (event : Event) (dryRun : Bool)
    (g : NodeGenerationType) (node : Nat) (nw : Bool) (s : ActivityTree)
    (ht : event.EventType = EventType.ExecEventType) :
    (insertEvent x event dryRun g node nw s).1 = nw := by
  unfold insertEvent
  rw [ht]

/-- A mutating `insert` that returns an error returns false and applies the event to no node;
and it leaves all of the tree but the statistics as it was, unless the error is the one of the
fields of the event. -/
theorem insert_error (x : Collaborators) (event : Event) (g : NodeGenerationType)
    (s : ActivityTree) (h : (insert x event false g s).2.1 ≠ none) :
    (insert x event false g s).1 = false
    ∧ (insert x event false g s).2.2.payload = s.payload
    ∧ (insert x event false g s).2.2.DNSNames = s.DNSNames
    ∧ (insert x event false g s).2.2.SyscallsMask = s.SyscallsMask
    ∧ ((event.Error = none ∨ (insert x event false g s).2.1 ≠ event.Error) →
        ∃ d, (insert x event false g s).2.2
          = { s with Stats := { s.Stats with droppedCount := d } }) := by
  by_cases hg : g = Unknown ∨ g > MaxNodeGenerationType
  · have he : insert x event false g s = (false, some (Error.invalidGenerationType g), s) := by
      unfold insert; rw [if_pos hg]
    rw [he]
    exact ⟨rfl, rfl, rfl, rfl, fun _ => ⟨s.Stats.droppedCount, rfl⟩⟩
  · cases hv : (isEventValid event false s).1 with
    | false =>
      obtain ⟨e, d, he⟩ := insert_invalid x event false g s hg hv
      rw [he]
      exact ⟨rfl, rfl, rfl, rfl, fun _ => ⟨d, rfl⟩⟩
    | true =>
      have hl := CreateProcessNode_leaves x event.ProcessCacheEntry [] g false s
      rw [insert_valid x event false g s hg hv] at h ⊢
      by_cases he : (CreateProcessNode x event.ProcessCacheEntry [] g false s).err.isSome = true
      · rw [if_pos he]
        have hne : (CreateProcessNode x event.ProcessCacheEntry [] g false s).err ≠ none := by
          intro hc; rw [hc] at he; cases he
        obtain ⟨_, _, ht⟩ := CreateProcessNode_error x _ _ _ _ _ hne
        rw [ht]
        exact ⟨rfl, rfl, rfl, rfl, fun _ => ⟨s.Stats.droppedCount, rfl⟩⟩
      · rw [if_neg he] at h ⊢
        simp only [Bool.and_false, Bool.false_eq_true, if_false] at h ⊢
        cases hn : (CreateProcessNode x event.ProcessCacheEntry [] g false s).node with
        | none =>
          have ht := (CreateProcessNode_mutating_none x _ _ _ _ hn).2
          rw [ht]
          exact ⟨rfl, rfl, rfl, rfl, fun _ => ⟨s.Stats.droppedCount, rfl⟩⟩
        | some n =>
          rw [hn] at h
          simp only at h ⊢
          by_cases hee : event.Error.isSome = true
          · rw [if_pos hee]
            refine ⟨rfl, hl.1, hl.2.1, hl.2.2, ?_⟩
            rintro (h1 | h1)
            · rw [h1] at hee; cases hee
            · exact absurd rfl h1
          · rw [if_neg hee] at h
            exact absurd (insertEvent_err _ _ _ _ _ _ _) h

/-! ## The errors and the flag of Insert -/

/-- C15 (as stated, for every error): the exec event of `app` whose fields do not resolve is
inserted in the empty tree; `Insert` returns the error of the event, and the forest, which had no
node, has one. -/
theorem Insert_error_adds_node :
    (Insert pathCollaborators (brokenExecEvent appEntry) Runtime emptyTree).2.1
        = some (Error.eventError "unresolved")
    ∧ countNodes emptyTree.ProcessNodes = 0
    ∧ countNodes (Insert pathCollaborators (brokenExecEvent appEntry) Runtime
        emptyTree).2.2.ProcessNodes = 1 := by
  decide

/-- C15: when `Insert` returns an error, it returns false and the event is applied to no node:
the payload of every node (files, names, sockets, system calls, matched rules, exit time), the
names and the mask of the system calls of the tree are as before the call; and unless the error
is the one of the fields of the event, no process node is added: the forest, the cookie cache and
the allocator of the nodes are as before the call. -/
theorem Insert_error_atomic (x : Collaborators) (event : Event)
    (generationType : NodeGenerationType) (s : ActivityTree)
    (h : (Insert x event generationType s).2.1 ≠ none) :
    (Insert x event generationType s).1 = false
    ∧ (Insert x event generationType s).2.2.payload = s.payload
    ∧ (Insert x event generationType s).2.2.DNSNames = s.DNSNames
    ∧ (Insert x event generationType s).2.2.SyscallsMask = s.SyscallsMask
    ∧ ((event.Error = none ∨ (Insert x event generationType s).2.1 ≠ event.Error) →
        (Insert x event generationType s).2.2.ProcessNodes = s.ProcessNodes
        ∧ (Insert x event generationType s).2.2.CookieToProcessNode = s.CookieToProcessNode
        ∧ (Insert x event generationType s).2.2.nextPtr = s.nextPtr
        ∧ (Insert x event generationType s).2.2.Stats.ProcessNodes = s.Stats.ProcessNodes) := by
  obtain ⟨h1, h2, _⟩ := Insert_stats x event generationType s
  rw [h2] at h
  obtain ⟨i1, i2, i3, i4, i5⟩ := insert_error x event generationType s h
  have ht : (Insert x event generationType s).2.2
      = (insert x event false generationType s).2.2 := by
    unfold Insert
    simp only [i1, Bool.false_eq_true, if_false]
  rw [h1, h2, ht]
  refine ⟨i1, i2, i3, i4, fun hc => ?_⟩
  obtain ⟨d, hs⟩ := i5 hc
  rw [hs]
  exact ⟨rfl, rfl, rfl, rfl⟩

/-- The exec event of the shim is refused in `treeWithApp`, whose forest is left as it was. -/
theorem Insert_error_atomic_witness :
    (Insert pathCollaborators (execEvent shimEntry) Runtime treeWithApp).2.1
        = some Error.ErrNotValidRootNode
    ∧ (Insert pathCollaborators (execEvent shimEntry) Runtime treeWithApp).2.2.ProcessNodes
        = treeWithApp.ProcessNodes :=
  ⟨by decide,
    ((Insert_error_atomic pathCollaborators (execEvent shimEntry) Runtime treeWithApp
      (by decide)).2.2.2.2 (Or.inl rfl)).1⟩

/-- C16 (as stated, for every accepted event type): the owner accepts exit events; the exit event
of `app` is inserted in the empty tree without error and a node is created for `app`, and the
flag that `Insert` returns is false. -/
theorem Insert_exit_creates_node :
    emptyTree.validator.IsEventTypeValid EventType.ExitEventType = true
    ∧ (Insert pathCollaborators (exitEvent appEntry) Runtime emptyTree).2.1 = none
    ∧ countNodes emptyTree.ProcessNodes = 0
    ∧ countNodes (Insert pathCollaborators (exitEvent appEntry) Runtime
        emptyTree).2.2.ProcessNodes = 1
    ∧ (Insert pathCollaborators (exitEvent appEntry) Runtime emptyTree).1 = false := by
  decide

/-- C16: for every mutating `Insert` of an exec event that returns no error, the flag is the one
that `CreateProcessNode` returns for the process of the event; and if a process node was created
during the call, so that the forest or the allocator of the nodes is not as before, then the
flag is true. -/
theorem Insert_exec_flag (x : Collaborators) (event : Event)
    (generationType : NodeGenerationType) (s : ActivityTree)
    (ht : event.EventType = EventType.ExecEventType)
    (he : (Insert x event generationType s).2.1 = none) :
    (Insert x event generationType s).1
        = (CreateProcessNode x event.ProcessCacheEntry [] generationType false s).newProcessNode
    ∧ (((Insert x event generationType s).2.2.ProcessNodes ≠ s.ProcessNodes
          ∨ (Insert x event generationType s).2.2.nextPtr ≠ s.nextPtr) →
        (Insert x event generationType s).1 = true) := by
  obtain ⟨h1, h2, st, h3⟩ := Insert_stats x event generationType s
  rw [h2] at he
  have hg : ¬(generationType = Unknown ∨ generationType > MaxNodeGenerationType) := by
    intro hg
    unfold insert at he
    rw [if_pos hg] at he
    cases he
  have hv : (isEventValid event false s).1 = true := by
    cases hv : (isEventValid event false s).1 with
    | true => rfl
    | false =>
      obtain ⟨e, d, hi⟩ := insert_invalid x event false generationType s hg hv
      rw [hi] at he
      cases he
  have hi := insert_valid x event false generationType s hg hv
  have hce : (CreateProcessNode x event.ProcessCacheEntry [] generationType false s).err.isSome
      = false := by
    cases hce : (CreateProcessNode x event.ProcessCacheEntry [] generationType false s).err with
    | none => rfl
    | some e =>
      rw [hce] at hi
      simp only [Option.isSome_some, if_true] at hi
      rw [hi] at he
      cases he
  rw [hce] at hi
  simp only [Bool.false_eq_true, if_false, Bool.and_false] at hi
  cases hn : (CreateProcessNode x event.ProcessCacheEntry [] generationType false s).node with
  | none =>
    rw [hn] at hi
    rw [hi] at he
    cases he
  | some n =>
    rw [hn] at hi
    simp only at hi
    have hee : event.Error.isSome = false := by
      cases hee : event.Error with
      | none => rfl
      | some e =>
        rw [hee] at hi
        simp only [Option.isSome_some, if_true] at hi
        rw [hi] at he
        cases he
    rw [hee] at hi
    simp only [Bool.false_eq_true, if_false] at hi
    have hflag : (insert x event false generationType s).1
        = (CreateProcessNode x event.ProcessCacheEntry [] generationType false s).newProcessNode := by
      rw [hi]
      exact insertEvent_exec _ _ _ _ _ _ _ ht
    have hcore := insertEvent_core x event false generationType n
      (CreateProcessNode x event.ProcessCacheEntry [] generationType false s).newProcessNode
      { (CreateProcessNode x event.ProcessCacheEntry [] generationType false s).tree with
        Stats := (CreateProcessNode x event.ProcessCacheEntry [] generationType false
          s).tree.Stats.incProcessed event.EventType }
    rw [← hi] at hcore
    refine ⟨h1.trans hflag, fun hch => ?_⟩
    rw [h1, hflag]
    cases hw : (CreateProcessNode x event.ProcessCacheEntry [] generationType false
        s).newProcessNode with
    | true => rfl
    | false =>
      exfalso
      obtain ⟨c, hc⟩ := CreateProcessNode_not_new x event.ProcessCacheEntry [] generationType s hw
      rw [h3] at hch
      rw [hc] at hcore
      rcases hch with hch | hch
      · exact hch hcore.1
      · exact hch hcore.2.2.1

/-- The exec event of `app` is inserted in the empty tree: a node is created and the flag is
true. -/
theorem Insert_exec_flag_witness :
    (Insert pathCollaborators (execEvent appEntry) Runtime emptyTree).2.2.nextPtr
        ≠ emptyTree.nextPtr
    ∧ (Insert pathCollaborators (execEvent appEntry) Runtime emptyTree).1 = true :=
  ⟨by decide,
    (Insert_exec_flag pathCollaborators (execEvent appEntry) Runtime emptyTree rfl
      (by decide)).2 (Or.inr (by decide))⟩

/-! ## Contains and Insert -/

theorem isEventValid_flag (event : Event) (s : ActivityTree) :
    (isEventValid event true s).1 = (isEventValid event false s).1 := by
  rcases isEventValid_cases event true s with ⟨h1, he⟩ | ⟨h1, h2, he⟩ | ⟨h1, h2, he⟩
  · rcases isEventValid_cases event false s with ⟨_, hf⟩ | ⟨k1, _, _⟩ | ⟨k1, _, _⟩
    · rw [he, hf]
    · rw [h1] at k1; cases k1
    · rw [h1] at k1; cases k1
  · rcases isEventValid_cases event false s with ⟨k1, _⟩ | ⟨_, _, hf⟩ | ⟨_, k2, _⟩
    · rw [h1] at k1; cases k1
    · rw [he, hf]
    · exact absurd h2 k2
  · rcases isEventValid_cases event false s with ⟨k1, _⟩ | ⟨_, k2, _⟩ | ⟨_, _, hf⟩
    · rw [h1] at k1; cases k1
    · exact absurd k2 h2
    · rw [he, hf]

/-- A call of `insert` that returns no error went through the two checks, found no error in
`CreateProcessNode`, and left on the dry-run exit or dispatched the event on a node. -/
theorem insert_ok (x : Collaborators) (event : Event) (dryRun : Bool) (g : NodeGenerationType)
    (s : ActivityTree) (he : (insert x event dryRun g s).2.1 = none) :
    ¬(g = Unknown ∨ g > MaxNodeGenerationType)
    ∧ (isEventValid event dryRun s).1 = true
    ∧ (CreateProcessNode x event.ProcessCacheEntry [] g dryRun s).err = none
    ∧ (((CreateProcessNode x event.ProcessCacheEntry [] g dryRun s).newProcessNode = true
        ∧ dryRun = true
        ∧ insert x event dryRun g s
          = (true, none, (CreateProcessNode x event.ProcessCacheEntry [] g dryRun s).tree))
      ∨ (((CreateProcessNode x event.ProcessCacheEntry [] g dryRun s).newProcessNode && dryRun)
          = false
        ∧ ∃ n, (CreateProcessNode x event.ProcessCacheEntry [] g dryRun s).node = some n
          ∧ event.Error = none
          ∧ insert x event dryRun g s
            = insertEvent x event dryRun g n
                (CreateProcessNode x event.ProcessCacheEntry [] g dryRun s).newProcessNode
                { (CreateProcessNode x event.ProcessCacheEntry [] g dryRun s).tree with
                  Stats := (CreateProcessNode x event.ProcessCacheEntry [] g dryRun
                    s).tree.Stats.incProcessed event.EventType })) := by
  have hg : ¬(g = Unknown ∨ g > MaxNodeGenerationType) := by
    intro hg
    unfold insert at he
    rw [if_pos hg] at he
    cases he
  have hv : (isEventValid event dryRun s).1 = true := by
    cases hv : (isEventValid event dryRun s).1 with
    | true => rfl
    | false =>
      obtain ⟨e, d, hi⟩ := insert_invalid x event dryRun g s hg hv
      rw [hi] at he
      cases he
  have hi := insert_valid x event dryRun g s hg hv
  have hce : (CreateProcessNode x event.ProcessCacheEntry [] g dryRun s).err = none := by
    cases hce : (CreateProcessNode x event.ProcessCacheEntry [] g dryRun s).err with
    | none => rfl
    | some e =>
      rw [hce] at hi
      simp only [Option.isSome_some, if_true] at hi
      rw [hi] at he
      cases he
  refine ⟨hg, hv, hce, ?_⟩
  rw [hce] at hi
  simp only [Option.isSome_none, Bool.false_eq_true, if_false] at hi
  cases hwd : ((CreateProcessNode x event.ProcessCacheEntry [] g dryRun s).newProcessNode
      && dryRun) with
  | true =>
    rw [hwd] at hi
    simp only [if_true] at hi
    left
    simp only [Bool.and_eq_true] at hwd
    exact ⟨hwd.1, hwd.2, hi⟩
  | false =>
    rw [hwd] at hi
    simp only [Bool.false_eq_true, if_false] at hi
    right
    refine ⟨rfl, ?_⟩
    cases hn : (CreateProcessNode x event.ProcessCacheEntry [] g dryRun s).node with
    | none =>
      rw [hn] at hi
      rw [hi] at he
      cases he
    | some n =>
      rw [hn] at hi
      simp only at hi
      have hee : event.Error = none := by
        cases hee : event.Error with
        | none => rfl
        | some e =>
          rw [hee] at hi
          simp only [Option.isSome_some, if_true] at hi
          rw [hi] at he
          cases he
      rw [hee] at hi
      simp only [Option.isSome_none, Bool.false_eq_true, if_false] at hi
      exact ⟨n, rfl, hee, hi⟩

/-- C17 (as stated): `app` is a root of `treeWithApp`; `Insert` of its exec event would return
`(false, nil)`, and `Contains` on the same tree returns `(true, nil)`: true when the process is
already represented. -/
theorem Contains_returns_negation :
    (Insert pathCollaborators (execEvent appEntry) Runtime treeWithApp).1 = false
    ∧ (Insert pathCollaborators (execEvent appEntry) Runtime treeWithApp).2.1 = none
    ∧ (Contains pathCollaborators (execEvent appEntry) Runtime treeWithApp).1 = true
    ∧ (Contains pathCollaborators (execEvent appEntry) Runtime treeWithApp).2.1 = none := by
  decide

/-- C17: the boolean returned by `Contains` is the negation of the flag of `insert`. For every
tree and exec event: if `Insert` would return `(false, nil)`, the process is already represented
and `Contains` on the same tree returns `(true, nil)`; and if `Contains` returns `(false, nil)`
and the fields of the event resolve, then `Insert` on the same tree returns `(true, nil)`. -/
theorem Contains_flag (x : Collaborators) (event : Event)
    (generationType : NodeGenerationType) (s : ActivityTree)
    (ht : event.EventType = EventType.ExecEventType) :
    (Contains x event generationType s).1 = !(insert x event true generationType s).1
    ∧ (((Insert x event generationType s).1 = false
          ∧ (Insert x event generationType s).2.1 = none) →
        (Contains x event generationType s).1 = true
          ∧ (Contains x event generationType s).2.1 = none)
    ∧ (event.Error = none →
        ((Contains x event generationType s).1 = false
          ∧ (Contains x event generationType s).2.1 = none) →
        (Insert x event generationType s).1 = true
          ∧ (Insert x event generationType s).2.1 = none) := by
  have hC : (Contains x event generationType s).1 = !(insert x event true generationType s).1
      ∧ (Contains x event generationType s).2.1 = (insert x event true generationType s).2.1 :=
    ⟨rfl, rfl⟩
  obtain ⟨h1, h2, _⟩ := Insert_stats x event generationType s
  rw [hC.1, hC.2, h1, h2]
  refine ⟨rfl, ?_, ?_⟩
  · rintro ⟨hf, he⟩
    obtain ⟨hg, hv, hce, hcase⟩ := insert_ok x event false generationType s he
    rcases hcase with ⟨_, hd, _⟩ | ⟨_, n, hn, hee, hi⟩
    · cases hd
    · have hw : (CreateProcessNode x event.ProcessCacheEntry [] generationType false
          s).newProcessNode = false := by
        rw [hi, insertEvent_exec _ _ _ _ _ _ _ ht] at hf
        exact hf
      have hsame := (CreateProcessNode_modes x event.ProcessCacheEntry [] generationType s).1 hw
      have hvd : (isEventValid event true s).1 = true := by
        rw [isEventValid_flag]; exact hv
      have hid := insert_valid x event true generationType s hg hvd
      rw [hsame, hce, hw, hn, hee] at hid
      simp only [Option.isSome_none, Bool.false_eq_true, if_false, Bool.false_and] at hid
      rw [hid]
      exact ⟨by rw [insertEvent_exec _ _ _ _ _ _ _ ht]; rfl, insertEvent_err _ _ _ _ _ _ _⟩
  · rintro hee ⟨hf, he⟩
    obtain ⟨hg, hv, hce, hcase⟩ := insert_ok x event true generationType s he
    have hw : (CreateProcessNode x event.ProcessCacheEntry [] generationType true
        s).newProcessNode = true := by
      rcases hcase with ⟨hw, _, _⟩ | ⟨hwd, n, hn, _, hi⟩
      · exact hw
      · rw [hi, insertEvent_exec _ _ _ _ _ _ _ ht] at hf
        simp only [Bool.not_eq_false'] at hf
        exact hf
    obtain ⟨mw, me, mn⟩ :=
      (CreateProcessNode_modes x event.ProcessCacheEntry [] generationType s).2 hw hce
    have hvm : (isEventValid event false s).1 = true := by
      rw [← isEventValid_flag]; exact hv
    have him := insert_valid x event false generationType s hg hvm
    cases hn : (CreateProcessNode x event.ProcessCacheEntry [] generationType false s).node with
    | none => exact absurd hn mn
    | some n =>
      rw [me, mw, hn, hee] at him
      simp only [Option.isSome_none, Bool.false_eq_true, if_false, Bool.and_false] at him
      rw [him]
      exact ⟨insertEvent_exec _ _ _ _ _ _ _ ht, insertEvent_err _ _ _ _ _ _ _⟩

/-- On `treeWithApp`, `Contains` on the exec event of `app` returns `(true, nil)`; on the empty
tree, where `Contains` returns `(false, nil)`, `Insert` returns `(true, nil)`. -/
theorem Contains_flag_witness :
    ((Contains pathCollaborators (execEvent appEntry) Runtime treeWithApp).1 = true
      ∧ (Contains pathCollaborators (execEvent appEntry) Runtime treeWithApp).2.1 = none)
    ∧ ((Insert pathCollaborators (execEvent appEntry) Runtime emptyTree).1 = true
      ∧ (Insert pathCollaborators (execEvent appEntry) Runtime emptyTree).2.1 = none) :=
  ⟨(Contains_flag pathCollaborators (execEvent appEntry) Runtime treeWithApp rfl).2.1
      (by decide),
    (Contains_flag pathCollaborators (execEvent appEntry) Runtime emptyTree rfl).2.2 rfl
      (by decide)⟩

/-! ## Attachment below an ancestor -/

mutual
theorem ProcessNode.ptr_mem_of_nodes (n : ProcessNode) :
    ∀ m : ProcessNode, n ∈ m.nodes → n.ptr ∈ m.ptrs
  | .mk p pr g e cs, h => by
    simp only [ProcessNode.nodes, List.mem_cons] at h
    simp only [ProcessNode.ptrs, List.mem_cons]
    rcases h with h | h
    · left; rw [h]; rfl
    · right; exact ptr_mem_forestPtrs n cs h
theorem ptr_mem_forestPtrs (n : ProcessNode) :
    ∀ l : List ProcessNode, n ∈ forestNodes l → n.ptr ∈ forestPtrs l
  | [], h => by simp [forestNodes] at h
  | m :: rest, h => by
    simp only [forestNodes, List.mem_append] at h
    simp only [forestPtrs, List.mem_append]
    rcases h with h | h
    · exact Or.inl (ProcessNode.ptr_mem_of_nodes n m h)
    · exact Or.inr (ptr_mem_forestPtrs n rest h)
end

mutual
theorem ProcessNode.find_of_mem (p : Nat) :
    ∀ m : ProcessNode, p ∈ m.ptrs → ∃ r, m.find p = some r
  | .mk q pr g e cs, h => by
    simp only [ProcessNode.ptrs, List.mem_cons] at h
    simp only [ProcessNode.find]
    by_cases hq : q = p
    · simp [hq]
    · rw [if_neg hq]
      rcases h with h | h
      · exact absurd h.symm hq
      · exact findNode_of_mem p cs h
theorem findNode_of_mem (p : Nat) :
    ∀ l : List ProcessNode, p ∈ forestPtrs l → ∃ r, findNode p l = some r
  | [], h => by simp [forestPtrs] at h
  | m :: rest, h => by
    simp only [forestPtrs, List.mem_append] at h
    simp only [findNode]
    cases hf : m.find p with
    | some r => exact ⟨r, rfl⟩
    | none =>
      rcases h with h | h
      · obtain ⟨r, hr⟩ := ProcessNode.find_of_mem p m h
        rw [hr] at hf; cases hf
      · exact findNode_of_mem p rest h
end

/-- After `*tree = f(*tree)` on the `Children` of a node of the forest, the pointer designates
a node whose `Children` are the new list. -/
theorem findNode_updateSiblings (p : Nat) (f : List ProcessNode → List ProcessNode)
    (s : ActivityTree) (pn : ProcessNode) (h : findNode p s.ProcessNodes = some pn) :
    ∃ pn', findNode p (updateSiblings (SiblingsRef.childrenOf p) f s).ProcessNodes = some pn'
      ∧ pn'.Children = f pn.Children := by
  obtain ⟨l', h1, h2⟩ := findNode_modifyChildrenIn p f _ _ h
  simp only [updateSiblings, h1]
  exact ⟨_, h2, rfl⟩

/-- With a parent node that is in the tree, the end of a mutating `CreateProcessNode` returns
no error and a node below the parent. -/
theorem attachProcessNode_descendant (x : Collaborators) (entry : ProcessCacheEntry)
    (branch : List ProcessCacheEntry) (g : NodeGenerationType) (parent : CreateResult)
    (p : Nat) (hp : parent.node = some p) (hin : p ∈ forestPtrs parent.tree.ProcessNodes) :
    (attachProcessNode x entry branch g false parent).err = none
    ∧ ∃ n, (attachProcessNode x entry branch g false parent).node = some n
      ∧ IsDescendantOf n p (attachProcessNode x entry branch g false parent).tree.ProcessNodes := by
  obtain ⟨pn, hpn⟩ := findNode_of_mem p _ hin
  have hsib : getSiblings (SiblingsRef.childrenOf p) parent.tree = pn.Children := by
    simp [getSiblings, hpn]
  unfold attachProcessNode
  simp only [Bool.and_false, Bool.false_eq_true, if_false, hp, Bool.not_false, if_true]
  rcases findBranchInChildrenNodes_cases x (SiblingsRef.childrenOf p) branch false g parent.tree
    with ⟨e, rest, n, k, _, hf, h⟩ | ⟨_, h | ⟨hd, _⟩ | ⟨_, j, k, c, n, hj, hf, h⟩⟩
  · rw [h]
    refine ⟨rfl, n.ptr, rfl, pn, hpn, ?_⟩
    rw [hsib] at hf
    exact ptr_mem_forestPtrs _ _ (find_mem _ _ _ _ _ _ hf)
  · rw [h]
    refine ⟨rfl, parent.tree.nextPtr, rfl, ?_⟩
    obtain ⟨pn', h1, h2⟩ := findNode_updateSiblings p
      (fun siblings => siblings ++ [NewProcessNode entry g parent.tree.nextPtr]) parent.tree pn hpn
    refine ⟨pn', h1, ?_⟩
    rw [h2, forestPtrs_append]
    simp [forestPtrs, NewProcessNode, ProcessNode.ptrs]
  · cases hd
  · rw [h]
    refine ⟨rfl, parent.tree.nextPtr, rfl, ?_⟩
    obtain ⟨pn', h1, h2⟩ := findNode_updateSiblings p
      (rebaseSiblings g (branch.take j) parent.tree.nextPtr k) parent.tree pn hpn
    refine ⟨pn', h1, ?_⟩
    rw [h2]
    rw [hsib] at hf
    have hk := find_index _ _ _ _ _ _ hf
    have hb : ∃ e rest, branch.take j = e :: rest := by
      cases branch with
      | nil => simp [findBranchInChildrenNodes, findBranchLoop] at h
      | cons e rest =>
        cases j with
        | zero => omega
        | succ j => exact ⟨e, rest.take j, rfl⟩
    obtain ⟨e, rest, hb⟩ := hb
    simp only [rebaseSiblings, List.getElem?_eq_getElem hk, hb, forestPtrs_append]
    simp [forestPtrs, rebaseChain, ProcessNode.ptrs]

/-- C11: attachment below an ancestor is unconditional. For every mutating call of
`CreateProcessNode` on an entry with a complete lineage that is not in the cookie cache, if the
resolution of its next ancestor returns a node of the tree, then the call returns no error and a
node that is below that ancestor node in the forest. No hypothesis is made on `MatchesSelector`,
whose answer for the entry is not read. -/
theorem CreateProcessNode_attaches (x : Collaborators) (entry : ProcessCacheEntry)
    (branch : List ProcessCacheEntry) (generationType : NodeGenerationType) (s : ActivityTree)
    (p : Nat)
    (hl : entry.info.HasCompleteLineage = true)
    (hc : (if eventHaveValidCookie entry then
        s.CookieToProcessNode (entryCookieSelector entry) else none) = none)
    (hp : (CreateProcessNode x (GetNextAncestorBinaryOrArgv0 (some entry)) (entry :: branch)
        Snapshot false s).node = some p)
    (hin : p ∈ forestPtrs (CreateProcessNode x (GetNextAncestorBinaryOrArgv0 (some entry))
        (entry :: branch) Snapshot false s).tree.ProcessNodes) :
    (CreateProcessNode x (some entry) branch generationType false s).err = none
    ∧ ∃ n, (CreateProcessNode x (some entry) branch generationType false s).node = some n
      ∧ IsDescendantOf n p
          (CreateProcessNode x (some entry) branch generationType false s).tree.ProcessNodes := by
  rw [CreateProcessNode_some]
  simp only [hl, hc, Bool.not_true, Bool.false_eq_true, if_false]
  obtain ⟨d1, _, d3, _⟩ := deferCookie_fields (entryCookieSelector entry)
    (attachProcessNode x entry (entry :: branch) generationType false
      (CreateProcessNode x (GetNextAncestorBinaryOrArgv0 (some entry)) (entry :: branch)
        Snapshot false s))
  obtain ⟨c, hcf⟩ := deferCookie_tree (entryCookieSelector entry)
    (attachProcessNode x entry (entry :: branch) generationType false
      (CreateProcessNode x (GetNextAncestorBinaryOrArgv0 (some entry)) (entry :: branch)
        Snapshot false s))
  obtain ⟨a1, n, a2, a3⟩ := attachProcessNode_descendant x entry (entry :: branch)
    generationType _ p hp hin
  rw [d1, d3, hcf]
  exact ⟨a1, n, a2, a3⟩

/-- On `treeWithShell`, whose owner takes the shell only, `make` under the shell is attached
below the node of the shell. -/
theorem CreateProcessNode_attaches_witness :
    treeWithShell.validator.MatchesSelector makeUnderShEntry = false
    ∧ (CreateProcessNode pathCollaborators (some makeUnderShEntry) [] Runtime false
        treeWithShell).err = none
    ∧ ∃ n, (CreateProcessNode pathCollaborators (some makeUnderShEntry) [] Runtime false
          treeWithShell).node = some n
        ∧ IsDescendantOf n 0 (CreateProcessNode pathCollaborators (some makeUnderShEntry) []
            Runtime false treeWithShell).tree.ProcessNodes :=
  ⟨by decide,
    CreateProcessNode_attaches pathCollaborators makeUnderShEntry [] Runtime treeWithShell 0
      (by decide) (by decide) (by decide) (by decide)⟩

/-! ## The counters of the validity gate -/

/-- The call `droppedCount[t][r].Inc()` moves that counter by one and no other counter. -/
theorem incDropped_counters (st : ActivityTreeStats) (t : EventType) (r : NodeDroppedReason) :
    (st.incDropped t r).droppedCount t r = st.droppedCount t r + 1
    ∧ (∀ t' r', ¬(t' = t ∧ r' = r) →
        (st.incDropped t r).droppedCount t' r' = st.droppedCount t' r')
    ∧ (st.incDropped t r).processedCount = st.processedCount
    ∧ (st.incDropped t r).addedCount = st.addedCount
    ∧ (st.incDropped t r).ProcessNodes = st.ProcessNodes
    ∧ (st.incDropped t r).FileNodes = st.FileNodes
    ∧ (st.incDropped t r).DNSNodes = st.DNSNodes
    ∧ (st.incDropped t r).SocketNodes = st.SocketNodes := by
  refine ⟨by simp [ActivityTreeStats.incDropped], ?_, rfl, rfl, rfl, rfl, rfl, rfl⟩
  intro t' r' h
  simp only [ActivityTreeStats.incDropped]
  rw [if_neg h]

/-- C21: when `isEventValid` rejects an event in mutating mode, one dropped counter moves, by one:
the counter of the type of the event with the reason `event_type` when the owner rejects the
type, the counter of bind events with the reason `bind_family` otherwise; every other dropped
counter, every other counter and the rest of the tree are as before. In dry-run mode the tree,
with every counter, is as before, whatever the answer. -/
theorem isEventValid_counters (event : Event) (s : ActivityTree)
    (h : (isEventValid event false s).1 = false) :
    (isEventValid event false s).2.2.Stats.droppedCount
        (if s.validator.IsEventTypeValid event.EventType = false then event.EventType
          else EventType.BindEventType)
        (if s.validator.IsEventTypeValid event.EventType = false then
          NodeDroppedReason.eventTypeReason else NodeDroppedReason.bindFamilyReason)
      = s.Stats.droppedCount
          (if s.validator.IsEventTypeValid event.EventType = false then event.EventType
            else EventType.BindEventType)
          (if s.validator.IsEventTypeValid event.EventType = false then
            NodeDroppedReason.eventTypeReason else NodeDroppedReason.bindFamilyReason) + 1
    ∧ (∀ t r, ¬(t = (if s.validator.IsEventTypeValid event.EventType = false then event.EventType
            else EventType.BindEventType)
          ∧ r = (if s.validator.IsEventTypeValid event.EventType = false then
            NodeDroppedReason.eventTypeReason else NodeDroppedReason.bindFamilyReason)) →
        (isEventValid event false s).2.2.Stats.droppedCount t r = s.Stats.droppedCount t r)
    ∧ (isEventValid event false s).2.2.Stats.processedCount = s.Stats.processedCount
    ∧ (isEventValid event false s).2.2.Stats.addedCount = s.Stats.addedCount
    ∧ (isEventValid event false s).2.2.Stats.ProcessNodes = s.Stats.ProcessNodes
    ∧ (isEventValid event false s).2.2.Stats.FileNodes = s.Stats.FileNodes
    ∧ (isEventValid event false s).2.2.Stats.DNSNodes = s.Stats.DNSNodes
    ∧ (isEventValid event false s).2.2.Stats.SocketNodes = s.Stats.SocketNodes
    ∧ (∃ st, (isEventValid event false s).2.2 = { s with Stats := st })
    ∧ (isEventValid event true s).2.2 = s := by
  rcases isEventValid_cases event false s with ⟨h1, he⟩ | ⟨h1, _, he⟩ | ⟨_, _, he⟩
  · have hs : (isEventValid event false s).2.2
        = { s with Stats := s.Stats.incDropped event.EventType .eventTypeReason } := by
      rw [he]; rfl
    obtain ⟨c1, c2, c3, c4, c5, c6, c7, c8⟩ :=
      incDropped_counters s.Stats event.EventType NodeDroppedReason.eventTypeReason
    rw [hs]
    simp only [h1, if_true]
    exact ⟨c1, c2, c3, c4, c5, c6, c7, c8, ⟨_, rfl⟩, isEventValid_dryRun event s⟩
  · have hs : (isEventValid event false s).2.2
        = { s with Stats := s.Stats.incDropped .BindEventType .bindFamilyReason } := by
      rw [he]; rfl
    obtain ⟨c1, c2, c3, c4, c5, c6, c7, c8⟩ :=
      incDropped_counters s.Stats EventType.BindEventType NodeDroppedReason.bindFamilyReason
    rw [hs]
    simp only [h1, Bool.true_eq_false, if_false]
    exact ⟨c1, c2, c3, c4, c5, c6, c7, c8, ⟨_, rfl⟩, isEventValid_dryRun event s⟩
  · rw [he] at h
    cases h

/-- The owner `containerOwner` accepts bind events; a bind event on a socket of the family
`AF_UNIX` moves the counter of bind events with the reason `bind_family` from 0 to 1. -/
theorem isEventValid_counters_witness :
    treeWithApp.Stats.droppedCount EventType.BindEventType NodeDroppedReason.bindFamilyReason = 0
    ∧ (isEventValid (bindEvent appEntry AF_UNIX) false treeWithApp).2.2.Stats.droppedCount
        EventType.BindEventType NodeDroppedReason.bindFamilyReason
      = treeWithApp.Stats.droppedCount EventType.BindEventType
          NodeDroppedReason.bindFamilyReason + 1 :=
  ⟨by decide,
    (isEventValid_counters (bindEvent appEntry AF_UNIX) treeWithApp (by decide)).1⟩

/-! ## The cookie cache -/

/-- C22: the cookie fast path. For an entry with a complete lineage, an exec time that is not
zero and a cookie that is not zero, whose selector is a key of the cookie cache,
`CreateProcessNode` returns the cached node, false and no error, in both modes, and the tree it
was given: the forest, the cookie cache and the statistics are as before. No hypothesis is made
on the owner, whose selector is not read. -/
theorem CreateProcessNode_cookie_hit (x : Collaborators) (entry : ProcessCacheEntry)
    (branch : List ProcessCacheEntry) (generationType : NodeGenerationType) (dryRun : Bool)
    (s : ActivityTree) (node : NodePtr)
    (hl : entry.info.HasCompleteLineage = true)
    (ht : entry.info.Process.ExecTimeIsZero = false)
    (hk : entry.info.Process.Cookie ≠ 0)
    (hc : s.CookieToProcessNode
      ⟨entry.info.Process.ExecTimeUnixNano, entry.info.Process.Cookie⟩ = some node) :
    CreateProcessNode x (some entry) branch generationType dryRun s = ⟨node, false, none, s⟩ := by
  have hv : eventHaveValidCookie entry = true := by
    simp [eventHaveValidCookie, ht, hk]
  rw [CreateProcessNode_some]
  simp only [hl, hv, entryCookieSelector, if_true, hc, Bool.not_true, Bool.false_eq_true, if_false]

/-- The entry `cookieEntry` is in the cache of `treeWithCookie`, under the node 0. -/
theorem CreateProcessNode_cookie_hit_witness :
    CreateProcessNode pathCollaborators (some cookieEntry) [] Runtime true treeWithCookie
      = ⟨some 0, false, none, treeWithCookie⟩ :=
  CreateProcessNode_cookie_hit pathCollaborators cookieEntry [] Runtime true treeWithCookie
    (some 0) (by decide) (by decide) (by decide) (by decide)

/-- C23: whenever `CreateProcessNode` returns a node that is not nil for an entry that carries a
valid selector (an exec time that is not zero, as a time and as the timestamp of the selector,
and a cookie that is not zero), the cookie cache maps the selector of the entry to the node
returned after the call, in both modes. -/
theorem CreateProcessNode_populates_cache (x : Collaborators) (entry : ProcessCacheEntry)
    (branch : List ProcessCacheEntry) (generationType : NodeGenerationType) (dryRun : Bool)
    (s : ActivityTree) (n : Nat)
    (ht : entry.info.Process.ExecTimeIsZero = false)
    (hu : entry.info.Process.ExecTimeUnixNano ≠ 0)
    (hk : entry.info.Process.Cookie ≠ 0)
    (hn : (CreateProcessNode x (some entry) branch generationType dryRun s).node = some n) :
    (CreateProcessNode x (some entry) branch generationType dryRun s).tree.CookieToProcessNode
      ⟨entry.info.Process.ExecTimeUnixNano, entry.info.Process.Cookie⟩ = some (some n) := by
  have hv : eventHaveValidCookie entry = true := by
    simp [eventHaveValidCookie, ht, hk]
  have hcs : entryCookieSelector entry
      = ⟨entry.info.Process.ExecTimeUnixNano, entry.info.Process.Cookie⟩ := by
    simp [entryCookieSelector, hv]
  have hset : (entryCookieSelector entry).isSet = true := by
    rw [hcs]
    simp [cookieSelector.isSet, hu, hk]
  rw [CreateProcessNode_some] at hn ⊢
  cases hl : entry.info.HasCompleteLineage with
  | false => simp [hl] at hn
  | true =>
    simp only [hl, hv, if_true, Bool.not_true, Bool.false_eq_true, if_false] at hn ⊢
    cases hc : s.CookieToProcessNode (entryCookieSelector entry) with
    | some node =>
      rw [hc] at hn
      simp only at hn ⊢
      rw [← hcs, hc, hn]
    | none =>
      rw [hc] at hn
      simp only at hn ⊢
      rw [(deferCookie_fields _ _).1] at hn
      simp only [deferCookie, hn, hset, if_true, setCookie]
      rw [← hcs]
      simp

/-- The exec event of `cookieEntry` in the empty tree: the node 0 is returned and cached. -/
theorem CreateProcessNode_populates_cache_witness :
    (CreateProcessNode pathCollaborators (some cookieEntry) [] Runtime false emptyTree).node
        = some 0
    ∧ (CreateProcessNode pathCollaborators (some cookieEntry) [] Runtime false
        emptyTree).tree.CookieToProcessNode ⟨1000, 7⟩ = some (some 0) :=
  ⟨by decide,
    CreateProcessNode_populates_cache pathCollaborators cookieEntry [] Runtime false emptyTree 0
      (by decide) (by decide) (by decide) (by decide)⟩

/-! ## The next ancestor -/

/-- Through ancestors that are not busybox processes and have the inode of `current`, the loop
goes to the first ancestor with another inode. -/
theorem nextAncestorLoop_skip (current : EntryInfo) (skipped : List EntryInfo) (a : EntryInfo)
    (rest : List EntryInfo)
    (hs : ∀ b ∈ skipped, b.Process.FileEvent.Inode = current.Process.FileEvent.Inode
      ∧ b.Process.FileEvent.Inode ≠ 0 ∧ b.Process.FileEvent.IsBusybox = false)
    (ha : a.Process.FileEvent.Inode ≠ current.Process.FileEvent.Inode)
    (ha0 : a.Process.FileEvent.Inode ≠ 0) :
    nextAncestorLoop current (skipped ++ a :: rest) = some ⟨a, rest⟩ := by
  induction skipped generalizing current with
  | nil =>
    simp only [List.nil_append, nextAncestorLoop, if_neg ha0]
    rw [if_pos (fun h => ha h.symm)]
  | cons b more ih =>
    obtain ⟨h1, h2, h3⟩ := hs b (List.mem_cons_self _ _)
    simp only [List.cons_append, nextAncestorLoop, if_neg h2]
    rw [if_neg (by rw [h1]; simp), h3]
    simp only [Bool.and_false, Bool.false_eq_true, if_false]
    apply ih
    · intro c hc
      obtain ⟨c1, c2, c3⟩ := hs c (List.mem_cons_of_mem _ hc)
      exact ⟨by rw [c1, h1], c2, c3⟩
    · rw [h1]; exact ha

/-- Through ancestors that are not busybox processes and have the inode of `current`, the loop
reaches the end of the lineage. -/
theorem nextAncestorLoop_same (current : EntryInfo) (l : List EntryInfo)
    (hs : ∀ b ∈ l, b.Process.FileEvent.Inode = current.Process.FileEvent.Inode
      ∧ b.Process.FileEvent.Inode ≠ 0 ∧ b.Process.FileEvent.IsBusybox = false) :
    nextAncestorLoop current l = none := by
  induction l generalizing current with
  | nil => rfl
  | cons b more ih =>
    obtain ⟨h1, h2, h3⟩ := hs b (List.mem_cons_self _ _)
    simp only [nextAncestorLoop, if_neg h2]
    rw [if_neg (by rw [h1]; simp), h3]
    simp only [Bool.and_false, Bool.false_eq_true, if_false]
    apply ih
    intro c hc
    obtain ⟨c1, c2, c3⟩ := hs c (List.mem_cons_of_mem _ hc)
    exact ⟨by rw [c1, h1], c2, c3⟩

/-- C25: for an entry whose ancestors all have an inode that is not 0 and whose lineage holds no
busybox process, `GetNextAncestorBinaryOrArgv0` returns the nearest ancestor whose inode is not
the one of the entry (the ancestors before it all have the inode of the entry), with its own
ancestors; it returns nil when every ancestor has the inode of the entry, and on the nil entry;
and the result is never the entry itself. -/
theorem GetNextAncestorBinaryOrArgv0_nearest (entry : ProcessCacheEntry)
    (hz : ∀ a ∈ entry.Ancestors, a.Process.FileEvent.Inode ≠ 0)
    (hb : ∀ a ∈ entry.Ancestors, a.Process.FileEvent.IsBusybox = false) :
    (∀ skipped a rest, entry.Ancestors = skipped ++ a :: rest →
      (∀ b ∈ skipped, b.Process.FileEvent.Inode = entry.info.Process.FileEvent.Inode) →
      a.Process.FileEvent.Inode ≠ entry.info.Process.FileEvent.Inode →
      GetNextAncestorBinaryOrArgv0 (some entry) = some ⟨a, rest⟩)
    ∧ ((∀ b ∈ entry.Ancestors,
        b.Process.FileEvent.Inode = entry.info.Process.FileEvent.Inode) →
      GetNextAncestorBinaryOrArgv0 (some entry) = none)
    ∧ GetNextAncestorBinaryOrArgv0 none = none
    ∧ GetNextAncestorBinaryOrArgv0 (some entry) ≠ some entry := by
  refine ⟨?_, ?_, rfl, ?_⟩
  · intro skipped a rest hl hs ha
    simp only [GetNextAncestorBinaryOrArgv0]
    rw [hl]
    apply nextAncestorLoop_skip _ _ _ _ _ ha
    · exact hz a (by rw [hl]; simp)
    · intro b hbs
      have hm : b ∈ entry.Ancestors := by rw [hl]; simp [hbs]
      exact ⟨hs b hbs, hz b hm, hb b hm⟩
  · intro hs
    simp only [GetNextAncestorBinaryOrArgv0]
    exact nextAncestorLoop_same _ _ (fun b hm => ⟨hs b hm, hz b hm, hb b hm⟩)
  · intro h
    simp only [GetNextAncestorBinaryOrArgv0] at h
    have := nextAncestorLoop_length _ _ _ h
    omega

/-- The next ancestor of `app`, forked from `app`, forked from `systemd`, is `systemd`. -/
theorem GetNextAncestorBinaryOrArgv0_nearest_witness :
    GetNextAncestorBinaryOrArgv0 (some forkedAppEntry) = some ⟨systemdInfo, []⟩ :=
  (GetNextAncestorBinaryOrArgv0_nearest forkedAppEntry (by decide) (by decide)).1
    [appInfo] systemdInfo [] rfl (by decide) (by decide)

/-- From the pair that the loop holds after the ancestors `skipped`, the loop goes on as a loop
started on that pair. -/
theorem nextAncestorLoop_reaches (current : EntryInfo) (skipped : List EntryInfo)
    (last : EntryInfo) (tail : List EntryInfo) (h : loopReaches current skipped last) :
    nextAncestorLoop current (skipped ++ tail) = nextAncestorLoop last tail := by
  induction skipped generalizing current with
  | nil =>
    simp only [loopReaches] at h
    rw [h]; rfl
  | cons a more ih =>
    obtain ⟨hc, hr⟩ := h
    simp only [loopContinues, Bool.and_eq_true, bne_iff_ne, ne_eq, beq_iff_eq,
      Bool.not_eq_true', Bool.and_eq_false_iff, Bool.or_eq_false_iff,
      Bool.not_eq_true, bne_eq_false_iff_eq, beq_eq_false_iff_ne] at hc
    obtain ⟨⟨h0, hi⟩, hbb⟩ := hc
    simp only [List.cons_append, nextAncestorLoop, if_neg h0]
    rw [if_neg (by simp [hi])]
    by_cases hb : (current.Process.FileEvent.IsBusybox && a.Process.FileEvent.IsBusybox) = true
    · rw [if_pos hb]
      simp only [Bool.and_eq_true] at hb
      rcases hbb with (hbb | hbb) | ⟨⟨h1, h2⟩, h3⟩
      · rw [hb.1] at hbb; cases hbb
      · rw [hb.2] at hbb; cases hbb
      · rw [if_neg h1, if_neg h2, if_neg (by simp [h3])]
        exact ih _ hr
    · rw [if_neg hb]
      exact ih _ hr

/-- C26: when the loop of `GetNextAncestorBinaryOrArgv0` reaches a pair `(current, ancestor)` of
busybox processes with the same inode and the argv0 of one of the two resolves to the empty
string, the function returns nil, not that ancestor or an older one; and it returns nil as soon
as the loop reaches an ancestor whose inode is 0. -/
theorem GetNextAncestorBinaryOrArgv0_unresolved (entry : ProcessCacheEntry)
    (skipped : List EntryInfo) (current ancestor : EntryInfo) (rest : List EntryInfo)
    (hl : entry.Ancestors = skipped ++ ancestor :: rest)
    (hr : loopReaches entry.info skipped current)
    (hbad : ancestor.Process.FileEvent.Inode = 0
      ∨ (current.Process.FileEvent.Inode = ancestor.Process.FileEvent.Inode
        ∧ current.Process.FileEvent.IsBusybox = true
        ∧ ancestor.Process.FileEvent.IsBusybox = true
        ∧ (current.Process.Argv0 = "" ∨ ancestor.Process.Argv0 = ""))) :
    GetNextAncestorBinaryOrArgv0 (some entry) = none := by
  simp only [GetNextAncestorBinaryOrArgv0]
  rw [hl, nextAncestorLoop_reaches _ _ _ _ hr]
  simp only [nextAncestorLoop]
  rcases hbad with h0 | ⟨hi, hb1, hb2, ha⟩
  · rw [if_pos h0]
  · by_cases h0 : ancestor.Process.FileEvent.Inode = 0
    · rw [if_pos h0]
    · rw [if_neg h0, if_neg (by simp [hi]), hb1, hb2]
      simp only [Bool.and_self, if_true]
      rcases ha with ha | ha
      · rw [if_pos (by rw [ha]; rfl)]
      · by_cases hc : current.Process.Argv0.length = 0
        · rw [if_pos hc]
        · rw [if_neg hc, if_pos (by rw [ha]; rfl)]

/-- The parent of `busybox ls` is a busybox process whose argv0 does not resolve: the next
ancestor is nil, not that parent (whose argv0 is not `ls`) and not `systemd`. -/
theorem GetNextAncestorBinaryOrArgv0_unresolved_witness :
    GetNextAncestorBinaryOrArgv0 (some busyboxEntry) = none :=
  GetNextAncestorBinaryOrArgv0_unresolved busyboxEntry [] (busyboxInfo "ls") (busyboxInfo "")
    [systemdInfo] rfl rfl (Or.inr ⟨rfl, rfl, rfl, Or.inr rfl⟩)

/-! ## The dry run of a rebase -/

/-- C27: in dry-run mode, when the branch search first finds a match at a branch index `i > 0`
(no entry before `i` is found in the list, the entries 1 to `i` are exec children), it returns
nil and true, and the tree it was given: the list of siblings, every `Children` list, the
statistics and the trace of the callbacks are as before. -/
theorem findBranchInChildrenNodes_dryRun_rebase (x : Collaborators) (tree : SiblingsRef)
    (branch : List ProcessCacheEntry) (generationType : NodeGenerationType) (s : ActivityTree)
    (i k : Nat) (c : ProcessCacheEntry) (found : ProcessNode) (hi : 0 < i)
    (hc : branch[i]? = some c)
    (hfound : findProcessCacheEntryInChildrenNodes x s.differentiateArgs (getSiblings tree s) c
      = some (found, k))
    (hnone : ∀ j, j < i → ∀ c, branch[j]? = some c →
      findProcessCacheEntryInChildrenNodes x s.differentiateArgs (getSiblings tree s) c = none)
    (hexec : ∀ j, 0 < j → j ≤ i → ∀ c, branch[j]? = some c → c.info.IsExecChild = true) :
    findBranchInChildrenNodes x tree branch true generationType s = (none, true, s)
    ∧ getSiblings tree (findBranchInChildrenNodes x tree branch true generationType s).2.2
        = getSiblings tree s
    ∧ (findBranchInChildrenNodes x tree branch true generationType s).2.2.ProcessNodes
        = s.ProcessNodes
    ∧ (findBranchInChildrenNodes x tree branch true generationType s).2.2.Stats = s.Stats
    ∧ (findBranchInChildrenNodes x tree branch true generationType s).2.2.callbacks
        = s.callbacks := by
  have hil : i < branch.length := by
    rcases Nat.lt_or_ge i branch.length with h | h
    · exact h
    · simp [List.getElem?_eq_none h] at hc
  have hci : branch[i] = c := by
    have := List.getElem?_eq_getElem hil
    rw [this] at hc; exact Option.some.inj hc
  have hwalk := findBranchLoop_walk x tree branch true generationType s i hil hnone hexec i 0
    (by omega)
  have hres : findBranchInChildrenNodes x tree branch true generationType s
      = (none, true, s) := by
    unfold findBranchInChildrenNodes
    rw [← List.drop_zero branch] at hwalk
    simp only [List.drop_zero] at hwalk
    rw [hwalk, List.drop_eq_getElem_cons hil]
    simp only [findBranchLoop, hci, hfound]
    have : i ≠ 0 := by omega
    simp [this]
  rw [hres]
  exact ⟨rfl, rfl, rfl, rfl, rfl⟩

/-- On `treeWithMake`, whose only root is `make`, the dry run of the search of the branch
`sh → make` in the root list finds `make` at index 1 and reports a new entry. -/
theorem findBranchInChildrenNodes_dryRun_rebase_witness :
    findBranchInChildrenNodes pathCollaborators SiblingsRef.roots [shEntry, makeUnderShEntry]
        true Snapshot treeWithMake = (none, true, treeWithMake) :=
  (findBranchInChildrenNodes_dryRun_rebase pathCollaborators SiblingsRef.roots
    [shEntry, makeUnderShEntry] Snapshot treeWithMake 1 0 makeUnderShEntry
    (ProcessNode.mk 0 makeInfo.Process Runtime true []) (by decide) rfl rfl
    (by
      intro j hj c hc
      have : j = 0 := by omega
      subst this
      cases hc
      rfl)
    (by
      intro j h0 h1 c hc
      have : j = 1 := by omega
      subst this
      cases hc
      rfl)).1

/-! ## What the steps of CreateProcessNode write -/

theorem updateSiblings_frame (tree : SiblingsRef) (f : List ProcessNode → List ProcessNode)
    (s : ActivityTree) :
    ∃ pn, updateSiblings tree f s = { s with ProcessNodes := pn } := by
  cases tree with
  | roots => exact ⟨_, rfl⟩
  | childrenOf p =>
    simp only [updateSiblings]
    split
    · exact ⟨_, rfl⟩
    · exact ⟨s.ProcessNodes, rfl⟩

/-- The branch search writes the forest, the statistics, the allocator and the trace of the
callbacks only. -/
theorem findBranchInChildrenNodes_frame (x : Collaborators) (tree : SiblingsRef)
    (branch : List ProcessCacheEntry) (dryRun : Bool) (g : NodeGenerationType)
    (s : ActivityTree) :
    ∃ pn st np cb, (findBranchInChildrenNodes x tree branch dryRun g s).2.2
      = { s with ProcessNodes := pn, Stats := st, nextPtr := np, callbacks := cb } := by
  rcases findBranchInChildrenNodes_cases x tree branch dryRun g s with
    ⟨e, rest, n, k, _, _, h⟩ | ⟨_, h | ⟨_, h⟩ | ⟨_, j, k, c, n, _, _, h⟩⟩
  · rw [h]; exact ⟨s.ProcessNodes, s.Stats, s.nextPtr, s.callbacks, rfl⟩
  · rw [h]; exact ⟨s.ProcessNodes, s.Stats, s.nextPtr, s.callbacks, rfl⟩
  · rw [h]; exact ⟨s.ProcessNodes, s.Stats, s.nextPtr, s.callbacks, rfl⟩
  · rw [h]
    obtain ⟨pn, hpn⟩ := updateSiblings_frame tree
      (rebaseSiblings g (branch.take j) s.nextPtr k) s
    simp only [rebaseTree, hpn]
    exact ⟨_, _, _, _, rfl⟩

theorem appendNewNode_frame (tree : SiblingsRef) (entry : ProcessCacheEntry)
    (g : NodeGenerationType) (s : ActivityTree) :
    ∃ pn st np cb, appendNewNode tree entry g s
      = { s with ProcessNodes := pn, Stats := st, nextPtr := np, callbacks := cb } := by
  obtain ⟨pn, hpn⟩ := updateSiblings_frame tree
    (fun siblings => siblings ++ [NewProcessNode entry g s.nextPtr]) s
  simp only [appendNewNode, hpn]
  exact ⟨_, _, _, _, rfl⟩

/-- The end of `CreateProcessNode` writes the forest, the statistics, the allocator and the trace
of the callbacks only. -/
theorem attachProcessNode_frame (x : Collaborators) (entry : ProcessCacheEntry)
    (branch : List ProcessCacheEntry) (g : NodeGenerationType) (dryRun : Bool)
    (parent : CreateResult) :
    ∃ pn st np cb, (attachProcessNode x entry branch g dryRun parent).tree
      = { parent.tree with ProcessNodes := pn, Stats := st, nextPtr := np, callbacks := cb } := by
  have hrefl : ∀ t : ActivityTree, ∃ pn st np cb,
      t = { t with ProcessNodes := pn, Stats := st, nextPtr := np, callbacks := cb } :=
    fun t => ⟨t.ProcessNodes, t.Stats, t.nextPtr, t.callbacks, rfl⟩
  have happ : ∀ (tree : SiblingsRef) (t : ActivityTree),
      (∃ pn st np cb, t = { parent.tree with
        ProcessNodes := pn, Stats := st, nextPtr := np, callbacks := cb }) →
      ∃ pn st np cb, appendNewNode tree entry g t = { parent.tree with
        ProcessNodes := pn, Stats := st, nextPtr := np, callbacks := cb } := by
    intro tree t ⟨pn, st, np, cb, ht⟩
    obtain ⟨pn', st', np', cb', h⟩ := appendNewNode_frame tree entry g t
    rw [h, ht]
    exact ⟨_, _, _, _, rfl⟩
  unfold attachProcessNode
  split
  · exact hrefl _
  · split
    · split
      · exact hrefl _
      · have h := findBranchInChildrenNodes_frame x SiblingsRef.roots branch dryRun g parent.tree
        split
        · rename_i heq; rw [heq] at h; exact h
        · rename_i heq; rw [heq] at h
          split
          · exact h
          · split
            · exact happ _ _ h
            · exact h
    · rename_i parentNode _
      have h := findBranchInChildrenNodes_frame x (SiblingsRef.childrenOf parentNode) branch
        dryRun g parent.tree
      split
      · rename_i heq; rw [heq] at h; exact h
      · rename_i heq; rw [heq] at h
        split
        · exact happ _ _ h
        · exact h

theorem attachProcessNode_cookies (x : Collaborators) (entry : ProcessCacheEntry)
    (branch : List ProcessCacheEntry) (g : NodeGenerationType) (dryRun : Bool)
    (parent : CreateResult) :
    (attachProcessNode x entry branch g dryRun parent).tree.CookieToProcessNode
      = parent.tree.CookieToProcessNode := by
  obtain ⟨pn, st, np, cb, h⟩ := attachProcessNode_frame x entry branch g dryRun parent
  rw [h]

/-! ## Selectors that are not set are never cached -/

/-- The entries of the cache after the deferred function are the ones it had, or have a key that
is set and a node as value. -/
theorem deferCookie_cache (cs : cookieSelector) (r : CreateResult) (k : cookieSelector)
    (v : NodePtr) (h : (deferCookie cs r).tree.CookieToProcessNode k = some v) :
    r.tree.CookieToProcessNode k = some v ∨ (k.isSet = true ∧ v ≠ none) := by
  unfold deferCookie at h
  split at h
  · exact Or.inl h
  · rename_i n hn
    split at h
    · rename_i hset
      simp only [setCookie] at h
      split at h
      · rename_i hk
        right
        simp only [Option.some.injEq] at h
        rw [hk, ← h]
        exact ⟨hset, by simp⟩
      · exact Or.inl h
    · exact Or.inl h

theorem createProcessNodeRec_cache (x : Collaborators) (fuel : Nat)
    (entry : Option ProcessCacheEntry) (branch : List ProcessCacheEntry)
    (g : NodeGenerationType) (dryRun : Bool) (s : ActivityTree) (r : CreateResult)
    (h : createProcessNodeRec x fuel entry branch g dryRun s = some r)
    (k : cookieSelector) (v : NodePtr) (hk : r.tree.CookieToProcessNode k = some v) :
    s.CookieToProcessNode k = some v ∨ (k.isSet = true ∧ v ≠ none) := by
  induction fuel generalizing entry branch g r with
  | zero => simp [createProcessNodeRec] at h
  | succ n ih =>
    cases entry with
    | none =>
      simp only [createProcessNodeRec, Option.some.injEq] at h
      subst h; exact Or.inl hk
    | some e =>
      simp only [createProcessNodeRec] at h
      split at h
      · simp only [Option.some.injEq] at h; subst h; exact Or.inl hk
      · split at h
        · simp only [Option.some.injEq] at h; subst h; exact Or.inl hk
        · split at h
          · cases h
          · rename_i parent hp
            simp only [Option.some.injEq] at h; subst h
            rcases deferCookie_cache _ _ k v hk with h1 | h1
            · rw [attachProcessNode_cookies] at h1
              exact ih _ _ _ _ hp h1
            · exact Or.inr h1

theorem CreateProcessNode_cache (x : Collaborators) (entry : Option ProcessCacheEntry)
    (branch : List ProcessCacheEntry) (g : NodeGenerationType) (dryRun : Bool)
    (s : ActivityTree) (k : cookieSelector) (v : NodePtr)
    (hk : (CreateProcessNode x entry branch g dryRun s).tree.CookieToProcessNode k = some v) :
    s.CookieToProcessNode k = some v ∨ (k.isSet = true ∧ v ≠ none) :=
  createProcessNodeRec_cache x _ entry branch g dryRun s _
    (CreateProcessNode_eq x (lineageDepth entry + 1) entry branch g dryRun s (by omega)) k v hk

/-- The cookie cache after `insert` is the one that `CreateProcessNode` leaves, or the one
before the call. -/
theorem insert_cookies (x : Collaborators) (event : Event) (dryRun : Bool)
    (g : NodeGenerationType) (s : ActivityTree) :
    (insert x event dryRun g s).2.2.CookieToProcessNode = s.CookieToProcessNode
    ∨ (insert x event dryRun g s).2.2.CookieToProcessNode
      = (CreateProcessNode x event.ProcessCacheEntry [] g dryRun s).tree.CookieToProcessNode := by
  by_cases hg : g = Unknown ∨ g > MaxNodeGenerationType
  · left
    unfold insert
    rw [if_pos hg]
  · cases hv : (isEventValid event dryRun s).1 with
    | false =>
      obtain ⟨e, d, he⟩ := insert_invalid x event dryRun g s hg hv
      left
      rw [he]
    | true =>
      right
      rw [insert_valid x event dryRun g s hg hv]
      split
      · rfl
      · split
        · rfl
        · split
          · rfl
          · split
            · rfl
            · exact (insertEvent_core _ _ _ _ _ _ _).2.1

theorem insert_cache (x : Collaborators) (event : Event) (dryRun : Bool)
    (g : NodeGenerationType) (s : ActivityTree) (hs : CookieCacheSet s) :
    CookieCacheSet (insert x event dryRun g s).2.2 := by
  intro k v hk
  rcases insert_cookies x event dryRun g s with h | h
  · rw [h] at hk
    exact hs k v hk
  · rw [h] at hk
    rcases CreateProcessNode_cache x _ _ _ _ _ k v hk with h1 | ⟨h1, h2⟩
    · exact hs k v h1
    · simp only [cookieSelector.isSet, Bool.and_eq_true, bne_iff_ne, ne_eq] at h1
      exact ⟨h1, h2⟩

/-- C24: selectors that are not set are never cached. In every tree reached from a new tree by
calls of `Insert` and `Contains`, every key of `CookieToProcessNode` has an exec time that is not
zero and a cookie that is not zero, and every value is a node, not nil. -/
theorem reachable_cookieCacheSet (x : Collaborators) (validator : ActivityTreeOwner)
    (differentiateArgs : Bool) (s : ActivityTree)
    (hs : Reachable x validator differentiateArgs s) :
    CookieCacheSet s
    ∧ ∀ cs node, s.CookieToProcessNode cs = some node →
        cs.isSet = true ∧ cs.execTime ≠ 0 ∧ cs.cookie ≠ 0 ∧ ∃ n, node = some n := by
  have key : CookieCacheSet s := by
    induction hs with
    | new =>
      intro k v hk
      simp [NewActivityTree] at hk
    | Insert s event g _ ih =>
      obtain ⟨_, _, st, h3⟩ := Insert_stats x event g s
      have hi := insert_cache x event false g s ih
      intro k v hk
      rw [h3] at hk
      exact hi k v hk
    | Contains s event g _ ih =>
      rw [Contains_tree]
      exact insert_cache x event true g s ih
  refine ⟨key, fun cs node h => ?_⟩
  obtain ⟨⟨h1, h2⟩, h3⟩ := key cs node h
  refine ⟨by simp [cookieSelector.isSet, h1, h2], h1, h2, ?_⟩
  cases node with
  | none => exact absurd rfl h3
  | some n => exact ⟨n, rfl⟩

/-- The invariant on `treeWithCookie`, whose cache holds the selector of `cookieEntry`. -/
theorem reachable_cookieCacheSet_witness :
    treeWithCookie.CookieToProcessNode ⟨1000, 7⟩ = some (some 0)
    ∧ CookieCacheSet treeWithCookie :=
  ⟨by decide,
    (reachable_cookieCacheSet pathCollaborators containerOwner false treeWithCookie
      (Reachable.Insert _ _ _ Reachable.new)).1⟩

/-! ## The list of the system calls -/

theorem toUint32_of_range (k : Int) (h0 : 0 ≤ k) (h1 : k < 4294967296) :
    Int.ofNat (toUint32 k) = k := by
  unfold toUint32
  rw [Int.emod_eq_of_lt h0 h1]
  exact Int.toNat_of_nonneg h0

/-- The list of `ComputeSyscallsList`: sorted, a permutation of the keys converted to `uint32`,
and the same for every order of the keys. -/
theorem ComputeSyscallsList_sorted (s : ActivityTree) :
    (ComputeSyscallsList s).Sorted (· ≤ ·)
    ∧ (ComputeSyscallsList s).Perm (s.SyscallsMask.map (fun kv => toUint32 kv.1))
    ∧ (ComputeSyscallsList s).length = s.SyscallsMask.length
    ∧ ∀ t : ActivityTree, t.SyscallsMask.Perm s.SyscallsMask →
        ComputeSyscallsList t = ComputeSyscallsList s := by
  refine ⟨List.sorted_insertionSort _ _, List.perm_insertionSort _ _, ?_, ?_⟩
  · simp [ComputeSyscallsList, List.length_insertionSort]
  · intro t ht
    apply List.eq_of_perm_of_sorted
      (((List.perm_insertionSort _ _).trans (ht.map _)).trans (List.perm_insertionSort _ _).symm)
      (List.sorted_insertionSort _ _) (List.sorted_insertionSort _ _)

/-- C28 (as stated, for every mask): the key `-1` of a mask is not an element of the list, which
holds `4294967295`, the conversion of the key to `uint32`. -/
theorem ComputeSyscallsList_negative_key :
    ComputeSyscallsList { emptyTree with SyscallsMask := [(-1, 1)] } = [4294967295] := by
  decide

/-- C28: for every mask whose keys are in the range of `uint32`, as the numbers of the system
calls are, `ComputeSyscallsList` returns a list sorted in ascending order whose length is the
number of keys of `SyscallsMask` and whose elements are exactly those keys; the result does not
depend on the order in which the map gives its keys, and the function returns the list only: the
mask is not written. With the keys 1, 3, 2, 4 the result is `[1, 2, 3, 4]`. For keys out of the
range the elements are the keys modulo `2^32`. -/
theorem ComputeSyscallsList_keys (s : ActivityTree)
    (hr : ∀ kv ∈ s.SyscallsMask, 0 ≤ kv.1 ∧ kv.1 < 4294967296) :
    (ComputeSyscallsList s).Sorted (· ≤ ·)
    ∧ (ComputeSyscallsList s).length = s.SyscallsMask.length
    ∧ ((ComputeSyscallsList s).map Int.ofNat).Perm (s.SyscallsMask.map Prod.fst)
    ∧ (∀ k : Int, k ∈ (ComputeSyscallsList s).map Int.ofNat
        ↔ k ∈ s.SyscallsMask.map Prod.fst)
    ∧ ((s.SyscallsMask.map Prod.fst).Nodup → (ComputeSyscallsList s).Sorted (· < ·))
    ∧ (∀ t : ActivityTree, t.SyscallsMask.Perm s.SyscallsMask →
        ComputeSyscallsList t = ComputeSyscallsList s)
    ∧ ((s.SyscallsMask.map Prod.fst).Perm [1, 2, 3, 4] →
        ComputeSyscallsList s = [1, 2, 3, 4]) := by
  obtain ⟨h1, h2, h3, h4⟩ := ComputeSyscallsList_sorted s
  have hmap : (s.SyscallsMask.map (fun kv => toUint32 kv.1)).map Int.ofNat
      = s.SyscallsMask.map Prod.fst := by
    rw [List.map_map]
    apply List.map_congr_left
    intro kv hkv
    exact toUint32_of_range _ (hr kv hkv).1 (hr kv hkv).2
  have hperm : ((ComputeSyscallsList s).map Int.ofNat).Perm
      (s.SyscallsMask.map Prod.fst) := by
    rw [← hmap]
    exact h2.map _
  refine ⟨h1, h3, hperm, fun k => hperm.mem_iff, ?_, h4, ?_⟩
  · intro hnd
    have hnd2 : (ComputeSyscallsList s).Nodup := by
      have : ((ComputeSyscallsList s).map Int.ofNat).Nodup := hperm.nodup_iff.mpr hnd
      exact List.Nodup.of_map _ this
    exact (List.Sorted.lt_of_le h1 hnd2)
  · intro hp
    have hp2 : (ComputeSyscallsList s).Perm [1, 2, 3, 4] := by
      have h5 : (s.SyscallsMask.map (fun kv => toUint32 kv.1)).Perm
          (([1, 2, 3, 4] : List Int).map toUint32) := by
        have := hp.map toUint32
        rw [List.map_map] at this
        exact this
      exact h2.trans h5
    exact List.eq_of_perm_of_sorted hp2 h1 (by decide)

/-- The mask with the keys 1, 3, 2 and 4, in that order. -/
theorem ComputeSyscallsList_keys_witness :
    ComputeSyscallsList { emptyTree with SyscallsMask := [(1, 1), (3, 3), (2, 2), (4, 4)] }
      = [1, 2, 3, 4] :=
  (ComputeSyscallsList_keys { emptyTree with SyscallsMask := [(1, 1), (3, 3), (2, 2), (4, 4)] }
    (by decide)).2.2.2.2.2.2 (by decide)

/-! ## The counts of the nodes -/

theorem forestSum_append (f : ProcessNode → Nat) (l₁ l₂ : List ProcessNode) :
    forestSum f (l₁ ++ l₂) = forestSum f l₁ + forestSum f l₂ := by
  induction l₁ with
  | nil => simp [forestSum]
  | cons n rest ih => simp [forestSum, ih]; omega

theorem ProcessNode.sum_eq (f : ProcessNode → Nat) (n : ProcessNode) :
    n.sum f = f n + forestSum f n.Children := by
  cases n; simp [ProcessNode.sum, ProcessNode.Children]

theorem fileNodesSize_append (l₁ l₂ : List FileNode) :
    fileNodesSize (l₁ ++ l₂) = fileNodesSize l₁ + fileNodesSize l₂ := by
  induction l₁ with
  | nil => simp [fileNodesSize]
  | cons n rest ih => simp [fileNodesSize, ih]; omega

theorem fileNodesWithFile_append (l₁ l₂ : List FileNode) :
    fileNodesWithFile (l₁ ++ l₂) = fileNodesWithFile l₁ + fileNodesWithFile l₂ := by
  induction l₁ with
  | nil => simp [fileNodesWithFile]
  | cons n rest ih => simp [fileNodesWithFile, ih]; omega

theorem FileNode.size_eq (n : FileNode) : n.size = 1 + fileNodesSize n.Children := by
  cases n; simp [FileNode.size, FileNode.Children]

theorem FileNode.withFile_eq (n : FileNode) :
    n.withFile = (if n.HasFile then 1 else 0) + fileNodesWithFile n.Children := by
  cases n; simp [FileNode.withFile, FileNode.Children, FileNode.HasFile]

/-- The first loop ends within its bound: it adds the number of the nodes below the queue and
the sizes of their collections to the counters, and appends their file tries to `fnodes`. -/
theorem processNodesLoop_spec (payload : Nat → NodePayload) (fuel : Nat)
    (q : List ProcessNode) (st : ActivityTreeStats) (fn : List FileNode)
    (h : countNodes q < fuel) :
    ∃ X, processNodesLoop payload fuel q st fn
        = some ({ st with
            ProcessNodes := st.ProcessNodes + countNodes q
            DNSNodes := st.DNSNodes + forestSum (fun n => (payload n.ptr).DNSNames.length) q
            SocketNodes := st.SocketNodes
              + forestSum (fun n => (payload n.ptr).Sockets.length) q }, fn ++ X)
      ∧ fileNodesWithFile X
        = forestSum (fun n => fileNodesWithFile (payload n.ptr).Files) q := by
  induction fuel generalizing q st fn with
  | zero => omega
  | succ k ih =>
    cases q with
    | nil =>
      refine ⟨[], ?_, by simp [fileNodesWithFile, forestSum]⟩
      simp [processNodesLoop, countNodes, forestSum]
    | cons n rest =>
      have hc : countNodes (rest ++ n.Children) < k := by
        rw [countNodes_append]
        simp only [countNodes, ProcessNode.count_eq] at h
        omega
      obtain ⟨X, hX, hw⟩ := ih (rest ++ n.Children)
        { st with
          ProcessNodes := st.ProcessNodes + 1
          DNSNodes := st.DNSNodes + (payload n.ptr).DNSNames.length
          SocketNodes := st.SocketNodes + (payload n.ptr).Sockets.length }
        (fn ++ (payload n.ptr).Files) hc
      refine ⟨(payload n.ptr).Files ++ X, ?_, ?_⟩
      · simp only [processNodesLoop]
        rw [hX]
        simp only [countNodes_append, forestSum_append, countNodes, forestSum,
          ProcessNode.count_eq, ProcessNode.sum_eq, List.append_assoc, Option.some.injEq,
          Prod.mk.injEq, and_true, ActivityTreeStats.mk.injEq, true_and]
        push_cast
        refine ⟨by omega, by omega, by omega⟩
      · rw [fileNodesWithFile_append, hw]
        simp only [forestSum_append, forestSum, ProcessNode.sum_eq]
        omega

/-- The second loop ends within its bound and adds the number of the file nodes of the queue
that carry a file. -/
theorem fileNodesLoop_spec (fuel : Nat) (q : List FileNode) (st : ActivityTreeStats)
    (h : fileNodesSize q < fuel) :
    fileNodesLoop fuel q st
      = some { st with FileNodes := st.FileNodes + fileNodesWithFile q } := by
  induction fuel generalizing q st with
  | zero => omega
  | succ k ih =>
    cases q with
    | nil => simp [fileNodesLoop, fileNodesWithFile]
    | cons n rest =>
      have hc : fileNodesSize (rest ++ n.Children) < k := by
        rw [fileNodesSize_append]
        simp only [fileNodesSize, FileNode.size_eq] at h
        omega
      simp only [fileNodesLoop]
      rw [ih _ _ hc]
      simp only [fileNodesWithFile_append, fileNodesWithFile, FileNode.withFile_eq]
      cases n.HasFile
      · simp only [Bool.false_eq_true, if_false, Option.some.injEq,
          ActivityTreeStats.mk.injEq, true_and, and_true]
        push_cast
        omega
      · simp only [if_true, Option.some.injEq, ActivityTreeStats.mk.injEq, true_and, and_true]
        push_cast
        omega

/-- The call `ComputeActivityTreeStats` adds to the four node counters the number of the process
nodes of the forest, the sizes of their collections of names and of sockets, and the number of
the file nodes of their tries that carry a file; it writes nothing else. -/
theorem ComputeActivityTreeStats_adds (s : ActivityTree) :
    ComputeActivityTreeStats s
      = { s with Stats := { s.Stats with
          ProcessNodes := s.Stats.ProcessNodes + countNodes s.ProcessNodes
          FileNodes := s.Stats.FileNodes
            + forestSum (fun n => fileNodesWithFile (s.payload n.ptr).Files) s.ProcessNodes
          DNSNodes := s.Stats.DNSNodes
            + forestSum (fun n => (s.payload n.ptr).DNSNames.length) s.ProcessNodes
          SocketNodes := s.Stats.SocketNodes
            + forestSum (fun n => (s.payload n.ptr).Sockets.length) s.ProcessNodes } } := by
  obtain ⟨X, hX, hw⟩ := processNodesLoop_spec s.payload (countNodes s.ProcessNodes + 1)
    s.ProcessNodes s.Stats [] (by omega)
  unfold ComputeActivityTreeStats
  rw [hX]
  simp only [List.nil_append]
  rw [fileNodesLoop_spec _ _ _ (by omega)]
  simp only [hw]

/-- C29 (as stated, whatever the counters held): the counter of process nodes of `treeWithApp`
holds 1 and the forest has one node; after `ComputeActivityTreeStats` the counter holds 2. -/
theorem ComputeActivityTreeStats_drifts :
    treeWithApp.Stats.ProcessNodes = 1
    ∧ countNodes treeWithApp.ProcessNodes = 1
    ∧ (ComputeActivityTreeStats treeWithApp).Stats.ProcessNodes = 2 := by
  decide

/-- C29: `ComputeActivityTreeStats` adds the aggregate node counts to the counters: after the
call `Stats.ProcessNodes` is what it held plus the number of process nodes of the forest,
`Stats.DNSNodes` what it held plus the sum of the sizes of the DNS sets of the nodes,
`Stats.SocketNodes` what it held plus the sum of the lengths of their socket lists, and
`Stats.FileNodes` what it held plus the number of file nodes of their tries that carry a file.
Each counter is the count after the call exactly when it held zero before. The other counters
and the rest of the tree are as before. -/
theorem ComputeActivityTreeStats_counts (s : ActivityTree) :
    (ComputeActivityTreeStats s).Stats.ProcessNodes
        = s.Stats.ProcessNodes + countNodes s.ProcessNodes
    ∧ (ComputeActivityTreeStats s).Stats.DNSNodes
        = s.Stats.DNSNodes
          + forestSum (fun n => (s.payload n.ptr).DNSNames.length) s.ProcessNodes
    ∧ (ComputeActivityTreeStats s).Stats.SocketNodes
        = s.Stats.SocketNodes
          + forestSum (fun n => (s.payload n.ptr).Sockets.length) s.ProcessNodes
    ∧ (ComputeActivityTreeStats s).Stats.FileNodes
        = s.Stats.FileNodes
          + forestSum (fun n => fileNodesWithFile (s.payload n.ptr).Files) s.ProcessNodes
    ∧ ((ComputeActivityTreeStats s).Stats.ProcessNodes = countNodes s.ProcessNodes
        ↔ s.Stats.ProcessNodes = 0)
    ∧ ((ComputeActivityTreeStats s).Stats.DNSNodes
          = forestSum (fun n => (s.payload n.ptr).DNSNames.length) s.ProcessNodes
        ↔ s.Stats.DNSNodes = 0)
    ∧ ((ComputeActivityTreeStats s).Stats.SocketNodes
          = forestSum (fun n => (s.payload n.ptr).Sockets.length) s.ProcessNodes
        ↔ s.Stats.SocketNodes = 0)
    ∧ ((ComputeActivityTreeStats s).Stats.FileNodes
          = forestSum (fun n => fileNodesWithFile (s.payload n.ptr).Files) s.ProcessNodes
        ↔ s.Stats.FileNodes = 0)
    ∧ (ComputeActivityTreeStats s).Stats.processedCount = s.Stats.processedCount
    ∧ (ComputeActivityTreeStats s).Stats.addedCount = s.Stats.addedCount
    ∧ (ComputeActivityTreeStats s).Stats.droppedCount = s.Stats.droppedCount
    ∧ (ComputeActivityTreeStats s).ProcessNodes = s.ProcessNodes
    ∧ (ComputeActivityTreeStats s).payload = s.payload
    ∧ (ComputeActivityTreeStats s).CookieToProcessNode = s.CookieToProcessNode := by
  rw [ComputeActivityTreeStats_adds]
  refine ⟨rfl, rfl, rfl, rfl, ?_, ?_, ?_, ?_, rfl, rfl, rfl, rfl, rfl, rfl⟩ <;>
    simp only <;> constructor <;> intro h <;> omega

/-! ## The callbacks of the owner -/

/-- C30 (as stated, for every node of a chain): on `treeWithMake`, whose only root is `make`, the
exec event of `make` with the lineage `systemd → sh → env → make` rebases `make` below a chain of
two new nodes, `sh` and `env` (the allocator goes from 1 to 3, the forest from one node to
three), and `NewProcessNodeCallback` is called once, on the node 1 of `sh`, and not on the node 2
of `env`. -/
theorem Insert_rebase_one_callback :
    treeWithMake.nextPtr = 1
    ∧ treeWithMake.callbacks = [0]
    ∧ countNodes treeWithMake.ProcessNodes = 1
    ∧ (Insert pathCollaborators (execEvent makeViaEnvEntry) Runtime treeWithMake).2.1 = none
    ∧ (Insert pathCollaborators (execEvent makeViaEnvEntry) Runtime treeWithMake).2.2.nextPtr = 3
    ∧ countNodes (Insert pathCollaborators (execEvent makeViaEnvEntry) Runtime
        treeWithMake).2.2.ProcessNodes = 3
    ∧ forestPtrs (Insert pathCollaborators (execEvent makeViaEnvEntry) Runtime
        treeWithMake).2.2.ProcessNodes = [1, 2, 0]
    ∧ (Insert pathCollaborators (execEvent makeViaEnvEntry) Runtime treeWithMake).2.2.callbacks
        = [0, 1] := by
  decide

theorem CallbacksAdded_refl (s : ActivityTree) : CallbacksAdded s s [] := by
  refine ⟨by simp, List.sorted_nil, ?_, Nat.le_refl _, by simp⟩
  intro p hp; cases hp

theorem CallbacksAdded_trans (s t u : ActivityTree) (a b : List Nat)
    (h1 : CallbacksAdded s t a) (h2 : CallbacksAdded t u b) : CallbacksAdded s u (a ++ b) := by
  obtain ⟨a1, a2, a3, a4, a5⟩ := h1
  obtain ⟨b1, b2, b3, b4, b5⟩ := h2
  refine ⟨by rw [b1, a1, List.append_assoc], ?_, ?_, by omega, ?_⟩
  · rw [List.Sorted, List.pairwise_append]
    refine ⟨a2, b2, ?_⟩
    intro p hp q hq
    have := (a3 p hp).2
    have := (b3 q hq).1
    omega
  · intro p hp
    rcases List.mem_append.mp hp with hp | hp
    · have := a3 p hp; omega
    · have := b3 p hp; omega
  · simp only [List.length_append]
    omega

/-- A state that differs from another in the cookie cache, the statistics or the payloads has
the same callbacks. -/
theorem CallbacksAdded_congr (s t t' : ActivityTree) (a : List Nat)
    (h : CallbacksAdded s t a) (hc : t'.callbacks = t.callbacks) (hn : t'.nextPtr = t.nextPtr) :
    CallbacksAdded s t' a := by
  obtain ⟨a1, a2, a3, a4, a5⟩ := h
  exact ⟨hc.trans a1, a2, by rw [hn]; exact a3, by rw [hn]; exact a4, by rw [hn]; exact a5⟩

/-- A new root or child: one node is allocated and the callback is called on it. -/
theorem appendNewNode_callbacks (tree : SiblingsRef) (entry : ProcessCacheEntry)
    (g : NodeGenerationType) (s : ActivityTree) :
    (appendNewNode tree entry g s).callbacks = s.callbacks ++ [s.nextPtr]
    ∧ (appendNewNode tree entry g s).nextPtr = s.nextPtr + 1
    ∧ CallbacksAdded s (appendNewNode tree entry g s) [s.nextPtr] := by
  have h1 : (appendNewNode tree entry g s).callbacks = s.callbacks ++ [s.nextPtr] := rfl
  have h2 : (appendNewNode tree entry g s).nextPtr = s.nextPtr + 1 := rfl
  refine ⟨h1, h2, h1, List.sorted_singleton _, ?_, by omega, by simp [h2]⟩
  intro p hp
  simp only [List.mem_singleton] at hp
  omega

/-- A rebase at the branch index `i`: `i` nodes are allocated and the callback is called on the
first one only. -/
theorem rebaseTree_callbacks (tree : SiblingsRef) (branch : List ProcessCacheEntry) (i k : Nat)
    (g : NodeGenerationType) (s : ActivityTree) (hi : 0 < i) :
    (rebaseTree tree branch i k g s).callbacks = s.callbacks ++ [s.nextPtr]
    ∧ (rebaseTree tree branch i k g s).nextPtr = s.nextPtr + i
    ∧ CallbacksAdded s (rebaseTree tree branch i k g s) [s.nextPtr] := by
  have h1 : (rebaseTree tree branch i k g s).callbacks = s.callbacks ++ [s.nextPtr] := rfl
  have h2 : (rebaseTree tree branch i k g s).nextPtr = s.nextPtr + i := rfl
  refine ⟨h1, h2, h1, List.sorted_singleton _, ?_, by omega, ?_⟩
  · intro p hp
    simp only [List.mem_singleton] at hp
    omega
  · simp only [List.length_singleton, h2]
    omega

theorem findBranchInChildrenNodes_callbacks (x : Collaborators) (tree : SiblingsRef)
    (branch : List ProcessCacheEntry) (dryRun : Bool) (g : NodeGenerationType)
    (s : ActivityTree) :
    ∃ added, CallbacksAdded s (findBranchInChildrenNodes x tree branch dryRun g s).2.2 added := by
  rcases findBranchInChildrenNodes_cases x tree branch dryRun g s with
    ⟨e, rest, n, k, _, _, h⟩ | ⟨_, h | ⟨_, h⟩ | ⟨_, j, k, c, n, hj, _, h⟩⟩
  · rw [h]; exact ⟨[], CallbacksAdded_refl s⟩
  · rw [h]; exact ⟨[], CallbacksAdded_refl s⟩
  · rw [h]; exact ⟨[], CallbacksAdded_refl s⟩
  · rw [h]; exact ⟨_, (rebaseTree_callbacks tree branch j k g s hj).2.2⟩

theorem attachProcessNode_callbacks (x : Collaborators) (entry : ProcessCacheEntry)
    (branch : List ProcessCacheEntry) (g : NodeGenerationType) (dryRun : Bool)
    (parent : CreateResult) :
    ∃ added, CallbacksAdded parent.tree
      (attachProcessNode x entry branch g dryRun parent).tree added := by
  have happ : ∀ (tree : SiblingsRef) (t : ActivityTree) (a : List Nat),
      CallbacksAdded parent.tree t a →
      ∃ added, CallbacksAdded parent.tree (appendNewNode tree entry g t) added :=
    fun tree t a h =>
      ⟨_, CallbacksAdded_trans _ _ _ _ _ h (appendNewNode_callbacks tree entry g t).2.2⟩
  unfold attachProcessNode
  split
  · exact ⟨[], CallbacksAdded_refl _⟩
  · split
    · split
      · exact ⟨[], CallbacksAdded_refl _⟩
      · obtain ⟨a, h⟩ := findBranchInChildrenNodes_callbacks x SiblingsRef.roots branch dryRun g
          parent.tree
        split
        · rename_i heq; rw [heq] at h; exact ⟨a, h⟩
        · rename_i heq; rw [heq] at h
          split
          · exact ⟨a, h⟩
          · split
            · exact happ _ _ a h
            · exact ⟨a, h⟩
    · rename_i parentNode _
      obtain ⟨a, h⟩ := findBranchInChildrenNodes_callbacks x (SiblingsRef.childrenOf parentNode)
        branch dryRun g parent.tree
      split
      · rename_i heq; rw [heq] at h; exact ⟨a, h⟩
      · rename_i heq; rw [heq] at h
        split
        · exact happ _ _ a h
        · exact ⟨a, h⟩

theorem createProcessNodeRec_callbacks (x : Collaborators) (fuel : Nat)
    (entry : Option ProcessCacheEntry) (branch : List ProcessCacheEntry)
    (g : NodeGenerationType) (dryRun : Bool) (s : ActivityTree) (r : CreateResult)
    (h : createProcessNodeRec x fuel entry branch g dryRun s = some r) :
    ∃ added, CallbacksAdded s r.tree added := by
  induction fuel generalizing entry branch g r with
  | zero => simp [createProcessNodeRec] at h
  | succ n ih =>
    cases entry with
    | none =>
      simp only [createProcessNodeRec, Option.some.injEq] at h
      subst h; exact ⟨[], CallbacksAdded_refl s⟩
    | some e =>
      simp only [createProcessNodeRec] at h
      split at h
      · simp only [Option.some.injEq] at h; subst h; exact ⟨[], CallbacksAdded_refl s⟩
      · split at h
        · simp only [Option.some.injEq] at h; subst h; exact ⟨[], CallbacksAdded_refl s⟩
        · split at h
          · cases h
          · rename_i parent hp
            simp only [Option.some.injEq] at h; subst h
            obtain ⟨a, ha⟩ := ih _ _ _ _ hp
            obtain ⟨b, hb⟩ := attachProcessNode_callbacks x e (e :: branch) g dryRun parent
            obtain ⟨c, hc⟩ := deferCookie_tree (entryCookieSelector e)
              (attachProcessNode x e (e :: branch) g dryRun parent)
            refine ⟨a ++ b, CallbacksAdded_congr _ _ _ _
              (CallbacksAdded_trans _ _ _ _ _ ha hb) ?_ ?_⟩ <;> rw [hc]

theorem CreateProcessNode_callbacks (x : Collaborators) (entry : Option ProcessCacheEntry)
    (branch : List ProcessCacheEntry) (g : NodeGenerationType) (dryRun : Bool)
    (s : ActivityTree) :
    ∃ added, CallbacksAdded s (CreateProcessNode x entry branch g dryRun s).tree added :=
  createProcessNodeRec_callbacks x _ entry branch g dryRun s _
    (CreateProcessNode_eq x (lineageDepth entry + 1) entry branch g dryRun s (by omega))

/-- The callbacks and the allocator after `insert` are the ones that `CreateProcessNode` leaves,
or the ones before the call. -/
theorem insert_callbacks_eq (x : Collaborators) (event : Event) (dryRun : Bool)
    (g : NodeGenerationType) (s : ActivityTree) :
    ((insert x event dryRun g s).2.2.callbacks = s.callbacks
      ∧ (insert x event dryRun g s).2.2.nextPtr = s.nextPtr)
    ∨ ((insert x event dryRun g s).2.2.callbacks
        = (CreateProcessNode x event.ProcessCacheEntry [] g dryRun s).tree.callbacks
      ∧ (insert x event dryRun g s).2.2.nextPtr
        = (CreateProcessNode x event.ProcessCacheEntry [] g dryRun s).tree.nextPtr) := by
  by_cases hg : g = Unknown ∨ g > MaxNodeGenerationType
  · left
    unfold insert
    rw [if_pos hg]
    exact ⟨rfl, rfl⟩
  · cases hv : (isEventValid event dryRun s).1 with
    | false =>
      obtain ⟨e, d, he⟩ := insert_invalid x event dryRun g s hg hv
      left
      rw [he]
      exact ⟨rfl, rfl⟩
    | true =>
      right
      rw [insert_valid x event dryRun g s hg hv]
      split
      · exact ⟨rfl, rfl⟩
      · split
        · exact ⟨rfl, rfl⟩
        · split
          · exact ⟨rfl, rfl⟩
          · split
            · exact ⟨rfl, rfl⟩
            · have h := insertEvent_forest x event dryRun g (by assumption)
                (CreateProcessNode x event.ProcessCacheEntry [] g dryRun s).newProcessNode
                { (CreateProcessNode x event.ProcessCacheEntry [] g dryRun s).tree with
                  Stats := (CreateProcessNode x event.ProcessCacheEntry [] g dryRun
                    s).tree.Stats.incProcessed event.EventType }
              exact ⟨h.2.2, h.2.1⟩

/-- C30: the callbacks of the owner. During every mutating `Insert`, `NewProcessNodeCallback` is
called on nodes that the call has created only, on none of them twice, and no more often than
nodes were created; it is called once for each node created as a new root or as a new child, and
once for each rebase, on the first node of the chain that the rebase creates and on no other node
of the chain; and it is never called in dry-run mode. -/
theorem Insert_callbacks (x : Collaborators) (event : Event)
    (generationType : NodeGenerationType) (s : ActivityTree) :
    (∃ added, CallbacksAdded s (Insert x event generationType s).2.2 added)
    ∧ (∀ tree entry g t, (appendNewNode tree entry g t).callbacks = t.callbacks ++ [t.nextPtr]
        ∧ (appendNewNode tree entry g t).nextPtr = t.nextPtr + 1)
    ∧ (∀ tree branch i k g t, (rebaseTree tree branch i k g t).callbacks
          = t.callbacks ++ [t.nextPtr]
        ∧ (rebaseTree tree branch i k g t).nextPtr = t.nextPtr + i)
    ∧ (Contains x event generationType s).2.2.callbacks = s.callbacks
    ∧ (insert x event true generationType s).2.2.callbacks = s.callbacks := by
  refine ⟨?_, fun _ _ _ _ => ⟨rfl, rfl⟩, fun _ _ _ _ _ _ => ⟨rfl, rfl⟩, ?_, ?_⟩
  · obtain ⟨_, _, st, h3⟩ := Insert_stats x event generationType s
    rcases insert_callbacks_eq x event false generationType s with ⟨h1, h2⟩ | ⟨h1, h2⟩
    · refine ⟨[], CallbacksAdded_congr s s _ [] (CallbacksAdded_refl s) ?_ ?_⟩
      · rw [h3]; exact h1
      · rw [h3]; exact h2
    · obtain ⟨a, ha⟩ := CreateProcessNode_callbacks x event.ProcessCacheEntry [] generationType
        false s
      refine ⟨a, CallbacksAdded_congr s _ _ a ha ?_ ?_⟩
      · rw [h3]; exact h1
      · rw [h3]; exact h2
  · rw [Contains_tree]
    exact (insert_dryRun_forest x event generationType s).2.2
  · exact (insert_dryRun_forest x event generationType s).2.2

/-! ## The count of the exec events -/

/-- C34 (the code counts an exec event twice): the shell is the only node of `treeWithSh`; the
exec event of `make` under the shell, inserted with the generation type `ProfileDrift`, creates
one node, the one of `make` (the forest goes from one node to two, the allocator from 1 to 2),
and the counter `addedCount[exec][ProfileDrift]` goes from 0 to 2: once at the creation of the
node and once more in `Insert`. -/
theorem Insert_counts_exec_twice :
    countNodes treeWithSh.ProcessNodes = 1
    ∧ treeWithSh.nextPtr = 1
    ∧ treeWithSh.Stats.addedCount EventType.ExecEventType ProfileDrift = 0
    ∧ (Insert pathCollaborators (execEvent makeUnderShEntry) ProfileDrift treeWithSh).1 = true
    ∧ (Insert pathCollaborators (execEvent makeUnderShEntry) ProfileDrift treeWithSh).2.1 = none
    ∧ countNodes (Insert pathCollaborators (execEvent makeUnderShEntry) ProfileDrift
        treeWithSh).2.2.ProcessNodes = 2
    ∧ (Insert pathCollaborators (execEvent makeUnderShEntry) ProfileDrift
        treeWithSh).2.2.nextPtr = 2
    ∧ (insert pathCollaborators (execEvent makeUnderShEntry) false ProfileDrift
        treeWithSh).2.2.Stats.addedCount EventType.ExecEventType ProfileDrift = 1
    ∧ (Insert pathCollaborators (execEvent makeUnderShEntry) ProfileDrift
        treeWithSh).2.2.Stats.addedCount EventType.ExecEventType ProfileDrift = 2 := by
  decide

/-! ## The initial counts -/

theorem countNodes_eq_length (l : List ProcessNode) :
    countNodes l = (forestPtrs l).length ∧ ∀ n : ProcessNode, n.count = n.ptrs.length := by
  have key : ∀ k, (∀ l : List ProcessNode, countNodes l ≤ k → countNodes l = (forestPtrs l).length)
      ∧ (∀ n : ProcessNode, n.count ≤ k → n.count = n.ptrs.length) := by
    intro k
    induction k with
    | zero =>
      constructor
      · intro l hl
        cases l with
        | nil => rfl
        | cons n rest =>
          have := n.count_eq
          simp only [countNodes] at hl
          omega
      · intro n hn
        have := n.count_eq
        omega
    | succ k ih =>
      have hnode : ∀ n : ProcessNode, n.count ≤ k + 1 → n.count = n.ptrs.length := by
        intro n hn
        cases n with
        | mk p pr g e cs =>
          simp only [ProcessNode.count, ProcessNode.ptrs, List.length_cons] at hn ⊢
          rw [ih.1 cs (by omega)]
          omega
      refine ⟨?_, hnode⟩
      intro l
      induction l with
      | nil => intro _; rfl
      | cons n rest ihl =>
        intro hl
        simp only [countNodes, forestPtrs, List.length_append] at hl ⊢
        rw [hnode n (by omega), ihl (by omega)]
  exact ⟨(key _).1 l (Nat.le_refl _), fun n => (key _).2 n (Nat.le_refl _)⟩

/-- C35: on a tree whose four node counters hold zero, the two loops of
`ComputeActivityTreeStats` end within their bounds, and after the call `Stats.ProcessNodes` is
the number of process nodes of the forest, each counted once (the number of the pointers of the
forest), `Stats.DNSNodes` and `Stats.SocketNodes` are the sums of the sizes of the collections
of names and of sockets of the nodes, and `Stats.FileNodes` is the number of the file nodes of
their tries whose `File` is not nil; the root list, with every `Children` list, is as before. -/
theorem ComputeActivityTreeStats_initial (s : ActivityTree)
    (hp : s.Stats.ProcessNodes = 0) (hf : s.Stats.FileNodes = 0)
    (hd : s.Stats.DNSNodes = 0) (hk : s.Stats.SocketNodes = 0) :
    (∃ st fnodes, processNodesLoop s.payload (countNodes s.ProcessNodes + 1) s.ProcessNodes
        s.Stats [] = some (st, fnodes)
      ∧ ∃ st', fileNodesLoop (fileNodesSize fnodes + 1) fnodes st = some st'
        ∧ ComputeActivityTreeStats s = { s with Stats := st' })
    ∧ (ComputeActivityTreeStats s).Stats.ProcessNodes = countNodes s.ProcessNodes
    ∧ (ComputeActivityTreeStats s).Stats.ProcessNodes = (forestPtrs s.ProcessNodes).length
    ∧ (ComputeActivityTreeStats s).Stats.DNSNodes
        = forestSum (fun n => (s.payload n.ptr).DNSNames.length) s.ProcessNodes
    ∧ (ComputeActivityTreeStats s).Stats.SocketNodes
        = forestSum (fun n => (s.payload n.ptr).Sockets.length) s.ProcessNodes
    ∧ (ComputeActivityTreeStats s).Stats.FileNodes
        = forestSum (fun n => fileNodesWithFile (s.payload n.ptr).Files) s.ProcessNodes
    ∧ (ComputeActivityTreeStats s).ProcessNodes = s.ProcessNodes := by
  refine ⟨?_, ?_⟩
  · obtain ⟨X, hX, _⟩ := processNodesLoop_spec s.payload (countNodes s.ProcessNodes + 1)
      s.ProcessNodes s.Stats [] (by omega)
    refine ⟨_, _, hX, _, fileNodesLoop_spec _ _ _ (by omega), ?_⟩
    unfold ComputeActivityTreeStats
    rw [hX]
    simp only
    rw [fileNodesLoop_spec _ _ _ (by omega)]
  · rw [ComputeActivityTreeStats_adds]
    refine ⟨?_, ?_, ?_, ?_, ?_, rfl⟩
    · simp only [hp, zero_add]
    · simp only [hp, zero_add, (countNodes_eq_length s.ProcessNodes).1]
    · simp only [hd, zero_add]
    · simp only [hk, zero_add]
    · simp only [hf, zero_add]

/-- The tree `treeWithApp` with its node counters at zero: one process node is counted. -/
theorem ComputeActivityTreeStats_initial_witness :
    (ComputeActivityTreeStats treeWithAppZeroed).Stats.ProcessNodes
      = countNodes treeWithAppZeroed.ProcessNodes :=
  (ComputeActivityTreeStats_initial treeWithAppZeroed rfl rfl rfl rfl).2.1

/-! ## The recursion ends -/

theorem nextAncestorSteps_le (current : EntryInfo) (l : List EntryInfo) :
    nextAncestorSteps current l ≤ l.length := by
  induction l generalizing current with
  | nil => simp [nextAncestorSteps]
  | cons a rest ih =>
    simp only [nextAncestorSteps, List.length_cons]
    have := ih a
    repeat' split
    all_goals omega

/-- C36: `CreateProcessNode` ends on every entry. Every recursive call is made on
`GetNextAncestorBinaryOrArgv0` of the current entry, which is nil or one of its ancestors, with a
strictly shorter lineage; the recursion with a bound returns a result as soon as the bound
exceeds the length of the lineage (the entry and its ancestors), the same for every such bound,
so that the depth of the recursion is at most that length plus one; and the loop of
`GetNextAncestorBinaryOrArgv0` makes at most one turn per ancestor. -/
theorem CreateProcessNode_terminates (x : Collaborators) (entry : Option ProcessCacheEntry)
    (branch : List ProcessCacheEntry) (generationType : NodeGenerationType) (dryRun : Bool)
    (s : ActivityTree) :
    (∀ fuel, lineageDepth entry < fuel →
      createProcessNodeRec x fuel entry branch generationType dryRun s
        = some (CreateProcessNode x entry branch generationType dryRun s))
    ∧ (∀ e, entry = some e → lineageDepth entry = e.Ancestors.length + 1)
    ∧ (∀ e, lineageDepth (GetNextAncestorBinaryOrArgv0 (some e)) < lineageDepth (some e))
    ∧ (∀ e a, GetNextAncestorBinaryOrArgv0 (some e) = some a →
        ∃ pre, e.Ancestors = pre ++ a.info :: a.Ancestors)
    ∧ (∀ e : ProcessCacheEntry, nextAncestorSteps e.info e.Ancestors ≤ e.Ancestors.length) := by
  refine ⟨?_, ?_, lineageDepth_next, ?_, fun e => nextAncestorSteps_le _ _⟩
  · intro fuel h
    exact CreateProcessNode_eq x fuel entry branch generationType dryRun s h
  · intro e he
    rw [he]; rfl
  · intro e a h
    exact nextAncestorLoop_suffix _ _ _ h

/-! ## The boolean of Contains with an error -/

/-- A call of `insert` that returns an error returns false, in both modes. -/
theorem insert_error_flag (x : Collaborators) (event : Event) (dryRun : Bool)
    (g : NodeGenerationType) (s : ActivityTree)
    (h : (insert x event dryRun g s).2.1 ≠ none) : (insert x event dryRun g s).1 = false := by
  by_cases hg : g = Unknown ∨ g > MaxNodeGenerationType
  · unfold insert; rw [if_pos hg]
  · cases hv : (isEventValid event dryRun s).1 with
    | false =>
      obtain ⟨e, d, he⟩ := insert_invalid x event dryRun g s hg hv
      rw [he]
    | true =>
      rw [insert_valid x event dryRun g s hg hv] at h ⊢
      split
      · rfl
      · rw [if_neg (by assumption)] at h
        split
        · rw [if_pos (by assumption)] at h
          exact absurd rfl h
        · rw [if_neg (by assumption)] at h
          split
          · rfl
          · rename_i n hn
            rw [hn] at h
            simp only at h
            split
            · rfl
            · rw [if_neg (by assumption)] at h
              exact absurd (insertEvent_err _ _ _ _ _ _ _) h

/-- C37: for every tree, event and generation type, if `Contains` returns an error then its
boolean is true, and if `Insert` returns an error then its boolean is false. -/
theorem Contains_true_on_error (x : Collaborators) (event : Event)
    (generationType : NodeGenerationType) (s : ActivityTree) :
    ((Contains x event generationType s).2.1 ≠ none → (Contains x event generationType s).1 = true)
    ∧ ((Insert x event generationType s).2.1 ≠ none →
        (Insert x event generationType s).1 = false) := by
  constructor
  · intro h
    have hC : (Contains x event generationType s).1 = !(insert x event true generationType s).1
        ∧ (Contains x event generationType s).2.1
          = (insert x event true generationType s).2.1 := ⟨rfl, rfl⟩
    rw [hC.2] at h
    rw [hC.1, insert_error_flag x event true generationType s h]
    rfl
  · intro h
    obtain ⟨h1, h2, _⟩ := Insert_stats x event generationType s
    rw [h2] at h
    rw [h1]
    exact insert_error_flag x event false generationType s h

/-- Errors of six kinds returned by `Contains`, with true, and one returned by `Insert`, with
false. -/
theorem Contains_true_on_error_witness :
    ((Contains pathCollaborators (execEvent appEntry) Unknown emptyTree).2.1 ≠ none
      ∧ (Contains pathCollaborators (execEvent appEntry) Unknown emptyTree).1 = true)
    ∧ ((Contains pathCollaborators (bindEvent appEntry AF_UNIX) Runtime emptyTree).2.1 ≠ none
      ∧ (Contains pathCollaborators (bindEvent appEntry AF_UNIX) Runtime emptyTree).1 = true)
    ∧ ((Contains pathCollaborators (execEvent brokenEntry) Runtime emptyTree).2.1
        = some Error.ErrBrokenLineage
      ∧ (Contains pathCollaborators (execEvent brokenEntry) Runtime emptyTree).1 = true)
    ∧ ((Contains pathCollaborators (execEvent makeEntry) Runtime shellTree).2.1
        = some Error.ErrContainerIDNotEqual
      ∧ (Contains pathCollaborators (execEvent makeEntry) Runtime shellTree).1 = true)
    ∧ ((Contains pathCollaborators (execEvent shimEntry) Runtime emptyTree).2.1
        = some Error.ErrNotValidRootNode
      ∧ (Contains pathCollaborators (execEvent shimEntry) Runtime emptyTree).1 = true)
    ∧ ((Contains pathCollaborators (brokenExecEvent appEntry) Runtime treeWithApp).2.1
        = some (Error.eventError "unresolved")
      ∧ (Contains pathCollaborators (brokenExecEvent appEntry) Runtime treeWithApp).1 = true)
    ∧ ((Insert pathCollaborators (execEvent shimEntry) Runtime emptyTree).2.1 ≠ none
      ∧ (Insert pathCollaborators (execEvent shimEntry) Runtime emptyTree).1 = false) :=
  ⟨⟨by decide, (Contains_true_on_error _ _ _ _).1 (by decide)⟩,
    ⟨by decide, (Contains_true_on_error _ _ _ _).1 (by decide)⟩,
    ⟨by decide, (Contains_true_on_error _ _ _ _).1 (by decide)⟩,
    ⟨by decide, (Contains_true_on_error _ _ _ _).1 (by decide)⟩,
    ⟨by decide, (Contains_true_on_error _ _ _ _).1 (by decide)⟩,
    ⟨by decide, (Contains_true_on_error _ _ _ _).1 (by decide)⟩,
    ⟨by decide, (Contains_true_on_error _ _ _ _).2 (by decide)⟩⟩

/-! ## The least busy node -/

/-- C32 (the preferred node loses a tie): the nodes `node2` and `node3` of `twoLeastBusy` both
have the minimal busyness 1, with two checks on `node2` and one on `node3`, and `node2` is the
preferred node. When the iteration gives `node2` before `node3`, `leastBusyNode` returns `node3`
and `addToLeastBusy` places the new check on it; when the iteration gives `node3` first, the
check goes to `node2`. -/
theorem leastBusyNode_not_preferred :
    twoLeastBusy.nodes = [("node2", ⟨1, 2⟩), ("node3", ⟨1, 1⟩)]
    ∧ leastBusyNode twoLeastBusy "node2" = "node3"
    ∧ nodeForCheck (addToLeastBusy twoLeastBusy "newCheck" 10 "node2") "newCheck" = "node3"
    ∧ leastBusyNode { twoLeastBusy with nodes := twoLeastBusy.nodes.reverse } "node2" = "node2"
    ∧ nodeForCheck (addToLeastBusy { twoLeastBusy with nodes := twoLeastBusy.nodes.reverse }
        "newCheck" 10 "node2") "newCheck" = "node2" := by
  decide

/-- With no nodes, `leastBusyNode` returns the empty string and `addToLeastBusy` places
nothing. -/
theorem addToLeastBusy_no_nodes (distribution : checksDistribution) (checkID : String)
    (checkBusyness : Int) (preferredNode : String) (h : distribution.nodes = []) :
    leastBusyNode distribution preferredNode = ""
    ∧ addToLeastBusy distribution checkID checkBusyness preferredNode = distribution := by
  have h1 : leastBusyNode distribution preferredNode = "" := by
    simp [leastBusyNode, h, leastBusyLoop]
  exact ⟨h1, by simp [addToLeastBusy, h1]⟩

/-- The variables of the loop of `leastBusyNode` hold a node that was seen, with its busyness
and its number of checks, and no node that was seen has a smaller busyness. -/
theorem leastBusyLoop_min (preferredNode : String) (l seen : List (String × NodeStatus))
    (acc : String × Int × Int)
    (hl : ∀ p ∈ l, p.1 ≠ "")
    (hacc : (acc.1 = "" ∧ seen = [])
      ∨ (acc.1 ≠ "" ∧ (acc.1, (⟨acc.2.1, acc.2.2⟩ : NodeStatus)) ∈ seen
        ∧ ∀ p ∈ seen, acc.2.1 ≤ p.2.busyness)) :
    ((leastBusyLoop preferredNode l acc).1 = "" ∧ seen ++ l = [])
    ∨ ((leastBusyLoop preferredNode l acc).1 ≠ ""
      ∧ ((leastBusyLoop preferredNode l acc).1,
          (⟨(leastBusyLoop preferredNode l acc).2.1,
            (leastBusyLoop preferredNode l acc).2.2⟩ : NodeStatus)) ∈ seen ++ l
      ∧ ∀ p ∈ seen ++ l, (leastBusyLoop preferredNode l acc).2.1 ≤ p.2.busyness) := by
  induction l generalizing seen acc with
  | nil =>
    simp only [leastBusyLoop, List.append_nil]
    exact hacc
  | cons q rest ih =>
    obtain ⟨name, st⟩ := q
    obtain ⟨lb, mb, nc⟩ := acc
    have hname : name ≠ "" := hl (name, st) (List.mem_cons_self _ _)
    have hrest : ∀ p ∈ rest, p.1 ≠ "" := fun p hp => hl p (List.mem_cons_of_mem _ hp)
    have happ : seen ++ (name, st) :: rest = (seen ++ [(name, st)]) ++ rest := by simp
    simp only [leastBusyLoop]
    rw [happ]
    split
    · rename_i hsel
      apply ih (seen ++ [(name, st)]) _ hrest
      right
      refine ⟨hname, by simp, ?_⟩
      intro p hp
      rcases List.mem_append.mp hp with hp | hp
      · rcases hacc with ⟨h1, h2⟩ | ⟨h1, h2, h3⟩
        · rw [h2] at hp; cases hp
        · have := h3 p hp
          simp only at h1 this ⊢
          rcases hsel with h | h | h | h
          · exact absurd h h1
          · omega
          · omega
          · omega
      · simp only [List.mem_singleton] at hp
        rw [hp]
    · rename_i hsel
      simp only [not_or] at hsel
      apply ih (seen ++ [(name, st)]) _ hrest
      rcases hacc with ⟨h1, h2⟩ | ⟨h1, h2, h3⟩
      · exact absurd h1 hsel.1
      · right
        refine ⟨h1, List.mem_append_left _ h2, ?_⟩
        intro p hp
        rcases List.mem_append.mp hp with hp | hp
        · exact h3 p hp
        · simp only [List.mem_singleton] at hp
          rw [hp]
          simp only at hsel ⊢
          omega

/-- When no node has the empty name, the node that `leastBusyNode` returns is a node of the
distribution and no node has a smaller busyness, for every order of the iteration. -/
theorem leastBusyNode_min (distribution : checksDistribution) (preferredNode : String)
    (hne : distribution.nodes ≠ []) (hnames : ∀ p ∈ distribution.nodes, p.1 ≠ "") :
    ∃ st, (leastBusyNode distribution preferredNode, st) ∈ distribution.nodes
      ∧ ∀ p ∈ distribution.nodes, st.busyness ≤ p.2.busyness := by
  rcases leastBusyLoop_min preferredNode distribution.nodes [] ("", 0, 0) hnames
    (Or.inl ⟨rfl, rfl⟩) with ⟨_, h⟩ | ⟨_, h2, h3⟩
  · simp only [List.nil_append] at h
    exact absurd h hne
  · simp only [List.nil_append] at h2 h3
    exact ⟨_, h2, h3⟩

/-- Once the variables of the loop hold the preferred node, they hold it to the end, when no
node left has a smaller busyness, or the same busyness and fewer checks, or the name of the
preferred node. -/
theorem leastBusyLoop_keeps (preferredNode : String) (l : List (String × NodeStatus))
    (b c : Int) (hp : preferredNode ≠ "")
    (hl : ∀ p ∈ l, p.1 ≠ preferredNode ∧ b ≤ p.2.busyness
      ∧ (p.2.busyness = b → c ≤ p.2.numChecks)) :
    leastBusyLoop preferredNode l (preferredNode, b, c) = (preferredNode, b, c) := by
  induction l with
  | nil => rfl
  | cons q rest ih =>
    obtain ⟨name, st⟩ := q
    obtain ⟨h1, h2, h3⟩ := hl (name, st) (List.mem_cons_self _ _)
    simp only [leastBusyLoop]
    rw [if_neg]
    · exact ih (fun p hp' => hl p (List.mem_cons_of_mem _ hp'))
    · simp only at h1 h2 h3
      rintro (h | h | ⟨_, h⟩ | ⟨h, h'⟩)
      · exact hp h
      · omega
      · exact h1 h
      · have := h3 h
        omega

theorem leastBusyLoop_append (preferredNode : String) (l t : List (String × NodeStatus))
    (acc : String × Int × Int) :
    leastBusyLoop preferredNode (l ++ t) acc
      = leastBusyLoop preferredNode t (leastBusyLoop preferredNode l acc) := by
  induction l generalizing acc with
  | nil => rfl
  | cons q rest ih =>
    obtain ⟨name, s⟩ := q
    obtain ⟨lb, mb, nc⟩ := acc
    by_cases hc : lb = "" ∨ s.busyness < mb ∨ (s.busyness = mb ∧ name = preferredNode)
        ∨ (s.busyness = mb ∧ s.numChecks < nc)
    · rw [List.cons_append, leastBusyLoop, if_pos hc, leastBusyLoop, if_pos hc]
      exact ih _
    · rw [List.cons_append, leastBusyLoop, if_neg hc, leastBusyLoop, if_neg hc]
      exact ih _

/-- When the preferred node has the minimal busyness and no node of that busyness has fewer
checks, `leastBusyNode` returns the preferred node, for every order of the iteration. -/
theorem leastBusyNode_preferred (distribution : checksDistribution) (preferredNode : String)
    (st : NodeStatus) (pre post : List (String × NodeStatus))
    (hp : preferredNode ≠ "")
    (hn : distribution.nodes = pre ++ (preferredNode, st) :: post)
    (hnames : ∀ p ∈ pre ++ post, p.1 ≠ "" ∧ p.1 ≠ preferredNode)
    (hmin : ∀ p ∈ pre ++ post, st.busyness ≤ p.2.busyness
      ∧ (p.2.busyness = st.busyness → st.numChecks ≤ p.2.numChecks)) :
    leastBusyNode distribution preferredNode = preferredNode := by
  unfold leastBusyNode
  rw [hn, leastBusyLoop_append]
  have hinv := leastBusyLoop_min preferredNode pre [] ("", 0, 0)
    (fun p hp' => (hnames p (List.mem_append_left _ hp')).1) (Or.inl ⟨rfl, rfl⟩)
  have hsel : leastBusyLoop preferredNode ((preferredNode, st) :: post)
      (leastBusyLoop preferredNode pre ("", 0, 0))
      = leastBusyLoop preferredNode post (preferredNode, st.busyness, st.numChecks) := by
    cases hr : leastBusyLoop preferredNode pre ("", 0, 0) with
    | mk lb r =>
      obtain ⟨mb, nc⟩ := r
      rw [hr] at hinv
      simp only [leastBusyLoop]
      rw [if_pos]
      rcases hinv with ⟨h1, _⟩ | ⟨_, h2, _⟩
      · exact Or.inl h1
      · simp only [List.nil_append] at h2
        have := (hmin _ (List.mem_append_left _ h2)).1
        simp only at this
        by_cases h : st.busyness < mb
        · exact Or.inr (Or.inl h)
        · exact Or.inr (Or.inr (Or.inl ⟨by omega, trivial⟩))
  rw [hsel, leastBusyLoop_keeps preferredNode post _ _ hp]
  intro p hp'
  have h1 := hnames p (List.mem_append_right _ hp')
  have h2 := hmin p (List.mem_append_right _ hp')
  exact ⟨h1.2, h2.1, h2.2⟩

/-! ## What the branch search examines -/

/-- The indexes examined from the index `i` on are reached through entries that are not found
and that are followed by exec children. -/
theorem examinedIndexes_spec (x : Collaborators) (tree : SiblingsRef) (s : ActivityTree)
    (branch : List ProcessCacheEntry) (rest : List ProcessCacheEntry) (i : Nat)
    (hrest : rest = branch.drop i) (j : Nat) (hj : j ∈ examinedIndexes x tree s i rest) :
    i ≤ j ∧ j < branch.length
    ∧ (∀ k, i ≤ k → k < j → ∀ c, branch[k]? = some c →
        findProcessCacheEntryInChildrenNodes x s.differentiateArgs (getSiblings tree s) c = none)
    ∧ (∀ k, i < k → k ≤ j → ∀ c, branch[k]? = some c → c.info.IsExecChild = true) := by
  induction rest generalizing i with
  | nil => simp [examinedIndexes] at hj
  | cons c rest ih =>
    have hil : i < branch.length := by
      rcases Nat.lt_or_ge i branch.length with h | h
      · exact h
      · rw [List.drop_eq_nil_of_le h] at hrest; cases hrest
    have hd := List.drop_eq_getElem_cons hil
    rw [hd] at hrest
    have hc : c = branch[i] := (List.cons.inj hrest).1
    have hr : rest = branch.drop (i + 1) := (List.cons.inj hrest).2
    simp only [examinedIndexes, List.mem_cons] at hj
    rcases hj with hj | hj
    · subst hj
      refine ⟨Nat.le_refl _, hil, ?_, ?_⟩
      · intro k h1 h2; omega
      · intro k h1 h2; omega
    · cases hf : findProcessCacheEntryInChildrenNodes x s.differentiateArgs
          (getSiblings tree s) c with
      | some r => rw [hf] at hj; cases hj
      | none =>
        rw [hf] at hj
        simp only at hj
        cases rest with
        | nil => cases hj
        | cons next rest' =>
          simp only at hj
          cases hn : next.info.IsExecChild with
          | false => simp [hn] at hj
          | true =>
            rw [hn] at hj
            simp only [if_true] at hj
            obtain ⟨h1, h2, h3, h4⟩ := ih (i + 1) hr hj
            have hi1 : i + 1 < branch.length := by omega
            have hnext : next = branch[i + 1] := by
              have := List.drop_eq_getElem_cons hi1
              rw [this] at hr
              exact (List.cons.inj hr).1
            refine ⟨by omega, h2, ?_, ?_⟩
            · intro k hk1 hk2 c' hc'
              rcases Nat.eq_or_lt_of_le hk1 with h | h
              · subst h
                rw [List.getElem?_eq_getElem hil] at hc'
                cases hc'
                rw [← hc]; exact hf
              · exact h3 k (by omega) hk2 c' hc'
            · intro k hk1 hk2 c' hc'
              rcases Nat.eq_or_lt_of_le hk1 with h | h
              · subst h
                rw [List.getElem?_eq_getElem hi1] at hc'
                cases hc'
                rw [← hnext]; exact hn
              · exact h4 k (by omega) hk2 c' hc'

/-- The loop examines every index that is reached through entries that are not found and that
are followed by exec children. -/
theorem examinedIndexes_mem (x : Collaborators) (tree : SiblingsRef) (s : ActivityTree)
    (branch : List ProcessCacheEntry) (j : Nat) (hj : j < branch.length) (d i : Nat)
    (hd : i + d = j)
    (hnone : ∀ k, i ≤ k → k < j → ∀ c, branch[k]? = some c →
      findProcessCacheEntryInChildrenNodes x s.differentiateArgs (getSiblings tree s) c = none)
    (hexec : ∀ k, i < k → k ≤ j → ∀ c, branch[k]? = some c → c.info.IsExecChild = true) :
    j ∈ examinedIndexes x tree s i (branch.drop i) := by
  induction d generalizing i with
  | zero =>
    have : i = j := by omega
    subst this
    rw [List.drop_eq_getElem_cons hj]
    simp only [examinedIndexes]
    exact List.mem_cons_self _ _
  | succ d ih =>
    have hil : i < branch.length := by omega
    have hi1 : i + 1 < branch.length := by omega
    have hrec := ih (i + 1) (by omega)
      (fun k h1 h2 => hnone k (by omega) h2) (fun k h1 h2 => hexec k (by omega) h2)
    have hf := hnone i (Nat.le_refl _) (by omega) branch[i] (List.getElem?_eq_getElem hil)
    have hx := hexec (i + 1) (by omega) (by omega) branch[i + 1]
      (List.getElem?_eq_getElem hi1)
    generalize hrest : branch.drop (i + 1) = rest at hrec
    have hre : rest = branch[i + 1] :: branch.drop (i + 1 + 1) := by
      rw [← hrest]; exact List.drop_eq_getElem_cons hi1
    rw [List.drop_eq_getElem_cons hil, hrest]
    simp only [examinedIndexes, hf]
    apply List.mem_cons_of_mem
    cases rest with
    | nil => cases hre
    | cons next rest' =>
      have hn : next = branch[i + 1] := (List.cons.inj hre).1
      simp only [hn, hx, if_true]
      rw [← hn]
      exact hrec

/-- When no entry that the loop examines is found, the loop returns nil and false. -/
theorem findBranchLoop_not_found (x : Collaborators) (tree : SiblingsRef)
    (branch : List ProcessCacheEntry) (dryRun : Bool) (g : NodeGenerationType)
    (s : ActivityTree) (rest : List ProcessCacheEntry) (i : Nat)
    (hrest : rest = branch.drop i)
    (h : ∀ j ∈ examinedIndexes x tree s i rest, ∀ c, branch[j]? = some c →
      findProcessCacheEntryInChildrenNodes x s.differentiateArgs (getSiblings tree s) c = none) :
    findBranchLoop x tree branch dryRun g s i rest = (none, false, s) := by
  induction rest generalizing i with
  | nil => rfl
  | cons c rest ih =>
    have hil : i < branch.length := by
      rcases Nat.lt_or_ge i branch.length with h' | h'
      · exact h'
      · rw [List.drop_eq_nil_of_le h'] at hrest; cases hrest
    have hd := List.drop_eq_getElem_cons hil
    rw [hd] at hrest
    have hc : c = branch[i] := (List.cons.inj hrest).1
    have hr : rest = branch.drop (i + 1) := (List.cons.inj hrest).2
    have hf : findProcessCacheEntryInChildrenNodes x s.differentiateArgs
        (getSiblings tree s) c = none :=
      h i (by simp [examinedIndexes]) c (by rw [List.getElem?_eq_getElem hil, hc])
    have hmem : ∀ j, j ∈ (match rest with
        | [] => []
        | next :: _ =>
          if next.info.IsExecChild then examinedIndexes x tree s (i + 1) rest else []) →
        j ∈ examinedIndexes x tree s i (c :: rest) := by
      intro j hj
      simp only [examinedIndexes, hf]
      exact List.mem_cons_of_mem _ hj
    simp only [findBranchLoop, hf]
    cases rest with
    | nil => rfl
    | cons next rest' =>
      simp only
      cases hn : next.info.IsExecChild with
      | false => simp
      | true =>
        simp only [if_true]
        apply ih (i + 1) hr
        intro j hj c' hc'
        apply h j (hmem j _) c' hc'
        simp only [hn, if_true]
        exact hj

/-- C33: the outcome of the search of `findBranchInChildrenNodes`, in both modes. The loop
examines `branch[j]` only when none of `branch[0..j-1]` was found in the list of siblings
(`findProcessCacheEntryInChildrenNodes` looks at the siblings and at their exec chains) and every
one of `branch[1..j]` is an exec child, and it examines every such `branch[j]`; if `branch[0]`
is found the call returns that node with false and the tree it was given; if no entry examined
is found, which covers the empty branch and the empty list of siblings, it returns nil and
false, and the tree it was given. -/
theorem findBranchInChildrenNodes_outcome (x : Collaborators) (tree : SiblingsRef)
    (branch : List ProcessCacheEntry) (dryRun : Bool) (generationType : NodeGenerationType)
    (s : ActivityTree) :
    (∀ j, j ∈ examinedIndexes x tree s 0 branch →
      j < branch.length
      ∧ (∀ k, k < j → ∀ c, branch[k]? = some c →
          findProcessCacheEntryInChildrenNodes x s.differentiateArgs (getSiblings tree s) c
            = none)
      ∧ (∀ k, 0 < k → k ≤ j → ∀ c, branch[k]? = some c → c.info.IsExecChild = true))
    ∧ (∀ j, j < branch.length →
        (∀ k, k < j → ∀ c, branch[k]? = some c →
          findProcessCacheEntryInChildrenNodes x s.differentiateArgs (getSiblings tree s) c
            = none) →
        (∀ k, 0 < k → k ≤ j → ∀ c, branch[k]? = some c → c.info.IsExecChild = true) →
        j ∈ examinedIndexes x tree s 0 branch)
    ∧ (∀ e rest n k, branch = e :: rest →
        findProcessCacheEntryInChildrenNodes x s.differentiateArgs (getSiblings tree s) e
          = some (n, k) →
        findBranchInChildrenNodes x tree branch dryRun generationType s
          = (some n.ptr, false, s))
    ∧ ((∀ j ∈ examinedIndexes x tree s 0 branch, ∀ c, branch[j]? = some c →
          findProcessCacheEntryInChildrenNodes x s.differentiateArgs (getSiblings tree s) c
            = none) →
        findBranchInChildrenNodes x tree branch dryRun generationType s = (none, false, s))
    ∧ (branch = [] →
        findBranchInChildrenNodes x tree branch dryRun generationType s = (none, false, s))
    ∧ (getSiblings tree s = [] →
        findBranchInChildrenNodes x tree branch dryRun generationType s = (none, false, s)) := by
  refine ⟨?_, ?_, ?_, ?_, ?_, ?_⟩
  · intro j hj
    obtain ⟨_, h2, h3, h4⟩ := examinedIndexes_spec x tree s branch branch 0 rfl j hj
    exact ⟨h2, fun k hk => h3 k (Nat.zero_le _) hk, h4⟩
  · intro j hj hnone hexec
    have := examinedIndexes_mem x tree s branch j hj j 0 (by omega)
      (fun k _ h2 => hnone k h2) hexec
    rw [List.drop_zero] at this
    exact this
  · intro e rest n k hb hf
    subst hb
    simp [findBranchInChildrenNodes, findBranchLoop, hf]
  · intro h
    exact findBranchLoop_not_found x tree branch dryRun generationType s branch 0 rfl h
  · intro hb
    subst hb
    rfl
  · intro hs
    exact findBranchLoop_empty x tree branch dryRun generationType s hs 0 _

/-! ## The nodes that a call allocates -/

theorem forestTags_append (l₁ l₂ : List ProcessNode) :
    forestTags (l₁ ++ l₂) = forestTags l₁ ++ forestTags l₂ := by
  induction l₁ with
  | nil => simp [forestTags]
  | cons n rest ih => simp [forestTags, ih]

mutual
theorem ProcessNode.tags_length : ∀ n : ProcessNode, n.tags.length = n.count
  | .mk p pr g e cs => by
    simp only [ProcessNode.tags, ProcessNode.count, List.length_cons, forestTags_length cs]
    omega
theorem forestTags_length : ∀ l : List ProcessNode, (forestTags l).length = countNodes l
  | [] => rfl
  | n :: rest => by
    simp only [forestTags, countNodes, List.length_append, ProcessNode.tags_length n,
      forestTags_length rest]
end

mutual
theorem ProcessNode.tags_ptrs : ∀ n : ProcessNode, n.tags.map Prod.fst = n.ptrs
  | .mk p pr g e cs => by
    simp only [ProcessNode.tags, ProcessNode.ptrs, List.map_cons, forestTags_ptrs cs]
theorem forestTags_ptrs : ∀ l : List ProcessNode, (forestTags l).map Prod.fst = forestPtrs l
  | [] => rfl
  | n :: rest => by
    simp only [forestTags, forestPtrs, List.map_append, ProcessNode.tags_ptrs n,
      forestTags_ptrs rest]
end

mutual
theorem ProcessNode.tag_mem_of_nodes (n : ProcessNode) :
    ∀ m : ProcessNode, n ∈ m.nodes → (n.ptr, n.GenerationType) ∈ m.tags
  | .mk p pr g e cs, h => by
    simp only [ProcessNode.nodes, List.mem_cons] at h
    simp only [ProcessNode.tags, List.mem_cons]
    rcases h with h | h
    · left; rw [h]; rfl
    · right; exact tag_mem_forestTags n cs h
theorem tag_mem_forestTags (n : ProcessNode) :
    ∀ l : List ProcessNode, n ∈ forestNodes l → (n.ptr, n.GenerationType) ∈ forestTags l
  | [], h => by simp [forestNodes] at h
  | m :: rest, h => by
    simp only [forestNodes, List.mem_append] at h
    simp only [forestTags, List.mem_append]
    rcases h with h | h
    · exact Or.inl (ProcessNode.tag_mem_of_nodes n m h)
    · exact Or.inr (tag_mem_forestTags n rest h)
end

theorem mem_forestPtrs_iff_tags (l : List ProcessNode) (q : Nat) :
    q ∈ forestPtrs l ↔ ∃ g, (q, g) ∈ forestTags l := by
  rw [← forestTags_ptrs, List.mem_map]
  constructor
  · rintro ⟨⟨q', g⟩, h, rfl⟩; exact ⟨g, h⟩
  · rintro ⟨g, h⟩; exact ⟨(q, g), h, rfl⟩

mutual
/-- The rewriting of the `Children` of the node of pointer `p` rewrites the part of the tags of
the tree that these children make. -/
theorem ProcessNode.modifyChildren_tags (p : Nat) (f : List ProcessNode → List ProcessNode) :
    ∀ (n n' : ProcessNode), n.modifyChildren p f = some n' →
      ∃ pn before after, n.find p = some pn
        ∧ n.tags = before ++ forestTags pn.Children ++ after
        ∧ n'.tags = before ++ forestTags (f pn.Children) ++ after
  | .mk q pr g e cs, n', h => by
    simp only [ProcessNode.modifyChildren] at h
    simp only [ProcessNode.find]
    split at h
    · rename_i hq
      cases h
      refine ⟨.mk q pr g e cs, [(q, g)], [], by simp [hq], ?_, ?_⟩
      · simp [ProcessNode.tags, ProcessNode.Children]
      · simp [ProcessNode.tags, ProcessNode.Children]
    · rename_i hq
      split at h
      · rename_i cs' hcs
        cases h
        obtain ⟨pn, before, after, h1, h2, h3⟩ := modifyChildrenIn_tags p f cs cs' hcs
        refine ⟨pn, (q, g) :: before, after, by simp [hq, h1], ?_, ?_⟩
        · simp [ProcessNode.tags, h2]
        · simp [ProcessNode.tags, h3]
      · cases h
theorem modifyChildrenIn_tags (p : Nat) (f : List ProcessNode → List ProcessNode) :
    ∀ (l l' : List ProcessNode), modifyChildrenIn p f l = some l' →
      ∃ pn before after, findNode p l = some pn
        ∧ forestTags l = before ++ forestTags pn.Children ++ after
        ∧ forestTags l' = before ++ forestTags (f pn.Children) ++ after
  | [], _, h => by simp [modifyChildrenIn] at h
  | n :: rest, l', h => by
    simp only [modifyChildrenIn] at h
    simp only [findNode]
    split at h
    · rename_i n' hn
      cases h
      obtain ⟨pn, before, after, h1, h2, h3⟩ := ProcessNode.modifyChildren_tags p f n n' hn
      refine ⟨pn, before, after ++ forestTags rest, by simp [h1], ?_, ?_⟩
      · simp [forestTags, h2]
      · simp [forestTags, h3]
    · rename_i hn
      split at h
      · rename_i rest' hr
        cases h
        obtain ⟨pn, before, after, h1, h2, h3⟩ := modifyChildrenIn_tags p f rest rest' hr
        have hfn : n.find p = none := by
          cases hfind : n.find p with
          | none => rfl
          | some r =>
            obtain ⟨n', h', _⟩ := ProcessNode.find_modifyChildren p f n r hfind
            rw [hn] at h'
            cases h'
        refine ⟨pn, n.tags ++ before, after, by simp [hfn, h1], ?_, ?_⟩
        · simp [forestTags, h2]
        · simp [forestTags, h3]
      · cases h
end

/-- The rewriting of a list of the tree rewrites the part of the tags of the forest that the
list makes. -/
theorem updateSiblings_tags (tree : SiblingsRef) (f : List ProcessNode → List ProcessNode)
    (s : ActivityTree) (h : tree.InTree s) :
    ∃ before after,
      forestTags s.ProcessNodes = before ++ forestTags (getSiblings tree s) ++ after
      ∧ forestTags (updateSiblings tree f s).ProcessNodes
          = before ++ forestTags (f (getSiblings tree s)) ++ after := by
  cases tree with
  | roots => exact ⟨[], [], by simp [getSiblings], by simp [getSiblings, updateSiblings]⟩
  | childrenOf p =>
    obtain ⟨pn, hpn⟩ := findNode_of_mem p _ h
    obtain ⟨l', h1, _⟩ := findNode_modifyChildrenIn p f _ _ hpn
    obtain ⟨pn', before, after, h2, h3, h4⟩ := modifyChildrenIn_tags p f _ _ h1
    rw [hpn] at h2
    cases h2
    refine ⟨before, after, ?_, ?_⟩
    · simp only [getSiblings, hpn]; exact h3
    · simp only [getSiblings, updateSiblings, hpn, h1]; exact h4

theorem newTags_succ (g : NodeGenerationType) (ptr a : Nat) :
    newTags g ptr (a + 1) = (ptr, g) :: newTags g (ptr + 1) a := by
  simp only [newTags, List.range_succ_eq_map, List.map_cons, List.map_map, Nat.add_zero]
  congr 1
  apply List.map_congr_left
  intro i _
  simp only [Function.comp, Prod.mk.injEq, and_true]
  omega

theorem newTags_add (g : NodeGenerationType) (ptr a b : Nat) :
    newTags g ptr (a + b) = newTags g ptr a ++ newTags g (ptr + a) b := by
  induction a generalizing ptr with
  | zero => simp [newTags]
  | succ a ih =>
    have : a + 1 + b = (a + b) + 1 := by omega
    rw [this, newTags_succ, newTags_succ, ih]
    simp only [List.cons_append]
    have : ptr + 1 + a = ptr + (a + 1) := by omega
    rw [this]

theorem mem_newTags (g : NodeGenerationType) (ptr a : Nat) (t : Nat × NodeGenerationType) :
    t ∈ newTags g ptr a ↔ t.2 = g ∧ ptr ≤ t.1 ∧ t.1 < ptr + a := by
  obtain ⟨q, g'⟩ := t
  simp only [newTags, List.mem_map, List.mem_range, Prod.mk.injEq]
  constructor
  · rintro ⟨i, hi, h1, h2⟩
    exact ⟨h2.symm, by omega, by omega⟩
  · rintro ⟨h1, h2, h3⟩
    exact ⟨q - ptr, by omega, by omega, h1.symm⟩

theorem newTags_length (g : NodeGenerationType) (ptr a : Nat) :
    (newTags g ptr a).length = a := by
  simp [newTags]

theorem rebaseChain_tags (g : NodeGenerationType) (entries : List ProcessCacheEntry)
    (ptr : Nat) (moved : ProcessNode) :
    (rebaseChain g entries ptr moved).tags = newTags g ptr entries.length ++ moved.tags := by
  induction entries generalizing ptr with
  | nil => simp [rebaseChain, newTags]
  | cons e rest ih =>
    simp only [rebaseChain, ProcessNode.tags, forestTags, List.append_nil, ih, List.length_cons,
      newTags_succ, List.cons_append]

theorem eraseIdx_tags (l : List ProcessNode) (k : Nat) (moved : ProcessNode)
    (h : l[k]? = some moved) :
    ∃ before after, forestTags l = before ++ moved.tags ++ after
      ∧ forestTags (l.eraseIdx k) = before ++ after := by
  induction l generalizing k with
  | nil => simp at h
  | cons n rest ih =>
    cases k with
    | zero =>
      simp only [List.getElem?_cons_zero, Option.some.injEq] at h
      subst h
      exact ⟨[], forestTags rest, by simp [forestTags], by simp⟩
    | succ k =>
      simp only [List.getElem?_cons_succ] at h
      obtain ⟨before, after, h1, h2⟩ := ih k h
      exact ⟨n.tags ++ before, after, by simp [forestTags, h1], by simp [forestTags, h2]⟩

theorem rebaseSiblings_tags (g : NodeGenerationType) (entries : List ProcessCacheEntry)
    (ptr k : Nat) (l : List ProcessNode) (moved : ProcessNode) (h : l[k]? = some moved) :
    (forestTags (rebaseSiblings g entries ptr k l)).Perm
      (forestTags l ++ newTags g ptr entries.length) := by
  obtain ⟨before, after, h1, h2⟩ := eraseIdx_tags l k moved h
  simp only [rebaseSiblings, h, forestTags_append, forestTags, List.append_nil, rebaseChain_tags,
    h1, h2]
  have e1 : before ++ after ++ (newTags g ptr entries.length ++ moved.tags)
      = before ++ (after ++ newTags g ptr entries.length ++ moved.tags) := by simp
  have e2 : before ++ moved.tags ++ after ++ newTags g ptr entries.length
      = before ++ (moved.tags ++ (after ++ newTags g ptr entries.length)) := by simp
  rw [e1, e2]
  exact List.Perm.append_left _ List.perm_append_comm

/-- A new node appended to a list of the tree. -/
theorem appendNewNode_allocated (tree : SiblingsRef) (entry : ProcessCacheEntry)
    (g : NodeGenerationType) (s : ActivityTree) (h : tree.InTree s) :
    Allocated g 1 s (appendNewNode tree entry g s) := by
  obtain ⟨before, after, h1, h2⟩ := updateSiblings_tags tree
    (fun siblings => siblings ++ [NewProcessNode entry g s.nextPtr]) s h
  refine ⟨rfl, rfl, ?_⟩
  · have : (appendNewNode tree entry g s).ProcessNodes
        = (updateSiblings tree
            (fun siblings => siblings ++ [NewProcessNode entry g s.nextPtr]) s).ProcessNodes := rfl
    have hnt : newTags g s.nextPtr 1 = [(s.nextPtr, g)] := by
      rw [newTags_succ]; simp [newTags]
    rw [this, h2, h1, hnt]
    simp only [forestTags_append, forestTags, NewProcessNode, ProcessNode.tags, List.append_nil,
      List.append_assoc]
    exact List.Perm.append_left _ (List.Perm.append_left _ List.perm_append_comm)

/-- A rebase under a top level node of a list of the tree. -/
theorem rebaseTree_allocated (tree : SiblingsRef) (branch : List ProcessCacheEntry) (i k : Nat)
    (g : NodeGenerationType) (s : ActivityTree) (moved : ProcessNode) (h : tree.InTree s)
    (hi : i ≤ branch.length) (hk : (getSiblings tree s)[k]? = some moved) :
    Allocated g i s (rebaseTree tree branch i k g s) := by
  obtain ⟨before, after, h1, h2⟩ := updateSiblings_tags tree
    (rebaseSiblings g (branch.take i) s.nextPtr k) s h
  refine ⟨rfl, rfl, ?_⟩
  · have : (rebaseTree tree branch i k g s).ProcessNodes
        = (updateSiblings tree
            (rebaseSiblings g (branch.take i) s.nextPtr k) s).ProcessNodes := rfl
    rw [this, h2, h1]
    have hp := rebaseSiblings_tags g (branch.take i) s.nextPtr k _ moved hk
    rw [List.length_take, Nat.min_eq_left hi] at hp
    have e1 : before ++ forestTags (getSiblings tree s) ++ after ++ newTags g s.nextPtr i
        = before ++ (forestTags (getSiblings tree s) ++ (after ++ newTags g s.nextPtr i)) := by
      simp
    have e2 : before ++ forestTags (rebaseSiblings g (List.take i branch) s.nextPtr k
          (getSiblings tree s)) ++ after
        = before ++ (forestTags (rebaseSiblings g (List.take i branch) s.nextPtr k
          (getSiblings tree s)) ++ after) := by simp
    rw [e1, e2]
    apply List.Perm.append_left
    refine (List.Perm.append_right _ hp).trans ?_
    rw [List.append_assoc]
    exact List.Perm.append_left _ List.perm_append_comm

/-! ## The steps of CreateProcessNode -/

theorem Allocated.ptrs_mono (g : NodeGenerationType) (a : Nat) (s s' : ActivityTree)
    (h : Allocated g a s s') (q : Nat) (hq : q ∈ forestPtrs s.ProcessNodes) :
    q ∈ forestPtrs s'.ProcessNodes := by
  obtain ⟨g', hg'⟩ := (mem_forestPtrs_iff_tags _ q).mp hq
  exact (mem_forestPtrs_iff_tags _ q).mpr
    ⟨g', h.tags_perm.mem_iff.mpr (List.mem_append_left _ hg')⟩

theorem Allocated.new_mem (g : NodeGenerationType) (a : Nat) (s s' : ActivityTree)
    (h : Allocated g a s s') (ha : 0 < a) : s.nextPtr ∈ forestPtrs s'.ProcessNodes := by
  refine (mem_forestPtrs_iff_tags _ _).mpr ⟨g, h.tags_perm.mem_iff.mpr ?_⟩
  exact List.mem_append_right _ ((mem_newTags g _ _ _).mpr ⟨rfl, Nat.le_refl _, by simp; omega⟩)

theorem Allocated.count (g : NodeGenerationType) (a : Nat) (s s' : ActivityTree)
    (h : Allocated g a s s') :
    countNodes s'.ProcessNodes = countNodes s.ProcessNodes + a := by
  have := h.tags_perm.length_eq
  rw [List.length_append, forestTags_length, forestTags_length, newTags_length] at this
  exact this

theorem Allocated.processNodes (g : NodeGenerationType) (a : Nat) (s s' : ActivityTree)
    (h : Allocated g a s s') : s'.Stats.ProcessNodes = s.Stats.ProcessNodes + a := by
  rw [h.stats_eq]
  rfl

theorem getSiblings_ptrs (tree : SiblingsRef) (s : ActivityTree) (q : Nat)
    (h : q ∈ forestPtrs (getSiblings tree s)) : q ∈ forestPtrs s.ProcessNodes := by
  cases tree with
  | roots => exact h
  | childrenOf p =>
    simp only [getSiblings] at h
    cases hf : findNode p s.ProcessNodes with
    | none => simp [hf, forestPtrs] at h
    | some pn =>
      simp only [hf] at h
      obtain ⟨l', h1, _⟩ := findNode_modifyChildrenIn p id _ _ hf
      obtain ⟨pn', before, after, h2, h3, _⟩ := modifyChildrenIn_tags p id _ _ h1
      rw [hf] at h2
      cases h2
      obtain ⟨g, hg⟩ := (mem_forestPtrs_iff_tags _ q).mp h
      refine (mem_forestPtrs_iff_tags _ q).mpr ⟨g, ?_⟩
      rw [h3]
      simp [hg]

/-- The loop of the branch search from the index `i` on leaves the tree as it is and returns nil
or a node of the list, or rebases the list at an index `j` with `0 < j < len(branch)`, under a
top level node of the list, and returns the first new node. -/
theorem findBranchLoop_step (x : Collaborators) (tree : SiblingsRef)
    (branch : List ProcessCacheEntry) (dryRun : Bool) (g : NodeGenerationType)
    (s : ActivityTree) (rest : List ProcessCacheEntry) (i : Nat)
    (hlen : i + rest.length = branch.length) :
    ((findBranchLoop x tree branch dryRun g s i rest).2.2 = s
      ∧ ∀ q, (findBranchLoop x tree branch dryRun g s i rest).1 = some q →
          q ∈ forestPtrs (getSiblings tree s))
    ∨ (dryRun = false ∧ ∃ j k moved, 0 < j ∧ j < branch.length
        ∧ (getSiblings tree s)[k]? = some moved
        ∧ findBranchLoop x tree branch dryRun g s i rest
            = (some s.nextPtr, true, rebaseTree tree branch j k g s)) := by
  induction rest generalizing i with
  | nil => left; simp [findBranchLoop]
  | cons c rest ih =>
    simp only [List.length_cons] at hlen
    simp only [findBranchLoop]
    cases hf : findProcessCacheEntryInChildrenNodes x s.differentiateArgs (getSiblings tree s) c with
    | some r =>
      obtain ⟨n, k⟩ := r
      simp only
      by_cases hi : i = 0
      · left
        simp only [hi, if_true, Option.some.injEq, true_and]
        intro q hq
        rw [← hq]
        exact ptr_mem_forestPtrs _ _ (find_mem _ _ _ _ _ _ hf)
      · simp only [hi, if_false]
        cases dryRun with
        | true => left; simp
        | false =>
          right
          have hk := find_index _ _ _ _ _ _ hf
          exact ⟨rfl, i, k, _, by omega, by omega, List.getElem?_eq_getElem hk, by simp⟩
    | none =>
      simp only
      cases rest with
      | nil => left; simp
      | cons next rest' =>
        simp only
        split
        · exact ih (i + 1) (by simp only [List.length_cons] at hlen ⊢; omega)
        · left; simp

theorem findBranchInChildrenNodes_step (x : Collaborators) (tree : SiblingsRef)
    (branch : List ProcessCacheEntry) (dryRun : Bool) (g : NodeGenerationType)
    (s : ActivityTree) :
    ((findBranchInChildrenNodes x tree branch dryRun g s).2.2 = s
      ∧ ∀ q, (findBranchInChildrenNodes x tree branch dryRun g s).1 = some q →
          q ∈ forestPtrs s.ProcessNodes)
    ∨ (dryRun = false ∧ ∃ j k moved, 0 < j ∧ j < branch.length
        ∧ (getSiblings tree s)[k]? = some moved
        ∧ findBranchInChildrenNodes x tree branch dryRun g s
            = (some s.nextPtr, true, rebaseTree tree branch j k g s)) := by
  rcases findBranchLoop_step x tree branch dryRun g s branch 0 (by simp) with ⟨h1, h2⟩ | h
  · left
    exact ⟨h1, fun q hq => getSiblings_ptrs tree s q (h2 q hq)⟩
  · right; exact h

/-- The end of `CreateProcessNode` leaves the tree as it is, or allocates nodes in one step: a
new root or child, or the nodes of a rebase at an index `a` with `0 < a < len(branch)`; it then
returns the first node allocated. -/
theorem attachProcessNode_step (x : Collaborators) (entry : ProcessCacheEntry)
    (branch : List ProcessCacheEntry) (g : NodeGenerationType) (dryRun : Bool)
    (parent : CreateResult)
    (hnode : ∀ p, parent.node = some p → p ∈ forestPtrs parent.tree.ProcessNodes) :
    ((attachProcessNode x entry branch g dryRun parent).tree = parent.tree
      ∧ ∀ q, (attachProcessNode x entry branch g dryRun parent).node = some q →
          q ∈ forestPtrs parent.tree.ProcessNodes)
    ∨ (dryRun = false ∧ ∃ a, 0 < a ∧ (a = 1 ∨ a < branch.length)
        ∧ Allocated g a parent.tree (attachProcessNode x entry branch g dryRun parent).tree
        ∧ (attachProcessNode x entry branch g dryRun parent).node = some parent.tree.nextPtr
        ∧ (attachProcessNode x entry branch g dryRun parent).newProcessNode = true
        ∧ (attachProcessNode x entry branch g dryRun parent).err = none) := by
  unfold attachProcessNode
  split
  · left; exact ⟨rfl, hnode⟩
  · cases hp : parent.node with
    | none =>
      simp only
      split
      · left; simp
      · rcases findBranchInChildrenNodes_step x SiblingsRef.roots branch dryRun g parent.tree
          with ⟨h1, h2⟩ | ⟨hd, j, k, moved, hj, hjl, hk, h⟩
        · split
          · rename_i branchRoot newChildNode at1 heq
            rw [heq] at h1 h2
            simp only at h1 h2
            left
            subst h1
            exact ⟨rfl, fun q hq => h2 q (by simpa using hq)⟩
          · rename_i nw at1 heq
            rw [heq] at h1
            simp only at h1
            subst h1
            split
            · left; simp
            · cases dryRun with
              | true => left; simp
              | false =>
                right
                simp only [Bool.not_false, if_true]
                exact ⟨by trivial, 1, by omega, Or.inl rfl,
                  appendNewNode_allocated SiblingsRef.roots entry g _ trivial, by trivial, by trivial, by trivial⟩
        · rw [h]
          right
          simp only
          exact ⟨hd, j, hj, Or.inr hjl,
            rebaseTree_allocated SiblingsRef.roots branch j k g _ moved trivial
              (Nat.le_of_lt hjl) hk, by trivial, by trivial, by trivial⟩
    | some parentNode =>
      simp only
      have hin : (SiblingsRef.childrenOf parentNode).InTree parent.tree := hnode _ hp
      rcases findBranchInChildrenNodes_step x (SiblingsRef.childrenOf parentNode) branch dryRun g
          parent.tree with ⟨h1, h2⟩ | ⟨hd, j, k, moved, hj, hjl, hk, h⟩
      · split
        · rename_i branchRoot newChildNode at1 heq
          rw [heq] at h1 h2
          simp only at h1 h2
          left
          subst h1
          exact ⟨rfl, fun q hq => h2 q (by simpa using hq)⟩
        · rename_i nw at1 heq
          rw [heq] at h1
          simp only at h1
          subst h1
          cases dryRun with
          | true => left; simp
          | false =>
            right
            simp only [Bool.not_false, if_true]
            exact ⟨by trivial, 1, by omega, Or.inl rfl,
              appendNewNode_allocated _ entry g _ hin, by trivial, by trivial, by trivial⟩
      · rw [h]
        right
        simp only
        exact ⟨hd, j, hj, Or.inr hjl,
          rebaseTree_allocated _ branch j k g _ moved hin (Nat.le_of_lt hjl) hk, by trivial, by trivial, by trivial⟩

/-! ## Invariants of CreateProcessNode -/

theorem attachProcessNode_preserves (x : Collaborators) (Inv : ActivityTree → Prop)
    (G : NodeGenerationType → Prop)
    (hstep : ∀ g a s s', G g → Inv s → Allocated g a s s' →
      s'.CookieToProcessNode = s.CookieToProcessNode → Inv s')
    (entry : ProcessCacheEntry) (branch : List ProcessCacheEntry) (g : NodeGenerationType)
    (dryRun : Bool) (parent : CreateResult) (hg : G g) (hinv : Inv parent.tree)
    (hnode : ∀ p, parent.node = some p → p ∈ forestPtrs parent.tree.ProcessNodes) :
    Inv (attachProcessNode x entry branch g dryRun parent).tree
    ∧ ∀ p, (attachProcessNode x entry branch g dryRun parent).node = some p →
        p ∈ forestPtrs (attachProcessNode x entry branch g dryRun parent).tree.ProcessNodes := by
  rcases attachProcessNode_step x entry branch g dryRun parent hnode with
    ⟨h1, h2⟩ | ⟨_, a, ha, _, hal, hn, _, _⟩
  · rw [h1]; exact ⟨hinv, h2⟩
  · refine ⟨hstep g a _ _ hg hinv hal (attachProcessNode_cookies x entry branch g dryRun parent),
      ?_⟩
    intro p hp
    rw [hn] at hp
    cases hp
    exact hal.new_mem g a _ _ ha

theorem deferCookie_preserves (Inv : ActivityTree → Prop)
    (hcookie : ∀ cs p s, Inv s → p ∈ forestPtrs s.ProcessNodes → Inv (setCookie cs (some p) s))
    (cs : cookieSelector) (r : CreateResult) (hinv : Inv r.tree)
    (hnode : ∀ p, r.node = some p → p ∈ forestPtrs r.tree.ProcessNodes) :
    Inv (deferCookie cs r).tree
    ∧ ∀ p, (deferCookie cs r).node = some p →
        p ∈ forestPtrs (deferCookie cs r).tree.ProcessNodes := by
  unfold deferCookie
  split
  · exact ⟨hinv, hnode⟩
  · rename_i n hn
    split
    · exact ⟨hcookie cs n _ hinv (hnode n hn), fun p hp => hnode p hp⟩
    · exact ⟨hinv, hnode⟩

/-- A property of the tree that holds of the tree after nodes are allocated, when their
generation type is one of `G`, and after a node of the forest is written in the cookie cache, and
that makes the cookie cache hold nodes of the forest, holds after `CreateProcessNode`, which then
returns nil or a node of the forest. -/
theorem createProcessNodeRec_preserves (x : Collaborators) (Inv : ActivityTree → Prop)
    (G : NodeGenerationType → Prop)
    (hcache : ∀ s, Inv s → ∀ cs p, s.CookieToProcessNode cs = some (some p) →
      p ∈ forestPtrs s.ProcessNodes)
    (hstep : ∀ g a s s', G g → Inv s → Allocated g a s s' →
      s'.CookieToProcessNode = s.CookieToProcessNode → Inv s')
    (hcookie : ∀ cs p s, Inv s → p ∈ forestPtrs s.ProcessNodes → Inv (setCookie cs (some p) s))
    (hS : G Snapshot) (fuel : Nat) :
    ∀ (entry : Option ProcessCacheEntry) (branch : List ProcessCacheEntry)
      (g : NodeGenerationType) (dryRun : Bool) (s : ActivityTree) (r : CreateResult),
      G g → createProcessNodeRec x fuel entry branch g dryRun s = some r → Inv s →
      Inv r.tree ∧ ∀ p, r.node = some p → p ∈ forestPtrs r.tree.ProcessNodes := by
  induction fuel with
  | zero =>
    intro entry branch g dryRun s r _ h
    simp [createProcessNodeRec] at h
  | succ n ih =>
    intro entry branch g dryRun s r hg h hinv
    cases entry with
    | none =>
      simp only [createProcessNodeRec, Option.some.injEq] at h
      subst h
      exact ⟨hinv, fun p hp => by cases hp⟩
    | some e =>
      simp only [createProcessNodeRec] at h
      split at h
      · simp only [Option.some.injEq] at h
        subst h
        exact ⟨hinv, fun p hp => by cases hp⟩
      · split at h
        · rename_i node hck
          simp only [Option.some.injEq] at h
          subst h
          refine ⟨hinv, ?_⟩
          intro p hp
          simp only at hp
          subst hp
          split at hck
          · exact hcache s hinv _ p hck
          · cases hck
        · split at h
          · cases h
          · rename_i parent hpar
            simp only [Option.some.injEq] at h
            subst h
            obtain ⟨hi1, hn1⟩ := ih _ _ _ _ _ _ hS hpar hinv
            obtain ⟨hi2, hn2⟩ := attachProcessNode_preserves x Inv G hstep e (e :: branch) g
              dryRun parent hg hi1 hn1
            exact deferCookie_preserves Inv hcookie _ _ hi2 hn2

theorem CreateProcessNode_preserves (x : Collaborators) (Inv : ActivityTree → Prop)
    (G : NodeGenerationType → Prop)
    (hcache : ∀ s, Inv s → ∀ cs p, s.CookieToProcessNode cs = some (some p) →
      p ∈ forestPtrs s.ProcessNodes)
    (hstep : ∀ g a s s', G g → Inv s → Allocated g a s s' →
      s'.CookieToProcessNode = s.CookieToProcessNode → Inv s')
    (hcookie : ∀ cs p s, Inv s → p ∈ forestPtrs s.ProcessNodes → Inv (setCookie cs (some p) s))
    (hS : G Snapshot) (entry : Option ProcessCacheEntry) (branch : List ProcessCacheEntry)
    (g : NodeGenerationType) (dryRun : Bool) (s : ActivityTree) (hg : G g) (hinv : Inv s) :
    Inv (CreateProcessNode x entry branch g dryRun s).tree
    ∧ ∀ p, (CreateProcessNode x entry branch g dryRun s).node = some p →
        p ∈ forestPtrs (CreateProcessNode x entry branch g dryRun s).tree.ProcessNodes :=
  createProcessNodeRec_preserves x Inv G hcache hstep hcookie hS _ entry branch g dryRun s _ hg
    (CreateProcessNode_eq x (lineageDepth entry + 1) entry branch g dryRun s (by omega)) hinv

/-! ## The counter of process nodes -/

theorem TreeInv_allocated (g : NodeGenerationType) (a : Nat) (s s' : ActivityTree)
    (hs : TreeInv s) (h : Allocated g a s s')
    (hc : s'.CookieToProcessNode = s.CookieToProcessNode) : TreeInv s' := by
  refine ⟨?_, ?_, ?_, ?_⟩
  · rw [h.processNodes, h.count, hs.stats]
    push_cast
    rfl
  · rw [h.count, h.nextPtr_eq, hs.alloc]
  · intro q hq
    obtain ⟨g', hg'⟩ := (mem_forestPtrs_iff_tags _ q).mp hq
    rcases List.mem_append.mp (h.tags_perm.mem_iff.mp hg') with h1 | h1
    · have := hs.fresh q ((mem_forestPtrs_iff_tags _ q).mpr ⟨g', h1⟩)
      rw [h.nextPtr_eq]
      omega
    · have := ((mem_newTags g _ _ _).mp h1).2.2
      rw [h.nextPtr_eq]
      exact this
  · intro cs p hp
    rw [hc] at hp
    exact h.ptrs_mono g a s s' p (hs.cache cs p hp)

theorem TreeInv_setCookie (cs : cookieSelector) (p : Nat) (s : ActivityTree) (hs : TreeInv s)
    (hp : p ∈ forestPtrs s.ProcessNodes) : TreeInv (setCookie cs (some p) s) := by
  refine ⟨hs.stats, hs.alloc, hs.fresh, ?_⟩
  intro k q hq
  simp only [setCookie] at hq
  split at hq
  · simp only [Option.some.injEq] at hq
    subst hq
    exact hp
  · exact hs.cache k q hq

/-- A tree with the same forest, allocator, cookie cache and counter of process nodes. -/
theorem TreeInv_congr (s s' : ActivityTree) (hs : TreeInv s)
    (h1 : s'.Stats.ProcessNodes = s.Stats.ProcessNodes) (h2 : s'.ProcessNodes = s.ProcessNodes)
    (h3 : s'.nextPtr = s.nextPtr) (h4 : s'.CookieToProcessNode = s.CookieToProcessNode) :
    TreeInv s' := by
  refine ⟨?_, ?_, ?_, ?_⟩
  · rw [h1, h2]; exact hs.stats
  · rw [h2, h3]; exact hs.alloc
  · rw [h2, h3]; exact hs.fresh
  · rw [h2, h4]; exact hs.cache

theorem CreateProcessNode_treeInv (x : Collaborators) (entry : Option ProcessCacheEntry)
    (branch : List ProcessCacheEntry) (g : NodeGenerationType) (dryRun : Bool)
    (s : ActivityTree) (hs : TreeInv s) :
    TreeInv (CreateProcessNode x entry branch g dryRun s).tree
    ∧ ∀ p, (CreateProcessNode x entry branch g dryRun s).node = some p →
        p ∈ forestPtrs (CreateProcessNode x entry branch g dryRun s).tree.ProcessNodes :=
  CreateProcessNode_preserves x TreeInv (fun _ => True) (fun _ h => h.cache)
    (fun g a s s' _ h1 h2 h3 => TreeInv_allocated g a s s' h1 h2 h3)
    (fun cs p s h1 h2 => TreeInv_setCookie cs p s h1 h2) trivial entry branch g dryRun s trivial hs

theorem insertEvent_treeInv (x : Collaborators) (hx : KeepsProcessNodes x) (event : Event)
    (dryRun : Bool) (g : NodeGenerationType) (node : Nat) (nw : Bool) (s : ActivityTree)
    (hs : TreeInv s) : TreeInv (insertEvent x event dryRun g node nw s).2.2 := by
  obtain ⟨h1, h2, h3, _, _⟩ := insertEvent_core x event dryRun g node nw s
  refine TreeInv_congr s _ hs ?_ h1 h3 h2
  unfold insertEvent
  split
  · rfl
  · exact hx.1 _ _ _ _ _
  · exact hx.2.1 _ _ _ _ _ _ _
  · exact hx.2.2 _ _ _ _ _
  · rfl
  · rfl
  · rfl

theorem insert_treeInv (x : Collaborators) (hx : KeepsProcessNodes x) (event : Event)
    (dryRun : Bool) (g : NodeGenerationType) (s : ActivityTree) (hs : TreeInv s) :
    TreeInv (insert x event dryRun g s).2.2 := by
  unfold insert
  split
  · exact hs
  · have hv : TreeInv (isEventValid event dryRun s).2.2 := by
      unfold isEventValid
      split
      · simp only
        split
        · exact TreeInv_congr s _ hs rfl rfl rfl rfl
        · exact hs
      · split
        · simp only
          split
          · exact TreeInv_congr s _ hs rfl rfl rfl rfl
          · exact hs
        · exact hs
    cases hev : isEventValid event dryRun s with
    | mk valid r =>
      obtain ⟨err, at1⟩ := r
      rw [hev] at hv
      simp only at hv ⊢
      split
      · exact hv
      · have hc := (CreateProcessNode_treeInv x event.ProcessCacheEntry [] g dryRun at1 hv).1
        cases hcp : CreateProcessNode x event.ProcessCacheEntry [] g dryRun at1 with
        | mk node nw err2 at2 =>
          rw [hcp] at hc
          simp only at hc ⊢
          split
          · exact hc
          · split
            · exact hc
            · split
              · exact hc
              · split
                · exact TreeInv_congr at2 _ hc rfl rfl rfl rfl
                · exact insertEvent_treeInv x hx event dryRun g _ nw _
                    (TreeInv_congr at2 _ hc rfl rfl rfl rfl)

theorem Insert_treeInv (x : Collaborators) (hx : KeepsProcessNodes x) (event : Event)
    (g : NodeGenerationType) (s : ActivityTree) (hs : TreeInv s) :
    TreeInv (Insert x event g s).2.2 := by
  have h := insert_treeInv x hx event false g s hs
  unfold Insert
  cases hi : insert x event false g s with
  | mk newEntry r =>
    obtain ⟨err, at1⟩ := r
    rw [hi] at h
    simp only at h ⊢
    split
    · exact TreeInv_congr at1 _ h rfl rfl rfl rfl
    · exact h

theorem Contains_treeInv (x : Collaborators) (hx : KeepsProcessNodes x) (event : Event)
    (g : NodeGenerationType) (s : ActivityTree) (hs : TreeInv s) :
    TreeInv (Contains x event g s).2.2 := by
  rw [Contains_tree]
  exact insert_treeInv x hx event true g s hs

theorem reachable_treeInv (x : Collaborators) (hx : KeepsProcessNodes x)
    (validator : ActivityTreeOwner) (differentiateArgs : Bool) (s : ActivityTree)
    (hs : Reachable x validator differentiateArgs s) : TreeInv s := by
  induction hs with
  | new =>
    refine ⟨rfl, rfl, ?_, ?_⟩
    · intro q hq
      simp [NewActivityTree, forestPtrs] at hq
    · intro cs p hp
      simp [NewActivityTree] at hp
  | Insert s event g _ ih => exact Insert_treeInv x hx event g s ih
  | Contains s event g _ ih => exact Contains_treeInv x hx event g s ih

/-- C38: the process-node counter never drifts under insertion, with collaborators that leave
`Stats.ProcessNodes` as it is. In every tree reached from `NewActivityTree` by calls of `Insert`
and `Contains`, `Stats.ProcessNodes` is the number of nodes of the forest, which is the number
of pointers allocated. A new root, or a new child of a node of the forest, adds one to both; a
rebase at the branch index `i` of a list of the tree adds `i` to both; `Contains` changes
neither; and after `Insert` both are again the number of pointers allocated, so that nothing but
an allocation changes either. -/
theorem ProcessNodes_counter_never_drifts (x : Collaborators) (hx : KeepsProcessNodes x)
    (validator : ActivityTreeOwner) (differentiateArgs : Bool) (s : ActivityTree)
    (hs : Reachable x validator differentiateArgs s) :
    s.Stats.ProcessNodes = (countNodes s.ProcessNodes : Int)
    ∧ countNodes s.ProcessNodes = s.nextPtr
    ∧ (∀ tree entry g, SiblingsRef.InTree tree s →
        (appendNewNode tree entry g s).Stats.ProcessNodes = s.Stats.ProcessNodes + 1
        ∧ countNodes (appendNewNode tree entry g s).ProcessNodes
            = countNodes s.ProcessNodes + 1)
    ∧ (∀ tree branch i k g moved, SiblingsRef.InTree tree s → i ≤ List.length branch →
        (getSiblings tree s)[k]? = some moved →
        (rebaseTree tree branch i k g s).Stats.ProcessNodes = s.Stats.ProcessNodes + i
        ∧ countNodes (rebaseTree tree branch i k g s).ProcessNodes
            = countNodes s.ProcessNodes + i)
    ∧ (∀ event g, (Contains x event g s).2.2.Stats.ProcessNodes = s.Stats.ProcessNodes
        ∧ countNodes (Contains x event g s).2.2.ProcessNodes = countNodes s.ProcessNodes)
    ∧ (∀ event g,
        (Insert x event g s).2.2.Stats.ProcessNodes
          = (countNodes (Insert x event g s).2.2.ProcessNodes : Int)
        ∧ countNodes (Insert x event g s).2.2.ProcessNodes = (Insert x event g s).2.2.nextPtr) := by
  have hinv := reachable_treeInv x hx validator differentiateArgs s hs
  refine ⟨hinv.stats, hinv.alloc, ?_, ?_, ?_, ?_⟩
  · intro tree entry g ht
    have h := appendNewNode_allocated tree entry g s ht
    exact ⟨h.processNodes, h.count⟩
  · intro tree branch i k g moved ht hi hk
    have h := rebaseTree_allocated tree branch i k g s moved ht hi hk
    exact ⟨h.processNodes, h.count⟩
  · intro event g
    have hc := Contains_treeInv x hx event g s hinv
    have hf : (Contains x event g s).2.2.ProcessNodes = s.ProcessNodes := by
      rw [Contains_tree]; exact (insert_dryRun_forest x event g s).1
    refine ⟨?_, by rw [hf]⟩
    rw [hc.stats, hf, hinv.stats]
  · intro event g
    have hi := Insert_treeInv x hx event g s hinv
    exact ⟨hi.stats, hi.alloc⟩

theorem ProcessNodes_counter_never_drifts_witness :
    KeepsProcessNodes pathCollaborators
    ∧ countNodes treeWithSh.ProcessNodes = 1
    ∧ treeWithSh.Stats.ProcessNodes = (countNodes treeWithSh.ProcessNodes : Int) :=
  ⟨⟨fun _ _ _ _ _ => rfl, fun _ _ _ _ _ _ _ => rfl, fun _ _ _ _ _ => rfl⟩, by decide,
    (ProcessNodes_counter_never_drifts pathCollaborators
      ⟨fun _ _ _ _ _ => rfl, fun _ _ _ _ _ _ _ => rfl, fun _ _ _ _ _ => rfl⟩ containerOwner false
      treeWithSh (Reachable.Insert _ _ _ Reachable.new)).1⟩

/-! ## The generation type of the nodes of a call -/

theorem stats_allocated_zero (st : ActivityTreeStats) (g : NodeGenerationType) :
    (st.addProcessNodes 0).incAdded EventType.ExecEventType g 0 = st := by
  cases st
  simp [ActivityTreeStats.addProcessNodes, ActivityTreeStats.incAdded]

theorem stats_allocated_add (st : ActivityTreeStats) (g : NodeGenerationType) (a b : Nat) :
    (((st.addProcessNodes a).incAdded EventType.ExecEventType g a).addProcessNodes b).incAdded
        EventType.ExecEventType g b
      = (st.addProcessNodes (a + b)).incAdded EventType.ExecEventType g (a + b) := by
  cases st
  simp only [ActivityTreeStats.addProcessNodes, ActivityTreeStats.incAdded,
    ActivityTreeStats.mk.injEq, true_and]
  refine ⟨by push_cast; omega, ?_, trivial⟩
  funext t g'
  by_cases hc : t = EventType.ExecEventType ∧ g' = g
  · simp only [hc, and_self, if_true]; omega
  · simp only [hc, if_false]

theorem Allocated.refl (g : NodeGenerationType) (s : ActivityTree) : Allocated g 0 s s :=
  ⟨rfl, (stats_allocated_zero s.Stats g).symm, by simp [newTags]⟩

theorem Allocated.trans (g : NodeGenerationType) (a b : Nat) (s s' s'' : ActivityTree)
    (h1 : Allocated g a s s') (h2 : Allocated g b s' s'') : Allocated g (a + b) s s'' := by
  refine ⟨?_, ?_, ?_⟩
  · rw [h2.nextPtr_eq, h1.nextPtr_eq]; omega
  · rw [h2.stats_eq, h1.stats_eq, stats_allocated_add]
  · rw [newTags_add, ← List.append_assoc, ← h1.nextPtr_eq]
    exact h2.tags_perm.trans (List.Perm.append_right _ h1.tags_perm)

/-- A tree with the same forest, allocator and statistics. -/
theorem Allocated.congr (g : NodeGenerationType) (a : Nat) (s s' s'' : ActivityTree)
    (h : Allocated g a s s') (h1 : s''.ProcessNodes = s'.ProcessNodes)
    (h2 : s''.nextPtr = s'.nextPtr) (h3 : s''.Stats = s'.Stats) : Allocated g a s s'' :=
  ⟨by rw [h2]; exact h.nextPtr_eq, by rw [h3]; exact h.stats_eq, by rw [h1]; exact h.tags_perm⟩

/-- The resolution of an ancestor allocates nodes of the generation type `Snapshot` only. -/
theorem CreateProcessNode_snapshot (x : Collaborators) (entry : Option ProcessCacheEntry)
    (branch : List ProcessCacheEntry) (dryRun : Bool) (s : ActivityTree)
    (hcache : ∀ cs p, s.CookieToProcessNode cs = some (some p) → p ∈ forestPtrs s.ProcessNodes) :
    (∀ cs p, (CreateProcessNode x entry branch Snapshot dryRun s).tree.CookieToProcessNode cs
        = some (some p) →
      p ∈ forestPtrs (CreateProcessNode x entry branch Snapshot dryRun s).tree.ProcessNodes)
    ∧ (∃ a, Allocated Snapshot a s (CreateProcessNode x entry branch Snapshot dryRun s).tree)
    ∧ ∀ p, (CreateProcessNode x entry branch Snapshot dryRun s).node = some p →
        p ∈ forestPtrs (CreateProcessNode x entry branch Snapshot dryRun s).tree.ProcessNodes := by
  have h := CreateProcessNode_preserves x
    (fun t => (∀ cs p, t.CookieToProcessNode cs = some (some p) → p ∈ forestPtrs t.ProcessNodes)
      ∧ ∃ a, Allocated Snapshot a s t)
    (fun g => g = Snapshot) (fun t ht => ht.1)
    (by
      rintro g a t t' rfl ⟨h1, b, h2⟩ h3 h4
      refine ⟨?_, b + a, Allocated.trans _ b a s t t' h2 h3⟩
      intro cs p hp
      rw [h4] at hp
      exact h3.ptrs_mono _ _ _ _ p (h1 cs p hp))
    (by
      rintro cs p t ⟨h1, b, h2⟩ hp
      refine ⟨?_, b, Allocated.congr _ b s t _ h2 rfl rfl rfl⟩
      intro k q hq
      simp only [setCookie] at hq
      split at hq
      · simp only [Option.some.injEq] at hq
        subst hq
        exact hp
      · exact h1 k q hq)
    rfl entry branch Snapshot dryRun s rfl ⟨hcache, 0, Allocated.refl Snapshot s⟩
  exact ⟨h.1.1, h.1.2, h.2⟩

/-- What `Insert` leaves of the forest is what the tree had or what `CreateProcessNode`
leaves. -/
theorem Insert_forest (x : Collaborators) (event : Event) (g : NodeGenerationType)
    (s : ActivityTree) :
    (Insert x event g s).2.2.ProcessNodes = s.ProcessNodes
    ∨ (Insert x event g s).2.2.ProcessNodes
        = (CreateProcessNode x event.ProcessCacheEntry [] g false s).tree.ProcessNodes := by
  rw [(Insert_tree x event g s).1]
  by_cases hg : g = Unknown ∨ g > MaxNodeGenerationType
  · left
    unfold insert
    rw [if_pos hg]
  · cases hv : (isEventValid event false s).1 with
    | false =>
      obtain ⟨e, d, he⟩ := insert_invalid x event false g s hg hv
      left
      rw [he]
    | true =>
      right
      rw [insert_valid x event false g s hg hv]
      split
      · rfl
      · split
        · rfl
        · split
          · rfl
          · split
            · rfl
            · exact (insertEvent_core x event false g _ _ _).1

/-- A mutating `CreateProcessNode` on the entry of an event allocates nodes of the generation
type `Snapshot` for the ancestors, then at most one node of the generation type of the call, which
is the node it returns. -/
theorem CreateProcessNode_allocations (x : Collaborators) (entry : Option ProcessCacheEntry)
    (g : NodeGenerationType) (s : ActivityTree)
    (hcache : ∀ cs p, s.CookieToProcessNode cs = some (some p) → p ∈ forestPtrs s.ProcessNodes) :
    ∃ a b t, b ≤ 1
      ∧ Allocated Snapshot a s t
      ∧ Allocated g b t (CreateProcessNode x entry [] g false s).tree
      ∧ (b = 1 → (CreateProcessNode x entry [] g false s).node = some t.nextPtr
          ∧ (CreateProcessNode x entry [] g false s).newProcessNode = true) := by
  have hzero : ∀ r : CreateResult, r.tree = s →
      ∃ a b t, b ≤ 1 ∧ Allocated Snapshot a s t ∧ Allocated g b t r.tree
        ∧ (b = 1 → r.node = some t.nextPtr ∧ r.newProcessNode = true) := by
    intro r hr
    refine ⟨0, 0, s, by omega, Allocated.refl _ s, ?_, fun h => by omega⟩
    rw [hr]
    exact Allocated.refl _ s
  cases entry with
  | none =>
    apply hzero
    simp [CreateProcessNode, createProcessNodeRec, lineageDepth]
  | some e =>
    rw [CreateProcessNode_some]
    split
    · exact hzero _ rfl
    · split
      · exact hzero _ rfl
      · obtain ⟨_, ⟨a, hal⟩, hnode⟩ := CreateProcessNode_snapshot x
          (GetNextAncestorBinaryOrArgv0 (some e)) [e] false s hcache
        obtain ⟨c, hR⟩ := deferCookie_tree (entryCookieSelector e)
          (attachProcessNode x e [e] g false
            (CreateProcessNode x (GetNextAncestorBinaryOrArgv0 (some e)) [e] Snapshot false s))
        obtain ⟨hf1, hf2, _, _⟩ := deferCookie_fields (entryCookieSelector e)
          (attachProcessNode x e [e] g false
            (CreateProcessNode x (GetNextAncestorBinaryOrArgv0 (some e)) [e] Snapshot false s))
        rcases attachProcessNode_step x e [e] g false _ hnode with
          ⟨h1, _⟩ | ⟨_, b, hb, hb1, hbl, hn, hnew, _⟩
        · refine ⟨a, 0, _, by omega, hal, ?_, fun h => by omega⟩
          refine Allocated.congr g 0 _ _ _ (Allocated.refl g _) ?_ ?_ ?_
          · rw [hR, h1]
          · rw [hR, h1]
          · rw [hR, h1]
        · have hb' : b = 1 := by
            rcases hb1 with h | h
            · exact h
            · simp only [List.length_singleton] at h; omega
          subst hb'
          refine ⟨a, 1, _, by omega, hal, ?_, fun _ => ⟨?_, ?_⟩⟩
          · refine Allocated.congr g 1 _ _ _ hbl ?_ ?_ ?_
            · rw [hR]
            · rw [hR]
            · rw [hR]
          · rw [hf1, hn]
          · rw [hf2, hnew]

/-- C39: the generation type of the nodes that a mutating `Insert(event, g)` creates, on a tree
whose pointers were all allocated and whose cookie cache holds nodes of the forest, as every tree
reached from `NewActivityTree` is. The forest that `Insert` leaves is the one the tree had or the
one `CreateProcessNode` leaves. `CreateProcessNode` first allocates `a` nodes of the generation
type `Snapshot`, for the ancestors and the rebases, counted `a` times in
`addedCount[exec][Snapshot]`, and then at most one node of the generation type `g`, counted in
`addedCount[exec][g]`, which is the node it returns for the process entry of the event. Every
node of the forest whose pointer was allocated by the call has the generation type `Snapshot`,
or is the node returned and has the generation type `g`. -/
theorem CreateProcessNode_generation_provenance (x : Collaborators) (event : Event)
    (g : NodeGenerationType) (s : ActivityTree)
    (hfresh : ∀ q ∈ forestPtrs s.ProcessNodes, q < s.nextPtr)
    (hcache : ∀ cs p, s.CookieToProcessNode cs = some (some p) → p ∈ forestPtrs s.ProcessNodes) :
    ((Insert x event g s).2.2.ProcessNodes = s.ProcessNodes
      ∨ (Insert x event g s).2.2.ProcessNodes
          = (CreateProcessNode x event.ProcessCacheEntry [] g false s).tree.ProcessNodes)
    ∧ ∃ a b t, b ≤ 1
      ∧ Allocated Snapshot a s t
      ∧ Allocated g b t (CreateProcessNode x event.ProcessCacheEntry [] g false s).tree
      ∧ (CreateProcessNode x event.ProcessCacheEntry [] g false s).tree.nextPtr
          = s.nextPtr + a + b
      ∧ (b = 1 →
          (CreateProcessNode x event.ProcessCacheEntry [] g false s).node = some (s.nextPtr + a)
          ∧ (CreateProcessNode x event.ProcessCacheEntry [] g false s).newProcessNode = true)
      ∧ (∀ n ∈ forestNodes (CreateProcessNode x event.ProcessCacheEntry [] g false s).tree.ProcessNodes,
          s.nextPtr ≤ n.ptr →
          n.GenerationType = Snapshot
          ∨ (n.GenerationType = g ∧ b = 1
            ∧ (CreateProcessNode x event.ProcessCacheEntry [] g false s).node = some n.ptr))
      ∧ (g ≠ Snapshot →
          (CreateProcessNode x event.ProcessCacheEntry [] g false s).tree.Stats.addedCount
              EventType.ExecEventType Snapshot
            = s.Stats.addedCount EventType.ExecEventType Snapshot + a
          ∧ (CreateProcessNode x event.ProcessCacheEntry [] g false s).tree.Stats.addedCount
              EventType.ExecEventType g
            = s.Stats.addedCount EventType.ExecEventType g + b) := by
  refine ⟨Insert_forest x event g s, ?_⟩
  obtain ⟨a, b, t, hb, h1, h2, h3⟩ :=
    CreateProcessNode_allocations x event.ProcessCacheEntry g s hcache
  refine ⟨a, b, t, hb, h1, h2, ?_, ?_, ?_, ?_⟩
  · rw [h2.nextPtr_eq, h1.nextPtr_eq]
  · intro hb1
    rw [← h1.nextPtr_eq]
    exact h3 hb1
  · intro n hn hle
    have htag := tag_mem_forestTags n _ hn
    rcases List.mem_append.mp (h2.tags_perm.mem_iff.mp htag) with ht | ht
    · rcases List.mem_append.mp (h1.tags_perm.mem_iff.mp ht) with hs | hs
      · have := hfresh n.ptr ((mem_forestPtrs_iff_tags _ _).mpr ⟨_, hs⟩)
        omega
      · exact Or.inl ((mem_newTags _ _ _ _).mp hs).1
    · obtain ⟨hg, hlo, hhi⟩ := (mem_newTags _ _ _ _).mp ht
      simp only at hg hlo hhi
      have hb1 : b = 1 := by omega
      right
      refine ⟨hg, hb1, ?_⟩
      rw [(h3 hb1).1]
      congr 1
      omega
  · intro hne
    rw [h2.stats_eq, h1.stats_eq]
    have hne' : ¬ (Snapshot = g) := fun h => hne h.symm
    simp [ActivityTreeStats.incAdded, ActivityTreeStats.addProcessNodes, hne, hne']

theorem CreateProcessNode_generation_provenance_witness :
    (∀ q ∈ forestPtrs emptyTree.ProcessNodes, q < emptyTree.nextPtr)
    ∧ forestTags (CreateProcessNode pathCollaborators (execEvent makeUnderShEntry).ProcessCacheEntry
        [] Runtime false emptyTree).tree.ProcessNodes = [(0, Snapshot), (1, Runtime)]
    ∧ ∀ n ∈ forestNodes (CreateProcessNode pathCollaborators
          (execEvent makeUnderShEntry).ProcessCacheEntry [] Runtime false
          emptyTree).tree.ProcessNodes,
        n.GenerationType = Snapshot
        ∨ (n.GenerationType = Runtime
          ∧ (CreateProcessNode pathCollaborators (execEvent makeUnderShEntry).ProcessCacheEntry
              [] Runtime false emptyTree).node = some n.ptr) := by
  refine ⟨by decide, by decide, ?_⟩
  obtain ⟨_, a, b, t, _, _, _, _, _, h, _⟩ := CreateProcessNode_generation_provenance
    pathCollaborators (execEvent makeUnderShEntry) Runtime emptyTree (by decide)
    (fun cs p hp => by simp [emptyTree, NewActivityTree] at hp)
  intro n hn
  rcases h n hn (Nat.zero_le _) with h1 | ⟨h1, _, h2⟩
  · exact Or.inl h1
  · exact Or.inr ⟨h1, h2⟩

/-! ## A chain under a parent that stays out of the tree -/

/-- The parent of the oldest entry of the chain resolves to no node and leaves the tree as it
is. -/
theorem createProcessNodeRec_parent_out (x : Collaborators) (v : ActivityTreeOwner)
    (parent : ProcessCacheEntry) (chain : List ProcessCacheEntry)
    (hv : ForkedAncestorChain x v parent chain) (r : ProcessCacheEntry)
    (hr : chain[0]? = some r) (d : Nat) (s : ActivityTree) (hs : ChainState v chain d s)
    (fuel : Nat) (branch : List ProcessCacheEntry) (hfuel : 1 < fuel) :
    ∃ err, createProcessNodeRec x fuel (some parent) (r :: branch) Snapshot false s
      = some ⟨none, false, err, s⟩ := by
  obtain ⟨n, rfl⟩ : ∃ n, fuel = n + 2 := ⟨fuel - 2, by omega⟩
  simp only [createProcessNodeRec]
  split
  · exact ⟨_, rfl⟩
  · split
    · rename_i node hck
      exfalso
      split at hck
      · rename_i hvalid
        obtain ⟨i, e, _, hi, _, hve, hcs⟩ := hs.cache _ _ hck
        have := (List.pairwise_cons.mp hv.cookies).1 e (List.getElem?_mem hi) hvalid hve
        exact this hcs
      · cases hck
    · rw [hv.parentRoot]
      simp only [createProcessNodeRec]
      obtain ⟨fg, hfg, hf⟩ := hs.forest
      have hfind : findProcessCacheEntryInChildrenNodes x s.differentiateArgs
          (getSiblings SiblingsRef.roots s) parent = none := by
        cases hfd : findProcessCacheEntryInChildrenNodes x s.differentiateArgs
            (getSiblings SiblingsRef.roots s) parent with
        | none => rfl
        | some res =>
          obtain ⟨m, k⟩ := res
          exfalso
          have hm := find_matches _ _ _ _ _ _ hfd
          have hmem := find_mem _ _ _ _ _ _ hfd
          simp only [getSiblings, hf] at hmem
          obtain ⟨e, he, hp⟩ := chainForest_process fg 0 m hmem
          rw [hfg] at he
          have := hv.parentMatches e (List.mem_of_mem_take he)
          rw [hs.differentiateArgs_eq, hp, this] at hm
          cases hm
      have hfb : findBranchInChildrenNodes x SiblingsRef.roots (parent :: r :: branch) false
          Snapshot s = (none, false, s) := by
        simp [findBranchInChildrenNodes, findBranchLoop, hfind, (hv.forked r hr).1]
      have hnr : isValidRootNode parent = false := by
        simp [isValidRootNode, hv.parentRoot]
      cases hsel : s.validator.MatchesSelector parent with
      | false =>
        exact ⟨some Error.ErrContainerIDNotEqual, by simp [attachProcessNode, hsel, deferCookie]⟩
      | true =>
        exact ⟨some Error.ErrNotValidRootNode,
          by simp [attachProcessNode, hsel, hfb, hnr, deferCookie]⟩

theorem forked_cookie_hit (x : Collaborators) (v : ActivityTreeOwner)
    (parent : ProcessCacheEntry) (chain : List ProcessCacheEntry)
    (hv : ForkedAncestorChain x v parent chain) (d i : Nat) (e : ProcessCacheEntry)
    (s : ActivityTree) (he : chain[i]? = some e) (hs : ChainState v chain d s) (node : NodePtr)
    (h : (if eventHaveValidCookie e then s.CookieToProcessNode (entryCookieSelector e)
        else none) = some node) :
    node = some i ∧ i < d := by
  split at h
  · rename_i hvalid
    obtain ⟨j, e', hj, he', hn, hve, hcs⟩ := hs.cache _ _ h
    have hpw := (List.pairwise_cons.mp hv.cookies).2
    have hi := chain_length_of_getElem? chain i e he
    have hj' := chain_length_of_getElem? chain j e' he'
    have hei : chain[i] = e := by
      rw [List.getElem?_eq_getElem hi] at he; exact Option.some.inj he
    have hej : chain[j] = e' := by
      rw [List.getElem?_eq_getElem hj'] at he'; exact Option.some.inj he'
    have hij : i = j := by
      rcases Nat.lt_trichotomy i j with hlt | heq | hgt
      · exfalso
        have := List.pairwise_iff_getElem.mp hpw i j hi hj' hlt
        rw [hei, hej] at this
        exact this hvalid hve hcs
      · exact heq
      · exfalso
        have := List.pairwise_iff_getElem.mp hpw j i hj' hi hgt
        rw [hei, hej] at this
        exact this hve hvalid hcs.symm
    subst hij
    exact ⟨hn, hj⟩
  · cases h

/-- The attachment of the oldest entry of the chain, whose parent is out of the tree. -/
theorem attachProcessNode_forked_root (x : Collaborators) (v : ActivityTreeOwner)
    (chain : List ProcessCacheEntry) (hrefl : ∀ p, x.Matches p p false = true)
    (e : ProcessCacheEntry) (he : chain[0]? = some e) (hroot : isValidRootNode e = true)
    (hsel' : v.MatchesSelector e = true) (branch : List ProcessCacheEntry)
    (g : NodeGenerationType) (err : Option Error) (s : ActivityTree) (d : Nat)
    (hs : ChainState v chain d s) :
    ∃ s', attachProcessNode x e (e :: branch) g false ⟨none, false, err, s⟩
        = ⟨some 0, decide (d ≤ 0), none, s'⟩
      ∧ ChainState v chain (max d 1) s' := by
  have hsel : s.validator.MatchesSelector e = true := by
    rw [hs.validator_eq]; exact hsel'
  have hlen := chain_length_of_getElem? chain 0 e he
  obtain ⟨fg, hfg, hf⟩ := hs.forest
  rcases Nat.eq_zero_or_pos d with hd | hd
  · subst hd
    have hfgnil : fg = [] := by
      simpa using hfg
    subst hfgnil
    have hf' : s.ProcessNodes = [] := hf
    have hfb : findBranchInChildrenNodes x SiblingsRef.roots (e :: branch) false g s
        = (none, false, s) :=
      findBranchLoop_empty x _ _ _ _ s (by simp [getSiblings, hf']) 0 _
    have happ := appendNewNode_chain_root s e g hf' hs.nextPtr_eq
    have hcfg := appendNewNode_config SiblingsRef.roots e g s
    refine ⟨appendNewNode SiblingsRef.roots e g s, ?_, ?_⟩
    · simp [attachProcessNode, hsel, hfb, hroot, hs.nextPtr_eq]
    · exact ChainState_mono_cache v chain 0 1 s _ hs (by omega) (by omega) hcfg.2 hcfg.1
        happ.2.1 happ.2.2 ⟨[(e, g)], by simp [chain_take_succ chain 0 e he], happ.1⟩
  · obtain ⟨g', hg'⟩ := fg_getElem chain d 0 e fg hfg hd he
    obtain ⟨rest, hrest⟩ : ∃ rest, fg = (e, g') :: rest := by
      cases fg with
      | nil => simp at hg'
      | cons a rest => simp at hg'; exact ⟨rest, by rw [hg']⟩
    subst hrest
    have hsib : getSiblings SiblingsRef.roots s
        = ProcessNode.mk 0 e.info.Process g' e.info.IsExecChild (chainForest rest 1) :: [] := by
      simp [getSiblings, hf, chainForest]
    have hfb := findBranch_head x SiblingsRef.roots e branch false g s _ _ hsib
      (by rw [hs.differentiateArgs_eq]; exact hrefl _)
    refine ⟨s, ?_, ?_⟩
    · have hd0 : ¬ d ≤ 0 := by omega
      simp [attachProcessNode, hsel, hfb, ProcessNode.ptr, hd0]
    · have : max d 1 = d := by omega
      rw [this]; exact hs

/-- On a tree that holds the first `d` entries of the chain, `CreateProcessNode` returns the node
of the entry of index `i`, which is new when `d ≤ i`, and the tree then holds the first
`max d (i + 1)` entries. -/
theorem createProcessNodeRec_forked (x : Collaborators) (v : ActivityTreeOwner)
    (parent : ProcessCacheEntry) (chain : List ProcessCacheEntry)
    (hv : ForkedAncestorChain x v parent chain)
    (hrefl : ∀ p, x.Matches p p false = true) (i : Nat) :
    ∀ (e : ProcessCacheEntry), chain[i]? = some e →
    ∀ (fuel : Nat) (branch : List ProcessCacheEntry) (g : NodeGenerationType)
      (s : ActivityTree) (d : Nat),
      lineageDepth (some e) < fuel → ChainState v chain d s →
      ∃ s', createProcessNodeRec x fuel (some e) branch g false s
          = some ⟨some i, decide (d ≤ i), none, s'⟩
        ∧ ChainState v chain (max d (i + 1)) s' := by
  induction i with
  | zero =>
    intro e he fuel branch g s d hfuel hs
    obtain ⟨n, rfl⟩ : ∃ n, fuel = n + 1 := ⟨fuel - 1, by omega⟩
    have hc := hv.complete e (List.getElem?_mem he)
    simp only [createProcessNodeRec, hc, Bool.not_true, Bool.false_eq_true, if_false]
    cases hck : (if eventHaveValidCookie e = true then
        s.CookieToProcessNode (entryCookieSelector e) else none) with
    | some node =>
      obtain ⟨rfl, hid⟩ := forked_cookie_hit x v parent chain hv d 0 e s he hs node hck
      refine ⟨s, ?_, ?_⟩
      · have : ¬ d ≤ 0 := by omega
        simp [this]
      · have : max d (0 + 1) = d := by omega
        rw [this]; exact hs
    | none =>
      simp only
      have hlt := lineageDepth_next e
      rw [(hv.forked e he).2] at hlt ⊢
      have hpd : 0 < lineageDepth (some parent) := by simp [lineageDepth]
      obtain ⟨err, hp⟩ := createProcessNodeRec_parent_out x v parent chain hv e he d s hs n
        branch (by omega)
      rw [hp]
      simp only
      obtain ⟨s1, h1, hs1⟩ := attachProcessNode_forked_root x v chain hrefl e he
        (hv.root e he).1 (hv.root e he).2 branch g err s d hs
      rw [h1]
      obtain ⟨s2, h2, hs2⟩ := deferCookie_chain v chain (max d 1) 0 e (by omega) he
        (decide (d ≤ 0)) s1 hs1
      rw [h2]
      exact ⟨s2, rfl, hs2⟩
  | succ i ih =>
    intro e he fuel branch g s d hfuel hs
    obtain ⟨n, rfl⟩ : ∃ n, fuel = n + 1 := ⟨fuel - 1, by omega⟩
    have hc := hv.complete e (List.getElem?_mem he)
    simp only [createProcessNodeRec, hc, Bool.not_true, Bool.false_eq_true, if_false]
    cases hck : (if eventHaveValidCookie e = true then
        s.CookieToProcessNode (entryCookieSelector e) else none) with
    | some node =>
      obtain ⟨rfl, hid⟩ := forked_cookie_hit x v parent chain hv d (i + 1) e s he hs node hck
      refine ⟨s, ?_, ?_⟩
      · have : ¬ d ≤ i + 1 := by omega
        simp [this]
      · have : max d (i + 1 + 1) = d := by omega
        rw [this]; exact hs
    | none =>
      simp only
      have hlen := chain_length_of_getElem? chain (i + 1) e he
      have hil : i < chain.length := by omega
      have ha : chain[i]? = some chain[i] := List.getElem?_eq_getElem hil
      have hnext := hv.link i chain[i] e ha he
      have hlt := lineageDepth_next e
      rw [hnext] at hlt ⊢
      obtain ⟨s1, h1, hs1⟩ := ih chain[i] ha n (e :: branch) Snapshot s d (by omega) hs
      rw [h1]
      simp only
      obtain ⟨s2, h2, hs2⟩ := attachProcessNode_chain_child x v chain hrefl i e he branch g s1 d
        hs1
      rw [h2]
      obtain ⟨s3, h3, hs3⟩ := deferCookie_chain v chain (max d (i + 2)) (i + 1) e (by omega) he
        (decide (d ≤ i + 1)) s2 hs2
      rw [h3]
      exact ⟨s3, rfl, hs3⟩

/-! ## Three exec events in lineage order -/

theorem Insert_forked (x : Collaborators) (v : ActivityTreeOwner) (parent : ProcessCacheEntry)
    (chain : List ProcessCacheEntry) (hv : ForkedAncestorChain x v parent chain)
    (hrefl : ∀ p, x.Matches p p false = true) (g : NodeGenerationType) (event : Event)
    (i : Nat) (e : ProcessCacheEntry) (ht : event.EventType = EventType.ExecEventType)
    (hp : event.ProcessCacheEntry = some e) (he : chain[i]? = some e) (s : ActivityTree)
    (d : Nat) (hs : ChainState v chain d s)
    (hg : ¬(g = Unknown ∨ g > MaxNodeGenerationType))
    (hvt : v.IsEventTypeValid EventType.ExecEventType = true) :
    ChainState v chain (max d (i + 1)) (Insert x event g s).2.2 := by
  obtain ⟨t, _, h2, hf, hc, hn, hval, hda⟩ := Insert_exec_core x event g s ht
  rw [hs.validator_eq] at h2
  have ht' := h2 ⟨hg, hvt⟩
  obtain ⟨s', hs', hcs⟩ := createProcessNodeRec_forked x v parent chain hv hrefl i e he
    (lineageDepth (some e) + 1) [] g s d (by omega) hs
  have hcp : (CreateProcessNode x event.ProcessCacheEntry [] g false s).tree = s' := by
    rw [hp]
    unfold CreateProcessNode
    rw [hs']
  rw [hcp] at ht'
  subst ht'
  exact ChainState_congr v chain _ _ _ hcs hf hc hn hval hda

theorem chainState_forest (v : ActivityTreeOwner) (chain : List ProcessCacheEntry) (d : Nat)
    (s : ActivityTree) (hs : ChainState v chain d s) :
    forestShape s.ProcessNodes
      = forestShape (chainForest ((chain.take d).map (fun e => (e, Unknown))) 0) := by
  obtain ⟨fg, hfg, hf⟩ := hs.forest
  rw [hf]
  apply forestShape_chainForest
  rw [← hfg]
  simp

theorem forkedChain_three (x : Collaborators) (v : ActivityTreeOwner)
    (P A B C : ProcessCacheEntry)
    (hsel : v.MatchesSelector A = true)
    (hcomplete : A.info.HasCompleteLineage = true ∧ B.info.HasCompleteLineage = true
      ∧ C.info.HasCompleteLineage = true)
    (hAB : GetNextAncestorBinaryOrArgv0 (some B) = some A)
    (hBC : GetNextAncestorBinaryOrArgv0 (some C) = some B)
    (hroot : isValidRootNode A = true)
    (hfork : A.info.IsExecChild = false)
    (hPA : GetNextAncestorBinaryOrArgv0 (some A) = some P)
    (hP : GetNextAncestorBinaryOrArgv0 (some P) = none)
    (hmatch : ∀ e, e ∈ [A, B, C] → x.Matches e.info.Process P.info.Process false = false)
    (hcookies : [P, A, B, C].Pairwise (fun a b =>
      eventHaveValidCookie a = true → eventHaveValidCookie b = true →
      entryCookieSelector a ≠ entryCookieSelector b)) :
    ForkedAncestorChain x v P [A, B, C] := by
  refine ⟨?_, ?_, ?_, ?_, hP, hmatch, hcookies⟩
  · intro e he
    simp only [List.mem_cons, List.mem_singleton, List.not_mem_nil, or_false] at he
    rcases he with h | h | h <;> subst h
    · exact hcomplete.1
    · exact hcomplete.2.1
    · exact hcomplete.2.2
  · intro i a b ha hb
    match i with
    | 0 =>
      simp only [List.getElem?_cons_zero, List.getElem?_cons_succ, Option.some.injEq] at ha hb
      subst ha; subst hb; exact hAB
    | 1 =>
      simp only [List.getElem?_cons_zero, List.getElem?_cons_succ, Option.some.injEq] at ha hb
      subst ha; subst hb; exact hBC
    | n + 2 => simp at hb
  · intro r hr
    simp only [List.getElem?_cons_zero, Option.some.injEq] at hr
    subst hr
    exact ⟨hroot, hsel⟩
  · intro r hr
    simp only [List.getElem?_cons_zero, Option.some.injEq] at hr
    subst hr
    exact ⟨hfork, hPA⟩

/-- C31 (amended): on a new tree whose owner accepts the entries and the exec events, with a
`Matches` that is reflexive and a valid generation type, the exec events of `A`, then `B`
(lineage `A → B`), then `C` (lineage `A → B → C`) are inserted, where the three entries have a
complete lineage and `A` is a valid root node. When moreover `A` is not an exec child and its
next distinct ancestor `P` has no distinct ancestor itself, so that `P` is no valid root node,
when `P` matches none of the three nodes and when the four entries share no cookie, the forest is
one root for `A` after the first event, with the node of `B` as its only child after the second
event, and with the node of `C` as the only child of that node after the third event: three
nodes, allocated in that order, each below the one allocated before it, so that no node was
rebased. -/
theorem insert_lineage_in_order (x : Collaborators) (v : ActivityTreeOwner)
    (P A B C : ProcessCacheEntry) (evA evB evC : Event) (g : NodeGenerationType)
    (hrefl : ∀ p, x.Matches p p false = true)
    (hsel : ∀ e, v.MatchesSelector e = true) (hvt : ∀ t, v.IsEventTypeValid t = true)
    (hg : ¬(g = Unknown ∨ g > MaxNodeGenerationType))
    (hA : evA.EventType = EventType.ExecEventType ∧ evA.ProcessCacheEntry = some A)
    (hB : evB.EventType = EventType.ExecEventType ∧ evB.ProcessCacheEntry = some B)
    (hC : evC.EventType = EventType.ExecEventType ∧ evC.ProcessCacheEntry = some C)
    (hcomplete : A.info.HasCompleteLineage = true ∧ B.info.HasCompleteLineage = true
      ∧ C.info.HasCompleteLineage = true)
    (hAB : GetNextAncestorBinaryOrArgv0 (some B) = some A)
    (hBC : GetNextAncestorBinaryOrArgv0 (some C) = some B)
    (hroot : isValidRootNode A = true)
    (hfork : A.info.IsExecChild = false)
    (hPA : GetNextAncestorBinaryOrArgv0 (some A) = some P)
    (hP : GetNextAncestorBinaryOrArgv0 (some P) = none)
    (hmatch : ∀ e, e ∈ [A, B, C] → x.Matches e.info.Process P.info.Process false = false)
    (hcookies : [P, A, B, C].Pairwise (fun a b =>
      eventHaveValidCookie a = true → eventHaveValidCookie b = true →
      entryCookieSelector a ≠ entryCookieSelector b)) :
    (∃ gA, (insertAll x g [evA] (NewActivityTree v)).ProcessNodes
        = [ProcessNode.mk 0 A.info.Process gA A.info.IsExecChild []])
    ∧ (∃ gA gB, (insertAll x g [evA, evB] (NewActivityTree v)).ProcessNodes
        = [ProcessNode.mk 0 A.info.Process gA A.info.IsExecChild
            [ProcessNode.mk 1 B.info.Process gB B.info.IsExecChild []]])
    ∧ (∃ gA gB gC, (insertAll x g [evA, evB, evC] (NewActivityTree v)).ProcessNodes
        = [ProcessNode.mk 0 A.info.Process gA A.info.IsExecChild
            [ProcessNode.mk 1 B.info.Process gB B.info.IsExecChild
              [ProcessNode.mk 2 C.info.Process gC C.info.IsExecChild []]]])
    ∧ countNodes (insertAll x g [evA, evB, evC] (NewActivityTree v)).ProcessNodes = 3
    ∧ (insertAll x g [evA, evB, evC] (NewActivityTree v)).nextPtr = 3 := by
  have hv := forkedChain_three x v P A B C (hsel A) hcomplete hAB hBC hroot hfork hPA hP hmatch
    hcookies
  have h0 := ChainState_new v [A, B, C]
  have h1 := Insert_forked x v P [A, B, C] hv hrefl g evA 0 A hA.1 hA.2 rfl _ 0 h0 hg
    (hvt _)
  have h2 := Insert_forked x v P [A, B, C] hv hrefl g evB 1 B hB.1 hB.2 rfl _ _ h1 hg
    (hvt _)
  have h3 := Insert_forked x v P [A, B, C] hv hrefl g evC 2 C hC.1 hC.2 rfl _ _ h2 hg
    (hvt _)
  simp only [Nat.zero_add, Nat.max_def] at h1 h2 h3
  simp only [Nat.reduceLeDiff, Nat.reduceAdd, if_true, if_false, Nat.zero_le,
    Nat.le_refl] at h1 h2 h3
  simp only [insertAll]
  refine ⟨?_, ?_, ?_, ?_, h3.nextPtr_eq⟩
  · obtain ⟨fg, hfg, hf⟩ := h1.forest
    rcases fg with _ | ⟨⟨a, ga⟩, _ | ⟨b, rest⟩⟩
    · simp at hfg
    · simp only [List.map_cons, List.map_nil, List.take_succ_cons, List.take_zero,
        List.cons.injEq, and_true] at hfg
      subst hfg
      exact ⟨ga, hf⟩
    · simp at hfg
  · obtain ⟨fg, hfg, hf⟩ := h2.forest
    rcases fg with _ | ⟨⟨a, ga⟩, _ | ⟨⟨b, gb⟩, _ | ⟨c, rest⟩⟩⟩
    · simp at hfg
    · simp at hfg
    · simp only [List.map_cons, List.map_nil, List.take_succ_cons, List.take_zero,
        List.cons.injEq, and_true] at hfg
      obtain ⟨ha, hb⟩ := hfg
      subst ha; subst hb
      exact ⟨ga, gb, hf⟩
    · simp at hfg
  · obtain ⟨fg, hfg, hf⟩ := h3.forest
    rcases fg with _ | ⟨⟨a, ga⟩, _ | ⟨⟨b, gb⟩, _ | ⟨⟨c, gc⟩, _ | ⟨d, rest⟩⟩⟩⟩
    · simp at hfg
    · simp at hfg
    · simp at hfg
    · simp only [List.map_cons, List.map_nil, List.take_succ_cons, List.take_zero,
        List.cons.injEq, and_true] at hfg
      obtain ⟨ha, hb, hc⟩ := hfg
      subst ha; subst hb; subst hc
      exact ⟨ga, gb, gc, hf⟩
    · simp at hfg
  · obtain ⟨fg, hfg, hf⟩ := h3.forest
    have hlen := fg_length [A, B, C] 3 (by simp) fg hfg
    rw [hf, ← forestTags_length]
    rcases fg with _ | ⟨⟨a, ga⟩, _ | ⟨⟨b, gb⟩, _ | ⟨⟨c, gc⟩, _ | ⟨d, rest⟩⟩⟩⟩
    · simp at hlen
    · simp at hlen
    · simp at hlen
    · simp [chainForest, forestTags, ProcessNode.tags]
    · simp at hlen

/-- C31 (counterexample): two lineages of three entries with distinct binaries and a complete
lineage, whose oldest entry is a valid root node, inserted in order in a new tree whose owner
accepts every entry and event type. In the lineage `systemd → sh → app → cc → ld`, the events of
`app`, `cc` and `ld` leave four nodes under the root `sh`, which the first event creates for the
parent of `app`. In the lineage `systemd → make → cc → ld`, where `make` is an exec child, the
first event leaves the root `make`, and the second event rebases it: the node 1 is allocated for
`systemd` and the root `make`, the node 0, is moved below it; the three events leave four nodes
under the root `systemd`. -/
theorem insert_lineage_not_three_nodes :
    (isValidRootNode appUnderShEntry = true
      ∧ ccUnderShAppEntry.Ancestor = some appUnderShEntry
      ∧ ldUnderShAppEntry.Ancestor = some ccUnderShAppEntry
      ∧ countNodes (insertAll pathCollaborators Runtime
          [execEvent appUnderShEntry, execEvent ccUnderShAppEntry, execEvent ldUnderShAppEntry]
          (NewActivityTree acceptAllOwner)).ProcessNodes = 4
      ∧ basenames (insertAll pathCollaborators Runtime
          [execEvent appUnderShEntry, execEvent ccUnderShAppEntry, execEvent ldUnderShAppEntry]
          (NewActivityTree acceptAllOwner)).ProcessNodes = ["sh"])
    ∧ (isValidRootNode makeEntry = true
      ∧ ccUnderMakeEntry.Ancestor = some makeEntry
      ∧ ldUnderMakeEntry.Ancestor = some ccUnderMakeEntry
      ∧ basenames (insertAll pathCollaborators Runtime [execEvent makeEntry]
          (NewActivityTree acceptAllOwner)).ProcessNodes = ["make"]
      ∧ forestTags (insertAll pathCollaborators Runtime
          [execEvent makeEntry, execEvent ccUnderMakeEntry]
          (NewActivityTree acceptAllOwner)).ProcessNodes
          = [(1, Snapshot), (0, Runtime), (2, Runtime)]
      ∧ countNodes (insertAll pathCollaborators Runtime
          [execEvent makeEntry, execEvent ccUnderMakeEntry, execEvent ldUnderMakeEntry]
          (NewActivityTree acceptAllOwner)).ProcessNodes = 4
      ∧ basenames (insertAll pathCollaborators Runtime
          [execEvent makeEntry, execEvent ccUnderMakeEntry, execEvent ldUnderMakeEntry]
          (NewActivityTree acceptAllOwner)).ProcessNodes = ["systemd"]) := by
  decide

theorem insert_lineage_in_order_witness :
    acceptAllOwner.MatchesSelector ⟨systemdInfo, []⟩ = true
    ∧ countNodes (insertAll pathCollaborators Runtime
        [execEvent appEntry, execEvent ccUnderAppEntry, execEvent ldUnderAppEntry]
        (NewActivityTree acceptAllOwner)).ProcessNodes = 3
    ∧ (insertAll pathCollaborators Runtime
        [execEvent appEntry, execEvent ccUnderAppEntry, execEvent ldUnderAppEntry]
        (NewActivityTree acceptAllOwner)).nextPtr = 3 :=
  ⟨rfl,
    (insert_lineage_in_order pathCollaborators acceptAllOwner ⟨systemdInfo, []⟩ appEntry
      ccUnderAppEntry ldUnderAppEntry (execEvent appEntry) (execEvent ccUnderAppEntry)
      (execEvent ldUnderAppEntry) Runtime (by intro p; simp [pathCollaborators])
      (fun _ => rfl) (fun _ => rfl) (by decide) ⟨rfl, rfl⟩ ⟨rfl, rfl⟩ ⟨rfl, rfl⟩ (by decide)
      (by decide) (by decide) (by decide) (by decide) (by decide) (by decide) (by decide)
      (by decide)).2.2.2⟩

end SecurityProfile
